import Mathlib

/-!
Account allocation engine: hybrid distribution and agent ranking.

A shallow embedding of the allocation engine

* `src/src/domain/entities/{Agent,Account,Distribution}.js`
* `src/src/domain/services/HybridDistributionStrategy.js`
* `src/src/domain/services/RankingService.js`
* `src/src/domain/services/{DistributionService,RotationService}.js`
* `src/src/application/use-cases/GetDistributionStatsUseCase.js`
* `src/src/infrastructure/repositories/InMemory{Agent,Account,Distribution}Repository.js`

JavaScript numbers are embedded twice.  The first definitions compute with exact rationals
(`ℚ`) and integers (`Int`, `Nat`); they carry the statements that no rounding touches.  The
definitions of the namespace `Binary64` compute on IEEE 754 binary64 values, each operation
rounded as JavaScript rounds it; they carry the statements about counts, cursors and orders
that a rounding can change.  `Math.floor x` is `⌊x⌋` and `Math.round x` is `⌊x + 1/2⌋` (round
half up), both exact on a Number.  Objects that the
JavaScript code mutates in place (the `accounts` array elements, the `agents` array, the
`Assignment` records) are threaded through the functions explicitly.  `new Date()` is a
parameter `now`.  `Array.prototype.sort` is a stable sort (ECMAScript 2019), embedded as
`List.insertionSort`.  The repositories hold values: an object that the JavaScript mutates and
then saves is embedded as the save of the changed value; `await` is sequencing.
-/

namespace Grecia

/-! ## Entities -/

abbrev AgentId := Nat
abbrev AccountId := Nat
abbrev Timestamp := Nat

/-- Agent performance metrics; a field that is absent is `none`. -/
structure Metrics where
  conversionRate : Option ℚ
  totalSales : Option ℚ
  closedAccounts : Option ℚ
deriving DecidableEq

/-- Sales agent (`Agent.js`). -/
structure Agent where
  id : AgentId
  name : String
  email : String
  active : Bool
  currentRanking : Int
  joinDate : Timestamp
  metrics : Metrics
deriving DecidableEq

/-- Ranking setter `Agent.updateRanking`. -/
def Agent.updateRanking (agent : Agent) (newRanking : Int) : Agent :=
  { agent with currentRanking := newRanking }

/-- Client account (`Account.js`). -/
structure Account where
  id : AccountId
  clientName : String
  potentialValue : ℚ
  segment : String
  status : String
  assignedAgent : Option AgentId
  assignmentDate : Option Timestamp
  priority : String
deriving DecidableEq

/-- Allocation act `Account.assignToAgent`: sets the agent and stamps the date. -/
def Account.assignToAgent (account : Account) (agentId : AgentId) (now : Timestamp) : Account :=
  { account with assignedAgent := some agentId, assignmentDate := some now }

/-- Per-agent record of a distribution run (`Distribution.js`, class `Assignment`). -/
structure Assignment where
  agentId : AgentId
  equitableAccounts : Nat
  rankingAccounts : Nat
  totalAccounts : Nat
  accountsList : List AccountId
deriving DecidableEq

/-! ## JavaScript primitives -/

/-- Floor of a number, `Math.floor`. -/
def mathFloor (x : ℚ) : Int := ⌊x⌋

/-- Nearest integer with halves rounded up, `Math.round`. -/
def mathRound (x : ℚ) : Int := ⌊x + 1 / 2⌋

/-- Relative-index normalisation of `Array.prototype.slice`: a negative index counts from the
end, and the result is clamped to `[0, len]`. -/
def sliceIndex (len : Nat) (i : Int) : Nat :=
  if i < 0 then ((len : Int) + i).toNat else min i.toNat len

/-- Two-argument `Array.prototype.slice`, the elements at positions `[lo, hi)`. -/
def slice {α : Type} (xs : List α) (start stop : Int) : List α :=
  let lo := sliceIndex xs.length start
  let hi := sliceIndex xs.length stop
  (xs.drop lo).take (hi - lo)

/-- One-argument `Array.prototype.slice`, the elements from `start` on. -/
def sliceFrom {α : Type} (xs : List α) (start : Int) : List α :=
  xs.drop (sliceIndex xs.length start)

/-- The effect of `accounts.slice(start, stop).forEach(a => a.assignToAgent(agentId))` on the
account objects: the accounts at the positions of the slice are assigned, the others are kept. -/
def assignSlice (accounts : List Account) (start stop : Int) (agentId : AgentId)
    (now : Timestamp) : List Account :=
  let lo := sliceIndex accounts.length start
  let hi := sliceIndex accounts.length stop
  accounts.mapIdx fun j account =>
    if lo ≤ j ∧ j < hi then account.assignToAgent agentId now else account

/-! ## HybridDistributionStrategy -/

/-- Outcome of a call that may throw and that mutates its arguments: the value returned or the
error thrown, and the `accounts` and `agents` arrays as the call leaves them. -/
structure Outcome where
  result : Except String (List Assignment)
  accounts : List Account
  agents : List Agent

/-- Input guard `validateInputs`: `none` when the inputs pass, the error message otherwise.
(Both arguments are lists, so the `Array.isArray` tests pass.) -/
def validateInputs (accounts : List Account) (agents : List Agent) : Option String :=
  if accounts.length = 0 then some "Accounts must be a non-empty array"
  else if agents.length = 0 then some "Agents must be a non-empty array"
  else if accounts.length < agents.length then some "Not enough accounts to distribute"
  else none

/-- Sorting step `getActiveAgentsSorted`: every agent, stably sorted by ascending
`currentRanking` (the comparator is `a.currentRanking - b.currentRanking`). -/
def getActiveAgentsSorted (agents : List Agent) : List Agent :=
  agents.insertionSort (fun a b => a.currentRanking ≤ b.currentRanking)

/-- Empty records `createInitialAssignments`, one per agent. -/
def createInitialAssignments (agents : List Agent) : List Assignment :=
  agents.map fun agent =>
    { agentId := agent.id, equitableAccounts := 0, rankingAccounts := 0, totalAccounts := 0,
      accountsList := [] }

/-- The `forEach` of `distributeEquitable`, started at `accountIndex`: returns the assignments,
the accounts and the final `accountIndex`. -/
def distributeEquitableLoop (accountsPerAgent : Int) (now : Timestamp) :
    List Assignment → List Account → Int → List Assignment × List Account × Int
  | [], accounts, accountIndex => ([], accounts, accountIndex)
  | assignment :: rest, accounts, accountIndex =>
    let accountsToAssign := slice accounts accountIndex (accountIndex + accountsPerAgent)
    let assignment1 : Assignment :=
      { assignment with
        equitableAccounts := accountsToAssign.length
        accountsList := assignment.accountsList ++ accountsToAssign.map (fun acc => acc.id)
        totalAccounts := assignment.totalAccounts + accountsToAssign.length }
    let accounts1 :=
      assignSlice accounts accountIndex (accountIndex + accountsPerAgent) assignment.agentId now
    let out := distributeEquitableLoop accountsPerAgent now rest accounts1
      (accountIndex + accountsPerAgent)
    (assignment1 :: out.1, out.2.1, out.2.2)

/-- Phase 1, `distributeEquitable`. -/
def distributeEquitable (assignments : List Assignment) (accounts : List Account)
    (accountsPerAgent : Int) (now : Timestamp) : List Assignment × List Account × Int :=
  distributeEquitableLoop accountsPerAgent now assignments accounts 0

/-- Rank weights `calculateWeights`: `[totalAgents, totalAgents - 1, ..., 1]`. -/
def calculateWeights (totalAgents : Nat) : List Nat :=
  (List.range totalAgents).map fun i => totalAgents - i

/-- The body of the `forEach` of `handleRemainingAccounts` for the residual account that sits
at position `pos` of `accounts` and at position `index` of `remaining`.  (With no assignment
at `index % assignments.length` the JavaScript throws; `distribute` never gets there, its
assignments are as many as the validated agents.) -/
def handleRemainingStep (now : Timestamp) (assignments : List Assignment)
    (accounts : List Account) (pos index : Nat) (account : Account) :
    List Assignment × List Account :=
  match assignments.get? (index % assignments.length) with
  | none => (assignments, accounts)
  | some assignment =>
    (assignments.modify
        (fun a => { a with
          rankingAccounts := a.rankingAccounts + 1
          totalAccounts := a.totalAccounts + 1
          accountsList := a.accountsList ++ [account.id] })
        (index % assignments.length),
      accounts.modify (fun acc => acc.assignToAgent assignment.agentId now) pos)

/-- The `forEach` of `handleRemainingAccounts` over `remaining`, whose head is at position
`pos` of `accounts` and has index `index`. -/
def handleRemainingLoop (now : Timestamp) :
    List Account → Nat → Nat → List Assignment → List Account → List Assignment × List Account
  | [], _, _, assignments, accounts => (assignments, accounts)
  | account :: remaining, pos, index, assignments, accounts =>
    let out := handleRemainingStep now assignments accounts pos index account
    handleRemainingLoop now remaining (pos + 1) (index + 1) out.1 out.2

/-- Residual round-robin `handleRemainingAccounts`. -/
def handleRemainingAccounts (assignments : List Assignment) (accounts : List Account)
    (startIndex : Int) (now : Timestamp) : List Assignment × List Account :=
  let remaining := sliceFrom accounts startIndex
  handleRemainingLoop now remaining (sliceIndex accounts.length startIndex) 0 assignments accounts

/-- The `forEach` of `distributeByRanking`, at position `index` of the assignments.
(`weights[index]` is read with default 0; `distribute` passes as many weights as assignments,
so the default is never used there.) -/
def distributeByRankingLoop (weights : List Nat) (totalWeight : Nat) (remainingAccounts : Int)
    (now : Timestamp) :
    List Assignment → Nat → List Account → Int → List Assignment × List Account × Int
  | [], _, accounts, accountIndex => ([], accounts, accountIndex)
  | assignment :: rest, index, accounts, accountIndex =>
    let weight : ℚ := ((weights.getD index 0 : Nat) : ℚ) / (totalWeight : ℚ)
    let accountsToAssign := mathRound ((remainingAccounts : ℚ) * weight)
    let accountsSlice := slice accounts accountIndex (accountIndex + accountsToAssign)
    let assignment1 : Assignment :=
      { assignment with
        rankingAccounts := accountsSlice.length
        accountsList := assignment.accountsList ++ accountsSlice.map (fun acc => acc.id)
        totalAccounts := assignment.totalAccounts + accountsSlice.length }
    let accounts1 :=
      assignSlice accounts accountIndex (accountIndex + accountsToAssign) assignment.agentId now
    let out := distributeByRankingLoop weights totalWeight remainingAccounts now rest (index + 1)
      accounts1 (accountIndex + accountsToAssign)
    (assignment1 :: out.1, out.2.1, out.2.2)

/-- Phase 2, `distributeByRanking`, with the residual handling it ends on. -/
def distributeByRanking (equitablePercentage : ℚ) (assignments : List Assignment)
    (accounts : List Account) (remainingAccounts : Int) (totalAgents : Nat) (now : Timestamp) :
    List Assignment × List Account :=
  let weights := calculateWeights totalAgents
  let totalWeight := weights.foldl (fun sum w => sum + w) 0
  let accountIndex := mathFloor ((accounts.length : ℚ) * equitablePercentage)
  let out := distributeByRankingLoop weights totalWeight remainingAccounts now assignments 0
    accounts accountIndex
  handleRemainingAccounts out.1 out.2.1 out.2.2 now

/-- Entry point `HybridDistributionStrategy.distribute` of a strategy built with
`equitablePercentage` (the `parameters` argument is not read by the code).  `agents.sort`
sorts the caller's array in place, hence the sorted agents in the outcome. -/
def distribute (equitablePercentage : ℚ) (now : Timestamp) (accounts : List Account)
    (agents : List Agent) : Outcome :=
  match validateInputs accounts agents with
  | some err => { result := .error err, accounts := accounts, agents := agents }
  | none =>
    let activeAgents := getActiveAgentsSorted agents
    let totalAccounts := accounts.length
    let totalEquitableAccounts := mathFloor ((totalAccounts : ℚ) * equitablePercentage)
    let accountsPerAgent :=
      mathFloor ((totalEquitableAccounts : ℚ) / (activeAgents.length : ℚ))
    let totalRankingAccounts : Int := (totalAccounts : Int) - totalEquitableAccounts
    let assignments := createInitialAssignments activeAgents
    let phase1 := distributeEquitable assignments accounts accountsPerAgent now
    let phase2 := distributeByRanking equitablePercentage phase1.1 phase1.2.1
      totalRankingAccounts activeAgents.length now
    { result := .ok phase2.1, accounts := phase2.2, agents := activeAgents }

/-! ## RankingService -/

/-- In-memory agent store (`InMemoryAgentRepository.js`): the values of its `Map`, in insertion
order. -/
structure AgentRepository where
  agents : List Agent

/-- Read path `getAll`. -/
def AgentRepository.getAll (repo : AgentRepository) : List Agent := repo.agents

/-- Write path `save`, a `Map.set` on the agent id: an agent with that id is replaced where it
stands, a new id is appended. -/
def AgentRepository.save (repo : AgentRepository) (agent : Agent) : AgentRepository :=
  if repo.agents.any (fun a => a.id == agent.id) then
    { agents := repo.agents.map fun a => if a.id = agent.id then agent else a }
  else
    { agents := repo.agents ++ [agent] }

/-- Bulk write `saveAll`. -/
def AgentRepository.saveAll (repo : AgentRepository) (agents : List Agent) : AgentRepository :=
  agents.foldl AgentRepository.save repo

/-- Weighted score `calculateScore`; `x || 0` reads an absent metric as `0`. -/
def calculateScore (metrics : Metrics) : ℚ :=
  let conversionWeight : ℚ := 0.4
  let salesWeight : ℚ := 0.4
  let closedAccountsWeight : ℚ := 0.2
  let normalizedConversion := metrics.conversionRate.getD 0
  let normalizedSales := metrics.totalSales.getD 0 / 1000
  let normalizedClosed := metrics.closedAccounts.getD 0 / 10
  normalizedConversion * conversionWeight + normalizedSales * salesWeight +
    normalizedClosed * closedAccountsWeight

/-- The `{ agent, score }` items of `calculateRankings`, stably sorted by descending score (the
comparator is `b.score - a.score`). -/
def sortScoredAgents (scoredAgents : List (Agent × ℚ)) : List (Agent × ℚ) :=
  scoredAgents.insertionSort (fun a b => a.2 ≥ b.2)

/-- Ranking run `calculateRankings`: the ranked agents it returns and the repository it leaves.
With `agents = null` (here `none`) the agents of the repository are ranked. -/
def calculateRankings (repo : AgentRepository) (agents : Option (List Agent)) :
    List Agent × AgentRepository :=
  let agentsList := agents.getD repo.getAll
  let scoredAgents := agentsList.map fun agent => (agent, calculateScore agent.metrics)
  let sorted := sortScoredAgents scoredAgents
  let ranked := sorted.mapIdx fun index item => (item.1.updateRanking ((index : Int) + 1), item.2)
  (ranked.map (fun item => item.1), repo.saveAll (ranked.map (fun item => item.1)))

/-! ## Account and distribution repositories, DistributionService -/

/-- Status test `Account.isActive`. -/
def Account.isActive (account : Account) : Bool := account.status == "active"

/-- In-memory account store (`InMemoryAccountRepository.js`): the values of its `Map`, in
insertion order. -/
structure AccountRepository where
  accounts : List Account

/-- Read path `getAll`. -/
def AccountRepository.getAll (repo : AccountRepository) : List Account := repo.accounts

/-- Read path `getAvailableAccounts`: the active accounts. -/
def AccountRepository.getAvailableAccounts (repo : AccountRepository) : List Account :=
  repo.accounts.filter fun account => account.isActive

/-- Read path `getByAgent`: the accounts whose `assignedAgent` is the given id. -/
def AccountRepository.getByAgent (repo : AccountRepository) (agentId : AgentId) :
    List Account :=
  repo.accounts.filter fun account => account.assignedAgent == some agentId

/-- Write path `save`, a `Map.set` on the account id. -/
def AccountRepository.save (repo : AccountRepository) (account : Account) :
    AccountRepository :=
  if repo.accounts.any (fun a => a.id == account.id) then
    { accounts := repo.accounts.map fun a => if a.id = account.id then account else a }
  else
    { accounts := repo.accounts ++ [account] }

/-- Bulk write `saveAll`. -/
def AccountRepository.saveAll (repo : AccountRepository) (accounts : List Account) :
    AccountRepository :=
  accounts.foldl AccountRepository.save repo

/-- Parameter snapshot of a distribution (`Distribution.js`). -/
structure DistributionParameters where
  equitablePercentage : ℚ
  rankingPercentage : ℚ
  weightingSystem : String
deriving DecidableEq

/-- One distribution run (`Distribution.js`, class `Distribution`). -/
structure Distribution where
  id : String
  distributionDate : Timestamp
  type : String
  assignments : List Assignment
  parameters : DistributionParameters
deriving DecidableEq

/-- In-memory distribution store (`InMemoryDistributionRepository.js`): the values of its `Map`
and the `history` array, newest first. -/
structure DistributionRepository where
  distributions : List Distribution
  history : List Distribution

/-- Write path `save`: a `Map.set` on the id, and an `unshift` on the history, which keeps its
first 100 entries. -/
def DistributionRepository.save (repo : DistributionRepository) (distribution : Distribution) :
    DistributionRepository :=
  { distributions :=
      if repo.distributions.any (fun d => d.id == distribution.id) then
        repo.distributions.map fun d => if d.id = distribution.id then distribution else d
      else repo.distributions ++ [distribution]
    history :=
      if (distribution :: repo.history).length > 100 then
        slice (distribution :: repo.history) 0 100
      else distribution :: repo.history }

/-- Read path `getLatest`: `history[0] || null`. -/
def DistributionRepository.getLatest (repo : DistributionRepository) : Option Distribution :=
  repo.history.head?

/-- The three repositories a service is built on. -/
structure Repositories where
  accountRepository : AccountRepository
  agentRepository : AgentRepository
  distributionRepository : DistributionRepository

/-- Run `DistributionService.executeDistribution` for a strategy built with
`equitablePercentage`; `type` is `parameters.type`, `uuid` the generated id.  Returns the
distribution or the error thrown, and the repositories as the call leaves them. -/
def executeDistribution (equitablePercentage : ℚ) (type : Option String) (uuid : String)
    (now : Timestamp) (repos : Repositories) : Except String Distribution × Repositories :=
  let accounts := repos.accountRepository.getAvailableAccounts
  let agents := repos.agentRepository.getAll
  let out := distribute equitablePercentage now accounts agents
  match out.result with
  | .error err => (.error err, repos)
  | .ok assignments =>
    let distribution : Distribution :=
      { id := uuid
        distributionDate := now
        type := type.getD "initial"
        assignments := assignments
        parameters :=
          { equitablePercentage := equitablePercentage
            rankingPercentage := 1 - equitablePercentage
            weightingSystem := "linear" } }
    (.ok distribution,
      { repos with
        distributionRepository := repos.distributionRepository.save distribution
        accountRepository := repos.accountRepository.saveAll out.accounts })

/-! ## RotationService -/

/-- The un-assignment that the rotations apply to each selected account:
`assignedAgent = null; assignmentDate = null`. -/
def clearAssignment (account : Account) : Account :=
  { account with assignedAgent := none, assignmentDate := none }

/-- Selection `selectLowValueAccounts`: the first `floor(length * percentage)` accounts by
ascending `potentialValue` (the comparator is `a.potentialValue - b.potentialValue`). -/
def selectLowValueAccounts (accounts : List Account) (percentage : ℚ) : List Account :=
  let count := mathFloor ((accounts.length : ℚ) * percentage)
  slice (accounts.insertionSort fun a b => a.potentialValue ≤ b.potentialValue) 0 count

/-- Rate `calculateRotationRate` of an agent. -/
def calculateRotationRate (agent : Agent) : ℚ :=
  let baseRate : ℚ := 0.2
  let rankingFactor : ℚ := (agent.currentRanking : ℚ) / 10
  min (baseRate + rankingFactor * 0.1) 0.4

/-- The repositories after the clearing of `fullRotation`, before the distribution is run. -/
def fullRotationClear (repos : Repositories) : Repositories :=
  let accounts := repos.accountRepository.getAll
  { repos with accountRepository := repos.accountRepository.saveAll (accounts.map clearAssignment) }

/-- The `accountsToRotate` that the loop of `partialRotation` collects. -/
def partialRotationSelect (percentage : ℚ) (repos : Repositories) : List Account :=
  repos.agentRepository.getAll.flatMap fun agent =>
    selectLowValueAccounts (repos.accountRepository.getByAgent agent.id) percentage

/-- The repositories after the clearing of `partialRotation`, before the distribution is run. -/
def partialRotationClear (percentage : ℚ) (repos : Repositories) : Repositories :=
  { repos with
    accountRepository :=
      repos.accountRepository.saveAll ((partialRotationSelect percentage repos).map clearAssignment) }

/-- The `accountsToRotate` that the loop of `performanceBasedRotation` collects.  (For an agent
without accounts the JavaScript passes `0 / 0 = NaN` as percentage and `slice(0, NaN)` is
empty; here `0 / 0 = 0` and the slice is empty as well.) -/
def performanceRotationSelect (repos : Repositories) : List Account :=
  repos.agentRepository.getAll.flatMap fun agent =>
    let agentAccounts := repos.accountRepository.getByAgent agent.id
    let rotationRate := calculateRotationRate agent
    let accountsCount := mathFloor ((agentAccounts.length : ℚ) * rotationRate)
    selectLowValueAccounts agentAccounts ((accountsCount : ℚ) / (agentAccounts.length : ℚ))

/-- The repositories after the clearing of `performanceBasedRotation`, before the distribution
is run. -/
def performanceRotationClear (repos : Repositories) : Repositories :=
  { repos with
    accountRepository :=
      repos.accountRepository.saveAll ((performanceRotationSelect repos).map clearAssignment) }

/-- Rotation `fullRotation`. -/
def fullRotation (equitablePercentage : ℚ) (uuid : String) (now : Timestamp)
    (repos : Repositories) : Except String Distribution × Repositories :=
  executeDistribution equitablePercentage (some "full_rotation") uuid now
    (fullRotationClear repos)

/-- Rotation `partialRotation`. -/
def partialRotation (equitablePercentage : ℚ) (percentage : ℚ) (uuid : String)
    (now : Timestamp) (repos : Repositories) : Except String Distribution × Repositories :=
  executeDistribution equitablePercentage (some "partial_rotation") uuid now
    (partialRotationClear percentage repos)

/-- Rotation `performanceBasedRotation`. -/
def performanceBasedRotation (equitablePercentage : ℚ) (uuid : String) (now : Timestamp)
    (repos : Repositories) : Except String Distribution × Repositories :=
  executeDistribution equitablePercentage (some "performance_rotation") uuid now
    (performanceRotationClear repos)

/-- The `options` of `executeRotation`; a field left out is `none`. -/
structure RotationOptions where
  rotationType : Option String
  percentage : Option ℚ

/-- Entry point `RotationService.executeRotation` of a service whose distribution strategy was
built with `equitablePercentage` (`rotationPercentage` is 0.2). -/
def executeRotation (equitablePercentage : ℚ) (options : RotationOptions) (uuid : String)
    (now : Timestamp) (repos : Repositories) : Except String Distribution × Repositories :=
  let rotationType := options.rotationType.getD "partial"
  let percentage := options.percentage.getD 0.2
  if rotationType = "full" then fullRotation equitablePercentage uuid now repos
  else if rotationType = "partial" then
    partialRotation equitablePercentage percentage uuid now repos
  else if rotationType = "performance_based" then
    performanceBasedRotation equitablePercentage uuid now repos
  else (.error ("Unknown rotation type: " ++ rotationType), repos)

/-! ## GetDistributionStatsUseCase -/

/-- One row of the `stats` of `GetDistributionStatsUseCase.execute`; the `{}` given as metrics
of a missing agent is the record without any metric. -/
structure StatsRow where
  agentId : AgentId
  agentName : String
  ranking : Int
  equitableAccounts : Nat
  rankingAccounts : Nat
  totalAccounts : Nat
  metrics : Metrics
deriving DecidableEq

/-- Lookup `agentsMap.get` in `new Map(agents.map(a => [a.id, a]))`: the last agent with the
id. -/
def agentsMapGet (agents : List Agent) (agentId : AgentId) : Option Agent :=
  (agents.filter fun a => a.id == agentId).getLast?

/-- The row built for one assignment. -/
def statsRow (agents : List Agent) (assignment : Assignment) : StatsRow :=
  let agent := agentsMapGet agents assignment.agentId
  { agentId := assignment.agentId
    agentName := match agent with
      | some a => a.name
      | none => "Unknown"
    ranking := match agent with
      | some a => a.currentRanking
      | none => 0
    equitableAccounts := assignment.equitableAccounts
    rankingAccounts := assignment.rankingAccounts
    totalAccounts := assignment.totalAccounts
    metrics := match agent with
      | some a => a.metrics
      | none => { conversionRate := none, totalSales := none, closedAccounts := none } }

/-- Result of `GetDistributionStatsUseCase.execute`: `success: false` with its message, or
`success: true` with the distribution header, the rows and the total of the summary.  (The
other summary fields, average, standard deviation, minimum and maximum, are formatted
floating-point values and are left out.) -/
inductive StatsResult where
  | notFound (message : String)
  | found (id : String) (date : Timestamp) (type : String) (parameters : DistributionParameters)
      (stats : List StatsRow) (totalAccounts : Nat)

/-- Use case `GetDistributionStatsUseCase.execute`. -/
def getDistributionStats (repos : Repositories) : StatsResult :=
  match repos.distributionRepository.getLatest with
  | none => .notFound "No distribution found"
  | some distribution =>
    let agents := repos.agentRepository.getAll
    let stats := distribution.assignments.map (statsRow agents)
    let sorted := stats.insertionSort fun a b => a.ranking ≤ b.ranking
    let totalAccounts := sorted.foldl (fun sum s => sum + s.totalAccounts) 0
    .found distribution.id distribution.distributionDate distribution.type
      distribution.parameters sorted totalAccounts

/-! ## Vocabulary of the statements -/

/-- Number of elements of `xs.slice(start, stop)` for an array of `len` elements. -/
def sliceLen (len : Nat) (start stop : Int) : Nat :=
  sliceIndex len stop - sliceIndex len start

/-- Phase-1 counts of `k` agents over `len` accounts, from `accountIndex`. -/
def equitableCounts (len : Nat) (accountsPerAgent : Int) : Nat → Int → List Nat
  | 0, _ => []
  | k + 1, accountIndex =>
    sliceLen len accountIndex (accountIndex + accountsPerAgent) ::
      equitableCounts len accountsPerAgent k (accountIndex + accountsPerAgent)

/-- Phase-2 intended amounts `accountsToAssign` of the agents at positions
`index, ..., index + k - 1`. -/
def rankingAmounts (weights : List Nat) (totalWeight : Nat) (remainingAccounts : Int) :
    Nat → Nat → List Int
  | 0, _ => []
  | k + 1, index =>
    mathRound ((remainingAccounts : ℚ) * (((weights.getD index 0 : Nat) : ℚ) / (totalWeight : ℚ)))
      :: rankingAmounts weights totalWeight remainingAccounts k (index + 1)

/-- Phase-2 slice lengths over `len` accounts for the given amounts, from `accountIndex`. -/
def rankingCounts (len : Nat) : List Int → Int → List Nat
  | [], _ => []
  | amount :: rest, accountIndex =>
    sliceLen len accountIndex (accountIndex + amount) ::
      rankingCounts len rest (accountIndex + amount)

/-- A fresh assignment, as `createInitialAssignments` makes it. -/
def Assignment.Fresh (a : Assignment) : Prop :=
  a.equitableAccounts = 0 ∧ a.rankingAccounts = 0 ∧ a.totalAccounts = 0 ∧ a.accountsList = []

/-- An assignment after phase 1 only. -/
def Assignment.AfterEquitable (a : Assignment) : Prop :=
  a.rankingAccounts = 0 ∧ a.totalAccounts = a.equitableAccounts ∧
    a.accountsList.length = a.totalAccounts

/-- The invariant of an assignment: the total is the sum of the two phase counts and the
length of the account list. -/
def Assignment.Consistent (a : Assignment) : Prop :=
  a.totalAccounts = a.equitableAccounts + a.rankingAccounts ∧
    a.totalAccounts = a.accountsList.length

instance rankLe_isTotal : IsTotal Agent (fun a b => a.currentRanking ≤ b.currentRanking) :=
  ⟨fun a b => le_total a.currentRanking b.currentRanking⟩

instance rankLe_isTrans : IsTrans Agent (fun a b => a.currentRanking ≤ b.currentRanking) :=
  ⟨fun _ _ _ h1 h2 => le_trans h1 h2⟩

instance scoreGe_isTotal : IsTotal (Agent × ℚ) (fun a b => a.2 ≥ b.2) :=
  ⟨fun a b => le_total b.2 a.2⟩

instance scoreGe_isTrans : IsTrans (Agent × ℚ) (fun a b => a.2 ≥ b.2) :=
  ⟨fun _ _ _ h1 h2 => le_trans h2 h1⟩

instance valueLe_isTotal : IsTotal Account (fun a b => a.potentialValue ≤ b.potentialValue) :=
  ⟨fun a b => le_total a.potentialValue b.potentialValue⟩

instance valueLe_isTrans : IsTrans Account (fun a b => a.potentialValue ≤ b.potentialValue) :=
  ⟨fun _ _ _ h1 h2 => le_trans h1 h2⟩

/-- Sample account with the given id, potential value and assigned agent. -/
def valuedAccount (id : AccountId) (potentialValue : ℚ) (assignedAgent : Option AgentId) :
    Account :=
  { id := id, clientName := "client", potentialValue := potentialValue, segment := "retail",
    status := "active", assignedAgent := assignedAgent,
    assignmentDate := assignedAgent.map (fun _ => 1), priority := "medium" }

/-- Clears the accounts whose id is listed. -/
def clearIds (ids : List AccountId) (account : Account) : Account :=
  if account.id ∈ ids then clearAssignment account else account

/-- Number of accounts without an assigned agent. -/
def unassignedCount (accounts : List Account) : Nat :=
  accounts.countP fun account => account.assignedAgent.isNone

/-- What the two selecting rotations share: per agent, a sublist of a rearrangement of the
accounts of that agent. -/
def SelectsFromOwnAccounts (repos : Repositories) (select : Agent → List Account) : Prop :=
  ∀ agent, ∃ l : List Account,
    l.Perm (repos.accountRepository.getByAgent agent.id) ∧ (select agent).Sublist l

/-- The date invariant of an account: it has an assignment date exactly when it has an
assigned agent. -/
def Account.DateInvariant (account : Account) : Prop :=
  account.assignmentDate.isSome = account.assignedAgent.isSome

instance statsRankLe_isTotal : IsTotal StatsRow (fun a b => a.ranking ≤ b.ranking) :=
  ⟨fun a b => le_total a.ranking b.ranking⟩

instance statsRankLe_isTrans : IsTrans StatsRow (fun a b => a.ranking ≤ b.ranking) :=
  ⟨fun _ _ _ h1 h2 => le_trans h1 h2⟩

/-- Ranking counts after `m` residual accounts, the first of index `index`, were handed out
round-robin. -/
def residualRanking : Nat → Nat → List Nat → List Nat
  | 0, _, counts => counts
  | m + 1, index, counts =>
    residualRanking m (index + 1) (counts.modify (fun c => c + 1) (index % counts.length))

/-- Phase-2 cursor before the agent at position `i`: the start plus the amounts of the agents
before it. -/
def cursorAt (amounts : List Int) (start : Int) (i : Nat) : Int :=
  start + (amounts.take i).sum

/-- The ids, among the residual ids numbered from `start`, whose number is `i` modulo `k`. -/
def residualIds (remaining : List AccountId) (k start i : Nat) : List AccountId :=
  ((remaining.enumFrom start).filter fun je => je.1 % k == i).map fun je => je.2

/-- Size of the equitable share, `totalEquitableAccounts = floor(n * p)`. -/
def totalEquitable (n : Nat) (p : ℚ) : Int := mathFloor ((n : ℚ) * p)

/-- Equitable accounts per agent, `accountsPerAgent = floor(totalEquitableAccounts / k)`. -/
def perAgentEquitable (n k : Nat) (p : ℚ) : Int :=
  mathFloor ((totalEquitable n p : ℚ) / (k : ℚ))

/-- Intended phase-2 amounts `accountsToAssign` of the `k` agents, by rank position. -/
def intendedAmounts (n k : Nat) (p : ℚ) : List Int :=
  rankingAmounts (calculateWeights k) ((calculateWeights k).foldl (fun sum w => sum + w) 0)
    ((n : Int) - totalEquitable n p) k 0

/-- State after phase 1 of a run that passed validation. -/
def phaseOne (p : ℚ) (now : Timestamp) (accounts : List Account) (agents : List Agent) :
    List Assignment × List Account × Int :=
  distributeEquitableLoop (perAgentEquitable accounts.length agents.length p) now
    (createInitialAssignments (getActiveAgentsSorted agents)) accounts 0

/-- State after the loop of phase 2 of a run that passed validation, before the residual
handling. -/
def phaseTwo (p : ℚ) (now : Timestamp) (accounts : List Account) (agents : List Agent) :
    List Assignment × List Account × Int :=
  distributeByRankingLoop (calculateWeights agents.length)
    ((calculateWeights agents.length).foldl (fun sum w => sum + w) 0)
    ((accounts.length : Int) - totalEquitable accounts.length p) now
    (phaseOne p now accounts agents).1 0 (phaseOne p now accounts agents).2.1
    (totalEquitable accounts.length p)

/-- Ids of the residual accounts of a run: those from the final phase-2 cursor on. -/
def residualAccountIds (accounts : List Account) (k : Nat) (p : ℚ) : List AccountId :=
  sliceFrom (accounts.map fun acc => acc.id)
    (cursorAt (intendedAmounts accounts.length k p) (totalEquitable accounts.length p) k)

/-- Intended phase-2 amount of the agent at rank position `i`, in the words of the
specification: `round(R * (k - i) / (k * (k + 1) / 2))` with `R = n - floor(n * p)`. -/
def specAmount (n k : Nat) (p : ℚ) (i : Nat) : Int :=
  mathRound (((n : ℚ) - (mathFloor ((n : ℚ) * p) : ℚ)) * ((k : ℚ) - (i : ℚ)) /
    ((k : ℚ) * ((k : ℚ) + 1) / 2))

/-- Phase-2 cursor in the words of the specification: `c_0 = floor(n * p)`,
`c_(i+1) = c_i + a_i`. -/
def specCursor (n k : Nat) (p : ℚ) : Nat → Int
  | 0 => mathFloor ((n : ℚ) * p)
  | i + 1 => specCursor n k p i + specAmount n k p i

/-- The call threw. -/
def Outcome.Failed (o : Outcome) : Prop := ∃ err, o.result = .error err

/-- Sample account with the given id, unassigned. -/
def sampleAccount (id : AccountId) : Account :=
  { id := id, clientName := "client", potentialValue := 100, segment := "retail",
    status := "active", assignedAgent := none, assignmentDate := none, priority := "medium" }

/-- Sample agent with the given id and ranking. -/
def sampleAgent (id : AgentId) (ranking : Int) : Agent :=
  { id := id, name := "agent", email := "agent@example.com", active := true,
    currentRanking := ranking, joinDate := 0,
    metrics := { conversionRate := some 0, totalSales := some 0, closedAccounts := some 0 } }

/-- A thousand sample accounts, ids 0 to 999. -/
def thousandAccounts : List Account := (List.range 1000).map sampleAccount

/-- Ten sample agents given worst rank first: ids 20 down to 11, rankings 10 down to 1. -/
def tenAgents : List Agent :=
  [sampleAgent 20 10, sampleAgent 19 9, sampleAgent 18 8, sampleAgent 17 7, sampleAgent 16 6,
    sampleAgent 15 5, sampleAgent 14 4, sampleAgent 13 3, sampleAgent 12 2, sampleAgent 11 1]

/-- Sample agent with the given id and conversion rate, no other metric, not yet ranked. -/
def metricAgent (id : AgentId) (conversionRate : ℚ) : Agent :=
  { id := id, name := "agent", email := "agent@example.com", active := true,
    currentRanking := 0, joinDate := 0,
    metrics := { conversionRate := some conversionRate, totalSales := none,
                 closedAccounts := none } }

/-- Sample repositories: one agent holding five accounts, a sixth account held by nobody, no
distribution. -/
def sampleRepositories : Repositories :=
  { accountRepository :=
      { accounts := [valuedAccount 1 500 (some 7), valuedAccount 2 100 (some 7),
          valuedAccount 3 300 (some 7), valuedAccount 4 200 (some 7),
          valuedAccount 5 400 (some 7), valuedAccount 6 50 none] }
    agentRepository := { agents := [sampleAgent 7 1] }
    distributionRepository := { distributions := [], history := [] } }

/-- Repositories without any account, agent or distribution. -/
def emptyRepositories : Repositories :=
  { accountRepository := { accounts := [] }
    agentRepository := { agents := [] }
    distributionRepository := { distributions := [], history := [] } }

/-- Sample distribution: an assignment of agent 7 and one of an agent 99. -/
def sampleDistribution : Distribution :=
  { id := "d1", distributionDate := 3, type := "initial",
    assignments :=
      [{ agentId := 7, equitableAccounts := 1, rankingAccounts := 2, totalAccounts := 3,
         accountsList := [1, 2, 3] },
       { agentId := 99, equitableAccounts := 1, rankingAccounts := 1, totalAccounts := 2,
         accountsList := [4, 5] }],
    parameters := { equitablePercentage := 1 / 2, rankingPercentage := 1 / 2,
                    weightingSystem := "linear" } }

/-- Sample repositories after a distribution: agent 7 is known, agent 99 is not. -/
def statsRepositories : Repositories :=
  { accountRepository := { accounts := [] }
    agentRepository := { agents := [sampleAgent 7 1] }
    distributionRepository :=
      { distributions := [sampleDistribution], history := [sampleDistribution] } }

/-- Five sample accounts of agent 7 with potential values 500, 100, 300, 200, 400. -/
def fiveAccounts : List Account :=
  [valuedAccount 1 500 (some 7), valuedAccount 2 100 (some 7), valuedAccount 3 300 (some 7),
    valuedAccount 4 200 (some 7), valuedAccount 5 400 (some 7)]

/-- Ten sample accounts, ids 0 to 9. -/
def tenAccounts : List Account :=
  [sampleAccount 0, sampleAccount 1, sampleAccount 2, sampleAccount 3, sampleAccount 4,
    sampleAccount 5, sampleAccount 6, sampleAccount 7, sampleAccount 8, sampleAccount 9]

/-- Three sample agents, ids 10 to 12, ranked 1 to 3. -/
def threeAgents : List Agent := [sampleAgent 10 1, sampleAgent 11 2, sampleAgent 12 3]

/-- Four sample accounts, ids 0 to 3. -/
def fourAccounts : List Account :=
  [sampleAccount 0, sampleAccount 1, sampleAccount 2, sampleAccount 3]

/-- Four sample agents, ids 10 to 13, ranked 1 to 4. -/
def fourAgents : List Agent :=
  [sampleAgent 10 1, sampleAgent 11 2, sampleAgent 12 3, sampleAgent 13 4]

/-- Every id listed by the assignment is the id of an account at a position before `bound`
that is assigned to the agent of the assignment, with date `now`. -/
def Assignment.OwnedBefore (now : Timestamp) (accounts : List Account) (bound : Nat)
    (a : Assignment) : Prop :=
  ∀ x ∈ a.accountsList, ∃ j, j < bound ∧ ∃ acc, accounts[j]? = some acc ∧ acc.id = x ∧
    acc.assignedAgent = some a.agentId ∧ acc.assignmentDate = some now

/-! ## JavaScript numbers as IEEE 754 binary64 values

The definitions above compute with exact rationals; they carry the statements that do not
depend on rounding.  The definitions of this section compute as the JavaScript code does: a
Number is a rational that is a binary64 value, every `*`, `/` and `+` of the source is the
exact operation followed by the rounding `toDouble` (round to nearest, ties to even), and a
number that enters from outside (a percentage, a metric, a literal such as `0.4`) is read
through `toDouble`, as a JavaScript number literal is.  `Math.floor` and `Math.round` of a
Number are exact.  Array lengths, indices and counts are integers below `2 ^ 53`, on which
the arithmetic of Numbers is exact; they stay `Nat` and `Int`.  Overflow to `Infinity` and
`NaN` are not modelled. -/

/-- Nearest integer, a tie going to the even neighbour. -/
def roundTiesEven (x : ℚ) : Int :=
  if x - ⌊x⌋ < 1 / 2 then ⌊x⌋
  else if 1 / 2 < x - ⌊x⌋ then ⌊x⌋ + 1
  else if ⌊x⌋ % 2 = 0 then ⌊x⌋ else ⌊x⌋ + 1

/-- Exponent of the spacing of the binary64 values around `x`: the values of absolute value
in `[2 ^ e, 2 ^ (e + 1))` are `2 ^ (e - 52)` apart, for `e` from -1022 on; below `2 ^ (-1022)`
(subnormal values, and zero) they are `2 ^ (-1074)` apart. -/
def ulpExponent (x : ℚ) : Int :=
  if x = 0 then -1074 else max (Int.log 2 |x|) (-1022) - 52

/-- The binary64 value nearest to `x`, a tie going to the value with the even significand: the
Number that a literal or an operation of exact value `x` gives. -/
@[irreducible]
def toDouble (x : ℚ) : ℚ := (roundTiesEven (x / 2 ^ ulpExponent x) : ℚ) * 2 ^ ulpExponent x

/-- Product `a * b` of two Numbers. -/
def jsMul (a b : ℚ) : ℚ := toDouble (a * b)

/-- Quotient `a / b` of two Numbers. -/
def jsDiv (a b : ℚ) : ℚ := toDouble (a / b)

/-- Sum `a + b` of two Numbers. -/
def jsAdd (a b : ℚ) : ℚ := toDouble (a + b)

namespace Binary64

/-- Weighted score `calculateScore` on Numbers; `x || 0` reads an absent metric as `0`. -/
def calculateScore (metrics : Metrics) : ℚ :=
  let conversionWeight : ℚ := toDouble 0.4
  let salesWeight : ℚ := toDouble 0.4
  let closedAccountsWeight : ℚ := toDouble 0.2
  let normalizedConversion := toDouble (metrics.conversionRate.getD 0)
  let normalizedSales := jsDiv (toDouble (metrics.totalSales.getD 0)) 1000
  let normalizedClosed := jsDiv (toDouble (metrics.closedAccounts.getD 0)) 10
  jsAdd
    (jsAdd (jsMul normalizedConversion conversionWeight) (jsMul normalizedSales salesWeight))
    (jsMul normalizedClosed closedAccountsWeight)

/-- Ranking run `calculateRankings` with the scores computed on Numbers: the ranked agents it
returns and the repository it leaves. -/
def calculateRankings (repo : AgentRepository) (agents : Option (List Agent)) :
    List Agent × AgentRepository :=
  let agentsList := agents.getD repo.getAll
  let scoredAgents := agentsList.map fun agent => (agent, calculateScore agent.metrics)
  let sorted := sortScoredAgents scoredAgents
  let ranked := sorted.mapIdx fun index item => (item.1.updateRanking ((index : Int) + 1), item.2)
  (ranked.map (fun item => item.1), repo.saveAll (ranked.map (fun item => item.1)))

/-- Selection `selectLowValueAccounts` on Numbers: the first `floor(length * percentage)`
accounts by ascending `potentialValue`, the product being a Number. -/
def selectLowValueAccounts (accounts : List Account) (percentage : ℚ) : List Account :=
  let count := mathFloor (jsMul (accounts.length : ℚ) (toDouble percentage))
  slice (accounts.insertionSort fun a b => a.potentialValue ≤ b.potentialValue) 0 count

/-- Rate `calculateRotationRate` of an agent, on Numbers. -/
def calculateRotationRate (agent : Agent) : ℚ :=
  let baseRate : ℚ := toDouble 0.2
  let rankingFactor : ℚ := jsDiv (toDouble (agent.currentRanking : ℚ)) 10
  min (jsAdd baseRate (jsMul rankingFactor (toDouble 0.1))) (toDouble 0.4)

/-- The `accountsToRotate` that the loop of `partialRotation` collects. -/
def partialRotationSelect (percentage : ℚ) (repos : Repositories) : List Account :=
  repos.agentRepository.getAll.flatMap fun agent =>
    selectLowValueAccounts (repos.accountRepository.getByAgent agent.id) percentage

/-- The repositories after the clearing of `partialRotation`, before the distribution is run. -/
def partialRotationClear (percentage : ℚ) (repos : Repositories) : Repositories :=
  { repos with
    accountRepository :=
      repos.accountRepository.saveAll ((partialRotationSelect percentage repos).map clearAssignment) }

/-- The `accountsCount` of one agent in the loop of `performanceBasedRotation`,
`Math.floor(agentAccounts.length * rotationRate)`. -/
def accountsCount (repos : Repositories) (agent : Agent) : Int :=
  mathFloor (jsMul ((repos.accountRepository.getByAgent agent.id).length : ℚ)
    (calculateRotationRate agent))

/-- The `selectedAccounts` of one agent in the loop of `performanceBasedRotation`.  (For an
agent without accounts the JavaScript passes `0 / 0 = NaN` as percentage and `slice(0, NaN)`
is empty; here `0 / 0 = 0` and the slice is empty as well.) -/
def performanceRotationSelectOf (repos : Repositories) (agent : Agent) : List Account :=
  let agentAccounts := repos.accountRepository.getByAgent agent.id
  let rotationRate := calculateRotationRate agent
  let accountsCount := mathFloor (jsMul (agentAccounts.length : ℚ) rotationRate)
  selectLowValueAccounts agentAccounts (jsDiv (accountsCount : ℚ) (agentAccounts.length : ℚ))

/-- The `accountsToRotate` that the loop of `performanceBasedRotation` collects. -/
def performanceRotationSelect (repos : Repositories) : List Account :=
  repos.agentRepository.getAll.flatMap fun agent => performanceRotationSelectOf repos agent

/-- The repositories after the clearing of `performanceBasedRotation`, before the distribution
is run. -/
def performanceRotationClear (repos : Repositories) : Repositories :=
  { repos with
    accountRepository :=
      repos.accountRepository.saveAll ((performanceRotationSelect repos).map clearAssignment) }

/-- The `forEach` of `distributeByRanking` on Numbers, at position `index` of the assignments.
(`weights[index]` is read with default 0; `distribute` passes as many weights as assignments,
so the default is never used there.) -/
def distributeByRankingLoop (weights : List Nat) (totalWeight : ℚ) (remainingAccounts : Int)
    (now : Timestamp) :
    List Assignment → Nat → List Account → Int → List Assignment × List Account × Int
  | [], _, accounts, accountIndex => ([], accounts, accountIndex)
  | assignment :: rest, index, accounts, accountIndex =>
    let weight : ℚ := jsDiv ((weights.getD index 0 : Nat) : ℚ) totalWeight
    let accountsToAssign := mathRound (jsMul (remainingAccounts : ℚ) weight)
    let accountsSlice := slice accounts accountIndex (accountIndex + accountsToAssign)
    let assignment1 : Assignment :=
      { assignment with
        rankingAccounts := accountsSlice.length
        accountsList := assignment.accountsList ++ accountsSlice.map (fun acc => acc.id)
        totalAccounts := assignment.totalAccounts + accountsSlice.length }
    let accounts1 :=
      assignSlice accounts accountIndex (accountIndex + accountsToAssign) assignment.agentId now
    let out := distributeByRankingLoop weights totalWeight remainingAccounts now rest (index + 1)
      accounts1 (accountIndex + accountsToAssign)
    (assignment1 :: out.1, out.2.1, out.2.2)

/-- Phase 2, `distributeByRanking`, on Numbers, with the residual handling it ends on. -/
def distributeByRanking (equitablePercentage : ℚ) (assignments : List Assignment)
    (accounts : List Account) (remainingAccounts : Int) (totalAgents : Nat) (now : Timestamp) :
    List Assignment × List Account :=
  let weights := calculateWeights totalAgents
  let totalWeight := weights.foldl (fun (sum : ℚ) (w : Nat) => jsAdd sum (w : ℚ)) 0
  let accountIndex := mathFloor (jsMul (accounts.length : ℚ) (toDouble equitablePercentage))
  let out := distributeByRankingLoop weights totalWeight remainingAccounts now assignments 0
    accounts accountIndex
  handleRemainingAccounts out.1 out.2.1 out.2.2 now

/-- Entry point `HybridDistributionStrategy.distribute` on Numbers, of a strategy built with
`equitablePercentage` (the `parameters` argument is not read by the code).  `agents.sort`
sorts the caller's array in place, hence the sorted agents in the outcome. -/
def distribute (equitablePercentage : ℚ) (now : Timestamp) (accounts : List Account)
    (agents : List Agent) : Outcome :=
  match validateInputs accounts agents with
  | some err => { result := .error err, accounts := accounts, agents := agents }
  | none =>
    let activeAgents := getActiveAgentsSorted agents
    let totalAccounts := accounts.length
    let totalEquitableAccounts :=
      mathFloor (jsMul (totalAccounts : ℚ) (toDouble equitablePercentage))
    let accountsPerAgent :=
      mathFloor (jsDiv (totalEquitableAccounts : ℚ) (activeAgents.length : ℚ))
    let totalRankingAccounts : Int := (totalAccounts : Int) - totalEquitableAccounts
    let assignments := createInitialAssignments activeAgents
    let phase1 := distributeEquitable assignments accounts accountsPerAgent now
    let phase2 := distributeByRanking equitablePercentage phase1.1 phase1.2.1
      totalRankingAccounts activeAgents.length now
    { result := .ok phase2.1, accounts := phase2.2, agents := activeAgents }

/-- Size of the equitable share, `totalEquitableAccounts = floor(n * p)` on Numbers. -/
def totalEquitable (n : Nat) (p : ℚ) : Int := mathFloor (jsMul (n : ℚ) (toDouble p))

/-- Equitable accounts per agent, `accountsPerAgent = floor(totalEquitableAccounts / k)` on
Numbers. -/
def perAgentEquitable (n k : Nat) (p : ℚ) : Int :=
  mathFloor (jsDiv (totalEquitable n p : ℚ) (k : ℚ))

/-- Phase-2 intended amounts `accountsToAssign` of the agents at positions
`index, ..., index + k - 1`, on Numbers. -/
def rankingAmounts (weights : List Nat) (totalWeight : ℚ) (remainingAccounts : Int) :
    Nat → Nat → List Int
  | 0, _ => []
  | k + 1, index =>
    mathRound (jsMul (remainingAccounts : ℚ)
        (jsDiv ((weights.getD index 0 : Nat) : ℚ) totalWeight))
      :: rankingAmounts weights totalWeight remainingAccounts k (index + 1)

/-- Sum of the weights of `k` agents as `reduce` adds them, one Number addition at a time. -/
def totalWeight (k : Nat) : ℚ :=
  (calculateWeights k).foldl (fun (sum : ℚ) (w : Nat) => jsAdd sum (w : ℚ)) 0

/-- Intended phase-2 amounts `accountsToAssign` of the `k` agents, by rank position. -/
def intendedAmounts (n k : Nat) (p : ℚ) : List Int :=
  rankingAmounts (calculateWeights k) (totalWeight k) ((n : Int) - totalEquitable n p) k 0

/-- State after phase 1 of a run that passed validation. -/
def phaseOne (p : ℚ) (now : Timestamp) (accounts : List Account) (agents : List Agent) :
    List Assignment × List Account × Int :=
  distributeEquitableLoop (perAgentEquitable accounts.length agents.length p) now
    (createInitialAssignments (getActiveAgentsSorted agents)) accounts 0

/-- State after the loop of phase 2 of a run that passed validation, before the residual
handling. -/
def phaseTwo (p : ℚ) (now : Timestamp) (accounts : List Account) (agents : List Agent) :
    List Assignment × List Account × Int :=
  distributeByRankingLoop (calculateWeights agents.length) (totalWeight agents.length)
    ((accounts.length : Int) - totalEquitable accounts.length p) now
    (phaseOne p now accounts agents).1 0 (phaseOne p now accounts agents).2.1
    (totalEquitable accounts.length p)

/-- Ids of the residual accounts of a run: those from the final phase-2 cursor on. -/
def residualAccountIds (accounts : List Account) (k : Nat) (p : ℚ) : List AccountId :=
  sliceFrom (accounts.map fun acc => acc.id)
    (cursorAt (intendedAmounts accounts.length k p) (totalEquitable accounts.length p) k)

/-- Intended phase-2 amount of the agent at rank position `i` as the code computes it:
`Math.round(R * ((k - i) / T))` with `R = n - floor(n * p)` and `T = k * (k + 1) / 2`, the
quotient and the product being Numbers. -/
def codeAmount (n k : Nat) (p : ℚ) (i : Nat) : Int :=
  mathRound (jsMul (((n : Int) - mathFloor (jsMul (n : ℚ) (toDouble p)) : Int) : ℚ)
    (jsDiv (((k - i : Nat) : ℚ)) (((k * (k + 1) / 2 : Nat) : ℚ))))

/-- Phase-2 cursor as the code computes it: `c_0 = floor(n * p)`, `c_(i+1) = c_i + a_i`. -/
def codeCursor (n k : Nat) (p : ℚ) : Nat → Int
  | 0 => mathFloor (jsMul (n : ℚ) (toDouble p))
  | i + 1 => codeCursor n k p i + codeAmount n k p i

end Binary64

/-- Sample accounts with ids 0 to `n - 1`, unassigned. -/
def sampleAccounts (n : Nat) : List Account := (List.range n).map sampleAccount

/-- Eleven sample agents, ids 100 to 110, ranked 1 to 11. -/
def elevenAgents : List Agent :=
  (List.range 11).map fun i => sampleAgent (100 + i) ((i : Int) + 1)

/-- Sample accounts of agent 7 with ids 0 to `n - 1`, the potential value being the id. -/
def accountsOfSeven (n : Nat) : List Account :=
  (List.range n).map fun i => valuedAccount i (i : ℚ) (some 7)

/-- Sample repositories: agent 7, ranked 1, holding 71 accounts, no distribution. -/
def seventyOneRepositories : Repositories :=
  { accountRepository := { accounts := accountsOfSeven 71 }
    agentRepository := { agents := [sampleAgent 7 1] }
    distributionRepository := { distributions := [], history := [] } }

/-- Sample agent with the given id and metrics, not yet ranked. -/
def scoredAgent (id : AgentId) (conversionRate totalSales closedAccounts : ℚ) : Agent :=
  { id := id, name := "agent", email := "agent@example.com", active := true,
    currentRanking := 0, joinDate := 0,
    metrics := { conversionRate := some conversionRate, totalSales := some totalSales,
                 closedAccounts := some closedAccounts } }

/-! ## Input validation -/

theorem validateInputs_eq_none_iff (accounts : List Account) (agents : List Agent) :
    validateInputs accounts agents = none ↔
      accounts ≠ [] ∧ agents ≠ [] ∧ agents.length ≤ accounts.length := by
  unfold validateInputs
  cases accounts <;> cases agents <;> simp

theorem distribute_failed_iff (p : ℚ) (now : Timestamp) (accounts : List Account)
    (agents : List Agent) :
    (distribute p now accounts agents).Failed ↔ validateInputs accounts agents ≠ none := by
  unfold distribute Outcome.Failed
  cases h : validateInputs accounts agents <;> simp

/-! ## Slices -/

theorem sliceIndex_le (len : Nat) (i : Int) : sliceIndex len i ≤ len := by
  unfold sliceIndex
  split <;> omega

theorem sliceIndex_natCast (len i : Nat) : sliceIndex len (i : Int) = min i len := by
  unfold sliceIndex
  split <;> omega

theorem length_slice {α : Type} (xs : List α) (start stop : Int) :
    (slice xs start stop).length = sliceLen xs.length start stop := by
  have h := sliceIndex_le xs.length stop
  simp only [slice, sliceLen, List.length_take, List.length_drop]
  omega

theorem length_assignSlice (accounts : List Account) (start stop : Int) (agentId : AgentId)
    (now : Timestamp) : (assignSlice accounts start stop agentId now).length = accounts.length := by
  simp [assignSlice]

/-! ## Phase 1 -/

theorem equitableLoop_agentIds (q : Int) (now : Timestamp) (assignments : List Assignment) :
    ∀ (accounts : List Account) (idx : Int),
      (distributeEquitableLoop q now assignments accounts idx).1.map (fun a => a.agentId) =
        assignments.map (fun a => a.agentId) := by
  induction assignments with
  | nil => intro accounts idx; rfl
  | cons a rest ih =>
    intro accounts idx
    simp only [distributeEquitableLoop, List.map_cons]
    rw [ih]

theorem equitableLoop_accounts_length (q : Int) (now : Timestamp)
    (assignments : List Assignment) :
    ∀ (accounts : List Account) (idx : Int),
      (distributeEquitableLoop q now assignments accounts idx).2.1.length = accounts.length := by
  induction assignments with
  | nil => intro accounts idx; rfl
  | cons a rest ih =>
    intro accounts idx
    simp only [distributeEquitableLoop]
    rw [ih, length_assignSlice]

theorem equitableLoop_afterEquitable (q : Int) (now : Timestamp)
    (assignments : List Assignment) :
    ∀ (accounts : List Account) (idx : Int), (∀ a ∈ assignments, a.Fresh) →
      ∀ a ∈ (distributeEquitableLoop q now assignments accounts idx).1, a.AfterEquitable := by
  induction assignments with
  | nil => intro accounts idx _ a ha; simp [distributeEquitableLoop] at ha
  | cons b rest ih =>
    intro accounts idx hfresh a ha
    simp only [distributeEquitableLoop, List.mem_cons] at ha
    rcases ha with ha | ha
    · obtain ⟨_, h2, h3, h4⟩ := hfresh b (List.mem_cons_self _ _)
      subst ha
      simp [Assignment.AfterEquitable, h2, h3, h4]
    · exact ih _ _ (fun c hc => hfresh c (List.mem_cons_of_mem _ hc)) a ha

theorem equitableLoop_counts (q : Int) (now : Timestamp) (assignments : List Assignment) :
    ∀ (accounts : List Account) (idx : Int),
      (distributeEquitableLoop q now assignments accounts idx).1.map
          (fun a => a.equitableAccounts) =
        equitableCounts accounts.length q assignments.length idx := by
  induction assignments with
  | nil => intro accounts idx; rfl
  | cons b rest ih =>
    intro accounts idx
    simp only [distributeEquitableLoop, List.map_cons, List.length_cons, equitableCounts]
    rw [ih, length_assignSlice, length_slice]

/-! ## Phase 2 -/

theorem rankingLoop_agentIds (weights : List Nat) (totalWeight : Nat) (remaining : Int)
    (now : Timestamp) (assignments : List Assignment) :
    ∀ (index : Nat) (accounts : List Account) (idx : Int),
      (distributeByRankingLoop weights totalWeight remaining now assignments index accounts
          idx).1.map (fun a => a.agentId) = assignments.map (fun a => a.agentId) := by
  induction assignments with
  | nil => intro index accounts idx; rfl
  | cons a rest ih =>
    intro index accounts idx
    simp only [distributeByRankingLoop, List.map_cons]
    rw [ih]

theorem rankingLoop_accounts_length (weights : List Nat) (totalWeight : Nat) (remaining : Int)
    (now : Timestamp) (assignments : List Assignment) :
    ∀ (index : Nat) (accounts : List Account) (idx : Int),
      (distributeByRankingLoop weights totalWeight remaining now assignments index accounts
          idx).2.1.length = accounts.length := by
  induction assignments with
  | nil => intro index accounts idx; rfl
  | cons a rest ih =>
    intro index accounts idx
    simp only [distributeByRankingLoop]
    rw [ih, length_assignSlice]

theorem rankingLoop_consistent (weights : List Nat) (totalWeight : Nat) (remaining : Int)
    (now : Timestamp) (assignments : List Assignment) :
    ∀ (index : Nat) (accounts : List Account) (idx : Int),
      (∀ a ∈ assignments, a.AfterEquitable) →
      ∀ a ∈ (distributeByRankingLoop weights totalWeight remaining now assignments index
          accounts idx).1, a.Consistent := by
  induction assignments with
  | nil => intro index accounts idx _ a ha; simp [distributeByRankingLoop] at ha
  | cons b rest ih =>
    intro index accounts idx hprev a ha
    simp only [distributeByRankingLoop, List.mem_cons] at ha
    rcases ha with ha | ha
    · obtain ⟨_, h2, h3⟩ := hprev b (List.mem_cons_self _ _)
      subst ha
      simp [Assignment.Consistent, h2, h3]
    · exact ih _ _ _ (fun c hc => hprev c (List.mem_cons_of_mem _ hc)) a ha

theorem rankingLoop_equitable (weights : List Nat) (totalWeight : Nat) (remaining : Int)
    (now : Timestamp) (assignments : List Assignment) :
    ∀ (index : Nat) (accounts : List Account) (idx : Int),
      (distributeByRankingLoop weights totalWeight remaining now assignments index accounts
          idx).1.map (fun a => a.equitableAccounts) =
        assignments.map (fun a => a.equitableAccounts) := by
  induction assignments with
  | nil => intro index accounts idx; rfl
  | cons a rest ih =>
    intro index accounts idx
    simp only [distributeByRankingLoop, List.map_cons]
    rw [ih]

theorem rankingLoop_counts (weights : List Nat) (totalWeight : Nat) (remaining : Int)
    (now : Timestamp) (assignments : List Assignment) :
    ∀ (index : Nat) (accounts : List Account) (idx : Int),
      (distributeByRankingLoop weights totalWeight remaining now assignments index accounts
          idx).1.map (fun a => a.rankingAccounts) =
        rankingCounts accounts.length
          (rankingAmounts weights totalWeight remaining assignments.length index) idx := by
  induction assignments with
  | nil => intro index accounts idx; rfl
  | cons b rest ih =>
    intro index accounts idx
    simp only [distributeByRankingLoop, List.map_cons, List.length_cons, rankingAmounts,
      rankingCounts]
    rw [ih, length_assignSlice, length_slice]

theorem rankingLoop_cursor (weights : List Nat) (totalWeight : Nat) (remaining : Int)
    (now : Timestamp) (assignments : List Assignment) :
    ∀ (index : Nat) (accounts : List Account) (idx : Int),
      (distributeByRankingLoop weights totalWeight remaining now assignments index accounts
          idx).2.2 =
        idx + (rankingAmounts weights totalWeight remaining assignments.length index).sum := by
  induction assignments with
  | nil => intro index accounts idx; simp [distributeByRankingLoop, rankingAmounts]
  | cons b rest ih =>
    intro index accounts idx
    simp only [distributeByRankingLoop, List.length_cons, rankingAmounts, List.sum_cons]
    rw [ih]
    ring

/-! ## Residual accounts -/

theorem map_modify_of_invariant {α β : Type} (g : α → β) (f : α → α) (hf : ∀ a, g (f a) = g a)
    (n : Nat) (l : List α) : (l.modify f n).map g = l.map g := by
  apply List.ext_getElem
  · simp
  · intro i h1 h2
    simp only [List.getElem_map, List.getElem_modify]
    split
    · exact hf _
    · rfl

theorem forall_mem_modify {α : Type} (P : α → Prop) (f : α → α) (hf : ∀ a, P a → P (f a))
    (n : Nat) (l : List α) (hl : ∀ a ∈ l, P a) : ∀ a ∈ l.modify f n, P a := by
  intro a ha
  obtain ⟨i, hi, rfl⟩ := List.getElem_of_mem ha
  have hi2 : i < l.length := by simpa using hi
  rw [List.getElem_modify]
  split
  · exact hf _ (hl _ (List.getElem_mem hi2))
  · exact hl _ (List.getElem_mem hi2)

theorem remainingStep_agentIds (now : Timestamp) (assignments : List Assignment)
    (accounts : List Account) (pos index : Nat) (account : Account) :
    (handleRemainingStep now assignments accounts pos index account).1.map (fun a => a.agentId) =
      assignments.map (fun a => a.agentId) := by
  unfold handleRemainingStep
  split
  · rfl
  · show List.map _ (List.modify _ _ _) = _
    rw [map_modify_of_invariant]
    intro a
    rfl

theorem remainingStep_equitable (now : Timestamp) (assignments : List Assignment)
    (accounts : List Account) (pos index : Nat) (account : Account) :
    (handleRemainingStep now assignments accounts pos index account).1.map
        (fun a => a.equitableAccounts) = assignments.map (fun a => a.equitableAccounts) := by
  unfold handleRemainingStep
  split
  · rfl
  · show List.map _ (List.modify _ _ _) = _
    rw [map_modify_of_invariant]
    intro a
    rfl

theorem remainingStep_consistent (now : Timestamp) (assignments : List Assignment)
    (accounts : List Account) (pos index : Nat) (account : Account)
    (h : ∀ a ∈ assignments, a.Consistent) :
    ∀ a ∈ (handleRemainingStep now assignments accounts pos index account).1, a.Consistent := by
  unfold handleRemainingStep
  split
  · exact h
  · apply forall_mem_modify _ _ _ _ _ h
    intro a ha
    obtain ⟨h1, h2⟩ := ha
    constructor
    · show a.totalAccounts + 1 = a.equitableAccounts + (a.rankingAccounts + 1)
      omega
    · show a.totalAccounts + 1 = (a.accountsList ++ [account.id]).length
      simp [h2]

theorem remainingLoop_agentIds (now : Timestamp) (remaining : List Account) :
    ∀ (pos index : Nat) (assignments : List Assignment) (accounts : List Account),
      (handleRemainingLoop now remaining pos index assignments accounts).1.map
          (fun a => a.agentId) = assignments.map (fun a => a.agentId) := by
  induction remaining with
  | nil => intros; rfl
  | cons account rest ih =>
    intro pos index assignments accounts
    simp only [handleRemainingLoop]
    rw [ih, remainingStep_agentIds]

theorem remainingLoop_equitable (now : Timestamp) (remaining : List Account) :
    ∀ (pos index : Nat) (assignments : List Assignment) (accounts : List Account),
      (handleRemainingLoop now remaining pos index assignments accounts).1.map
          (fun a => a.equitableAccounts) = assignments.map (fun a => a.equitableAccounts) := by
  induction remaining with
  | nil => intros; rfl
  | cons account rest ih =>
    intro pos index assignments accounts
    simp only [handleRemainingLoop]
    rw [ih, remainingStep_equitable]

theorem remainingLoop_consistent (now : Timestamp) (remaining : List Account) :
    ∀ (pos index : Nat) (assignments : List Assignment) (accounts : List Account),
      (∀ a ∈ assignments, a.Consistent) →
      ∀ a ∈ (handleRemainingLoop now remaining pos index assignments accounts).1,
        a.Consistent := by
  induction remaining with
  | nil => intro pos index assignments accounts h; exact h
  | cons account rest ih =>
    intro pos index assignments accounts h
    simp only [handleRemainingLoop]
    exact ih _ _ _ _ (remainingStep_consistent now assignments accounts pos index account h)

theorem handleRemainingAccounts_of_le (assignments : List Assignment) (accounts : List Account)
    (startIndex : Int) (now : Timestamp) (h : (accounts.length : Int) ≤ startIndex) :
    handleRemainingAccounts assignments accounts startIndex now = (assignments, accounts) := by
  have hidx : sliceIndex accounts.length startIndex = accounts.length := by
    unfold sliceIndex
    split <;> omega
  simp [handleRemainingAccounts, sliceFrom, hidx, handleRemainingLoop]

/-! ## The whole run -/

theorem createInitialAssignments_fresh (agents : List Agent) :
    ∀ a ∈ createInitialAssignments agents, a.Fresh := by
  intro a ha
  simp only [createInitialAssignments, List.mem_map] at ha
  obtain ⟨agent, _, rfl⟩ := ha
  exact ⟨rfl, rfl, rfl, rfl⟩

theorem createInitialAssignments_agentIds (agents : List Agent) :
    (createInitialAssignments agents).map (fun a => a.agentId) =
      agents.map (fun agent => agent.id) := by
  simp [createInitialAssignments, Function.comp_def]

/-- The assignments of a run that passed validation, spelled out. -/
theorem distribute_result_of_valid (p : ℚ) (now : Timestamp) (accounts : List Account)
    (agents : List Agent) (hv : validateInputs accounts agents = none) :
    (distribute p now accounts agents).result = .ok
      (distributeByRanking p
        (distributeEquitable (createInitialAssignments (getActiveAgentsSorted agents)) accounts
          (mathFloor ((mathFloor ((accounts.length : ℚ) * p) : ℚ) /
            ((getActiveAgentsSorted agents).length : ℚ))) now).1
        (distributeEquitable (createInitialAssignments (getActiveAgentsSorted agents)) accounts
          (mathFloor ((mathFloor ((accounts.length : ℚ) * p) : ℚ) /
            ((getActiveAgentsSorted agents).length : ℚ))) now).2.1
        ((accounts.length : Int) - mathFloor ((accounts.length : ℚ) * p))
        (getActiveAgentsSorted agents).length now).1 := by
  simp [distribute, hv]

theorem distributeByRanking_agentIds (p : ℚ) (assignments : List Assignment)
    (accounts : List Account) (remaining : Int) (totalAgents : Nat) (now : Timestamp) :
    (distributeByRanking p assignments accounts remaining totalAgents now).1.map
        (fun a => a.agentId) = assignments.map (fun a => a.agentId) := by
  simp only [distributeByRanking, handleRemainingAccounts]
  rw [remainingLoop_agentIds, rankingLoop_agentIds]

theorem distributeByRanking_consistent (p : ℚ) (assignments : List Assignment)
    (accounts : List Account) (remaining : Int) (totalAgents : Nat) (now : Timestamp)
    (h : ∀ a ∈ assignments, a.AfterEquitable) :
    ∀ a ∈ (distributeByRanking p assignments accounts remaining totalAgents now).1,
      a.Consistent := by
  simp only [distributeByRanking, handleRemainingAccounts]
  exact remainingLoop_consistent _ _ _ _ _ _ (rankingLoop_consistent _ _ _ _ _ _ _ _ h)

theorem sum_totalAccounts_of_consistent (assignments : List Assignment)
    (h : ∀ a ∈ assignments, a.Consistent) :
    (assignments.map (fun a => a.totalAccounts)).sum =
      (assignments.map (fun a => a.equitableAccounts)).sum +
        (assignments.map (fun a => a.rankingAccounts)).sum := by
  induction assignments with
  | nil => rfl
  | cons a rest ih =>
    have h1 := (h a (List.mem_cons_self _ _)).1
    have h2 := ih (fun b hb => h b (List.mem_cons_of_mem _ hb))
    simp only [List.map_cons, List.sum_cons]
    omega

/-- The counts of a run that passed validation: the phase-1 counts are `equitableCounts`, and
when the phase-2 cursor ends at or past the end of the accounts (no residual account) the
phase-2 counts are `rankingCounts` of the intended amounts. -/
theorem distribute_counts_of_valid (p : ℚ) (now : Timestamp) (accounts : List Account)
    (agents : List Agent) (hv : validateInputs accounts agents = none) :
    ∃ assignments : List Assignment,
      (distribute p now accounts agents).result = .ok assignments ∧
      assignments.map (fun a => a.agentId) =
        (getActiveAgentsSorted agents).map (fun agent => agent.id) ∧
      (∀ a ∈ assignments, a.Consistent) ∧
      assignments.map (fun a => a.equitableAccounts) =
        equitableCounts accounts.length
          (mathFloor ((mathFloor ((accounts.length : ℚ) * p) : ℚ) / (agents.length : ℚ)))
          agents.length 0 ∧
      ((accounts.length : Int) ≤ mathFloor ((accounts.length : ℚ) * p) +
          (rankingAmounts (calculateWeights agents.length)
            ((calculateWeights agents.length).foldl (fun sum w => sum + w) 0)
            ((accounts.length : Int) - mathFloor ((accounts.length : ℚ) * p))
            agents.length 0).sum →
        assignments.map (fun a => a.rankingAccounts) =
          rankingCounts accounts.length
            (rankingAmounts (calculateWeights agents.length)
              ((calculateWeights agents.length).foldl (fun sum w => sum + w) 0)
              ((accounts.length : Int) - mathFloor ((accounts.length : ℚ) * p))
              agents.length 0)
            (mathFloor ((accounts.length : ℚ) * p))) := by
  have hlen : (getActiveAgentsSorted agents).length = agents.length :=
    List.length_insertionSort _ agents
  have hinit : (createInitialAssignments (getActiveAgentsSorted agents)).length =
      agents.length := by
    simp [createInitialAssignments, hlen]
  refine ⟨_, distribute_result_of_valid p now accounts agents hv, ?_, ?_, ?_, ?_⟩
  · rw [distributeByRanking_agentIds, distributeEquitable, equitableLoop_agentIds,
      createInitialAssignments_agentIds]
  · exact distributeByRanking_consistent p _ _ _ _ now
      (equitableLoop_afterEquitable _ now _ accounts 0
        (createInitialAssignments_fresh (getActiveAgentsSorted agents)))
  · simp only [distributeByRanking, handleRemainingAccounts, distributeEquitable]
    rw [remainingLoop_equitable, rankingLoop_equitable, equitableLoop_counts, hinit, hlen]
  · intro hcur
    have hp1 : (distributeEquitable (createInitialAssignments (getActiveAgentsSorted agents))
        accounts (mathFloor ((mathFloor ((accounts.length : ℚ) * p) : ℚ) /
          ((getActiveAgentsSorted agents).length : ℚ))) now).1.length = agents.length := by
      have h := congrArg List.length (equitableLoop_agentIds
        (mathFloor ((mathFloor ((accounts.length : ℚ) * p) : ℚ) /
          ((getActiveAgentsSorted agents).length : ℚ))) now
        (createInitialAssignments (getActiveAgentsSorted agents)) accounts 0)
      simp only [List.length_map] at h
      exact h.trans hinit
    have hp2 : (distributeEquitable (createInitialAssignments (getActiveAgentsSorted agents))
        accounts (mathFloor ((mathFloor ((accounts.length : ℚ) * p) : ℚ) /
          ((getActiveAgentsSorted agents).length : ℚ))) now).2.1.length = accounts.length :=
      equitableLoop_accounts_length _ now _ accounts 0
    unfold distributeByRanking
    simp only []
    rw [handleRemainingAccounts_of_le]
    · rw [rankingLoop_counts, hp1, hp2, hlen]
    · rw [rankingLoop_accounts_length, rankingLoop_cursor, hp1, hp2, hlen]
      exact hcur

/-! ## Ranking -/

/-- The scored and sorted items that `calculateRankings` numbers. -/
theorem calculateRankings_fst (repo : AgentRepository) (agents : List Agent) :
    (calculateRankings repo (some agents)).1 =
      ((sortScoredAgents (agents.map fun agent => (agent, calculateScore agent.metrics))).mapIdx
        fun index item => (item.1.updateRanking ((index : Int) + 1), item.2)).map
        (fun item => item.1) := rfl

theorem length_sortScoredAgents (scored : List (Agent × ℚ)) :
    (sortScoredAgents scored).length = scored.length :=
  List.length_insertionSort _ scored

theorem length_calculateRankings (repo : AgentRepository) (agents : List Agent) :
    (calculateRankings repo (some agents)).1.length = agents.length := by
  simp [calculateRankings_fst, length_sortScoredAgents]

theorem getElem_calculateRankings (repo : AgentRepository) (agents : List Agent) (i : Nat)
    (h1 : i < (calculateRankings repo (some agents)).1.length)
    (h2 : i < (sortScoredAgents
      (agents.map fun agent => (agent, calculateScore agent.metrics))).length) :
    (calculateRankings repo (some agents)).1[i] =
      Agent.updateRanking
        ((sortScoredAgents (agents.map fun agent => (agent, calculateScore agent.metrics)))[i]).1
        ((i : Int) + 1) := by
  simp [calculateRankings_fst]

theorem calculateRankings_ids_perm (repo : AgentRepository) (agents : List Agent) :
    ((calculateRankings repo (some agents)).1.map (fun a => a.id)).Perm
      (agents.map (fun a => a.id)) := by
  have h1 : (calculateRankings repo (some agents)).1.map (fun a => a.id) =
      (sortScoredAgents (agents.map fun agent => (agent, calculateScore agent.metrics))).map
        (fun item => item.1.id) := by
    apply List.ext_getElem
    · simp [calculateRankings_fst]
    · intro i h1 h2
      simp [calculateRankings_fst, Agent.updateRanking]
  rw [h1]
  have h2 := (List.perm_insertionSort (fun a b : Agent × ℚ => a.2 ≥ b.2)
    (agents.map fun agent => (agent, calculateScore agent.metrics))).map (fun item => item.1.id)
  simpa [sortScoredAgents, Function.comp_def] using h2

theorem exists_getElem_of_pair_sublist {α : Type} {x y : α} :
    ∀ {l : List α}, List.Sublist [x, y] l →
      ∃ (p q : Nat) (hp : p < l.length) (hq : q < l.length), p < q ∧ l[p] = x ∧ l[q] = y := by
  intro l
  induction l with
  | nil => intro h; simp at h
  | cons c l ih =>
    intro h
    cases h with
    | cons _ h =>
      obtain ⟨p, q, hp, hq, hpq, hx, hy⟩ := ih h
      exact ⟨p + 1, q + 1, by simp; omega, by simp; omega, by omega, by simpa using hx,
        by simpa using hy⟩
    | cons₂ _ h =>
      have hy : y ∈ l := by simpa using h
      obtain ⟨q, hq, hq2⟩ := List.getElem_of_mem hy
      exact ⟨0, q + 1, by simp, by simp; omega, by omega, by simp, by simpa using hq2⟩

theorem pair_sublist_of_lt {α : Type} :
    ∀ (l : List α) (i j : Nat) (hi : i < l.length) (hj : j < l.length), i < j →
      List.Sublist [l[i], l[j]] l := by
  intro l
  induction l with
  | nil => intro i j hi; simp at hi
  | cons c l ih =>
    intro i j hi hj hij
    cases j with
    | zero => omega
    | succ j =>
      have hj2 : j < l.length := by simpa using hj
      cases i with
      | zero =>
        simp only [List.getElem_cons_zero, List.getElem_cons_succ]
        exact List.Sublist.cons₂ _ (List.singleton_sublist.2 (List.getElem_mem hj2))
      | succ i =>
        have hi2 : i < l.length := by simpa using hi
        simp only [List.getElem_cons_succ]
        exact List.Sublist.cons _ (ih i j hi2 hj2 (by omega))

/-- With distinct agent ids, a ranked agent whose id is that of the item at position `p` of the
sorted items has ranking `p + 1`. -/
theorem ranking_of_sorted_position (repo : AgentRepository) (agents : List Agent)
    (hnodup : (agents.map (fun a => a.id)).Nodup) (a : Agent)
    (ha : a ∈ (calculateRankings repo (some agents)).1) (p : Nat)
    (hp : p < (sortScoredAgents
      (agents.map fun agent => (agent, calculateScore agent.metrics))).length)
    (hid : a.id = ((sortScoredAgents
      (agents.map fun agent => (agent, calculateScore agent.metrics)))[p]).1.id) :
    a.currentRanking = (p : Int) + 1 := by
  have hp2 : p < (calculateRankings repo (some agents)).1.length := by
    rw [length_calculateRankings]
    simpa [length_sortScoredAgents] using hp
  have hnd : ((calculateRankings repo (some agents)).1.map (fun a => a.id)).Nodup :=
    (calculateRankings_ids_perm repo agents).nodup_iff.2 hnodup
  have hget := getElem_calculateRankings repo agents p hp2 hp
  have heq : a = (calculateRankings repo (some agents)).1[p] := by
    apply List.inj_on_of_nodup_map hnd ha (List.getElem_mem hp2)
    rw [hget, hid]
    rfl
  rw [heq, hget]
  rfl

/-- Three agents with scores 4, 20 and 4, ranked: the tie keeps the input order. -/
theorem calculateRankings_three_agents :
    (calculateRankings { agents := [] }
      (some [metricAgent 1 10, metricAgent 2 50, metricAgent 3 10])).1 =
      [(metricAgent 2 50).updateRanking 1, (metricAgent 1 10).updateRanking 2,
        (metricAgent 3 10).updateRanking 3] := by
  norm_num [calculateRankings, sortScoredAgents, calculateScore, metricAgent,
    List.orderedInsert, Agent.updateRanking]

/-! ## Two small runs, evaluated -/

/-- Three accounts for two agents at 50%: the account at position 0 reaches nobody. -/
theorem distribute_three_accounts_two_agents :
    (distribute (1 / 2) 0 [sampleAccount 0, sampleAccount 1, sampleAccount 2]
      [sampleAgent 10 1, sampleAgent 11 2]).result =
      .ok [{ agentId := 10, equitableAccounts := 0, rankingAccounts := 1, totalAccounts := 1,
             accountsList := [1] },
           { agentId := 11, equitableAccounts := 0, rankingAccounts := 1, totalAccounts := 1,
             accountsList := [2] }] := by
  rw [distribute_result_of_valid _ _ _ _ (by simp [validateInputs])]
  norm_num [getActiveAgentsSorted, sampleAgent, sampleAccount, createInitialAssignments,
    distributeEquitable, distributeEquitableLoop, distributeByRanking, distributeByRankingLoop,
    handleRemainingAccounts, handleRemainingLoop, calculateWeights, mathFloor, mathRound,
    slice, sliceFrom, sliceIndex, assignSlice, List.range, List.range.loop, List.orderedInsert,
    Account.assignToAgent, handleRemainingStep]
  decide

/-- Four accounts for four agents at 75%: the one ranking-phase account is a residual. -/
theorem distribute_four_accounts_four_agents :
    (distribute (3 / 4) 0 [sampleAccount 0, sampleAccount 1, sampleAccount 2, sampleAccount 3]
      [sampleAgent 10 1, sampleAgent 11 2, sampleAgent 12 3, sampleAgent 13 4]).result =
      .ok [{ agentId := 10, equitableAccounts := 0, rankingAccounts := 1, totalAccounts := 1,
             accountsList := [3] },
           { agentId := 11, equitableAccounts := 0, rankingAccounts := 0, totalAccounts := 0,
             accountsList := [] },
           { agentId := 12, equitableAccounts := 0, rankingAccounts := 0, totalAccounts := 0,
             accountsList := [] },
           { agentId := 13, equitableAccounts := 0, rankingAccounts := 0, totalAccounts := 0,
             accountsList := [] }] := by
  rw [distribute_result_of_valid _ _ _ _ (by simp [validateInputs])]
  norm_num [getActiveAgentsSorted, sampleAgent, sampleAccount, createInitialAssignments,
    distributeEquitable, distributeEquitableLoop, distributeByRanking, distributeByRankingLoop,
    handleRemainingAccounts, handleRemainingLoop, calculateWeights, mathFloor, mathRound,
    slice, sliceFrom, sliceIndex, assignSlice, List.range, List.range.loop, List.orderedInsert,
    Account.assignToAgent, handleRemainingStep]

/-! ## Claims -/

/-- C1 (the code departs from it): on the valid input of three accounts, two agents and
`equitablePercentage = 1/2` the `totalAccounts` of the returned assignments sum to 2, not to
the 3 accounts given. -/
theorem distribute_count_not_conserved :
    ∃ assignments : List Assignment,
      (distribute (1 / 2) 0 [sampleAccount 0, sampleAccount 1, sampleAccount 2]
        [sampleAgent 10 1, sampleAgent 11 2]).result = .ok assignments ∧
      (assignments.map (fun a => a.totalAccounts)).sum = 2 ∧
      [sampleAccount 0, sampleAccount 1, sampleAccount 2].length = 3 :=
  ⟨_, distribute_three_accounts_two_agents, by decide, by decide⟩

/-- C2 (the code departs from it): on the valid input of three accounts with distinct ids,
two agents and `equitablePercentage = 1/2`, the id of the first account is in no returned
`accountsList`. -/
theorem distribute_account_omitted :
    ∃ assignments : List Assignment,
      (distribute (1 / 2) 0 [sampleAccount 0, sampleAccount 1, sampleAccount 2]
        [sampleAgent 10 1, sampleAgent 11 2]).result = .ok assignments ∧
      ([sampleAccount 0, sampleAccount 1, sampleAccount 2].map (fun acc => acc.id)).Nodup ∧
      ∀ a ∈ assignments, (sampleAccount 0).id ∉ a.accountsList :=
  ⟨_, distribute_three_accounts_two_agents, by decide, by decide⟩

/-- C3: `distribute` throws exactly when `accounts` is empty, `agents` is empty, or there
are fewer accounts than agents; one account for two agents throws; non-empty agents with at
least as many accounts return a result. -/
theorem distribute_fails_iff_invalid (p : ℚ) (now : Timestamp) :
    (∀ (accounts : List Account) (agents : List Agent),
      (distribute p now accounts agents).Failed ↔
        (accounts = [] ∨ agents = [] ∨ accounts.length < agents.length)) ∧
    (∀ (a1 : Account) (agent1 agent2 : Agent),
      (distribute p now [a1] [agent1, agent2]).Failed) ∧
    (∀ (accounts : List Account) (agents : List Agent),
      agents ≠ [] → agents.length ≤ accounts.length →
        ∃ assignments, (distribute p now accounts agents).result = .ok assignments) := by
  have key : ∀ (accounts : List Account) (agents : List Agent),
      (distribute p now accounts agents).Failed ↔
        (accounts = [] ∨ agents = [] ∨ accounts.length < agents.length) := by
    intro accounts agents
    rw [distribute_failed_iff, Ne, validateInputs_eq_none_iff]
    constructor
    · intro h
      by_contra hc
      push_neg at hc
      exact h ⟨hc.1, hc.2.1, hc.2.2⟩
    · rintro h ⟨h1, h2, h3⟩
      rcases h with h | h | h
      · exact h1 h
      · exact h2 h
      · omega
  refine ⟨key, ?_, ?_⟩
  · intro a1 agent1 agent2
    exact (key _ _).2 (Or.inr (Or.inr (by simp)))
  · intro accounts agents hne hle
    have hv : validateInputs accounts agents = none := by
      rw [validateInputs_eq_none_iff]
      refine ⟨?_, hne, hle⟩
      rintro rfl
      cases agents with
      | nil => exact hne rfl
      | cons a l => simp at hle
    simp [distribute, hv]

/-- Instance of C3 at one sample account and two sample agents. -/
theorem distribute_fails_iff_invalid_witness :
    (distribute (1 / 2) 0 [sampleAccount 1] [sampleAgent 1 1, sampleAgent 2 2]).Failed :=
  (distribute_fails_iff_invalid (1 / 2) 0).2.1 _ _ _

/-- C4: when `distribute` throws, the accounts and the agents array are as they were: no
account has changed its `assignedAgent` or `assignmentDate`, the agents keep order and
contents. -/
theorem distribute_failure_no_mutation (p : ℚ) (now : Timestamp) (accounts : List Account)
    (agents : List Agent) (h : (distribute p now accounts agents).Failed) :
    (distribute p now accounts agents).accounts = accounts ∧
      (distribute p now accounts agents).agents = agents := by
  have hv := (distribute_failed_iff p now accounts agents).1 h
  unfold distribute
  cases hval : validateInputs accounts agents with
  | none => exact absurd hval hv
  | some err => exact ⟨rfl, rfl⟩

/-- Instance of C4 at one account assigned beforehand and two agents given out of rank order. -/
theorem distribute_failure_no_mutation_witness :
    (distribute (1 / 2) 5 [(sampleAccount 1).assignToAgent 2 3]
        [sampleAgent 2 2, sampleAgent 1 1]).Failed ∧
      (distribute (1 / 2) 5 [(sampleAccount 1).assignToAgent 2 3]
        [sampleAgent 2 2, sampleAgent 1 1]).accounts = [(sampleAccount 1).assignToAgent 2 3] ∧
      (distribute (1 / 2) 5 [(sampleAccount 1).assignToAgent 2 3]
        [sampleAgent 2 2, sampleAgent 1 1]).agents = [sampleAgent 2 2, sampleAgent 1 1] :=
  ⟨(distribute_failed_iff _ _ _ _).2 (by simp [validateInputs]),
    distribute_failure_no_mutation (1 / 2) 5 _ _
      ((distribute_failed_iff _ _ _ _).2 (by simp [validateInputs]))⟩

/-- C5: on valid input `distribute` returns one assignment per input agent, and the agent ids
of the returned sequence are those of the input agents listed by ascending `currentRanking`. -/
theorem distribute_rank_order (p : ℚ) (now : Timestamp) (accounts : List Account)
    (agents : List Agent) (hne : agents ≠ []) (hle : agents.length ≤ accounts.length) :
    ∃ (assignments : List Assignment) (sorted : List Agent),
      (distribute p now accounts agents).result = .ok assignments ∧
      assignments.length = agents.length ∧
      sorted.Perm agents ∧
      sorted.Sorted (fun a b => a.currentRanking ≤ b.currentRanking) ∧
      assignments.map (fun a => a.agentId) = sorted.map (fun agent => agent.id) := by
  have hv : validateInputs accounts agents = none := by
    rw [validateInputs_eq_none_iff]
    refine ⟨?_, hne, hle⟩
    rintro rfl
    cases agents with
    | nil => exact hne rfl
    | cons a l => simp at hle
  have hids := distributeByRanking_agentIds p
    (distributeEquitable (createInitialAssignments (getActiveAgentsSorted agents)) accounts
      (mathFloor ((mathFloor ((accounts.length : ℚ) * p) : ℚ) /
        ((getActiveAgentsSorted agents).length : ℚ))) now).1
    (distributeEquitable (createInitialAssignments (getActiveAgentsSorted agents)) accounts
      (mathFloor ((mathFloor ((accounts.length : ℚ) * p) : ℚ) /
        ((getActiveAgentsSorted agents).length : ℚ))) now).2.1
    ((accounts.length : Int) - mathFloor ((accounts.length : ℚ) * p))
    (getActiveAgentsSorted agents).length now
  rw [distributeEquitable, equitableLoop_agentIds, createInitialAssignments_agentIds] at hids
  refine ⟨_, getActiveAgentsSorted agents, distribute_result_of_valid p now accounts agents hv,
    ?_, List.perm_insertionSort _ agents, List.sorted_insertionSort _ agents, hids⟩
  have hlen := congrArg List.length hids
  simp only [List.length_map] at hlen
  exact hlen.trans (List.length_insertionSort _ agents)

/-- Instance of C5: three accounts, two agents given worst rank first. -/
theorem distribute_rank_order_witness :
    ∃ (assignments : List Assignment) (sorted : List Agent),
      (distribute (1 / 2) 0 [sampleAccount 0, sampleAccount 1, sampleAccount 2]
        [sampleAgent 11 2, sampleAgent 10 1]).result = .ok assignments ∧
      assignments.length = [sampleAgent 11 2, sampleAgent 10 1].length ∧
      sorted.Perm [sampleAgent 11 2, sampleAgent 10 1] ∧
      sorted.Sorted (fun a b => a.currentRanking ≤ b.currentRanking) ∧
      assignments.map (fun a => a.agentId) = sorted.map (fun agent => agent.id) :=
  distribute_rank_order (1 / 2) 0 [sampleAccount 0, sampleAccount 1, sampleAccount 2]
    [sampleAgent 11 2, sampleAgent 10 1] (by simp) (by simp)

/-- C6: every assignment returned by `distribute` has
`totalAccounts = equitableAccounts + rankingAccounts = accountsList.length`. -/
theorem distribute_assignment_invariant (p : ℚ) (now : Timestamp) (accounts : List Account)
    (agents : List Agent) (assignments : List Assignment)
    (h : (distribute p now accounts agents).result = .ok assignments) :
    ∀ a ∈ assignments,
      a.totalAccounts = a.equitableAccounts + a.rankingAccounts ∧
        a.equitableAccounts + a.rankingAccounts = a.accountsList.length := by
  cases hv : validateInputs accounts agents with
  | some err => simp [distribute, hv] at h
  | none =>
    rw [distribute_result_of_valid p now accounts agents hv] at h
    injection h with h
    subst h
    intro a ha
    have hc := distributeByRanking_consistent p _ _ _ _ now
      (equitableLoop_afterEquitable _ now _ accounts 0
        (createInitialAssignments_fresh (getActiveAgentsSorted agents))) a ha
    exact ⟨hc.1, hc.1 ▸ hc.2⟩

/-- Instance of C6 on a run whose only ranking-phase account is a residual one. -/
theorem distribute_assignment_invariant_witness :
    (distribute (3 / 4) 0 [sampleAccount 0, sampleAccount 1, sampleAccount 2, sampleAccount 3]
      [sampleAgent 10 1, sampleAgent 11 2, sampleAgent 12 3, sampleAgent 13 4]).result =
      .ok [{ agentId := 10, equitableAccounts := 0, rankingAccounts := 1, totalAccounts := 1,
             accountsList := [3] },
           { agentId := 11, equitableAccounts := 0, rankingAccounts := 0, totalAccounts := 0,
             accountsList := [] },
           { agentId := 12, equitableAccounts := 0, rankingAccounts := 0, totalAccounts := 0,
             accountsList := [] },
           { agentId := 13, equitableAccounts := 0, rankingAccounts := 0, totalAccounts := 0,
             accountsList := [] }] ∧
    ((1 : Nat) = 0 + 1 ∧ 0 + 1 = [(3 : AccountId)].length) :=
  ⟨distribute_four_accounts_four_agents,
    distribute_assignment_invariant (3 / 4) 0 _ _ _ distribute_four_accounts_four_agents
      { agentId := 10, equitableAccounts := 0, rankingAccounts := 1, totalAccounts := 1,
        accountsList := [3] } (List.mem_cons_self _ _)⟩

/-- C7: 1000 accounts, 10 agents ranked 1..10 and `equitablePercentage = 1/2`: every agent
gets 50 equitable accounts, the rank-1 agent 91 ranking accounts, the rank-10 agent 9 (the ten
ranking counts are 91, 82, 73, 64, 55, 45, 36, 27, 18, 9 by rank), and the `totalAccounts`
sum to 1000. -/
theorem distribute_worked_example (now : Timestamp) (accounts : List Account)
    (agents : List Agent) (hacc : accounts.length = 1000)
    (hag : (agents.map (fun agent => agent.currentRanking)).Perm [1, 2, 3, 4, 5, 6, 7, 8, 9, 10]) :
    ∃ (assignments : List Assignment) (sorted : List Agent),
      (distribute (1 / 2) now accounts agents).result = .ok assignments ∧
      sorted.Perm agents ∧
      sorted.map (fun agent => agent.currentRanking) = [1, 2, 3, 4, 5, 6, 7, 8, 9, 10] ∧
      assignments.map (fun a => a.agentId) = sorted.map (fun agent => agent.id) ∧
      assignments.map (fun a => a.equitableAccounts) = List.replicate 10 50 ∧
      assignments.map (fun a => a.rankingAccounts) = [91, 82, 73, 64, 55, 45, 36, 27, 18, 9] ∧
      (assignments.map (fun a => a.totalAccounts)).sum = 1000 := by
  have hk : agents.length = 10 := by simpa using hag.length_eq
  have hv : validateInputs accounts agents = none := by
    rw [validateInputs_eq_none_iff]
    refine ⟨?_, ?_, ?_⟩
    · rintro rfl
      simp at hacc
    · rintro rfl
      simp at hk
    · omega
  obtain ⟨assignments, hres, hids, hcons, heq, hrk⟩ :=
    distribute_counts_of_valid (1 / 2) now accounts agents hv
  rw [hacc, hk] at heq hrk
  have hE : mathFloor (((1000 : Nat) : ℚ) * (1 / 2)) = 500 := by norm_num [mathFloor]
  have hq : mathFloor (((500 : Int) : ℚ) / ((10 : Nat) : ℚ)) = 50 := by norm_num [mathFloor]
  have hW : (calculateWeights 10).foldl (fun sum w => sum + w) 0 = 55 := by decide
  have hamounts : rankingAmounts (calculateWeights 10) 55 (((1000 : Nat) : Int) - 500) 10 0 =
      [91, 82, 73, 64, 55, 45, 36, 27, 18, 9] := by
    norm_num [rankingAmounts, calculateWeights, mathRound, List.range, List.range.loop]
  rw [hE, hq] at heq
  rw [hE, hW, hamounts] at hrk
  have heq2 : assignments.map (fun a => a.equitableAccounts) = List.replicate 10 50 := by
    rw [heq]
    decide
  have hrk2 : assignments.map (fun a => a.rankingAccounts) =
      [91, 82, 73, 64, 55, 45, 36, 27, 18, 9] := by
    rw [hrk (by decide)]
    decide
  have hsorted : (getActiveAgentsSorted agents).map (fun agent => agent.currentRanking) =
      [1, 2, 3, 4, 5, 6, 7, 8, 9, 10] := by
    apply List.eq_of_perm_of_sorted (r := (· ≤ ·))
    · exact ((List.perm_insertionSort _ agents).map _).trans hag
    · rw [List.Sorted, List.pairwise_map]
      exact List.sorted_insertionSort _ agents
    · decide
  refine ⟨assignments, getActiveAgentsSorted agents, hres, List.perm_insertionSort _ agents,
    hsorted, hids, heq2, hrk2, ?_⟩
  rw [sum_totalAccounts_of_consistent assignments hcons, heq2, hrk2]
  decide

/-- Instance of C7 at a thousand sample accounts and ten sample agents given worst rank
first. -/
theorem distribute_worked_example_witness :
    thousandAccounts.length = 1000 ∧
    (tenAgents.map (fun agent => agent.currentRanking)).Perm [1, 2, 3, 4, 5, 6, 7, 8, 9, 10] ∧
    ∃ (assignments : List Assignment) (sorted : List Agent),
      (distribute (1 / 2) 0 thousandAccounts tenAgents).result = .ok assignments ∧
      sorted.Perm tenAgents ∧
      sorted.map (fun agent => agent.currentRanking) = [1, 2, 3, 4, 5, 6, 7, 8, 9, 10] ∧
      assignments.map (fun a => a.agentId) = sorted.map (fun agent => agent.id) ∧
      assignments.map (fun a => a.equitableAccounts) = List.replicate 10 50 ∧
      assignments.map (fun a => a.rankingAccounts) = [91, 82, 73, 64, 55, 45, 36, 27, 18, 9] ∧
      (assignments.map (fun a => a.totalAccounts)).sum = 1000 :=
  ⟨by simp [thousandAccounts], List.reverse_perm [1, 2, 3, 4, 5, 6, 7, 8, 9, 10],
    distribute_worked_example 0 thousandAccounts tenAgents (by simp [thousandAccounts])
      (List.reverse_perm [1, 2, 3, 4, 5, 6, 7, 8, 9, 10])⟩

/-- C8: `calculateRankings` on `n` agents returns `n` agents whose `currentRanking` values are
`1, 2, ..., n` in the order returned (the agent at position `i` has ranking `i + 1`), the
returned agents are the input agents up to their ranking, permuted; the empty list gives the
empty list. -/
theorem calculateRankings_dense (repo : AgentRepository) (agents : List Agent) :
    (calculateRankings repo (some agents)).1.length = agents.length ∧
    (calculateRankings repo (some agents)).1.map (fun a => a.currentRanking) =
      (List.range agents.length).map (fun (i : Nat) => (i : Int) + 1) ∧
    ((calculateRankings repo (some agents)).1.map (fun a => a.updateRanking 0)).Perm
      (agents.map (fun a => a.updateRanking 0)) ∧
    (calculateRankings repo (some [])).1 = [] := by
  refine ⟨length_calculateRankings repo agents, ?_, ?_, rfl⟩
  · apply List.ext_getElem
    · simp [length_calculateRankings]
    · intro i h1 h2
      have h3 : i < (calculateRankings repo (some agents)).1.length := by simpa using h1
      have h4 : i < (sortScoredAgents
          (agents.map fun agent => (agent, calculateScore agent.metrics))).length := by
        rw [length_sortScoredAgents]
        simpa [length_calculateRankings] using h3
      rw [List.getElem_map, getElem_calculateRankings repo agents i h3 h4]
      simp [Agent.updateRanking]
  · have h1 : (calculateRankings repo (some agents)).1.map (fun a => a.updateRanking 0) =
        (sortScoredAgents (agents.map fun agent => (agent, calculateScore agent.metrics))).map
          (fun item => item.1.updateRanking 0) := by
      apply List.ext_getElem
      · simp [calculateRankings_fst]
      · intro i h1 h2
        simp [calculateRankings_fst, Agent.updateRanking]
    rw [h1]
    have h2 := (List.perm_insertionSort (fun a b : Agent × ℚ => a.2 ≥ b.2)
      (agents.map fun agent => (agent, calculateScore agent.metrics))).map
      (fun item => item.1.updateRanking 0)
    simpa [sortScoredAgents, Function.comp_def] using h2

/-- C10: the score is `0.4 * conversionRate + 0.4 * (totalSales / 1000) +
0.2 * (closedAccounts / 10)`, an absent metric counting as 0. -/
theorem calculateScore_formula (metrics : Metrics) :
    calculateScore metrics =
      0.4 * metrics.conversionRate.getD 0 + 0.4 * (metrics.totalSales.getD 0 / 1000) +
        0.2 * (metrics.closedAccounts.getD 0 / 10) := by
  unfold calculateScore
  ring

/-- C16: the rotation rate is `min(0.2 + (currentRanking / 10) * 0.1, 0.4)`, it is never above
0.4, and an agent with a larger `currentRanking` never has a lower rate. -/
theorem calculateRotationRate_bounded_monotone (a b : Agent)
    (h : a.currentRanking ≤ b.currentRanking) :
    calculateRotationRate a = min (0.2 + ((a.currentRanking : ℚ) / 10) * 0.1) 0.4 ∧
      calculateRotationRate a ≤ 0.4 ∧
      calculateRotationRate a ≤ calculateRotationRate b := by
  refine ⟨rfl, min_le_right _ _, ?_⟩
  unfold calculateRotationRate
  apply min_le_min_right
  have h2 : (a.currentRanking : ℚ) ≤ (b.currentRanking : ℚ) := by exact_mod_cast h
  linarith

/-- Instance of C16 at the agents ranked 1 and 30. -/
theorem calculateRotationRate_bounded_monotone_witness :
    (sampleAgent 1 1).currentRanking ≤ (sampleAgent 2 30).currentRanking ∧
    (calculateRotationRate (sampleAgent 1 1) =
        min (0.2 + (((sampleAgent 1 1).currentRanking : ℚ) / 10) * 0.1) 0.4 ∧
      calculateRotationRate (sampleAgent 1 1) ≤ 0.4 ∧
      calculateRotationRate (sampleAgent 1 1) ≤ calculateRotationRate (sampleAgent 2 30)) :=
  ⟨by decide, calculateRotationRate_bounded_monotone (sampleAgent 1 1) (sampleAgent 2 30)
    (by decide)⟩

/-! ## Re-ranking -/

theorem calculateRankings_rankings (repo : AgentRepository) (agents : List Agent) :
    (calculateRankings repo (some agents)).1.map (fun a => a.currentRanking) =
      (List.range agents.length).map (fun (i : Nat) => (i : Int) + 1) := by
  apply List.ext_getElem
  · simp [length_calculateRankings]
  · intro i h1 h2
    have h3 : i < (calculateRankings repo (some agents)).1.length := by simpa using h1
    have h4 : i < (sortScoredAgents
        (agents.map fun agent => (agent, calculateScore agent.metrics))).length := by
      rw [length_sortScoredAgents]
      simpa [length_calculateRankings] using h3
    rw [List.getElem_map, getElem_calculateRankings repo agents i h3 h4]
    simp [Agent.updateRanking]

theorem sortScoredAgents_snd (agents : List Agent) :
    ∀ item ∈ sortScoredAgents (agents.map fun agent => (agent, calculateScore agent.metrics)),
      item.2 = calculateScore item.1.metrics := by
  intro item hitem
  rw [sortScoredAgents, List.mem_insertionSort] at hitem
  simp only [List.mem_map] at hitem
  obtain ⟨agent, _, rfl⟩ := hitem
  rfl

theorem calculateRankings_sorted_by_score (repo : AgentRepository) (agents : List Agent) :
    (calculateRankings repo (some agents)).1.Sorted
      (fun a b => calculateScore a.metrics ≥ calculateScore b.metrics) := by
  have hsorted : (sortScoredAgents
      (agents.map fun agent => (agent, calculateScore agent.metrics))).Sorted
      (fun a b => a.2 ≥ b.2) := List.sorted_insertionSort _ _
  rw [List.Sorted, List.pairwise_iff_getElem]
  intro i j hi hj hij
  have hi2 : i < (sortScoredAgents
      (agents.map fun agent => (agent, calculateScore agent.metrics))).length := by
    rw [length_sortScoredAgents]; simpa [length_calculateRankings] using hi
  have hj2 : j < (sortScoredAgents
      (agents.map fun agent => (agent, calculateScore agent.metrics))).length := by
    rw [length_sortScoredAgents]; simpa [length_calculateRankings] using hj
  rw [getElem_calculateRankings repo agents i hi hi2,
    getElem_calculateRankings repo agents j hj hj2]
  have hrel := (List.pairwise_iff_getElem.1 hsorted) i j hi2 hj2 hij
  rw [sortScoredAgents_snd agents _ (List.getElem_mem hi2),
    sortScoredAgents_snd agents _ (List.getElem_mem hj2)] at hrel
  exact hrel

theorem calculateRankings_of_sorted (repo : AgentRepository) (agents : List Agent)
    (hsorted : agents.Sorted (fun a b => calculateScore a.metrics ≥ calculateScore b.metrics)) :
    (calculateRankings repo (some agents)).1 =
      agents.mapIdx (fun index agent => agent.updateRanking ((index : Int) + 1)) := by
  have h1 : sortScoredAgents (agents.map fun agent => (agent, calculateScore agent.metrics)) =
      agents.map fun agent => (agent, calculateScore agent.metrics) := by
    apply List.Sorted.insertionSort_eq
    rw [List.Sorted, List.pairwise_map]
    exact hsorted
  rw [calculateRankings_fst, h1]
  apply List.ext_getElem
  · simp
  · intro i h2 h3
    simp

theorem calculateRankings_fixed (repo : AgentRepository) (agents : List Agent)
    (hsorted : agents.Sorted (fun a b => calculateScore a.metrics ≥ calculateScore b.metrics))
    (hrank : agents.map (fun a => a.currentRanking) =
      (List.range agents.length).map (fun (i : Nat) => (i : Int) + 1)) :
    (calculateRankings repo (some agents)).1 = agents := by
  rw [calculateRankings_of_sorted repo agents hsorted]
  apply List.ext_getElem
  · simp
  · intro i h1 h2
    have h3 := congrArg (fun l => l[i]?) hrank
    simp only [List.getElem?_map, List.getElem?_eq_getElem h2, Option.map_some'] at h3
    rw [List.getElem?_eq_getElem (by simpa using h2)] at h3
    simp only [Option.map_some', List.getElem_range, Option.some.injEq] at h3
    rw [List.getElem_mapIdx]
    unfold Agent.updateRanking
    rw [← h3]

/-! ## Selection of low-value accounts -/

theorem sliceIndex_zero (len : Nat) : sliceIndex len 0 = 0 := by
  simp [sliceIndex]

theorem slice_zero_eq_take {α : Type} (xs : List α) (stop : Int) :
    slice xs 0 stop = xs.take (sliceIndex xs.length stop) := by
  simp [slice, sliceIndex_zero]

theorem selectLowValueAccounts_eq_take (accounts : List Account) (percentage : ℚ) :
    selectLowValueAccounts accounts percentage =
      (accounts.insertionSort fun a b => a.potentialValue ≤ b.potentialValue).take
        (sliceIndex accounts.length (mathFloor ((accounts.length : ℚ) * percentage))) := by
  unfold selectLowValueAccounts
  simp only [slice_zero_eq_take, List.length_insertionSort]

theorem length_selectLowValueAccounts (accounts : List Account) (percentage : ℚ) :
    (selectLowValueAccounts accounts percentage).length =
      sliceIndex accounts.length (mathFloor ((accounts.length : ℚ) * percentage)) := by
  rw [selectLowValueAccounts_eq_take, List.length_take, List.length_insertionSort]
  exact min_eq_left (sliceIndex_le _ _)

theorem mathFloor_mul_nonneg (n : Nat) (p : ℚ) (hp : 0 ≤ p) :
    0 ≤ mathFloor ((n : ℚ) * p) := by
  unfold mathFloor
  exact Int.floor_nonneg.2 (mul_nonneg (Nat.cast_nonneg n) hp)

theorem mathFloor_mul_le (n : Nat) (p : ℚ) (hp : p ≤ 1) :
    mathFloor ((n : ℚ) * p) ≤ (n : Int) := by
  unfold mathFloor
  have h1 : (n : ℚ) * p ≤ (n : ℚ) := by
    have := mul_le_mul_of_nonneg_left hp (Nat.cast_nonneg (α := ℚ) n)
    simpa using this
  have h2 : ⌊(n : ℚ) * p⌋ ≤ ⌊(n : ℚ)⌋ := Int.floor_le_floor h1
  simpa using h2

theorem sliceIndex_mathFloor (n : Nat) (p : ℚ) (hp0 : 0 ≤ p) (hp1 : p ≤ 1) :
    ((sliceIndex n (mathFloor ((n : ℚ) * p)) : Nat) : Int) = mathFloor ((n : ℚ) * p) := by
  have h0 := mathFloor_mul_nonneg n p hp0
  have h1 := mathFloor_mul_le n p hp1
  unfold sliceIndex
  split <;> omega

/-! ## Saving cleared accounts -/

theorem clearIds_id (ids : List AccountId) (account : Account) :
    (clearIds ids account).id = account.id := by
  unfold clearIds
  split <;> rfl

theorem clearIds_nil (accounts : List Account) : accounts.map (clearIds []) = accounts := by
  have h : clearIds [] = id := by
    funext a
    simp [clearIds]
  rw [h, List.map_id]

theorem save_clearAssignment (accounts : List Account)
    (hnodup : (accounts.map (fun a => a.id)).Nodup) (ids : List AccountId) (s : Account)
    (hs : s ∈ accounts) :
    (AccountRepository.save { accounts := accounts.map (clearIds ids) }
        (clearAssignment s)).accounts = accounts.map (clearIds (s.id :: ids)) := by
  have hany : (accounts.map (clearIds ids)).any
      (fun a => a.id == (clearAssignment s).id) = true := by
    rw [List.any_eq_true]
    exact ⟨clearIds ids s, List.mem_map_of_mem _ hs, by simp [clearIds_id, clearAssignment]⟩
  unfold AccountRepository.save
  simp only [hany, if_true, List.map_map]
  apply List.map_congr_left
  intro a ha
  simp only [Function.comp_apply, clearIds_id]
  by_cases hid : a.id = s.id
  · have : a = s := List.inj_on_of_nodup_map hnodup ha hs hid
    subst this
    simp [clearIds, clearAssignment]
  · have h1 : a.id ≠ (clearAssignment s).id := hid
    simp [clearIds, h1, hid]

theorem saveAll_clearAssignment (accounts : List Account)
    (hnodup : (accounts.map (fun a => a.id)).Nodup) (selected : List Account) :
    ∀ (ids : List AccountId), (∀ s ∈ selected, s ∈ accounts) →
      (AccountRepository.saveAll { accounts := accounts.map (clearIds ids) }
          (selected.map clearAssignment)).accounts =
        accounts.map (clearIds (selected.reverse.map (fun a => a.id) ++ ids)) := by
  induction selected with
  | nil => intro ids _; rfl
  | cons s rest ih =>
    intro ids hsel
    have hs : s ∈ accounts := hsel s (List.mem_cons_self _ _)
    have hrest : ∀ x ∈ rest, x ∈ accounts := fun x hx => hsel x (List.mem_cons_of_mem _ hx)
    have hstep : AccountRepository.save { accounts := accounts.map (clearIds ids) }
        (clearAssignment s) = { accounts := accounts.map (clearIds (s.id :: ids)) } := by
      have := save_clearAssignment accounts hnodup ids s hs
      cases hsave : AccountRepository.save { accounts := accounts.map (clearIds ids) }
        (clearAssignment s)
      rw [hsave] at this
      simpa using this
    simp only [AccountRepository.saveAll, List.map_cons, List.foldl_cons]
    rw [hstep]
    have := ih (s.id :: ids) hrest
    simp only [AccountRepository.saveAll] at this
    rw [this]
    simp

/-- Saving the cleared copies of accounts of the repository clears exactly those accounts. -/
theorem saveAll_cleared (repo : AccountRepository)
    (hnodup : (repo.accounts.map (fun a => a.id)).Nodup) (selected : List Account)
    (hsel : ∀ s ∈ selected, s ∈ repo.accounts) :
    (repo.saveAll (selected.map clearAssignment)).accounts =
      repo.accounts.map (clearIds (selected.map (fun a => a.id))) := by
  have h := saveAll_clearAssignment repo.accounts hnodup selected [] hsel
  rw [clearIds_nil] at h
  have hrepo : repo = { accounts := repo.accounts } := rfl
  rw [hrepo, h]
  apply List.map_congr_left
  intro a _
  simp [clearIds]

theorem countP_or_of_disjoint {α : Type} (p q : α → Bool) (l : List α)
    (h : ∀ a ∈ l, ¬ (p a = true ∧ q a = true)) :
    l.countP (fun a => p a || q a) = l.countP p + l.countP q := by
  induction l with
  | nil => rfl
  | cons a l ih =>
    have hl := ih (fun b hb => h b (List.mem_cons_of_mem _ hb))
    have ha := h a (List.mem_cons_self _ _)
    simp only [List.countP_cons, hl]
    cases hp : p a <;> cases hq : q a <;> simp_all <;> omega

theorem unassignedCount_clearIds (accounts selected : List Account)
    (hnodup : (accounts.map (fun a => a.id)).Nodup) (hsel : ∀ s ∈ selected, s ∈ accounts)
    (hsnodup : selected.Nodup) (hassigned : ∀ s ∈ selected, s.assignedAgent ≠ none) :
    unassignedCount (accounts.map (clearIds (selected.map (fun a => a.id)))) =
      unassignedCount accounts + selected.length := by
  have hmem : ∀ a ∈ accounts, (a.id ∈ selected.map (fun a => a.id) ↔ a ∈ selected) := by
    intro a ha
    constructor
    · intro h
      obtain ⟨s, hs, hid⟩ := List.mem_map.1 h
      have : s = a := List.inj_on_of_nodup_map hnodup (hsel s hs) ha hid
      exact this ▸ hs
    · intro h
      exact List.mem_map_of_mem _ h
  have h1 : unassignedCount (accounts.map (clearIds (selected.map (fun a => a.id)))) =
      accounts.countP (fun a => a.assignedAgent.isNone || decide (a ∈ selected)) := by
    unfold unassignedCount
    rw [List.countP_map]
    apply List.countP_congr
    intro a ha
    simp only [Function.comp_apply, clearIds]
    by_cases hin : a ∈ selected
    · simp [(hmem a ha).2 hin, hin, clearAssignment]
    · have : a.id ∉ selected.map (fun a => a.id) := fun h => hin ((hmem a ha).1 h)
      simp [this, hin]
  rw [h1, countP_or_of_disjoint]
  · congr 1
    rw [List.countP_eq_length_filter]
    apply List.Perm.length_eq
    rw [List.perm_ext_iff_of_nodup ((List.Nodup.of_map _ hnodup).filter _) hsnodup]
    intro a
    simp only [List.mem_filter, decide_eq_true_eq]
    exact ⟨fun h => h.2, fun h => ⟨hsel a h, h⟩⟩
  · intro a _ h
    have h2 : a ∈ selected := by simpa using h.2
    have h3 := hassigned a h2
    cases hag : a.assignedAgent with
    | none => exact h3 hag
    | some v => simp [hag] at h

/-! ## The accounts a rotation selects -/

theorem getByAgent_assignedAgent (repo : AccountRepository) (agentId : AgentId) :
    ∀ a ∈ repo.getByAgent agentId, a ∈ repo.accounts ∧ a.assignedAgent = some agentId := by
  intro a ha
  simp only [AccountRepository.getByAgent, List.mem_filter, beq_iff_eq] at ha
  exact ha

theorem selectLowValueAccounts_sublist_sorted (accounts : List Account) (percentage : ℚ) :
    (selectLowValueAccounts accounts percentage).Sublist
      (accounts.insertionSort fun a b => a.potentialValue ≤ b.potentialValue) := by
  rw [selectLowValueAccounts_eq_take]
  exact List.take_sublist _ _

theorem selection_mem (repos : Repositories) (select : Agent → List Account)
    (hselect : SelectsFromOwnAccounts repos select) (agent : Agent) :
    ∀ s ∈ select agent,
      s ∈ repos.accountRepository.accounts ∧ s.assignedAgent = some agent.id := by
  intro s hs
  obtain ⟨l, hperm, hsub⟩ := hselect agent
  exact getByAgent_assignedAgent _ _ s (hperm.subset (hsub.subset hs))

theorem selection_nodup (repos : Repositories) (select : Agent → List Account)
    (hselect : SelectsFromOwnAccounts repos select)
    (hagents : (repos.agentRepository.getAll.map (fun a => a.id)).Nodup)
    (haccounts : (repos.accountRepository.accounts.map (fun a => a.id)).Nodup) :
    (repos.agentRepository.getAll.flatMap select).Nodup := by
  rw [List.nodup_flatMap]
  constructor
  · intro agent _
    obtain ⟨l, hperm, hsub⟩ := hselect agent
    apply List.Nodup.sublist hsub
    rw [hperm.nodup_iff]
    exact (List.Nodup.of_map _ haccounts).filter _
  · have hpw : List.Pairwise (fun a b : Agent => a.id ≠ b.id) repos.agentRepository.getAll := by
      have := hagents
      rw [List.Nodup, List.pairwise_map] at this
      exact this
    apply hpw.imp
    intro a b hab
    show List.Disjoint (select a) (select b)
    intro s hsa hsb
    have h1 := (selection_mem repos select hselect a s hsa).2
    have h2 := (selection_mem repos select hselect b s hsb).2
    rw [h1] at h2
    exact hab (Option.some.inj h2)

/-- The count of unassigned accounts after the cleared copies of a selection are saved. -/
theorem unassignedCount_after_selection (repos : Repositories)
    (select : Agent → List Account) (hselect : SelectsFromOwnAccounts repos select)
    (hagents : (repos.agentRepository.getAll.map (fun a => a.id)).Nodup)
    (haccounts : (repos.accountRepository.accounts.map (fun a => a.id)).Nodup) :
    unassignedCount (repos.accountRepository.saveAll
        ((repos.agentRepository.getAll.flatMap select).map clearAssignment)).accounts =
      unassignedCount repos.accountRepository.accounts +
        (repos.agentRepository.getAll.map (fun agent => (select agent).length)).sum := by
  have hmem : ∀ s ∈ repos.agentRepository.getAll.flatMap select,
      s ∈ repos.accountRepository.accounts ∧ s.assignedAgent ≠ none := by
    intro s hs
    obtain ⟨agent, _, hsa⟩ := List.mem_flatMap.1 hs
    have := selection_mem repos select hselect agent s hsa
    exact ⟨this.1, by rw [this.2]; simp⟩
  rw [saveAll_cleared _ haccounts _ (fun s hs => (hmem s hs).1),
    unassignedCount_clearIds _ _ haccounts (fun s hs => (hmem s hs).1)
      (selection_nodup repos select hselect hagents haccounts) (fun s hs => (hmem s hs).2),
    List.length_flatMap]
  rfl

theorem partialRotation_selectsFromOwnAccounts (percentage : ℚ) (repos : Repositories) :
    SelectsFromOwnAccounts repos fun agent =>
      selectLowValueAccounts (repos.accountRepository.getByAgent agent.id) percentage := by
  intro agent
  exact ⟨_, List.perm_insertionSort _ _, selectLowValueAccounts_sublist_sorted _ _⟩

theorem partialRotationClear_sampleRepositories :
    (partialRotationClear (1 / 5) sampleRepositories).accountRepository.getAll =
      [valuedAccount 1 500 (some 7), clearAssignment (valuedAccount 2 100 (some 7)),
        valuedAccount 3 300 (some 7), valuedAccount 4 200 (some 7),
        valuedAccount 5 400 (some 7), valuedAccount 6 50 none] := by
  norm_num [partialRotationClear, partialRotationSelect, sampleRepositories,
    AccountRepository.getAll, AgentRepository.getAll, AccountRepository.getByAgent,
    AccountRepository.saveAll, AccountRepository.save, selectLowValueAccounts, mathFloor,
    slice, sliceIndex, valuedAccount, sampleAgent, clearAssignment, List.orderedInsert]

/-! ## Rotation type -/

theorem validateInputs_message (accounts : List Account) (agents : List Agent) (err : String)
    (h : validateInputs accounts agents = some err) :
    err = "Accounts must be a non-empty array" ∨ err = "Agents must be a non-empty array" ∨
      err = "Not enough accounts to distribute" := by
  unfold validateInputs at h
  split at h
  · left; exact (Option.some.inj h).symm
  · split at h
    · right; left; exact (Option.some.inj h).symm
    · split at h
      · right; right; exact (Option.some.inj h).symm
      · exact absurd h (by simp)

theorem executeDistribution_error (equitablePercentage : ℚ) (type : Option String)
    (uuid : String) (now : Timestamp) (repos : Repositories) (err : String)
    (h : (executeDistribution equitablePercentage type uuid now repos).1 = .error err) :
    validateInputs repos.accountRepository.getAvailableAccounts repos.agentRepository.getAll =
      some err := by
  unfold executeDistribution distribute at h
  cases hv : validateInputs repos.accountRepository.getAvailableAccounts
    repos.agentRepository.getAll with
  | none => simp [hv] at h
  | some e =>
    simp only [hv] at h
    injection h with h
    rw [h]

theorem unknown_message_ne (rotationType err : String)
    (h : err = "Accounts must be a non-empty array" ∨ err = "Agents must be a non-empty array" ∨
      err = "Not enough accounts to distribute") :
    err ≠ "Unknown rotation type: " ++ rotationType := by
  intro heq
  have hdata := congrArg String.data heq
  rw [String.data_append] at hdata
  rcases h with h | h | h <;> subst h <;> simp at hdata

theorem executeDistribution_ne_unknown (equitablePercentage : ℚ) (type : Option String)
    (uuid : String) (now : Timestamp) (repos : Repositories) (rotationType : String) :
    (executeDistribution equitablePercentage type uuid now repos).1 ≠
      .error ("Unknown rotation type: " ++ rotationType) := by
  intro h
  have hv := executeDistribution_error _ _ _ _ _ _ h
  exact unknown_message_ne rotationType _ (validateInputs_message _ _ _ hv) rfl

/-- C17, amended: `executeRotation` fails with the unknown-rotation-type error exactly when
the rotation type, `partial` when left out, is none of `full`, `partial` and
`performance_based`; the repositories are then as they were (no account, no agent changed, no
distribution saved); leaving the type out is asking for `partial`. -/
theorem executeRotation_unknown_type (equitablePercentage : ℚ) (options : RotationOptions)
    (uuid : String) (now : Timestamp) (repos : Repositories) :
    ((executeRotation equitablePercentage options uuid now repos).1 =
          .error ("Unknown rotation type: " ++ options.rotationType.getD "partial") ↔
        options.rotationType.getD "partial" ∉ ["full", "partial", "performance_based"]) ∧
      (options.rotationType.getD "partial" ∉ ["full", "partial", "performance_based"] →
        (executeRotation equitablePercentage options uuid now repos).2 = repos) ∧
      executeRotation equitablePercentage { options with rotationType := none } uuid now repos =
        executeRotation equitablePercentage { options with rotationType := some "partial" }
          uuid now repos := by
  refine ⟨?_, ?_, rfl⟩
  · constructor
    · intro h hmem
      simp only [List.mem_cons, List.mem_singleton, List.not_mem_nil, or_false] at hmem
      unfold executeRotation at h
      rcases hmem with hm | hm | hm
      · simp only [hm, if_true] at h
        exact executeDistribution_ne_unknown _ _ _ _ _ _ h
      · rw [hm] at h
        exact executeDistribution_ne_unknown _ _ _ _ _ _ h
      · rw [hm] at h
        exact executeDistribution_ne_unknown _ _ _ _ _ _ h
    · intro hmem
      simp only [List.mem_cons, List.mem_singleton, List.not_mem_nil, or_false,
        not_or] at hmem
      unfold executeRotation
      simp [hmem.1, hmem.2.1, hmem.2.2]
  · intro hmem
    simp only [List.mem_cons, List.mem_singleton, List.not_mem_nil, or_false,
      not_or] at hmem
    unfold executeRotation
    simp [hmem.1, hmem.2.1, hmem.2.2]

/-- C17 (the code departs from it): with the known type `full` and no account in the
repository `executeRotation` fails. -/
theorem executeRotation_known_type_fails :
    "full" ∈ ["full", "partial", "performance_based"] ∧
    (executeRotation (1 / 2) { rotationType := some "full", percentage := none } "d1" 0
        emptyRepositories).1 = .error "Accounts must be a non-empty array" := by
  refine ⟨by decide, ?_⟩
  rfl

/-- Instance of C17, amended, at the type `weekly`. -/
theorem executeRotation_unknown_type_witness :
    "weekly" ∉ ["full", "partial", "performance_based"] ∧
    (executeRotation (1 / 2) { rotationType := some "weekly", percentage := none } "d1" 0
        sampleRepositories).1 = .error ("Unknown rotation type: " ++ "weekly") ∧
    (executeRotation (1 / 2) { rotationType := some "weekly", percentage := none } "d1" 0
        sampleRepositories).2 = sampleRepositories :=
  ⟨by decide,
    (executeRotation_unknown_type (1 / 2) { rotationType := some "weekly", percentage := none }
      "d1" 0 sampleRepositories).1.2 (by decide),
    (executeRotation_unknown_type (1 / 2) { rotationType := some "weekly", percentage := none }
      "d1" 0 sampleRepositories).2.1 (by decide)⟩

/-! ## The date invariant -/

theorem assignToAgent_dateInvariant (account : Account) (agentId : AgentId) (now : Timestamp) :
    (account.assignToAgent agentId now).DateInvariant := rfl

theorem clearAssignment_dateInvariant (account : Account) :
    (clearAssignment account).DateInvariant := rfl

theorem save_forall (P : Account → Prop) (repo : AccountRepository) (account : Account)
    (hrepo : ∀ a ∈ repo.accounts, P a) (haccount : P account) :
    ∀ a ∈ (repo.save account).accounts, P a := by
  intro a ha
  unfold AccountRepository.save at ha
  split at ha
  · simp only [List.mem_map] at ha
    obtain ⟨b, hb, rfl⟩ := ha
    split
    · exact haccount
    · exact hrepo b hb
  · simp only [List.mem_append, List.mem_singleton] at ha
    rcases ha with ha | ha
    · exact hrepo a ha
    · exact ha ▸ haccount

theorem saveAll_forall (P : Account → Prop) (accounts : List Account) :
    ∀ (repo : AccountRepository), (∀ a ∈ repo.accounts, P a) → (∀ a ∈ accounts, P a) →
      ∀ a ∈ (repo.saveAll accounts).accounts, P a := by
  induction accounts with
  | nil => intro repo hrepo _; exact hrepo
  | cons b rest ih =>
    intro repo hrepo haccounts
    simp only [AccountRepository.saveAll, List.foldl_cons]
    exact ih (repo.save b)
      (save_forall P repo b hrepo (haccounts b (List.mem_cons_self _ _)))
      (fun a ha => haccounts a (List.mem_cons_of_mem _ ha))

theorem saveAll_cleared_dateInvariant (repo : AccountRepository) (selected : List Account)
    (hrepo : ∀ a ∈ repo.accounts, a.DateInvariant) :
    ∀ a ∈ (repo.saveAll (selected.map clearAssignment)).accounts, a.DateInvariant := by
  apply saveAll_forall _ _ repo hrepo
  intro a ha
  obtain ⟨b, _, rfl⟩ := List.mem_map.1 ha
  exact clearAssignment_dateInvariant b

theorem assignSlice_dateInvariant (accounts : List Account) (start stop : Int)
    (agentId : AgentId) (now : Timestamp) (h : ∀ a ∈ accounts, a.DateInvariant) :
    ∀ a ∈ assignSlice accounts start stop agentId now, a.DateInvariant := by
  intro a ha
  obtain ⟨i, hi, rfl⟩ := List.getElem_of_mem ha
  have hi2 : i < accounts.length := by simpa [assignSlice] using hi
  simp only [assignSlice, List.getElem_mapIdx]
  split
  · exact assignToAgent_dateInvariant _ _ _
  · exact h _ (List.getElem_mem hi2)

theorem equitableLoop_dateInvariant (q : Int) (now : Timestamp)
    (assignments : List Assignment) :
    ∀ (accounts : List Account) (idx : Int), (∀ a ∈ accounts, a.DateInvariant) →
      ∀ a ∈ (distributeEquitableLoop q now assignments accounts idx).2.1, a.DateInvariant := by
  induction assignments with
  | nil => intro accounts idx h; exact h
  | cons b rest ih =>
    intro accounts idx h
    simp only [distributeEquitableLoop]
    exact ih _ _ (assignSlice_dateInvariant _ _ _ _ _ h)

theorem rankingLoop_dateInvariant (weights : List Nat) (totalWeight : Nat) (remaining : Int)
    (now : Timestamp) (assignments : List Assignment) :
    ∀ (index : Nat) (accounts : List Account) (idx : Int),
      (∀ a ∈ accounts, a.DateInvariant) →
      ∀ a ∈ (distributeByRankingLoop weights totalWeight remaining now assignments index
          accounts idx).2.1, a.DateInvariant := by
  induction assignments with
  | nil => intro index accounts idx h; exact h
  | cons b rest ih =>
    intro index accounts idx h
    simp only [distributeByRankingLoop]
    exact ih _ _ _ (assignSlice_dateInvariant _ _ _ _ _ h)

theorem remainingStep_dateInvariant (now : Timestamp) (assignments : List Assignment)
    (accounts : List Account) (pos index : Nat) (account : Account)
    (h : ∀ a ∈ accounts, a.DateInvariant) :
    ∀ a ∈ (handleRemainingStep now assignments accounts pos index account).2,
      a.DateInvariant := by
  unfold handleRemainingStep
  split
  · exact h
  · exact forall_mem_modify _ _ (fun a _ => assignToAgent_dateInvariant a _ _) _ _ h

theorem remainingLoop_dateInvariant (now : Timestamp) (remaining : List Account) :
    ∀ (pos index : Nat) (assignments : List Assignment) (accounts : List Account),
      (∀ a ∈ accounts, a.DateInvariant) →
      ∀ a ∈ (handleRemainingLoop now remaining pos index assignments accounts).2,
        a.DateInvariant := by
  induction remaining with
  | nil => intro pos index assignments accounts h; exact h
  | cons account rest ih =>
    intro pos index assignments accounts h
    simp only [handleRemainingLoop]
    exact ih _ _ _ _ (remainingStep_dateInvariant now assignments accounts pos index account h)

theorem distribute_dateInvariant (p : ℚ) (now : Timestamp) (accounts : List Account)
    (agents : List Agent) (h : ∀ a ∈ accounts, a.DateInvariant) :
    ∀ a ∈ (distribute p now accounts agents).accounts, a.DateInvariant := by
  unfold distribute
  cases hv : validateInputs accounts agents with
  | some err => exact h
  | none =>
    simp only [distributeByRanking, handleRemainingAccounts, distributeEquitable]
    exact remainingLoop_dateInvariant _ _ _ _ _ _
      (rankingLoop_dateInvariant _ _ _ _ _ _ _ _ (equitableLoop_dateInvariant _ _ _ _ _ h))

/-- C18: the date invariant of every account is kept by `assignToAgent` with an agent id, by
the clearing of the full, partial and performance-based rotations, and by `distribute`. -/
theorem dateInvariant_preserved (repos : Repositories) (percentage : ℚ)
    (equitablePercentage : ℚ) (now : Timestamp) (accounts : List Account) (agents : List Agent)
    (hrepos : ∀ a ∈ repos.accountRepository.getAll, a.DateInvariant)
    (haccounts : ∀ a ∈ accounts, a.DateInvariant) :
    (∀ (account : Account) (agentId : AgentId),
        (account.assignToAgent agentId now).DateInvariant) ∧
      (∀ a ∈ (fullRotationClear repos).accountRepository.getAll, a.DateInvariant) ∧
      (∀ a ∈ (partialRotationClear percentage repos).accountRepository.getAll,
        a.DateInvariant) ∧
      (∀ a ∈ (performanceRotationClear repos).accountRepository.getAll, a.DateInvariant) ∧
      (∀ a ∈ (distribute equitablePercentage now accounts agents).accounts,
        a.DateInvariant) :=
  ⟨fun account agentId => assignToAgent_dateInvariant account agentId now,
    saveAll_cleared_dateInvariant _ _ hrepos,
    saveAll_cleared_dateInvariant _ _ hrepos,
    saveAll_cleared_dateInvariant _ _ hrepos,
    distribute_dateInvariant _ _ _ _ haccounts⟩

/-- Instance of C18 at the sample repositories and their accounts. -/
theorem dateInvariant_preserved_witness :
    (∀ a ∈ sampleRepositories.accountRepository.getAll, a.DateInvariant) ∧
    ((∀ (account : Account) (agentId : AgentId),
        (account.assignToAgent agentId 9).DateInvariant) ∧
      (∀ a ∈ (fullRotationClear sampleRepositories).accountRepository.getAll,
        a.DateInvariant) ∧
      (∀ a ∈ (partialRotationClear (1 / 5) sampleRepositories).accountRepository.getAll,
        a.DateInvariant) ∧
      (∀ a ∈ (performanceRotationClear sampleRepositories).accountRepository.getAll,
        a.DateInvariant) ∧
      (∀ a ∈ (distribute (1 / 2) 9 sampleRepositories.accountRepository.getAll
          sampleRepositories.agentRepository.getAll).accounts, a.DateInvariant)) :=
  have h : ∀ a ∈ sampleRepositories.accountRepository.getAll, a.DateInvariant := by
    intro a ha
    simp only [sampleRepositories, AccountRepository.getAll, List.mem_cons, List.mem_singleton,
      List.not_mem_nil, or_false] at ha
    rcases ha with rfl | rfl | rfl | rfl | rfl | rfl <;> rfl
  ⟨h, dateInvariant_preserved sampleRepositories (1 / 5) (1 / 2) 9
    sampleRepositories.accountRepository.getAll sampleRepositories.agentRepository.getAll h h⟩

/-! ## Statistics -/

theorem agentsMapGet_eq_none (agents : List Agent) (agentId : AgentId)
    (h : ∀ agent ∈ agents, agent.id ≠ agentId) : agentsMapGet agents agentId = none := by
  unfold agentsMapGet
  rw [List.getLast?_eq_none_iff, List.filter_eq_nil_iff]
  intro a ha
  simpa using h a ha

theorem agentsMapGet_eq_some (agents : List Agent)
    (hnodup : (agents.map (fun a => a.id)).Nodup) (agent : Agent) (hagent : agent ∈ agents) :
    agentsMapGet agents agent.id = some agent := by
  unfold agentsMapGet
  cases h : (agents.filter fun a => a.id == agent.id).getLast? with
  | none =>
    rw [List.getLast?_eq_none_iff, List.filter_eq_nil_iff] at h
    exact absurd (by simp) (h agent hagent)
  | some b =>
    have hb := List.mem_of_getLast?_eq_some h
    simp only [List.mem_filter, beq_iff_eq] at hb
    rw [List.inj_on_of_nodup_map hnodup hb.1 hagent hb.2]

theorem statsRow_counts (agents : List Agent) (assignment : Assignment) :
    ((statsRow agents assignment).agentId, (statsRow agents assignment).equitableAccounts,
        (statsRow agents assignment).rankingAccounts,
        (statsRow agents assignment).totalAccounts) =
      (assignment.agentId, assignment.equitableAccounts, assignment.rankingAccounts,
        assignment.totalAccounts) := rfl

/-- C19: with a latest distribution and distinct agent ids, the use case returns one row per
assignment with that assignment's agent id and three counts; a row has the name, ranking and
metrics of the agent with its id, or `Unknown`, 0 and no metric when there is no such agent;
the rows are sorted by ascending ranking. -/
theorem getDistributionStats_rows (repos : Repositories) (distribution : Distribution)
    (hlatest : repos.distributionRepository.getLatest = some distribution)
    (hagents : (repos.agentRepository.getAll.map (fun a => a.id)).Nodup) :
    ∃ (stats : List StatsRow) (total : Nat),
      getDistributionStats repos = .found distribution.id distribution.distributionDate
        distribution.type distribution.parameters stats total ∧
      stats.length = distribution.assignments.length ∧
      (stats.map fun row =>
          (row.agentId, row.equitableAccounts, row.rankingAccounts, row.totalAccounts)).Perm
        (distribution.assignments.map fun a =>
          (a.agentId, a.equitableAccounts, a.rankingAccounts, a.totalAccounts)) ∧
      stats.Sorted (fun a b => a.ranking ≤ b.ranking) ∧
      ∀ row ∈ stats,
        (∀ agent ∈ repos.agentRepository.getAll, agent.id = row.agentId →
          row.agentName = agent.name ∧ row.ranking = agent.currentRanking ∧
            row.metrics = agent.metrics) ∧
        ((∀ agent ∈ repos.agentRepository.getAll, agent.id ≠ row.agentId) →
          row.agentName = "Unknown" ∧ row.ranking = 0 ∧
            row.metrics = { conversionRate := none, totalSales := none,
                            closedAccounts := none }) := by
  refine ⟨(distribution.assignments.map (statsRow repos.agentRepository.getAll)).insertionSort
      (fun a b => a.ranking ≤ b.ranking),
    ((distribution.assignments.map (statsRow repos.agentRepository.getAll)).insertionSort
      (fun a b => a.ranking ≤ b.ranking)).foldl (fun sum s => sum + s.totalAccounts) 0,
    by simp only [getDistributionStats, hlatest], ?_, ?_, ?_, ?_⟩
  · simp
  · have h := (List.perm_insertionSort (fun a b : StatsRow => a.ranking ≤ b.ranking)
      (distribution.assignments.map (statsRow repos.agentRepository.getAll))).map fun row =>
        (row.agentId, row.equitableAccounts, row.rankingAccounts, row.totalAccounts)
    refine h.trans ?_
    rw [List.map_map]
    exact List.Perm.refl _
  · exact List.sorted_insertionSort _ _
  · intro row hrow
    rw [List.mem_insertionSort, List.mem_map] at hrow
    obtain ⟨assignment, _, rfl⟩ := hrow
    constructor
    · intro agent hagent hid
      have hid2 : assignment.agentId = agent.id := hid.symm
      have hget := agentsMapGet_eq_some _ hagents agent hagent
      simp [statsRow, hid2, hget]
    · intro hnone
      have hget := agentsMapGet_eq_none repos.agentRepository.getAll assignment.agentId hnone
      simp [statsRow, hget]

/-- Instance of C19 at the sample distribution, whose second assignment is of an agent that
is not in the repository. -/
theorem getDistributionStats_rows_witness :
    statsRepositories.distributionRepository.getLatest = some sampleDistribution ∧
    (statsRepositories.agentRepository.getAll.map (fun a => a.id)).Nodup ∧
    ∃ (stats : List StatsRow) (total : Nat),
      getDistributionStats statsRepositories = .found sampleDistribution.id
        sampleDistribution.distributionDate sampleDistribution.type
        sampleDistribution.parameters stats total ∧
      stats.length = sampleDistribution.assignments.length ∧
      (stats.map fun row =>
          (row.agentId, row.equitableAccounts, row.rankingAccounts, row.totalAccounts)).Perm
        (sampleDistribution.assignments.map fun a =>
          (a.agentId, a.equitableAccounts, a.rankingAccounts, a.totalAccounts)) ∧
      stats.Sorted (fun a b => a.ranking ≤ b.ranking) ∧
      ∀ row ∈ stats,
        (∀ agent ∈ statsRepositories.agentRepository.getAll, agent.id = row.agentId →
          row.agentName = agent.name ∧ row.ranking = agent.currentRanking ∧
            row.metrics = agent.metrics) ∧
        ((∀ agent ∈ statsRepositories.agentRepository.getAll, agent.id ≠ row.agentId) →
          row.agentName = "Unknown" ∧ row.ranking = 0 ∧
            row.metrics = { conversionRate := none, totalSales := none,
                            closedAccounts := none }) :=
  ⟨rfl, by decide, getDistributionStats_rows statsRepositories sampleDistribution rfl
    (by decide)⟩

/-! ## Counts of a run -/

theorem map_modify_comm {α β : Type} (g : α → β) (f : α → α) (f2 : β → β)
    (hf : ∀ a, g (f a) = f2 (g a)) (n : Nat) (l : List α) :
    (l.modify f n).map g = (l.map g).modify f2 n := by
  apply List.ext_getElem
  · simp
  · intro i h1 h2
    simp only [List.getElem_map, List.getElem_modify]
    split
    · exact hf _
    · rfl

theorem modify_of_length_le {α : Type} (f : α → α) (n : Nat) (l : List α)
    (h : l.length ≤ n) : l.modify f n = l := by
  apply List.ext_getElem
  · simp
  · intro i h1 h2
    rw [List.getElem_modify]
    split
    · omega
    · rfl

theorem remainingStep_ranking (now : Timestamp) (assignments : List Assignment)
    (accounts : List Account) (pos index : Nat) (account : Account) :
    (handleRemainingStep now assignments accounts pos index account).1.map
        (fun a => a.rankingAccounts) =
      (assignments.map (fun a => a.rankingAccounts)).modify (fun c => c + 1)
        (index % assignments.length) := by
  unfold handleRemainingStep
  split
  · rename_i hnone
    rw [List.get?_eq_none] at hnone
    rw [modify_of_length_le]
    simpa using hnone
  · show List.map _ (List.modify _ _ _) = _
    rw [map_modify_comm _ _ (fun c => c + 1)]
    intro a
    rfl

theorem remainingLoop_ranking (now : Timestamp) (remaining : List Account) :
    ∀ (pos index : Nat) (assignments : List Assignment) (accounts : List Account),
      (handleRemainingLoop now remaining pos index assignments accounts).1.map
          (fun a => a.rankingAccounts) =
        residualRanking remaining.length index (assignments.map (fun a => a.rankingAccounts)) := by
  induction remaining with
  | nil => intros; rfl
  | cons account rest ih =>
    intro pos index assignments accounts
    simp only [handleRemainingLoop, List.length_cons, residualRanking]
    rw [ih, remainingStep_ranking, List.length_map]

theorem length_sliceFrom {α : Type} (xs : List α) (start : Int) :
    (sliceFrom xs start).length = xs.length - sliceIndex xs.length start := by
  simp [sliceFrom]

/-- The counts of a run that passed validation, in terms of the number of accounts, the number
of agents and the percentage only. -/
theorem distribute_counts_closed_form (p : ℚ) (now : Timestamp) (accounts : List Account)
    (agents : List Agent) (hv : validateInputs accounts agents = none) :
    ∃ assignments : List Assignment,
      (distribute p now accounts agents).result = .ok assignments ∧
      (∀ a ∈ assignments, a.Consistent) ∧
      assignments.map (fun a => a.equitableAccounts) =
        equitableCounts accounts.length
          (mathFloor ((mathFloor ((accounts.length : ℚ) * p) : ℚ) / (agents.length : ℚ)))
          agents.length 0 ∧
      assignments.map (fun a => a.rankingAccounts) =
        residualRanking
          (accounts.length - sliceIndex accounts.length
            (mathFloor ((accounts.length : ℚ) * p) +
              (rankingAmounts (calculateWeights agents.length)
                ((calculateWeights agents.length).foldl (fun sum w => sum + w) 0)
                ((accounts.length : Int) - mathFloor ((accounts.length : ℚ) * p))
                agents.length 0).sum)) 0
          (rankingCounts accounts.length
            (rankingAmounts (calculateWeights agents.length)
              ((calculateWeights agents.length).foldl (fun sum w => sum + w) 0)
              ((accounts.length : Int) - mathFloor ((accounts.length : ℚ) * p))
              agents.length 0)
            (mathFloor ((accounts.length : ℚ) * p))) := by
  obtain ⟨assignments, hres, _, hcons, heq, _⟩ :=
    distribute_counts_of_valid p now accounts agents hv
  refine ⟨assignments, hres, hcons, heq, ?_⟩
  have hlen : (getActiveAgentsSorted agents).length = agents.length :=
    List.length_insertionSort _ agents
  have hinit : (createInitialAssignments (getActiveAgentsSorted agents)).length =
      agents.length := by
    simp [createInitialAssignments, hlen]
  have hp1 : (distributeEquitable (createInitialAssignments (getActiveAgentsSorted agents))
      accounts (mathFloor ((mathFloor ((accounts.length : ℚ) * p) : ℚ) /
        ((getActiveAgentsSorted agents).length : ℚ))) now).1.length = agents.length := by
    have h := congrArg List.length (equitableLoop_agentIds
      (mathFloor ((mathFloor ((accounts.length : ℚ) * p) : ℚ) /
        ((getActiveAgentsSorted agents).length : ℚ))) now
      (createInitialAssignments (getActiveAgentsSorted agents)) accounts 0)
    simp only [List.length_map] at h
    exact h.trans hinit
  have hp2 : (distributeEquitable (createInitialAssignments (getActiveAgentsSorted agents))
      accounts (mathFloor ((mathFloor ((accounts.length : ℚ) * p) : ℚ) /
        ((getActiveAgentsSorted agents).length : ℚ))) now).2.1.length = accounts.length :=
    equitableLoop_accounts_length _ now _ accounts 0
  rw [distribute_result_of_valid p now accounts agents hv] at hres
  injection hres with hres
  rw [← hres]
  unfold distributeByRanking handleRemainingAccounts
  simp only []
  rw [remainingLoop_ranking, length_sliceFrom, rankingLoop_counts, rankingLoop_accounts_length,
    rankingLoop_cursor, hp1, hp2, hlen]

/-- C20: two valid inputs with as many accounts, as many agents and the same percentage give
the same sequence of `(equitableAccounts, rankingAccounts, totalAccounts)` by rank position. -/
theorem distribute_counts_deterministic (p : ℚ) (now1 now2 : Timestamp)
    (accounts1 accounts2 : List Account) (agents1 agents2 : List Agent)
    (hne : agents1 ≠ []) (hle : agents1.length ≤ accounts1.length)
    (haccounts : accounts1.length = accounts2.length)
    (hagents : agents1.length = agents2.length) :
    ∃ (assignments1 assignments2 : List Assignment),
      (distribute p now1 accounts1 agents1).result = .ok assignments1 ∧
      (distribute p now2 accounts2 agents2).result = .ok assignments2 ∧
      assignments1.map (fun a => (a.equitableAccounts, a.rankingAccounts, a.totalAccounts)) =
        assignments2.map
          (fun a => (a.equitableAccounts, a.rankingAccounts, a.totalAccounts)) := by
  have hv1 : validateInputs accounts1 agents1 = none := by
    rw [validateInputs_eq_none_iff]
    refine ⟨?_, hne, hle⟩
    rintro rfl
    cases agents1 with
    | nil => exact hne rfl
    | cons a l => simp at hle
  have hv2 : validateInputs accounts2 agents2 = none := by
    rw [validateInputs_eq_none_iff] at hv1 ⊢
    refine ⟨?_, ?_, ?_⟩
    · rintro rfl
      exact hv1.1 (List.length_eq_zero.1 haccounts)
    · rintro rfl
      exact hv1.2.1 (List.length_eq_zero.1 hagents)
    · omega
  obtain ⟨r1, hres1, hcons1, heq1, hrk1⟩ :=
    distribute_counts_closed_form p now1 accounts1 agents1 hv1
  obtain ⟨r2, hres2, hcons2, heq2, hrk2⟩ :=
    distribute_counts_closed_form p now2 accounts2 agents2 hv2
  refine ⟨r1, r2, hres1, hres2, ?_⟩
  rw [← haccounts, ← hagents, ← heq1] at heq2
  rw [← haccounts, ← hagents, ← hrk1] at hrk2
  apply List.ext_getElem
  · have := congrArg List.length heq2
    simpa using this.symm
  · intro i h1 h2
    have hi1 : i < r1.length := by simpa using h1
    have hi2 : i < r2.length := by simpa using h2
    have e := congrArg (fun l => l[i]?) heq2
    have r := congrArg (fun l => l[i]?) hrk2
    simp only [List.getElem?_map, List.getElem?_eq_getElem hi1, List.getElem?_eq_getElem hi2,
      Option.map_some', Option.some.injEq] at e r
    have c1 := (hcons1 _ (List.getElem_mem hi1)).1
    have c2 := (hcons2 _ (List.getElem_mem hi2)).1
    simp only [List.getElem_map, Prod.mk.injEq]
    exact ⟨e.symm, r.symm, by rw [c1, c2, e, r]⟩

/-- Instance of C20: three accounts and two agents, against three other accounts and two
other agents at another time. -/
theorem distribute_counts_deterministic_witness :
    [sampleAgent 10 1, sampleAgent 11 2] ≠ [] ∧
    [sampleAgent 10 1, sampleAgent 11 2].length ≤
      [sampleAccount 0, sampleAccount 1, sampleAccount 2].length ∧
    [sampleAccount 0, sampleAccount 1, sampleAccount 2].length =
      [sampleAccount 7, sampleAccount 8, sampleAccount 9].length ∧
    [sampleAgent 10 1, sampleAgent 11 2].length = [sampleAgent 21 5, sampleAgent 20 3].length ∧
    ∃ (assignments1 assignments2 : List Assignment),
      (distribute (1 / 2) 0 [sampleAccount 0, sampleAccount 1, sampleAccount 2]
        [sampleAgent 10 1, sampleAgent 11 2]).result = .ok assignments1 ∧
      (distribute (1 / 2) 4 [sampleAccount 7, sampleAccount 8, sampleAccount 9]
        [sampleAgent 21 5, sampleAgent 20 3]).result = .ok assignments2 ∧
      assignments1.map (fun a => (a.equitableAccounts, a.rankingAccounts, a.totalAccounts)) =
        assignments2.map
          (fun a => (a.equitableAccounts, a.rankingAccounts, a.totalAccounts)) :=
  ⟨by simp, by simp, by simp, by simp,
    distribute_counts_deterministic (1 / 2) 0 4
      [sampleAccount 0, sampleAccount 1, sampleAccount 2]
      [sampleAccount 7, sampleAccount 8, sampleAccount 9]
      [sampleAgent 10 1, sampleAgent 11 2] [sampleAgent 21 5, sampleAgent 20 3]
      (by simp) (by simp) (by simp) (by simp)⟩

/-! ## Closed forms of the two phases -/

theorem slice_map {α β : Type} (f : α → β) (xs : List α) (start stop : Int) :
    (slice xs start stop).map f = slice (xs.map f) start stop := by
  simp [slice, List.map_take, List.map_drop]

theorem assignSlice_ids (accounts : List Account) (start stop : Int) (agentId : AgentId)
    (now : Timestamp) :
    (assignSlice accounts start stop agentId now).map (fun a => a.id) =
      accounts.map (fun a => a.id) := by
  apply List.ext_getElem
  · simp [assignSlice]
  · intro j h1 h2
    simp only [assignSlice, List.getElem_map, List.getElem_mapIdx]
    split <;> rfl

theorem equitableLoop_ids (q : Int) (now : Timestamp) (assignments : List Assignment) :
    ∀ (accounts : List Account) (idx : Int),
      (distributeEquitableLoop q now assignments accounts idx).2.1.map (fun a => a.id) =
        accounts.map (fun a => a.id) := by
  induction assignments with
  | nil => intro accounts idx; rfl
  | cons a rest ih =>
    intro accounts idx
    simp only [distributeEquitableLoop]
    rw [ih, assignSlice_ids]

theorem rankingLoop_ids (weights : List Nat) (totalWeight : Nat) (remaining : Int)
    (now : Timestamp) (assignments : List Assignment) :
    ∀ (index : Nat) (accounts : List Account) (idx : Int),
      (distributeByRankingLoop weights totalWeight remaining now assignments index accounts
          idx).2.1.map (fun a => a.id) = accounts.map (fun a => a.id) := by
  induction assignments with
  | nil => intro index accounts idx; rfl
  | cons a rest ih =>
    intro index accounts idx
    simp only [distributeByRankingLoop]
    rw [ih, assignSlice_ids]

/-- Closed form of phase 1: the assignment at position `i` gets the slice
`[idx + i * q, idx + (i + 1) * q)`. -/
theorem equitableLoop_closed_form (q : Int) (now : Timestamp) (assignments : List Assignment) :
    ∀ (accounts : List Account) (idx : Int),
      (distributeEquitableLoop q now assignments accounts idx).1 =
        assignments.mapIdx fun i a =>
          { a with
            equitableAccounts :=
              sliceLen accounts.length (idx + (i : Int) * q) (idx + ((i : Int) + 1) * q)
            accountsList := a.accountsList ++
              slice (accounts.map fun acc => acc.id) (idx + (i : Int) * q)
                (idx + ((i : Int) + 1) * q)
            totalAccounts := a.totalAccounts +
              sliceLen accounts.length (idx + (i : Int) * q) (idx + ((i : Int) + 1) * q) } := by
  induction assignments with
  | nil => intro accounts idx; rfl
  | cons a rest ih =>
    intro accounts idx
    simp only [distributeEquitableLoop, List.mapIdx_cons]
    rw [ih, length_assignSlice, assignSlice_ids, length_slice, slice_map]
    congr 1
    · simp
    · apply List.ext_getElem
      · simp
      · intro i h1 h2
        simp only [List.getElem_mapIdx]
        have e1 : idx + q + (i : Int) * q = idx + (((i + 1 : Nat) : Int)) * q := by
          push_cast; ring
        have e2 : idx + q + ((i : Int) + 1) * q = idx + ((((i + 1 : Nat) : Int)) + 1) * q := by
          push_cast; ring
        rw [e1, e2]

theorem rankingAmounts_length (weights : List Nat) (totalWeight : Nat) (remaining : Int) :
    ∀ (k index : Nat), (rankingAmounts weights totalWeight remaining k index).length = k := by
  intro k
  induction k with
  | zero => intro index; rfl
  | succ k ih => intro index; simp [rankingAmounts, ih]

/-- Closed form of phase 2: the assignment at position `i` gets the slice of its intended
amount from the running cursor. -/
theorem rankingLoop_closed_form (weights : List Nat) (totalWeight : Nat) (remaining : Int)
    (now : Timestamp) (assignments : List Assignment) :
    ∀ (index : Nat) (accounts : List Account) (idx : Int),
      (distributeByRankingLoop weights totalWeight remaining now assignments index accounts
          idx).1 =
        assignments.mapIdx fun i a =>
          { a with
            rankingAccounts :=
              sliceLen accounts.length
                (cursorAt (rankingAmounts weights totalWeight remaining assignments.length index)
                  idx i)
                (cursorAt (rankingAmounts weights totalWeight remaining assignments.length index)
                  idx (i + 1))
            accountsList := a.accountsList ++
              slice (accounts.map fun acc => acc.id)
                (cursorAt (rankingAmounts weights totalWeight remaining assignments.length index)
                  idx i)
                (cursorAt (rankingAmounts weights totalWeight remaining assignments.length index)
                  idx (i + 1))
            totalAccounts := a.totalAccounts +
              sliceLen accounts.length
                (cursorAt (rankingAmounts weights totalWeight remaining assignments.length index)
                  idx i)
                (cursorAt (rankingAmounts weights totalWeight remaining assignments.length index)
                  idx (i + 1)) } := by
  induction assignments with
  | nil => intro index accounts idx; rfl
  | cons a rest ih =>
    intro index accounts idx
    simp only [distributeByRankingLoop, List.mapIdx_cons, List.length_cons, rankingAmounts]
    rw [ih, length_assignSlice, assignSlice_ids, length_slice, slice_map]
    congr 1
    · simp [cursorAt]
    · apply List.ext_getElem
      · simp
      · intro i h1 h2
        simp only [List.getElem_mapIdx, cursorAt, List.take_succ_cons, List.sum_cons]
        simp only [add_assoc]


/-! ## Closed form of the residual round-robin -/

theorem residualIds_nil (k start i : Nat) : residualIds [] k start i = [] := rfl

theorem residualIds_cons (x : AccountId) (rest : List AccountId) (k start i : Nat) :
    residualIds (x :: rest) k start i =
      if start % k = i then x :: residualIds rest k (start + 1) i
      else residualIds rest k (start + 1) i := by
  unfold residualIds
  by_cases h : start % k = i
  · simp [List.enumFrom_cons, List.filter_cons, h]
  · simp [List.enumFrom_cons, List.filter_cons, h]

theorem remainingStep_of_pos (now : Timestamp) (assignments : List Assignment)
    (accounts : List Account) (pos index : Nat) (account : Account)
    (hk : 0 < assignments.length) :
    ∃ assignment, assignments.get? (index % assignments.length) = some assignment ∧
      handleRemainingStep now assignments accounts pos index account =
        (assignments.modify
            (fun a => { a with
              rankingAccounts := a.rankingAccounts + 1
              totalAccounts := a.totalAccounts + 1
              accountsList := a.accountsList ++ [account.id] })
            (index % assignments.length),
          accounts.modify (fun acc => acc.assignToAgent assignment.agentId now) pos) := by
  have hlt : index % assignments.length < assignments.length := Nat.mod_lt _ hk
  refine ⟨assignments[index % assignments.length], ?_, ?_⟩
  · simp [List.get?_eq_getElem?, List.getElem?_eq_getElem hlt]
  · unfold handleRemainingStep
    simp [List.get?_eq_getElem?, List.getElem?_eq_getElem hlt]

/-- Closed form of the residual round-robin: the assignment at position `i` gets the residual
accounts whose index is `i` modulo the number of assignments. -/
theorem remainingLoop_closed_form (now : Timestamp) (remaining : List Account) :
    ∀ (pos index : Nat) (assignments : List Assignment) (accounts : List Account),
      0 < assignments.length →
      (handleRemainingLoop now remaining pos index assignments accounts).1 =
        assignments.mapIdx fun i a =>
          { a with
            rankingAccounts := a.rankingAccounts +
              (residualIds (remaining.map fun acc => acc.id) assignments.length index i).length
            totalAccounts := a.totalAccounts +
              (residualIds (remaining.map fun acc => acc.id) assignments.length index i).length
            accountsList := a.accountsList ++
              residualIds (remaining.map fun acc => acc.id) assignments.length index i } := by
  induction remaining with
  | nil =>
    intro pos index assignments accounts _
    apply List.ext_getElem
    · simp [handleRemainingLoop]
    · intro i h1 h2
      simp [handleRemainingLoop, residualIds_nil]
  | cons account rest ih =>
    intro pos index assignments accounts hk
    obtain ⟨assignment, _, hstep⟩ :=
      remainingStep_of_pos now assignments accounts pos index account hk
    simp only [handleRemainingLoop]
    rw [hstep]
    simp only []
    rw [ih _ _ _ _ (by simpa using hk)]
    apply List.ext_getElem
    · simp
    · intro i h1 h2
      simp only [List.getElem_mapIdx, List.getElem_modify, List.length_modify, List.map_cons,
        residualIds_cons]
      by_cases h : index % assignments.length = i
      · rw [if_pos h, if_pos h]
        simp only [List.length_cons, List.append_assoc, List.singleton_append,
          Assignment.mk.injEq, true_and]
        exact ⟨by omega, by omega, trivial⟩
      · rw [if_neg h, if_neg h]

theorem sliceFrom_map {α β : Type} (f : α → β) (xs : List α) (start : Int) :
    (sliceFrom xs start).map f = sliceFrom (xs.map f) start := by
  simp [sliceFrom, List.map_drop]

/-! ## A run that passed validation, phase by phase -/

theorem length_getActiveAgentsSorted (agents : List Agent) :
    (getActiveAgentsSorted agents).length = agents.length :=
  List.length_insertionSort _ agents

theorem phaseOne_accounts_length (p : ℚ) (now : Timestamp) (accounts : List Account)
    (agents : List Agent) : (phaseOne p now accounts agents).2.1.length = accounts.length :=
  equitableLoop_accounts_length _ now _ accounts 0

theorem phaseOne_length (p : ℚ) (now : Timestamp) (accounts : List Account)
    (agents : List Agent) : (phaseOne p now accounts agents).1.length = agents.length := by
  have h := congrArg List.length (equitableLoop_agentIds
    (perAgentEquitable accounts.length agents.length p) now
    (createInitialAssignments (getActiveAgentsSorted agents)) accounts 0)
  simp only [List.length_map] at h
  rw [phaseOne, h]
  simp [createInitialAssignments, length_getActiveAgentsSorted]

theorem phaseTwo_length (p : ℚ) (now : Timestamp) (accounts : List Account)
    (agents : List Agent) : (phaseTwo p now accounts agents).1.length = agents.length := by
  have h := congrArg List.length (rankingLoop_agentIds (calculateWeights agents.length)
    ((calculateWeights agents.length).foldl (fun sum w => sum + w) 0)
    ((accounts.length : Int) - totalEquitable accounts.length p) now
    (phaseOne p now accounts agents).1 0 (phaseOne p now accounts agents).2.1
    (totalEquitable accounts.length p))
  simp only [List.length_map] at h
  rw [phaseTwo, h, phaseOne_length]

theorem phaseTwo_accounts_length (p : ℚ) (now : Timestamp) (accounts : List Account)
    (agents : List Agent) : (phaseTwo p now accounts agents).2.1.length = accounts.length := by
  rw [phaseTwo, rankingLoop_accounts_length, phaseOne_accounts_length]

theorem phaseTwo_cursor (p : ℚ) (now : Timestamp) (accounts : List Account)
    (agents : List Agent) :
    (phaseTwo p now accounts agents).2.2 =
      cursorAt (intendedAmounts accounts.length agents.length p)
        (totalEquitable accounts.length p) agents.length := by
  rw [phaseTwo, rankingLoop_cursor, phaseOne_length, cursorAt, intendedAmounts,
    List.take_of_length_le (by rw [rankingAmounts_length])]

/-- A run that passed validation is phase 1, the loop of phase 2 and the residual handling. -/
theorem distribute_of_valid (p : ℚ) (now : Timestamp) (accounts : List Account)
    (agents : List Agent) (hv : validateInputs accounts agents = none) :
    (distribute p now accounts agents).result =
        .ok (handleRemainingAccounts (phaseTwo p now accounts agents).1
          (phaseTwo p now accounts agents).2.1 (phaseTwo p now accounts agents).2.2 now).1 ∧
      (distribute p now accounts agents).accounts =
        (handleRemainingAccounts (phaseTwo p now accounts agents).1
          (phaseTwo p now accounts agents).2.1 (phaseTwo p now accounts agents).2.2 now).2 ∧
      (distribute p now accounts agents).agents = getActiveAgentsSorted agents := by
  have h1 : (distributeEquitable (createInitialAssignments (getActiveAgentsSorted agents))
      accounts (mathFloor ((mathFloor ((accounts.length : ℚ) * p) : ℚ) /
        ((getActiveAgentsSorted agents).length : ℚ))) now) = phaseOne p now accounts agents := by
    rw [length_getActiveAgentsSorted]
    rfl
  have h2 : distributeByRanking p (phaseOne p now accounts agents).1
      (phaseOne p now accounts agents).2.1
      ((accounts.length : Int) - mathFloor ((accounts.length : ℚ) * p))
      (getActiveAgentsSorted agents).length now =
      handleRemainingAccounts (phaseTwo p now accounts agents).1
          (phaseTwo p now accounts agents).2.1 (phaseTwo p now accounts agents).2.2 now := by
    rw [length_getActiveAgentsSorted]
    unfold distributeByRanking
    simp only [phaseOne_accounts_length]
    rfl
  unfold distribute
  simp only [hv, h1, h2, and_self]

theorem phaseOne_ids (p : ℚ) (now : Timestamp) (accounts : List Account)
    (agents : List Agent) :
    (phaseOne p now accounts agents).2.1.map (fun a => a.id) = accounts.map (fun a => a.id) :=
  equitableLoop_ids _ now _ accounts 0

theorem phaseTwo_ids (p : ℚ) (now : Timestamp) (accounts : List Account)
    (agents : List Agent) :
    (phaseTwo p now accounts agents).2.1.map (fun a => a.id) = accounts.map (fun a => a.id) := by
  rw [phaseTwo, rankingLoop_ids, phaseOne_ids]

theorem validateInputs_pos (accounts : List Account) (agents : List Agent)
    (hv : validateInputs accounts agents = none) :
    0 < agents.length ∧ agents.length ≤ accounts.length := by
  rw [validateInputs_eq_none_iff] at hv
  exact ⟨List.length_pos.2 hv.2.1, hv.2.2⟩

theorem phaseOne_getElem (p : ℚ) (now : Timestamp) (accounts : List Account)
    (agents : List Agent) (i : Nat) (hi : i < (phaseOne p now accounts agents).1.length)
    (hs : i < (getActiveAgentsSorted agents).length) :
    (phaseOne p now accounts agents).1[i] =
      { agentId := (getActiveAgentsSorted agents)[i].id
        equitableAccounts := sliceLen accounts.length
          ((i : Int) * perAgentEquitable accounts.length agents.length p)
          (((i : Int) + 1) * perAgentEquitable accounts.length agents.length p)
        rankingAccounts := 0
        totalAccounts := sliceLen accounts.length
          ((i : Int) * perAgentEquitable accounts.length agents.length p)
          (((i : Int) + 1) * perAgentEquitable accounts.length agents.length p)
        accountsList := slice (accounts.map fun acc => acc.id)
          ((i : Int) * perAgentEquitable accounts.length agents.length p)
          (((i : Int) + 1) * perAgentEquitable accounts.length agents.length p) } := by
  simp only [phaseOne, equitableLoop_closed_form, List.getElem_mapIdx, createInitialAssignments,
    List.getElem_map, zero_add, List.nil_append]

theorem phaseTwo_getElem (p : ℚ) (now : Timestamp) (accounts : List Account)
    (agents : List Agent) (i : Nat) (hi : i < (phaseTwo p now accounts agents).1.length)
    (hs : i < (getActiveAgentsSorted agents).length) :
    (phaseTwo p now accounts agents).1[i] =
      { agentId := (getActiveAgentsSorted agents)[i].id
        equitableAccounts := sliceLen accounts.length
          ((i : Int) * perAgentEquitable accounts.length agents.length p)
          (((i : Int) + 1) * perAgentEquitable accounts.length agents.length p)
        rankingAccounts := sliceLen accounts.length
          (cursorAt (intendedAmounts accounts.length agents.length p)
            (totalEquitable accounts.length p) i)
          (cursorAt (intendedAmounts accounts.length agents.length p)
            (totalEquitable accounts.length p) (i + 1))
        totalAccounts := sliceLen accounts.length
            ((i : Int) * perAgentEquitable accounts.length agents.length p)
            (((i : Int) + 1) * perAgentEquitable accounts.length agents.length p) +
          sliceLen accounts.length
            (cursorAt (intendedAmounts accounts.length agents.length p)
              (totalEquitable accounts.length p) i)
            (cursorAt (intendedAmounts accounts.length agents.length p)
              (totalEquitable accounts.length p) (i + 1))
        accountsList := slice (accounts.map fun acc => acc.id)
            ((i : Int) * perAgentEquitable accounts.length agents.length p)
            (((i : Int) + 1) * perAgentEquitable accounts.length agents.length p) ++
          slice (accounts.map fun acc => acc.id)
            (cursorAt (intendedAmounts accounts.length agents.length p)
              (totalEquitable accounts.length p) i)
            (cursorAt (intendedAmounts accounts.length agents.length p)
              (totalEquitable accounts.length p) (i + 1)) } := by
  have h1 : i < (phaseOne p now accounts agents).1.length := by
    rw [phaseOne_length]; rw [phaseTwo_length] at hi; exact hi
  simp only [phaseTwo, rankingLoop_closed_form, List.getElem_mapIdx,
    phaseOne_getElem p now accounts agents i h1 hs, phaseOne_length, phaseOne_accounts_length,
    phaseOne_ids, intendedAmounts]

/-- Closed form of the assignments of a run that passed validation. -/
theorem distribute_closed_form (p : ℚ) (now : Timestamp) (accounts : List Account)
    (agents : List Agent) (hv : validateInputs accounts agents = none) :
    ∃ r : List Assignment,
      (distribute p now accounts agents).result = .ok r ∧ r.length = agents.length ∧
      ∀ (i : Nat) (hi : i < r.length) (hs : i < (getActiveAgentsSorted agents).length),
        r[i] =
          { agentId := (getActiveAgentsSorted agents)[i].id
            equitableAccounts := sliceLen accounts.length
              ((i : Int) * perAgentEquitable accounts.length agents.length p)
              (((i : Int) + 1) * perAgentEquitable accounts.length agents.length p)
            rankingAccounts := sliceLen accounts.length
                (cursorAt (intendedAmounts accounts.length agents.length p)
                  (totalEquitable accounts.length p) i)
                (cursorAt (intendedAmounts accounts.length agents.length p)
                  (totalEquitable accounts.length p) (i + 1)) +
              (residualIds (residualAccountIds accounts agents.length p) agents.length 0
                i).length
            totalAccounts := sliceLen accounts.length
                ((i : Int) * perAgentEquitable accounts.length agents.length p)
                (((i : Int) + 1) * perAgentEquitable accounts.length agents.length p) +
              sliceLen accounts.length
                (cursorAt (intendedAmounts accounts.length agents.length p)
                  (totalEquitable accounts.length p) i)
                (cursorAt (intendedAmounts accounts.length agents.length p)
                  (totalEquitable accounts.length p) (i + 1)) +
              (residualIds (residualAccountIds accounts agents.length p) agents.length 0
                i).length
            accountsList := slice (accounts.map fun acc => acc.id)
                ((i : Int) * perAgentEquitable accounts.length agents.length p)
                (((i : Int) + 1) * perAgentEquitable accounts.length agents.length p) ++
              slice (accounts.map fun acc => acc.id)
                (cursorAt (intendedAmounts accounts.length agents.length p)
                  (totalEquitable accounts.length p) i)
                (cursorAt (intendedAmounts accounts.length agents.length p)
                  (totalEquitable accounts.length p) (i + 1)) ++
              residualIds (residualAccountIds accounts agents.length p) agents.length 0 i } := by
  have hk := (validateInputs_pos accounts agents hv).1
  have hlen2 := phaseTwo_length p now accounts agents
  have hform : (handleRemainingAccounts (phaseTwo p now accounts agents).1
      (phaseTwo p now accounts agents).2.1 (phaseTwo p now accounts agents).2.2 now).1 =
      (phaseTwo p now accounts agents).1.mapIdx fun i a =>
        { a with
          rankingAccounts := a.rankingAccounts +
            (residualIds (residualAccountIds accounts agents.length p) agents.length 0 i).length
          totalAccounts := a.totalAccounts +
            (residualIds (residualAccountIds accounts agents.length p) agents.length 0 i).length
          accountsList := a.accountsList ++
            residualIds (residualAccountIds accounts agents.length p) agents.length 0 i } := by
    unfold handleRemainingAccounts
    simp only []
    rw [remainingLoop_closed_form _ _ _ _ _ _ (by rw [hlen2]; exact hk), sliceFrom_map,
      phaseTwo_ids, phaseTwo_cursor, hlen2]
    rfl
  refine ⟨_, (distribute_of_valid p now accounts agents hv).1, ?_, ?_⟩
  · rw [hform, List.length_mapIdx, hlen2]
  · intro i hi hs
    have hi2 : i < (phaseTwo p now accounts agents).1.length := by
      rw [hlen2, ← length_getActiveAgentsSorted]; exact hs
    simp only [hform, List.getElem_mapIdx, phaseTwo_getElem p now accounts agents i hi2 hs,
      List.append_assoc, add_assoc]

/-! ## Arithmetic of a valid run -/

theorem totalEquitable_nonneg (n : Nat) (p : ℚ) (hp0 : 0 ≤ p) : 0 ≤ totalEquitable n p :=
  mathFloor_mul_nonneg n p hp0

theorem totalEquitable_le (n : Nat) (p : ℚ) (hp1 : p ≤ 1) : totalEquitable n p ≤ (n : Int) :=
  mathFloor_mul_le n p hp1

theorem perAgentEquitable_eq_div (n k : Nat) (p : ℚ) :
    perAgentEquitable n k p = totalEquitable n p / (k : Int) := by
  unfold perAgentEquitable mathFloor
  exact Rat.floor_intCast_div_natCast _ _

theorem perAgentEquitable_nonneg (n k : Nat) (p : ℚ) (hp0 : 0 ≤ p) :
    0 ≤ perAgentEquitable n k p := by
  rw [perAgentEquitable_eq_div]
  exact Int.ediv_nonneg (totalEquitable_nonneg n p hp0) (Int.natCast_nonneg k)

theorem mul_perAgentEquitable (n k : Nat) (p : ℚ) :
    (k : Int) * perAgentEquitable n k p = totalEquitable n p - totalEquitable n p % (k : Int) := by
  rw [perAgentEquitable_eq_div, Int.emod_def]
  ring

theorem mul_perAgentEquitable_le (n k : Nat) (p : ℚ) (hk : 0 < k) :
    (k : Int) * perAgentEquitable n k p ≤ totalEquitable n p := by
  rw [mul_perAgentEquitable]
  have := Int.emod_nonneg (totalEquitable n p) (by omega : (k : Int) ≠ 0)
  omega

theorem mathRound_nonneg (x : ℚ) (hx : 0 ≤ x) : 0 ≤ mathRound x := by
  unfold mathRound
  rw [Int.floor_nonneg]
  linarith

theorem mathRound_mono (x y : ℚ) (h : x ≤ y) : mathRound x ≤ mathRound y := by
  unfold mathRound
  exact Int.floor_le_floor (by linarith)

theorem rankingAmounts_nonneg (weights : List Nat) (totalWeight : Nat) (remaining : Int)
    (hr : 0 ≤ remaining) :
    ∀ (k index : Nat), ∀ a ∈ rankingAmounts weights totalWeight remaining k index, 0 ≤ a := by
  intro k
  induction k with
  | zero => intro index a ha; simp [rankingAmounts] at ha
  | succ k ih =>
    intro index a ha
    simp only [rankingAmounts, List.mem_cons] at ha
    rcases ha with ha | ha
    · rw [ha]
      apply mathRound_nonneg
      apply mul_nonneg
      · exact_mod_cast hr
      · exact div_nonneg (Nat.cast_nonneg _) (Nat.cast_nonneg _)
    · exact ih _ a ha

theorem intendedAmounts_length (n k : Nat) (p : ℚ) : (intendedAmounts n k p).length = k :=
  rankingAmounts_length _ _ _ _ _

theorem intendedAmounts_nonneg (n k : Nat) (p : ℚ) (hp1 : p ≤ 1) :
    ∀ a ∈ intendedAmounts n k p, 0 ≤ a :=
  rankingAmounts_nonneg _ _ _ (by have := totalEquitable_le n p hp1; omega) _ _

theorem cursorAt_zero (amounts : List Int) (start : Int) : cursorAt amounts start 0 = start := by
  simp [cursorAt]

theorem cursorAt_succ (amounts : List Int) (start : Int) (i : Nat) (hi : i < amounts.length) :
    cursorAt amounts start (i + 1) = cursorAt amounts start i + amounts[i] := by
  simp only [cursorAt, List.sum_take_succ amounts i hi]
  ring

theorem cursorAt_le_succ (amounts : List Int) (start : Int) (hnonneg : ∀ a ∈ amounts, 0 ≤ a)
    (i : Nat) : cursorAt amounts start i ≤ cursorAt amounts start (i + 1) := by
  by_cases hi : i < amounts.length
  · rw [cursorAt_succ amounts start i hi]
    have := hnonneg _ (List.getElem_mem hi)
    omega
  · simp only [cursorAt]
    rw [List.take_of_length_le (by omega), List.take_of_length_le (by omega)]

theorem cursorAt_mono (amounts : List Int) (start : Int) (hnonneg : ∀ a ∈ amounts, 0 ≤ a)
    (i j : Nat) (hij : i ≤ j) : cursorAt amounts start i ≤ cursorAt amounts start j := by
  induction j with
  | zero =>
    have : i = 0 := by omega
    rw [this]
  | succ j ih =>
    rcases Nat.lt_or_ge i (j + 1) with h | h
    · exact le_trans (ih (by omega)) (cursorAt_le_succ amounts start hnonneg j)
    · have : i = j + 1 := by omega
      rw [this]

theorem start_le_cursorAt (amounts : List Int) (start : Int) (hnonneg : ∀ a ∈ amounts, 0 ≤ a)
    (i : Nat) : start ≤ cursorAt amounts start i := by
  have := cursorAt_mono amounts start hnonneg 0 i (Nat.zero_le _)
  rwa [cursorAt_zero] at this

/-! ## Slices with non-negative bounds -/

theorem sliceIndex_of_nonneg (len : Nat) (c : Int) (hc : 0 ≤ c) :
    sliceIndex len c = min c.toNat len := by
  unfold sliceIndex
  split
  · omega
  · rfl

theorem slice_of_nonneg {α : Type} (xs : List α) (start stop : Int) (hs : 0 ≤ start) (he : 0 ≤ stop) :
    slice xs start stop = (xs.take (min stop.toNat xs.length)).drop start.toNat := by
  unfold slice
  simp only [sliceIndex_of_nonneg _ _ hs, sliceIndex_of_nonneg _ _ he]
  rw [List.drop_take]
  by_cases h : start.toNat ≤ xs.length
  · rw [min_eq_left h]
  · have h1 : xs.drop (min start.toNat xs.length) = [] := by
      rw [List.drop_eq_nil_iff]
      omega
    have h2 : xs.drop start.toNat = [] := by
      rw [List.drop_eq_nil_iff]
      omega
    rw [h1, h2]
    simp

theorem slice_append_slice {α : Type} (xs : List α) (a b c : Int) (ha : 0 ≤ a) (hab : a ≤ b)
    (hbc : b ≤ c) : slice xs a b ++ slice xs b c = slice xs a c := by
  have hb : 0 ≤ b := by omega
  have hc : 0 ≤ c := by omega
  unfold slice
  simp only [sliceIndex_of_nonneg _ _ ha, sliceIndex_of_nonneg _ _ hb,
    sliceIndex_of_nonneg _ _ hc]
  have h1 : min a.toNat xs.length ≤ min b.toNat xs.length := by omega
  have h2 : min b.toNat xs.length ≤ min c.toNat xs.length := by omega
  have e : min c.toNat xs.length - min a.toNat xs.length =
      (min b.toNat xs.length - min a.toNat xs.length) +
        (min c.toNat xs.length - min b.toNat xs.length) := by omega
  rw [e, List.take_add, List.drop_drop]
  congr 3
  omega

theorem slice_append_sliceFrom {α : Type} (xs : List α) (a b : Int) (ha : 0 ≤ a) (hab : a ≤ b) :
    slice xs a b ++ sliceFrom xs b = sliceFrom xs a := by
  have hb : 0 ≤ b := by omega
  unfold slice sliceFrom
  simp only [sliceIndex_of_nonneg _ _ ha, sliceIndex_of_nonneg _ _ hb]
  have h1 : min a.toNat xs.length ≤ min b.toNat xs.length := by omega
  have e : xs.drop (min b.toNat xs.length) =
      (xs.drop (min a.toNat xs.length)).drop (min b.toNat xs.length - min a.toNat xs.length) := by
    rw [List.drop_drop]
    congr 1
    omega
  rw [e, List.take_append_drop]

theorem slice_natCast {α : Type} (xs : List α) (a b : Nat) (hb : b ≤ xs.length) :
    slice xs (a : Int) (b : Int) = (xs.drop a).take (b - a) := by
  unfold slice
  simp only [sliceIndex_natCast]
  by_cases h : a ≤ xs.length
  · rw [min_eq_left h, min_eq_left hb]
  · have h1 : min b xs.length - min a xs.length = 0 := by omega
    have h2 : b - a = 0 := by omega
    rw [h1, h2]
    simp

theorem sliceLen_natCast (len a b : Nat) (hab : a ≤ b) (hb : b ≤ len) :
    sliceLen len (a : Int) (b : Int) = b - a := by
  unfold sliceLen
  simp only [sliceIndex_natCast]
  omega

/-- The bounds of the phase-1 slices of a valid run: with `Q` the accounts per agent, the
slices `[i * Q, (i + 1) * Q)` of the `k` agents end at or before `floor(n * p)`. -/
theorem equitable_bounds (n k : Nat) (p : ℚ) (hp0 : 0 ≤ p) (hp1 : p ≤ 1) (hk : 0 < k) :
    ((perAgentEquitable n k p).toNat : Int) = perAgentEquitable n k p ∧
      ((k * (perAgentEquitable n k p).toNat : Nat) : Int) ≤ totalEquitable n p ∧
      k * (perAgentEquitable n k p).toNat ≤ n ∧
      ∀ i, i < k → (i + 1) * (perAgentEquitable n k p).toNat ≤ n := by
  have hq := perAgentEquitable_nonneg n k p hp0
  have hQ : ((perAgentEquitable n k p).toNat : Int) = perAgentEquitable n k p :=
    Int.toNat_of_nonneg hq
  have hkq := mul_perAgentEquitable_le n k p hk
  have hE := totalEquitable_le n p hp1
  have h2 : ((k * (perAgentEquitable n k p).toNat : Nat) : Int) ≤ totalEquitable n p := by
    push_cast
    rw [hQ]
    exact hkq
  have h3 : k * (perAgentEquitable n k p).toNat ≤ n := by
    have : ((k * (perAgentEquitable n k p).toNat : Nat) : Int) ≤ (n : Int) := le_trans h2 hE
    exact_mod_cast this
  refine ⟨hQ, h2, h3, ?_⟩
  intro i hi
  exact le_trans (Nat.mul_le_mul_right _ (by omega)) h3

theorem validateInputs_of_valid (accounts : List Account) (agents : List Agent)
    (hne : agents ≠ []) (hle : agents.length ≤ accounts.length) :
    validateInputs accounts agents = none := by
  rw [validateInputs_eq_none_iff]
  refine ⟨?_, hne, hle⟩
  rintro rfl
  cases agents with
  | nil => exact hne rfl
  | cons a l => simp at hle

/-! ## Weights and intended amounts -/

theorem calculateWeights_succ (k : Nat) :
    calculateWeights (k + 1) = (k + 1) :: calculateWeights k := by
  unfold calculateWeights
  rw [List.range_succ_eq_map, List.map_cons, List.map_map]
  congr 1
  apply List.map_congr_left
  intro i _
  simp

theorem two_mul_sum_calculateWeights (k : Nat) :
    2 * (calculateWeights k).sum = k * (k + 1) := by
  induction k with
  | zero => rfl
  | succ k ih =>
    rw [calculateWeights_succ, List.sum_cons, Nat.mul_add, ih]
    ring

theorem totalWeight_eq (k : Nat) :
    (((calculateWeights k).foldl (fun sum w => sum + w) 0 : Nat) : ℚ) =
      (k : ℚ) * ((k : ℚ) + 1) / 2 := by
  rw [← List.sum_eq_foldl]
  have h := two_mul_sum_calculateWeights k
  have h2 : (2 : ℚ) * ((calculateWeights k).sum : ℚ) = (k : ℚ) * ((k : ℚ) + 1) := by
    exact_mod_cast h
  linarith

theorem calculateWeights_getD (k i : Nat) (hi : i < k) :
    (calculateWeights k).getD i 0 = k - i := by
  unfold calculateWeights
  rw [List.getD_eq_getElem _ _ (by simpa using hi)]
  simp

theorem rankingAmounts_getElem (weights : List Nat) (totalWeight : Nat) (remaining : Int) :
    ∀ (k index i : Nat) (hi : i < (rankingAmounts weights totalWeight remaining k index).length),
      (rankingAmounts weights totalWeight remaining k index)[i] =
        mathRound ((remaining : ℚ) *
          (((weights.getD (index + i) 0 : Nat) : ℚ) / (totalWeight : ℚ))) := by
  intro k
  induction k with
  | zero => intro index i hi; simp [rankingAmounts] at hi
  | succ k ih =>
    intro index i hi
    cases i with
    | zero => simp [rankingAmounts]
    | succ i =>
      simp only [rankingAmounts, List.getElem_cons_succ]
      rw [ih]
      congr 5
      omega

theorem intendedAmounts_getElem (n k : Nat) (p : ℚ) (i : Nat)
    (hi : i < (intendedAmounts n k p).length) :
    (intendedAmounts n k p)[i] = specAmount n k p i := by
  have hik : i < k := by rw [intendedAmounts_length] at hi; exact hi
  unfold intendedAmounts specAmount
  rw [rankingAmounts_getElem, Nat.zero_add, calculateWeights_getD k i hik, totalWeight_eq,
    Nat.cast_sub (le_of_lt hik)]
  unfold totalEquitable
  push_cast
  congr 1
  ring

theorem cursorAt_intendedAmounts (n k : Nat) (p : ℚ) (i : Nat) (hi : i ≤ k) :
    cursorAt (intendedAmounts n k p) (totalEquitable n p) i = specCursor n k p i := by
  induction i with
  | zero => rw [cursorAt_zero]; rfl
  | succ i ih =>
    have hlt : i < (intendedAmounts n k p).length := by rw [intendedAmounts_length]; omega
    rw [cursorAt_succ _ _ _ hlt, ih (by omega), intendedAmounts_getElem _ _ _ _ hlt]
    rfl

/-- The phase-1 slice of the agent at position `i < k` of a valid run, as a sublist of the
accounts. -/
theorem equitable_slice (accounts : List Account) (k : Nat) (p : ℚ) (hp0 : 0 ≤ p)
    (hp1 : p ≤ 1) (hk : 0 < k) (i : Nat) (hik : i < k) :
    slice (accounts.map fun acc => acc.id)
        ((i : Int) * perAgentEquitable accounts.length k p)
        (((i : Int) + 1) * perAgentEquitable accounts.length k p) =
      ((accounts.drop (i * (perAgentEquitable accounts.length k p).toNat)).take
        (perAgentEquitable accounts.length k p).toNat).map fun acc => acc.id := by
  obtain ⟨hQ, _, _, hslices⟩ := equitable_bounds accounts.length k p hp0 hp1 hk
  have hbound := hslices i hik
  have e1 : (i : Int) * perAgentEquitable accounts.length k p =
      ((i * (perAgentEquitable accounts.length k p).toNat : Nat) : Int) := by
    push_cast; rw [hQ]
  have e2 : ((i : Int) + 1) * perAgentEquitable accounts.length k p =
      (((i + 1) * (perAgentEquitable accounts.length k p).toNat : Nat) : Int) := by
    push_cast; rw [hQ]
  have hsub : (i + 1) * (perAgentEquitable accounts.length k p).toNat -
      i * (perAgentEquitable accounts.length k p).toNat =
      (perAgentEquitable accounts.length k p).toNat := by
    rw [Nat.add_mul]; omega
  rw [e1, e2, slice_natCast _ _ _ (by simpa using hbound), hsub, List.map_take, List.map_drop]

/-- The cursors of a valid run are non-negative. -/
theorem cursorAt_nonneg (n k : Nat) (p : ℚ) (hp0 : 0 ≤ p) (hp1 : p ≤ 1) (i : Nat) :
    0 ≤ cursorAt (intendedAmounts n k p) (totalEquitable n p) i :=
  le_trans (totalEquitable_nonneg n p hp0)
    (start_le_cursorAt _ _ (intendedAmounts_nonneg n k p hp1) i)

/-! ## Residual accounts, in the words of the claims -/

theorem residualIds_map_id (remaining : List Account) (k i : Nat) :
    residualIds (remaining.map fun acc => acc.id) k 0 i =
      (remaining.enum.filter fun je => je.1 % k == i).map fun je => je.2.id := by
  unfold residualIds
  rw [List.enum_eq_enumFrom, List.enumFrom_map, List.filter_map, List.map_map]
  rfl

/-- Ten accounts for three agents at 50%: the amounts 3, 2, 1 exceed the 5 accounts of the
ranking share, and the third slice is empty. -/
theorem distribute_ten_accounts_three_agents :
    (distribute (1 / 2) 0 tenAccounts threeAgents).result =
      .ok [{ agentId := 10, equitableAccounts := 1, rankingAccounts := 3, totalAccounts := 4,
             accountsList := [0, 5, 6, 7] },
           { agentId := 11, equitableAccounts := 1, rankingAccounts := 2, totalAccounts := 3,
             accountsList := [1, 8, 9] },
           { agentId := 12, equitableAccounts := 1, rankingAccounts := 0, totalAccounts := 1,
             accountsList := [2] }] := by
  rw [distribute_result_of_valid _ _ _ _ (by simp [validateInputs, tenAccounts, threeAgents])]
  norm_num [getActiveAgentsSorted, sampleAgent, sampleAccount, createInitialAssignments,
    distributeEquitable, distributeEquitableLoop, distributeByRanking, distributeByRankingLoop,
    handleRemainingAccounts, handleRemainingLoop, calculateWeights, mathFloor, mathRound,
    slice, sliceFrom, sliceIndex, assignSlice, List.range, List.range.loop, List.orderedInsert,
    Account.assignToAgent, handleRemainingStep, tenAccounts, threeAgents]
  decide

theorem specAmount_ten_three :
    specCursor 10 3 (1 / 2) 2 = 10 ∧ specAmount 10 3 (1 / 2) 2 = 1 := by
  norm_num [specCursor, specAmount, mathFloor, mathRound]

/-- C24: `handleRemainingAccounts` hands the `j`-th account (0-based) from `startIndex` on to
the assignment at position `j mod k`: that assignment gains one in `rankingAccounts` and in
`totalAccounts` and the account id at the end of its `accountsList`, per such account; and
on valid input `distribute` returns what `handleRemainingAccounts` makes of the assignments of
the phase-2 loop, from the final cursor `c_k` on. -/
theorem handleRemainingAccounts_round_robin (p : ℚ) (now : Timestamp) (accounts : List Account)
    (agents : List Agent) (assignments : List Assignment) (startIndex : Int)
    (hassignments : assignments ≠ []) (hne : agents ≠ [])
    (hle : agents.length ≤ accounts.length) :
    (handleRemainingAccounts assignments accounts startIndex now).1 =
        assignments.mapIdx (fun i a =>
          { a with
            rankingAccounts := a.rankingAccounts +
              (((sliceFrom accounts startIndex).enum.filter fun je =>
                je.1 % assignments.length == i).map fun je => je.2.id).length
            totalAccounts := a.totalAccounts +
              (((sliceFrom accounts startIndex).enum.filter fun je =>
                je.1 % assignments.length == i).map fun je => je.2.id).length
            accountsList := a.accountsList ++
              ((sliceFrom accounts startIndex).enum.filter fun je =>
                je.1 % assignments.length == i).map fun je => je.2.id }) ∧
      (distribute p now accounts agents).result =
        .ok (handleRemainingAccounts (phaseTwo p now accounts agents).1
          (phaseTwo p now accounts agents).2.1
          (specCursor accounts.length agents.length p agents.length) now).1 := by
  constructor
  · unfold handleRemainingAccounts
    simp only []
    rw [remainingLoop_closed_form _ _ _ _ _ _ (List.length_pos.2 hassignments)]
    simp only [residualIds_map_id]
  · have hv := validateInputs_of_valid accounts agents hne hle
    rw [(distribute_of_valid p now accounts agents hv).1, phaseTwo_cursor,
      cursorAt_intendedAmounts _ _ _ _ (le_refl _)]

/-! ## The account ids handed out by a run -/

theorem equitableLoop_flatMap (q : Int) (hq : 0 ≤ q) (now : Timestamp)
    (assignments : List Assignment) :
    ∀ (accounts : List Account) (idx : Int), 0 ≤ idx →
      ((distributeEquitableLoop q now assignments accounts idx).1.flatMap
          fun a => a.accountsList).Perm
        ((assignments.flatMap fun a => a.accountsList) ++
          slice (accounts.map fun acc => acc.id) idx (idx + (assignments.length : Int) * q)) := by
  induction assignments with
  | nil =>
    intro accounts idx _
    simp [distributeEquitableLoop, slice]
  | cons a rest ih =>
    intro accounts idx hidx
    have hkq : 0 ≤ (rest.length : Int) * q := mul_nonneg (Int.natCast_nonneg _) hq
    have h := ih (assignSlice accounts idx (idx + q) a.agentId now) (idx + q) (by omega)
    rw [assignSlice_ids] at h
    have hsl := slice_append_slice (accounts.map fun acc => acc.id) idx (idx + q)
      (idx + q + (rest.length : Int) * q) hidx (by omega) (by omega)
    have e : idx + ((rest.length + 1 : Nat) : Int) * q = idx + q + (rest.length : Int) * q := by
      push_cast; ring
    simp only [distributeEquitableLoop, List.flatMap_cons, List.length_cons]
    rw [e, ← hsl, slice_map]
    rw [List.perm_iff_count]
    intro x
    have hc := h.count_eq x
    simp only [List.count_append] at hc ⊢
    omega

theorem rankingLoop_flatMap (weights : List Nat) (totalWeight : Nat) (remaining : Int)
    (hr : 0 ≤ remaining) (now : Timestamp) (assignments : List Assignment) :
    ∀ (index : Nat) (accounts : List Account) (idx : Int), 0 ≤ idx →
      ((distributeByRankingLoop weights totalWeight remaining now assignments index accounts
          idx).1.flatMap fun a => a.accountsList).Perm
        ((assignments.flatMap fun a => a.accountsList) ++
          slice (accounts.map fun acc => acc.id) idx
            (idx + (rankingAmounts weights totalWeight remaining assignments.length
              index).sum)) := by
  induction assignments with
  | nil =>
    intro index accounts idx _
    simp [distributeByRankingLoop, rankingAmounts, slice]
  | cons a rest ih =>
    intro index accounts idx hidx
    have hnonneg := rankingAmounts_nonneg weights totalWeight remaining hr
    have ha : 0 ≤ mathRound ((remaining : ℚ) *
        (((weights.getD index 0 : Nat) : ℚ) / (totalWeight : ℚ))) :=
      hnonneg (rest.length + 1) index _ (by simp [rankingAmounts])
    have hsum : 0 ≤ (rankingAmounts weights totalWeight remaining rest.length
        (index + 1)).sum :=
      List.sum_nonneg (hnonneg rest.length (index + 1))
    have h := ih (index + 1) (assignSlice accounts idx
      (idx + mathRound ((remaining : ℚ) *
        (((weights.getD index 0 : Nat) : ℚ) / (totalWeight : ℚ)))) a.agentId now)
      (idx + mathRound ((remaining : ℚ) *
        (((weights.getD index 0 : Nat) : ℚ) / (totalWeight : ℚ)))) (by omega)
    rw [assignSlice_ids] at h
    have hsl := slice_append_slice (accounts.map fun acc => acc.id) idx
      (idx + mathRound ((remaining : ℚ) *
        (((weights.getD index 0 : Nat) : ℚ) / (totalWeight : ℚ))))
      (idx + mathRound ((remaining : ℚ) *
        (((weights.getD index 0 : Nat) : ℚ) / (totalWeight : ℚ))) +
        (rankingAmounts weights totalWeight remaining rest.length (index + 1)).sum)
      hidx (by omega) (by omega)
    simp only [distributeByRankingLoop, List.flatMap_cons, List.length_cons, rankingAmounts,
      List.sum_cons]
    rw [← add_assoc, ← hsl, slice_map]
    rw [List.perm_iff_count]
    intro x
    have hc := h.count_eq x
    simp only [List.count_append] at hc ⊢
    omega

theorem flatMap_modify_perm {α β : Type} [DecidableEq β] (g : α → List β) (f : α → α)
    (extra : List β) (hf : ∀ a, g (f a) = g a ++ extra) :
    ∀ (l : List α) (n : Nat), n < l.length →
      ((l.modify f n).flatMap g).Perm (l.flatMap g ++ extra) := by
  intro l
  induction l with
  | nil => intro n hn; simp at hn
  | cons a l ih =>
    intro n hn
    cases n with
    | zero =>
      rw [List.modify_zero_cons, List.flatMap_cons, List.flatMap_cons, hf]
      rw [List.perm_iff_count]
      intro x
      simp only [List.count_append]
      omega
    | succ n =>
      have h := ih n (by simpa using hn)
      rw [List.modify_succ_cons, List.flatMap_cons, List.flatMap_cons]
      rw [List.perm_iff_count]
      intro x
      have hc := h.count_eq x
      simp only [List.count_append] at hc ⊢
      omega

theorem remainingLoop_flatMap (now : Timestamp) (remaining : List Account) :
    ∀ (pos index : Nat) (assignments : List Assignment) (accounts : List Account),
      0 < assignments.length →
      ((handleRemainingLoop now remaining pos index assignments accounts).1.flatMap
          fun a => a.accountsList).Perm
        ((assignments.flatMap fun a => a.accountsList) ++
          remaining.map fun acc => acc.id) := by
  induction remaining with
  | nil =>
    intro pos index assignments accounts _
    simp [handleRemainingLoop]
  | cons account rest ih =>
    intro pos index assignments accounts hk
    obtain ⟨assignment, _, hstep⟩ :=
      remainingStep_of_pos now assignments accounts pos index account hk
    simp only [handleRemainingLoop]
    rw [hstep]
    simp only []
    have h := ih (pos + 1) (index + 1)
      (assignments.modify
        (fun a => { a with
          rankingAccounts := a.rankingAccounts + 1
          totalAccounts := a.totalAccounts + 1
          accountsList := a.accountsList ++ [account.id] })
        (index % assignments.length))
      (accounts.modify (fun acc => acc.assignToAgent assignment.agentId now) pos)
      (by simpa using hk)
    have hm := flatMap_modify_perm (fun a : Assignment => a.accountsList)
      (fun a => { a with
          rankingAccounts := a.rankingAccounts + 1
          totalAccounts := a.totalAccounts + 1
          accountsList := a.accountsList ++ [account.id] })
      [account.id] (fun _ => rfl) assignments (index % assignments.length)
      (Nat.mod_lt _ hk)
    rw [List.perm_iff_count]
    intro x
    have hc := h.count_eq x
    have hc2 := hm.count_eq x
    simp only [List.count_append, List.map_cons, List.count_cons, List.count_nil] at hc hc2 ⊢
    omega

theorem flatMap_createInitialAssignments (agents : List Agent) :
    ((createInitialAssignments agents).flatMap fun a => a.accountsList) = [] := by
  induction agents with
  | nil => rfl
  | cons a l ih =>
    simp only [createInitialAssignments, List.map_cons, List.flatMap_cons, List.nil_append]
    exact ih

/-- The ids handed out by a valid run, up to order: the ids of the first `k * q` accounts and
of the accounts from position `floor(n * p)` on. -/
theorem distribute_flatMap_perm (p : ℚ) (hp0 : 0 ≤ p) (hp1 : p ≤ 1) (now : Timestamp)
    (accounts : List Account) (agents : List Agent)
    (hv : validateInputs accounts agents = none) :
    ((handleRemainingAccounts (phaseTwo p now accounts agents).1
        (phaseTwo p now accounts agents).2.1 (phaseTwo p now accounts agents).2.2 now).1.flatMap
        fun a => a.accountsList).Perm
      ((accounts.take (agents.length * (perAgentEquitable accounts.length agents.length p).toNat)
        ++ accounts.drop (totalEquitable accounts.length p).toNat).map fun acc => acc.id) := by
  have hk := (validateInputs_pos accounts agents hv).1
  obtain ⟨hQ, hkQ, hkn, _⟩ := equitable_bounds accounts.length agents.length p hp0 hp1 hk
  have hE0 := totalEquitable_nonneg accounts.length p hp0
  have hE1 := totalEquitable_le accounts.length p hp1
  have hq := perAgentEquitable_nonneg accounts.length agents.length p hp0
  have hlen1 := phaseOne_length p now accounts agents
  have hlen2 := phaseTwo_length p now accounts agents
  have h1 := equitableLoop_flatMap (perAgentEquitable accounts.length agents.length p) hq now
    (createInitialAssignments (getActiveAgentsSorted agents)) accounts 0 (le_refl _)
  rw [flatMap_createInitialAssignments, List.nil_append] at h1
  have hcl : (createInitialAssignments (getActiveAgentsSorted agents)).length =
      agents.length := by
    simp [createInitialAssignments, length_getActiveAgentsSorted]
  rw [hcl, zero_add] at h1
  have h2 := rankingLoop_flatMap (calculateWeights agents.length)
    ((calculateWeights agents.length).foldl (fun sum w => sum + w) 0)
    ((accounts.length : Int) - totalEquitable accounts.length p) (by omega) now
    (phaseOne p now accounts agents).1 0 (phaseOne p now accounts agents).2.1
    (totalEquitable accounts.length p) hE0
  rw [phaseOne_ids, hlen1] at h2
  have h3 := remainingLoop_flatMap now
    (sliceFrom (phaseTwo p now accounts agents).2.1 (phaseTwo p now accounts agents).2.2)
    (sliceIndex (phaseTwo p now accounts agents).2.1.length (phaseTwo p now accounts agents).2.2)
    0 (phaseTwo p now accounts agents).1 (phaseTwo p now accounts agents).2.1
    (by rw [hlen2]; exact hk)
  rw [sliceFrom_map, phaseTwo_ids, phaseTwo_cursor] at h3
  have hsum : totalEquitable accounts.length p +
      (rankingAmounts (calculateWeights agents.length)
        ((calculateWeights agents.length).foldl (fun sum w => sum + w) 0)
        ((accounts.length : Int) - totalEquitable accounts.length p) agents.length 0).sum =
      cursorAt (intendedAmounts accounts.length agents.length p)
        (totalEquitable accounts.length p) agents.length := by
    rw [cursorAt, intendedAmounts, List.take_of_length_le (by rw [rankingAmounts_length])]
  rw [hsum] at h2
  have hcur := start_le_cursorAt (intendedAmounts accounts.length agents.length p)
    (totalEquitable accounts.length p) (intendedAmounts_nonneg _ _ p hp1) agents.length
  have hjoin := slice_append_sliceFrom (accounts.map fun acc => acc.id)
    (totalEquitable accounts.length p)
    (cursorAt (intendedAmounts accounts.length agents.length p)
      (totalEquitable accounts.length p) agents.length) hE0 hcur
  have hfirst : slice (accounts.map fun acc => acc.id) 0
      ((agents.length : Int) * perAgentEquitable accounts.length agents.length p) =
      (accounts.take (agents.length *
        (perAgentEquitable accounts.length agents.length p).toNat)).map fun acc => acc.id := by
    have e : (agents.length : Int) * perAgentEquitable accounts.length agents.length p =
        ((agents.length * (perAgentEquitable accounts.length agents.length p).toNat : Nat) :
          Int) := by
      push_cast; rw [hQ]
    rw [e]
    have := slice_natCast (accounts.map fun acc => acc.id) 0
      (agents.length * (perAgentEquitable accounts.length agents.length p).toNat)
      (by simpa using hkn)
    simp only [Nat.cast_zero, List.drop_zero, Nat.sub_zero] at this
    rw [this, List.map_take]
  have hlast : sliceFrom (accounts.map fun acc => acc.id) (totalEquitable accounts.length p) =
      (accounts.drop (totalEquitable accounts.length p).toNat).map fun acc => acc.id := by
    unfold sliceFrom
    rw [sliceIndex_of_nonneg _ _ hE0, List.length_map, List.map_drop]
    congr 1
    omega
  rw [hfirst] at h1
  rw [← hjoin] at hlast
  unfold handleRemainingAccounts
  simp only []
  rw [phaseTwo_cursor]
  rw [List.map_append, ← hlast]
  rw [List.perm_iff_count]
  intro x
  have c1 := h1.count_eq x
  have c2 := h2.count_eq x
  have c3 := h3.count_eq x
  simp only [phaseOne, phaseTwo] at c1 c2 c3 ⊢
  simp only [List.count_append] at c1 c2 c3 ⊢
  omega

/-! ## What the run leaves untouched -/

theorem assignSlice_getElem? (accounts : List Account) (start stop : Int) (agentId : AgentId)
    (now : Timestamp) (j : Nat) :
    (assignSlice accounts start stop agentId now)[j]? =
      (accounts[j]?).map fun account =>
        if sliceIndex accounts.length start ≤ j ∧ j < sliceIndex accounts.length stop then
          account.assignToAgent agentId now
        else account := by
  simp only [assignSlice, List.getElem?_mapIdx]

theorem assignSlice_getElem?_of_outside (accounts : List Account) (start stop : Int)
    (agentId : AgentId) (now : Timestamp) (j : Nat)
    (h : j < sliceIndex accounts.length start ∨ sliceIndex accounts.length stop ≤ j) :
    (assignSlice accounts start stop agentId now)[j]? = accounts[j]? := by
  rw [assignSlice_getElem?]
  have hn : ¬ (sliceIndex accounts.length start ≤ j ∧ j < sliceIndex accounts.length stop) := by
    omega
  simp only [hn, if_false]
  cases accounts[j]? <;> rfl

theorem equitableLoop_frame (q : Int) (hq : 0 ≤ q) (now : Timestamp)
    (assignments : List Assignment) :
    ∀ (accounts : List Account) (idx : Int) (j : Nat), 0 ≤ idx →
      (j < sliceIndex accounts.length idx ∨
        sliceIndex accounts.length (idx + (assignments.length : Int) * q) ≤ j) →
      (distributeEquitableLoop q now assignments accounts idx).2.1[j]? = accounts[j]? := by
  induction assignments with
  | nil => intro accounts idx j _ _; rfl
  | cons a rest ih =>
    intro accounts idx j hidx hj
    have hkq : 0 ≤ (rest.length : Int) * q := mul_nonneg (Int.natCast_nonneg _) hq
    have e : idx + ((rest.length + 1 : Nat) : Int) * q = idx + q + (rest.length : Int) * q := by
      push_cast; ring
    simp only [List.length_cons] at hj
    rw [e, sliceIndex_of_nonneg _ _ hidx, sliceIndex_of_nonneg _ _ (by omega)] at hj
    simp only [distributeEquitableLoop]
    rw [ih _ _ j (by omega) (by
      rw [length_assignSlice, sliceIndex_of_nonneg _ _ (by omega),
        sliceIndex_of_nonneg _ _ (by omega)]
      omega)]
    apply assignSlice_getElem?_of_outside
    rw [sliceIndex_of_nonneg _ _ hidx, sliceIndex_of_nonneg _ _ (by omega)]
    omega

theorem rankingLoop_frame (weights : List Nat) (totalWeight : Nat) (remaining : Int)
    (hr : 0 ≤ remaining) (now : Timestamp) (assignments : List Assignment) :
    ∀ (index : Nat) (accounts : List Account) (idx : Int) (j : Nat), 0 ≤ idx →
      j < sliceIndex accounts.length idx →
      (distributeByRankingLoop weights totalWeight remaining now assignments index accounts
        idx).2.1[j]? = accounts[j]? := by
  induction assignments with
  | nil => intro index accounts idx j _ _; rfl
  | cons a rest ih =>
    intro index accounts idx j hidx hj
    have ha : 0 ≤ mathRound ((remaining : ℚ) *
        (((weights.getD index 0 : Nat) : ℚ) / (totalWeight : ℚ))) :=
      rankingAmounts_nonneg weights totalWeight remaining hr 1 index _ (by simp [rankingAmounts])
    rw [sliceIndex_of_nonneg _ _ hidx] at hj
    simp only [distributeByRankingLoop]
    rw [ih _ _ _ j (by omega) (by
      rw [length_assignSlice, sliceIndex_of_nonneg _ _ (by omega)]
      omega)]
    apply assignSlice_getElem?_of_outside
    rw [sliceIndex_of_nonneg _ _ hidx]
    omega

theorem remainingLoop_frame (now : Timestamp) (remaining : List Account) :
    ∀ (pos index : Nat) (assignments : List Assignment) (accounts : List Account) (j : Nat),
      j < pos →
      (handleRemainingLoop now remaining pos index assignments accounts).2[j]? =
        accounts[j]? := by
  induction remaining with
  | nil => intro pos index assignments accounts j _; rfl
  | cons account rest ih =>
    intro pos index assignments accounts j hj
    simp only [handleRemainingLoop]
    rw [ih _ _ _ _ j (by omega)]
    unfold handleRemainingStep
    split
    · rfl
    · simp only [List.getElem?_modify]
      have hne : ¬ pos = j := by omega
      simp only [hne, if_false]
      cases accounts[j]? <;> rfl

/-- The accounts between the end of phase 1 and the start of phase 2 come out of a valid run as
they went in. -/
theorem distribute_skipped_unchanged (p : ℚ) (hp0 : 0 ≤ p) (hp1 : p ≤ 1) (now : Timestamp)
    (accounts : List Account) (agents : List Agent)
    (hv : validateInputs accounts agents = none) (j : Nat)
    (h1 : agents.length * (perAgentEquitable accounts.length agents.length p).toNat ≤ j)
    (h2 : j < (totalEquitable accounts.length p).toNat) :
    (distribute p now accounts agents).accounts[j]? = accounts[j]? := by
  have hk := (validateInputs_pos accounts agents hv).1
  obtain ⟨hQ, hkQ, hkn, _⟩ := equitable_bounds accounts.length agents.length p hp0 hp1 hk
  have hE0 := totalEquitable_nonneg accounts.length p hp0
  have hE1 := totalEquitable_le accounts.length p hp1
  have hq := perAgentEquitable_nonneg accounts.length agents.length p hp0
  have hcur := start_le_cursorAt (intendedAmounts accounts.length agents.length p)
    (totalEquitable accounts.length p) (intendedAmounts_nonneg _ _ p hp1) agents.length
  have hcl : (createInitialAssignments (getActiveAgentsSorted agents)).length =
      agents.length := by
    simp [createInitialAssignments, length_getActiveAgentsSorted]
  rw [(distribute_of_valid p now accounts agents hv).2.1]
  unfold handleRemainingAccounts
  simp only []
  rw [remainingLoop_frame _ _ _ _ _ _ j (by
    rw [phaseTwo_accounts_length, phaseTwo_cursor, sliceIndex_of_nonneg _ _ (by omega)]
    omega)]
  unfold phaseTwo
  rw [rankingLoop_frame _ _ _ (by omega) _ _ _ _ _ j hE0 (by
    rw [phaseOne_accounts_length, sliceIndex_of_nonneg _ _ hE0]
    omega)]
  unfold phaseOne
  apply equitableLoop_frame _ hq _ _ _ _ j (le_refl _)
  right
  rw [hcl, zero_add, sliceIndex_of_nonneg _ _ (mul_nonneg (Int.natCast_nonneg _) hq)]
  have e : ((agents.length : Int) * perAgentEquitable accounts.length agents.length p).toNat =
      agents.length * (perAgentEquitable accounts.length agents.length p).toNat := by
    rw [← hQ]
    exact_mod_cast Int.toNat_natCast _
  rw [e]
  omega

/-! ## Coverage -/

theorem sum_totalAccounts_eq_length_flatMap (assignments : List Assignment)
    (h : ∀ a ∈ assignments, a.Consistent) :
    (assignments.map fun a => a.totalAccounts).sum =
      (assignments.flatMap fun a => a.accountsList).length := by
  induction assignments with
  | nil => rfl
  | cons a rest ih =>
    have h1 := (h a (List.mem_cons_self _ _)).2
    have h2 := ih (fun b hb => h b (List.mem_cons_of_mem _ hb))
    simp only [List.map_cons, List.sum_cons, List.flatMap_cons, List.length_append]
    omega

theorem getElem_mem_take_append_drop {β : Type} (xs : List β) (hnd : xs.Nodup) (a b j : Nat)
    (hj : j < xs.length) : xs[j] ∈ xs.take a ++ xs.drop b ↔ j < a ∨ b ≤ j := by
  rw [List.mem_append, List.mem_take_iff_getElem, List.mem_drop_iff_getElem]
  constructor
  · rintro (⟨i, hi, h⟩ | ⟨i, hi, h⟩)
    · rw [hnd.getElem_inj_iff] at h
      left; omega
    · rw [hnd.getElem_inj_iff] at h
      right; omega
  · rintro (h | h)
    · exact Or.inl ⟨j, by omega, rfl⟩
    · refine Or.inr ⟨j - b, by omega, ?_⟩
      congr 1
      omega

theorem take_append_drop_nodup {β : Type} (xs : List β) (hnd : xs.Nodup) (a b : Nat)
    (hab : a ≤ b) : (xs.take a ++ xs.drop b).Nodup := by
  have hsub : List.Sublist (xs.take a ++ xs.drop b) (xs.take a ++ xs.drop a) :=
    List.Sublist.append (List.Sublist.refl _) (List.drop_sublist_drop_left xs hab)
  rw [List.take_append_drop] at hsub
  exact hnd.sublist hsub

/-- C27: on valid input with a percentage in (0, 1) and accounts of pairwise distinct ids, no
account id occurs twice in the concatenation of the returned `accountsList`s. -/
theorem distribute_no_double_assignment (p : ℚ) (hp0 : 0 < p) (hp1 : p < 1) (now : Timestamp)
    (accounts : List Account) (agents : List Agent) (hne : agents ≠ [])
    (hle : agents.length ≤ accounts.length)
    (hnd : (accounts.map fun acc => acc.id).Nodup) :
    ∃ r : List Assignment,
      (distribute p now accounts agents).result = .ok r ∧
      (r.flatMap fun a => a.accountsList).Nodup := by
  have hv := validateInputs_of_valid accounts agents hne hle
  have hk := (validateInputs_pos accounts agents hv).1
  obtain ⟨hQ, hkQ, hkn, _⟩ :=
    equitable_bounds accounts.length agents.length p (le_of_lt hp0) (le_of_lt hp1) hk
  have hE0 := totalEquitable_nonneg accounts.length p (le_of_lt hp0)
  have hperm := distribute_flatMap_perm p (le_of_lt hp0) (le_of_lt hp1) now accounts agents hv
  refine ⟨_, (distribute_of_valid p now accounts agents hv).1, ?_⟩
  rw [hperm.nodup_iff, List.map_append, List.map_take, List.map_drop]
  exact take_append_drop_nodup _ hnd _ _ (by omega)

/-- Instance of C27: ten accounts, three agents, 50%. -/
theorem distribute_no_double_assignment_witness :
    (0 : ℚ) < 1 / 2 ∧ (1 / 2 : ℚ) < 1 ∧ threeAgents ≠ [] ∧
    threeAgents.length ≤ tenAccounts.length ∧
    (tenAccounts.map fun acc => acc.id).Nodup ∧
    ∃ r : List Assignment,
      (distribute (1 / 2) 0 tenAccounts threeAgents).result = .ok r ∧
      (r.flatMap fun a => a.accountsList).Nodup :=
  ⟨by norm_num, by norm_num, by simp [threeAgents], by simp [threeAgents, tenAccounts],
    by simp [tenAccounts, sampleAccount],
    distribute_no_double_assignment (1 / 2) (by norm_num) (by norm_num) 0 tenAccounts
      threeAgents (by simp [threeAgents]) (by simp [threeAgents, tenAccounts])
      (by simp [tenAccounts, sampleAccount])⟩

/-! ## Account state against the result -/

theorem ownedBefore_of_frame (now : Timestamp) (accounts accounts1 : List Account)
    (b b1 : Nat) (a : Assignment) (hb : b ≤ b1)
    (hframe : ∀ j, j < b → accounts1[j]? = accounts[j]?)
    (h : a.OwnedBefore now accounts b) : a.OwnedBefore now accounts1 b1 := by
  intro x hx
  obtain ⟨j, hj, acc, hacc, rest⟩ := h x hx
  exact ⟨j, by omega, acc, by rw [hframe j hj]; exact hacc, rest⟩

theorem mem_slice_ids (accounts : List Account) (start stop : Int) (x : AccountId)
    (hx : x ∈ slice (accounts.map fun acc => acc.id) start stop) :
    ∃ j, sliceIndex accounts.length start ≤ j ∧ j < sliceIndex accounts.length stop ∧
      ∃ acc, accounts[j]? = some acc ∧ acc.id = x := by
  unfold slice at hx
  simp only [List.length_map] at hx
  rw [List.mem_take_iff_getElem] at hx
  obtain ⟨i, hi, h⟩ := hx
  rw [List.length_drop, List.length_map] at hi
  rw [List.getElem_drop, List.getElem_map] at h
  have hlt : sliceIndex accounts.length start + i < accounts.length := by omega
  exact ⟨sliceIndex accounts.length start + i, by omega, by omega, accounts[_], 
    List.getElem?_eq_getElem hlt, h⟩

theorem assignSlice_ownedBefore (now : Timestamp) (accounts : List Account) (idx amount : Int)
    (hidx : 0 ≤ idx) (hamount : 0 ≤ amount) (a a1 : Assignment)
    (hid : a1.agentId = a.agentId)
    (hlist : a1.accountsList =
      a.accountsList ++ (slice accounts idx (idx + amount)).map fun acc => acc.id)
    (h : a.OwnedBefore now accounts (sliceIndex accounts.length idx)) :
    a1.OwnedBefore now (assignSlice accounts idx (idx + amount) a.agentId now)
      (sliceIndex accounts.length (idx + amount)) := by
  have hmono : sliceIndex accounts.length idx ≤ sliceIndex accounts.length (idx + amount) := by
    rw [sliceIndex_of_nonneg _ _ hidx, sliceIndex_of_nonneg _ _ (by omega)]
    omega
  intro x hx
  rw [hlist, List.mem_append] at hx
  rcases hx with hx | hx
  · obtain ⟨j, hj, acc, hacc, hx1, hx2, hx3⟩ := h x hx
    refine ⟨j, by omega, acc, ?_, hx1, by rw [hid]; exact hx2, hx3⟩
    rw [assignSlice_getElem?_of_outside _ _ _ _ _ _ (Or.inl hj)]
    exact hacc
  · rw [slice_map] at hx
    obtain ⟨j, hj1, hj2, acc, hacc, hx1⟩ := mem_slice_ids accounts _ _ x hx
    refine ⟨j, hj2, acc.assignToAgent a.agentId now, ?_, hx1, by rw [hid]; rfl, rfl⟩
    rw [assignSlice_getElem?, hacc]
    simp [hj1, hj2]

theorem assignSlice_ownedBefore_rest (now : Timestamp) (accounts : List Account)
    (idx amount : Int) (hidx : 0 ≤ idx) (hamount : 0 ≤ amount) (agentId : AgentId)
    (b : Assignment) (h : b.OwnedBefore now accounts (sliceIndex accounts.length idx)) :
    b.OwnedBefore now (assignSlice accounts idx (idx + amount) agentId now)
      (sliceIndex (assignSlice accounts idx (idx + amount) agentId now).length
        (idx + amount)) := by
  rw [length_assignSlice]
  apply ownedBefore_of_frame now accounts _ _ _ b _ _ h
  · rw [sliceIndex_of_nonneg _ _ hidx, sliceIndex_of_nonneg _ _ (by omega)]
    omega
  · intro j hj
    exact assignSlice_getElem?_of_outside _ _ _ _ _ _ (Or.inl hj)

theorem equitableLoop_owned (q : Int) (hq : 0 ≤ q) (now : Timestamp)
    (assignments : List Assignment) :
    ∀ (accounts : List Account) (idx : Int), 0 ≤ idx →
      (∀ a ∈ assignments, a.OwnedBefore now accounts (sliceIndex accounts.length idx)) →
      ∀ a ∈ (distributeEquitableLoop q now assignments accounts idx).1,
        a.OwnedBefore now (distributeEquitableLoop q now assignments accounts idx).2.1
          (sliceIndex accounts.length (idx + (assignments.length : Int) * q)) := by
  induction assignments with
  | nil => intro accounts idx _ _ a ha; simp [distributeEquitableLoop] at ha
  | cons a rest ih =>
    intro accounts idx hidx h b hb
    have hkq : 0 ≤ (rest.length : Int) * q := mul_nonneg (Int.natCast_nonneg _) hq
    have e : idx + ((rest.length + 1 : Nat) : Int) * q = idx + q + (rest.length : Int) * q := by
      push_cast; ring
    have hih := ih (assignSlice accounts idx (idx + q) a.agentId now) (idx + q) (by omega)
      (fun c hc => assignSlice_ownedBefore_rest now accounts idx q hidx hq a.agentId c
        (h c (List.mem_cons_of_mem _ hc)))
    rw [length_assignSlice] at hih
    simp only [distributeEquitableLoop, List.length_cons, List.mem_cons] at hb ⊢
    rw [e]
    rcases hb with hb | hb
    · rw [hb]
      apply ownedBefore_of_frame now (assignSlice accounts idx (idx + q) a.agentId now) _
        (sliceIndex accounts.length (idx + q))
      · rw [sliceIndex_of_nonneg _ _ (by omega), sliceIndex_of_nonneg _ _ (by omega)]
        omega
      · intro j hj
        apply equitableLoop_frame q hq now rest _ _ j (by omega)
        left
        rw [length_assignSlice]
        exact hj
      · exact assignSlice_ownedBefore now accounts idx q hidx hq a _ rfl rfl
          (h a (List.mem_cons_self _ _))
    · exact hih b hb

theorem rankingLoop_owned (weights : List Nat) (totalWeight : Nat) (remaining : Int)
    (hr : 0 ≤ remaining) (now : Timestamp) (assignments : List Assignment) :
    ∀ (index : Nat) (accounts : List Account) (idx : Int), 0 ≤ idx →
      (∀ a ∈ assignments, a.OwnedBefore now accounts (sliceIndex accounts.length idx)) →
      ∀ a ∈ (distributeByRankingLoop weights totalWeight remaining now assignments index
          accounts idx).1,
        a.OwnedBefore now
          (distributeByRankingLoop weights totalWeight remaining now assignments index
            accounts idx).2.1
          (sliceIndex accounts.length
            (idx + (rankingAmounts weights totalWeight remaining assignments.length
              index).sum)) := by
  induction assignments with
  | nil => intro index accounts idx _ _ a ha; simp [distributeByRankingLoop] at ha
  | cons a rest ih =>
    intro index accounts idx hidx h b hb
    have hnonneg := rankingAmounts_nonneg weights totalWeight remaining hr
    have ha : 0 ≤ mathRound ((remaining : ℚ) *
        (((weights.getD index 0 : Nat) : ℚ) / (totalWeight : ℚ))) :=
      hnonneg (rest.length + 1) index _ (by simp [rankingAmounts])
    have hsum : 0 ≤ (rankingAmounts weights totalWeight remaining rest.length
        (index + 1)).sum :=
      List.sum_nonneg (hnonneg rest.length (index + 1))
    have hih := ih (index + 1) (assignSlice accounts idx
        (idx + mathRound ((remaining : ℚ) *
          (((weights.getD index 0 : Nat) : ℚ) / (totalWeight : ℚ)))) a.agentId now)
      (idx + mathRound ((remaining : ℚ) *
        (((weights.getD index 0 : Nat) : ℚ) / (totalWeight : ℚ)))) (by omega)
      (fun c hc => assignSlice_ownedBefore_rest now accounts idx _ hidx ha a.agentId c
        (h c (List.mem_cons_of_mem _ hc)))
    rw [length_assignSlice] at hih
    simp only [distributeByRankingLoop, List.length_cons, List.mem_cons, rankingAmounts,
      List.sum_cons] at hb ⊢
    rw [← add_assoc]
    rcases hb with hb | hb
    · rw [hb]
      apply ownedBefore_of_frame now (assignSlice accounts idx
          (idx + mathRound ((remaining : ℚ) *
            (((weights.getD index 0 : Nat) : ℚ) / (totalWeight : ℚ)))) a.agentId now) _
        (sliceIndex accounts.length (idx + mathRound ((remaining : ℚ) *
          (((weights.getD index 0 : Nat) : ℚ) / (totalWeight : ℚ)))))
      · rw [sliceIndex_of_nonneg _ _ (by omega), sliceIndex_of_nonneg _ _ (by omega)]
        omega
      · intro j hj
        apply rankingLoop_frame weights totalWeight remaining hr now rest _ _ _ j (by omega)
        rw [length_assignSlice]
        exact hj
      · exact assignSlice_ownedBefore now accounts idx _ hidx ha a _ rfl rfl
          (h a (List.mem_cons_self _ _))
    · exact hih b hb

theorem drop_succ_modify {α : Type} (f : α → α) (l : List α) (pos : Nat) :
    (l.modify f pos).drop (pos + 1) = l.drop (pos + 1) := by
  apply List.ext_getElem?
  intro i
  rw [List.getElem?_drop, List.getElem?_drop, List.getElem?_modify]
  have hne : ¬ pos = pos + 1 + i := by omega
  simp only [hne, if_false]
  cases l[pos + 1 + i]? <;> rfl

theorem remainingLoop_owned (now : Timestamp) (remaining : List Account) :
    ∀ (pos index : Nat) (assignments : List Assignment) (accounts : List Account),
      0 < assignments.length → remaining = accounts.drop pos →
      (∀ a ∈ assignments, a.OwnedBefore now accounts pos) →
      ∀ a ∈ (handleRemainingLoop now remaining pos index assignments accounts).1,
        a.OwnedBefore now (handleRemainingLoop now remaining pos index assignments accounts).2
          (pos + remaining.length) := by
  induction remaining with
  | nil => intro pos index assignments accounts _ _ h a ha; exact h a ha
  | cons account rest ih =>
    intro pos index assignments accounts hk hrem h b hb
    obtain ⟨assignment, hget, hstep⟩ :=
      remainingStep_of_pos now assignments accounts pos index account hk
    have hlt : index % assignments.length < assignments.length := Nat.mod_lt _ hk
    have hpos : pos < accounts.length := by
      have := congrArg List.length hrem
      simp only [List.length_cons, List.length_drop] at this
      omega
    have hacc : accounts[pos] = account := by
      have := congrArg (fun l => l[0]?) hrem
      simp only [List.getElem?_cons_zero, List.getElem?_drop, Nat.add_zero,
        List.getElem?_eq_getElem hpos, Option.some.injEq] at this
      exact this.symm
    have hrest : rest = accounts.drop (pos + 1) := by
      have := congrArg List.tail hrem
      simpa [List.tail_drop] using this
    simp only [handleRemainingLoop, List.length_cons] at hb ⊢
    rw [hstep] at hb ⊢
    simp only [] at hb ⊢
    have e : pos + (rest.length + 1) = pos + 1 + rest.length := by omega
    rw [e]
    apply ih (pos + 1) (index + 1) _ _ (by simpa using hk)
      (by rw [drop_succ_modify]; exact hrest) _ b hb
    intro c hc
    obtain ⟨i, hi, rfl⟩ := List.getElem_of_mem hc
    have hi2 : i < assignments.length := by simpa using hi
    have hold := h _ (List.getElem_mem hi2)
    have hframe : ∀ j, j < pos →
        (accounts.modify (fun acc => acc.assignToAgent assignment.agentId now) pos)[j]? =
          accounts[j]? := by
      intro j hj
      rw [List.getElem?_modify]
      have hne : ¬ pos = j := by omega
      simp only [hne, if_false]
      cases accounts[j]? <;> rfl
    rw [List.getElem_modify]
    split
    · rename_i heq
      have hasg : assignments[i] = assignment := by
        have h1 : assignments[index % assignments.length]? = some assignment := by
          rw [← List.get?_eq_getElem?]; exact hget
        rw [List.getElem?_eq_getElem hlt] at h1
        have h2 : assignments[index % assignments.length] = assignments[i] := by
          congr 1
        rw [← h2]
        exact Option.some.inj h1
      intro x hx
      simp only [List.mem_append, List.mem_singleton] at hx
      rcases hx with hx | hx
      · obtain ⟨j, hj, acc, hacc1, hx1, hx2, hx3⟩ := hold x hx
        exact ⟨j, by omega, acc, by rw [hframe j hj]; exact hacc1, hx1, hx2, hx3⟩
      · refine ⟨pos, by omega, account.assignToAgent assignment.agentId now, ?_, hx.symm,
          by rw [hasg]; rfl, rfl⟩
        rw [List.getElem?_modify, List.getElem?_eq_getElem hpos, hacc]
        simp
    · exact ownedBefore_of_frame now accounts _ pos (pos + 1) _ (by omega) hframe hold

theorem remainingLoop_ids (now : Timestamp) (remaining : List Account) :
    ∀ (pos index : Nat) (assignments : List Assignment) (accounts : List Account),
      (handleRemainingLoop now remaining pos index assignments accounts).2.map
          (fun a => a.id) = accounts.map (fun a => a.id) := by
  induction remaining with
  | nil => intros; rfl
  | cons account rest ih =>
    intro pos index assignments accounts
    simp only [handleRemainingLoop]
    rw [ih]
    unfold handleRemainingStep
    split
    · rfl
    · show List.map _ (List.modify _ _ _) = _
      rw [map_modify_of_invariant]
      intro a
      rfl

/-- After a valid run, every id listed by a returned assignment is the id of an account that
is assigned to the agent of that assignment, with date `now`. -/
theorem distribute_owned (p : ℚ) (hp0 : 0 ≤ p) (hp1 : p ≤ 1) (now : Timestamp)
    (accounts : List Account) (agents : List Agent)
    (hv : validateInputs accounts agents = none) :
    ∀ a ∈ (handleRemainingAccounts (phaseTwo p now accounts agents).1
        (phaseTwo p now accounts agents).2.1 (phaseTwo p now accounts agents).2.2 now).1,
      a.OwnedBefore now (distribute p now accounts agents).accounts accounts.length := by
  have hk := (validateInputs_pos accounts agents hv).1
  obtain ⟨hQ, hkQ, hkn, _⟩ := equitable_bounds accounts.length agents.length p hp0 hp1 hk
  have hE0 := totalEquitable_nonneg accounts.length p hp0
  have hE1 := totalEquitable_le accounts.length p hp1
  have hq := perAgentEquitable_nonneg accounts.length agents.length p hp0
  have hlen1 := phaseOne_length p now accounts agents
  have hlen2 := phaseTwo_length p now accounts agents
  have hcl : (createInitialAssignments (getActiveAgentsSorted agents)).length =
      agents.length := by
    simp [createInitialAssignments, length_getActiveAgentsSorted]
  have h1 := equitableLoop_owned (perAgentEquitable accounts.length agents.length p) hq now
    (createInitialAssignments (getActiveAgentsSorted agents)) accounts 0 (le_refl _)
    (fun a ha x hx => by
      rw [(createInitialAssignments_fresh _ a ha).2.2.2] at hx
      simp at hx)
  rw [hcl, zero_add] at h1
  have h2 := rankingLoop_owned (calculateWeights agents.length)
    ((calculateWeights agents.length).foldl (fun sum w => sum + w) 0)
    ((accounts.length : Int) - totalEquitable accounts.length p) (by omega) now
    (phaseOne p now accounts agents).1 0 (phaseOne p now accounts agents).2.1
    (totalEquitable accounts.length p) hE0
    (fun a ha => by
      rw [phaseOne_accounts_length]
      apply ownedBefore_of_frame now _ _ _ _ a _ (fun _ _ => rfl) (h1 a ha)
      rw [sliceIndex_of_nonneg _ _ (mul_nonneg (Int.natCast_nonneg _) hq),
        sliceIndex_of_nonneg _ _ hE0]
      have e : ((agents.length : Int) *
          perAgentEquitable accounts.length agents.length p).toNat =
          agents.length * (perAgentEquitable accounts.length agents.length p).toNat := by
        rw [← hQ]
        exact_mod_cast Int.toNat_natCast _
      rw [e]
      omega)
  have h3 := remainingLoop_owned now
    (sliceFrom (phaseTwo p now accounts agents).2.1 (phaseTwo p now accounts agents).2.2)
    (sliceIndex (phaseTwo p now accounts agents).2.1.length (phaseTwo p now accounts agents).2.2)
    0 (phaseTwo p now accounts agents).1 (phaseTwo p now accounts agents).2.1
    (by rw [hlen2]; exact hk) rfl
    (fun a ha => by
      have := h2 a ha
      rw [phaseOne_accounts_length, hlen1] at this
      rw [phaseTwo_accounts_length, phaseTwo]
      rw [rankingLoop_cursor, hlen1]
      exact this)
  intro a ha
  rw [(distribute_of_valid p now accounts agents hv).2.1]
  have h4 := h3 a ha
  unfold handleRemainingAccounts
  simp only []
  apply ownedBefore_of_frame now _ _ _ _ a _ (fun _ _ => rfl) h4
  unfold sliceFrom
  rw [List.length_drop, phaseTwo_accounts_length]
  have := sliceIndex_le accounts.length (phaseTwo p now accounts agents).2.2
  omega

/-- C30: on valid input with a percentage in (0, 1) and accounts of pairwise distinct ids,
after `distribute` every id in the `accountsList` of a returned assignment is the id of an
account, and every account with that id has `assignedAgent` equal to the `agentId` of the
assignment and an `assignmentDate` that is not null. -/
theorem distribute_state_agrees (p : ℚ) (hp0 : 0 < p) (hp1 : p < 1) (now : Timestamp)
    (accounts : List Account) (agents : List Agent) (hne : agents ≠ [])
    (hle : agents.length ≤ accounts.length)
    (hnd : (accounts.map fun acc => acc.id).Nodup) :
    ∃ r : List Assignment,
      (distribute p now accounts agents).result = .ok r ∧
      ∀ a ∈ r, ∀ x ∈ a.accountsList,
        (∃ acc ∈ (distribute p now accounts agents).accounts, acc.id = x) ∧
        ∀ acc ∈ (distribute p now accounts agents).accounts, acc.id = x →
          acc.assignedAgent = some a.agentId ∧ acc.assignmentDate ≠ none := by
  have hv := validateInputs_of_valid accounts agents hne hle
  have howned := distribute_owned p (le_of_lt hp0) (le_of_lt hp1) now accounts agents hv
  have hids : (distribute p now accounts agents).accounts.map (fun acc => acc.id) =
      accounts.map fun acc => acc.id := by
    rw [(distribute_of_valid p now accounts agents hv).2.1]
    unfold handleRemainingAccounts
    simp only []
    rw [remainingLoop_ids, phaseTwo_ids]
  refine ⟨_, (distribute_of_valid p now accounts agents hv).1, ?_⟩
  intro a ha x hx
  obtain ⟨j, _, acc0, hacc0, hid0, hagent, hdate⟩ := howned a ha x hx
  obtain ⟨hj, hget⟩ := List.getElem?_eq_some_iff.1 hacc0
  refine ⟨⟨acc0, List.mem_iff_getElem?.2 ⟨j, hacc0⟩, hid0⟩, ?_⟩
  intro acc hacc hid
  obtain ⟨i, hi, hgeti⟩ := List.getElem_of_mem hacc
  have hnd2 : ((distribute p now accounts agents).accounts.map fun acc => acc.id).Nodup := by
    rw [hids]; exact hnd
  have hi2 : i < ((distribute p now accounts agents).accounts.map fun acc => acc.id).length := by
    simpa using hi
  have hj2 : j < ((distribute p now accounts agents).accounts.map fun acc => acc.id).length := by
    simpa using hj
  have hij : i = j := by
    have h1 : ((distribute p now accounts agents).accounts.map fun acc => acc.id)[i] =
        ((distribute p now accounts agents).accounts.map fun acc => acc.id)[j] := by
      rw [List.getElem_map, List.getElem_map, hgeti, hget, hid, hid0]
    exact (hnd2.getElem_inj_iff).1 h1
  subst hij
  rw [← hgeti, hget, hagent, hdate]
  exact ⟨rfl, by simp⟩

/-- Instance of C30: ten accounts, three agents, 50%. -/
theorem distribute_state_agrees_witness :
    (0 : ℚ) < 1 / 2 ∧ (1 / 2 : ℚ) < 1 ∧ threeAgents ≠ [] ∧
    threeAgents.length ≤ tenAccounts.length ∧
    (tenAccounts.map fun acc => acc.id).Nodup ∧
    ∃ r : List Assignment,
      (distribute (1 / 2) 0 tenAccounts threeAgents).result = .ok r ∧
      ∀ a ∈ r, ∀ x ∈ a.accountsList,
        (∃ acc ∈ (distribute (1 / 2) 0 tenAccounts threeAgents).accounts, acc.id = x) ∧
        ∀ acc ∈ (distribute (1 / 2) 0 tenAccounts threeAgents).accounts, acc.id = x →
          acc.assignedAgent = some a.agentId ∧ acc.assignmentDate ≠ none :=
  ⟨by norm_num, by norm_num, by simp [threeAgents], by simp [threeAgents, tenAccounts],
    by simp [tenAccounts, sampleAccount],
    distribute_state_agrees (1 / 2) (by norm_num) (by norm_num) 0 tenAccounts
      threeAgents (by simp [threeAgents]) (by simp [threeAgents, tenAccounts])
      (by simp [tenAccounts, sampleAccount])⟩

/-! ## Size of the residual shares -/

theorem residualIds_append_singleton (rest : List AccountId) (x : AccountId) (k i : Nat) :
    residualIds (rest ++ [x]) k 0 i =
      residualIds rest k 0 i ++ (if rest.length % k = i then [x] else []) := by
  unfold residualIds
  rw [List.enumFrom_append, List.filter_append, List.map_append]
  congr 1
  by_cases h : rest.length % k = i
  · simp [List.enumFrom_cons, List.filter_cons, h]
  · simp [List.enumFrom_cons, List.filter_cons, h]

theorem length_residualIds (remaining : List AccountId) (k i : Nat) (hk : 0 < k) (hi : i < k) :
    (residualIds remaining k 0 i).length =
      remaining.length / k + if i < remaining.length % k then 1 else 0 := by
  have hcount : (residualIds remaining k 0 i).length =
      Nat.count (fun x => x ≡ i [MOD k]) remaining.length := by
    induction remaining using List.reverseRecOn with
    | nil => rfl
    | append_singleton rest x ih =>
      rw [residualIds_append_singleton, List.length_append, ih, List.length_append,
        List.length_singleton, Nat.count_succ]
      congr 1
      by_cases h : rest.length % k = i
      · have h2 : rest.length ≡ i [MOD k] := by
          unfold Nat.ModEq
          rw [h, Nat.mod_eq_of_lt hi]
        rw [if_pos h, if_pos h2]
        rfl
      · have h2 : ¬ rest.length ≡ i [MOD k] := by
          unfold Nat.ModEq
          rw [Nat.mod_eq_of_lt hi]
          exact h
        rw [if_neg h, if_neg h2]
        rfl
  rw [hcount, Nat.count_modEq_card _ hk, Nat.mod_eq_of_lt hi]

theorem length_residualIds_succ_le (remaining : List AccountId) (k i : Nat)
    (hi : i + 1 < k) :
    (residualIds remaining k 0 (i + 1)).length ≤ (residualIds remaining k 0 i).length := by
  rw [length_residualIds _ _ _ (by omega) hi, length_residualIds _ _ _ (by omega) (by omega)]
  split <;> split <;> omega

theorem specAmount_antitone (n k : Nat) (p : ℚ) (hp1 : p ≤ 1) (i : Nat) :
    specAmount n k p (i + 1) ≤ specAmount n k p i := by
  unfold specAmount
  apply mathRound_mono
  have hE := totalEquitable_le n p hp1
  unfold totalEquitable at hE
  have hR : (0 : ℚ) ≤ (n : ℚ) - (mathFloor ((n : ℚ) * p) : ℚ) := by
    have : ((mathFloor ((n : ℚ) * p) : Int) : ℚ) ≤ ((n : Int) : ℚ) := by exact_mod_cast hE
    simpa using this
  have hW : (0 : ℚ) ≤ (k : ℚ) * ((k : ℚ) + 1) / 2 := by positivity
  apply div_le_div_of_nonneg_right _ hW
  apply mul_le_mul_of_nonneg_left _ hR
  push_cast
  linarith

theorem sliceLen_succ_le (len : Nat) (c a b : Int) (hc : 0 ≤ c) (hb : 0 ≤ b) (hab : b ≤ a) :
    sliceLen len (c + a) (c + a + b) ≤ sliceLen len c (c + a) := by
  unfold sliceLen
  rw [sliceIndex_of_nonneg _ _ hc, sliceIndex_of_nonneg _ _ (by omega),
    sliceIndex_of_nonneg _ _ (by omega)]
  omega

/-- C28: on valid input with a percentage in (0, 1), `rankingAccounts` and `totalAccounts`
do not increase along the returned sequence: the assignment at rank position `i + 1` has at
most as many as the one at position `i`. -/
theorem distribute_counts_nonincreasing (p : ℚ) (hp0 : 0 < p) (hp1 : p < 1) (now : Timestamp)
    (accounts : List Account) (agents : List Agent) (hne : agents ≠ [])
    (hle : agents.length ≤ accounts.length) :
    ∃ r : List Assignment,
      (distribute p now accounts agents).result = .ok r ∧ r.length = agents.length ∧
      ∀ (i : Nat) (hi : i + 1 < r.length),
        r[i + 1].rankingAccounts ≤ r[i].rankingAccounts ∧
        r[i + 1].totalAccounts ≤ r[i].totalAccounts := by
  have hv := validateInputs_of_valid accounts agents hne hle
  have hk := (validateInputs_pos accounts agents hv).1
  obtain ⟨r, hres, hlen, hform⟩ := distribute_closed_form p now accounts agents hv
  obtain ⟨hQ, _, _, hslices⟩ :=
    equitable_bounds accounts.length agents.length p (le_of_lt hp0) (le_of_lt hp1) hk
  refine ⟨r, hres, hlen, ?_⟩
  intro i hi
  have hik : i + 1 < agents.length := by rw [← hlen]; exact hi
  have hs0 : i < (getActiveAgentsSorted agents).length := by
    rw [length_getActiveAgentsSorted]; omega
  have hs1 : i + 1 < (getActiveAgentsSorted agents).length := by
    rw [length_getActiveAgentsSorted]; exact hik
  have hc0 := cursorAt_nonneg accounts.length agents.length p (le_of_lt hp0) (le_of_lt hp1) i
  have hl0 : i < (intendedAmounts accounts.length agents.length p).length := by
    rw [intendedAmounts_length]; omega
  have hl1 : i + 1 < (intendedAmounts accounts.length agents.length p).length := by
    rw [intendedAmounts_length]; omega
  have e1 := cursorAt_succ (intendedAmounts accounts.length agents.length p)
    (totalEquitable accounts.length p) i hl0
  have e2 := cursorAt_succ (intendedAmounts accounts.length agents.length p)
    (totalEquitable accounts.length p) (i + 1) hl1
  have hanti : (intendedAmounts accounts.length agents.length p)[i + 1] ≤
      (intendedAmounts accounts.length agents.length p)[i] := by
    rw [intendedAmounts_getElem, intendedAmounts_getElem]
    exact specAmount_antitone _ _ p (le_of_lt hp1) i
  have hnn : 0 ≤ (intendedAmounts accounts.length agents.length p)[i + 1] :=
    intendedAmounts_nonneg _ _ p (le_of_lt hp1) _ (List.getElem_mem hl1)
  have hslice := sliceLen_succ_le accounts.length
    (cursorAt (intendedAmounts accounts.length agents.length p)
      (totalEquitable accounts.length p) i)
    (intendedAmounts accounts.length agents.length p)[i]
    (intendedAmounts accounts.length agents.length p)[i + 1] hc0 hnn hanti
  rw [← e1, ← e2] at hslice
  have hresid := length_residualIds_succ_le (residualAccountIds accounts agents.length p)
    agents.length i hik
  have heq : ∀ j, j < agents.length →
      sliceLen accounts.length
        ((j : Int) * perAgentEquitable accounts.length agents.length p)
        (((j : Int) + 1) * perAgentEquitable accounts.length agents.length p) =
      (perAgentEquitable accounts.length agents.length p).toNat := by
    intro j hj
    have hbound := hslices j hj
    have e3 : (j : Int) * perAgentEquitable accounts.length agents.length p =
        ((j * (perAgentEquitable accounts.length agents.length p).toNat : Nat) : Int) := by
      push_cast; rw [hQ]
    have e4 : ((j : Int) + 1) * perAgentEquitable accounts.length agents.length p =
        (((j + 1) * (perAgentEquitable accounts.length agents.length p).toNat : Nat) : Int) := by
      push_cast; rw [hQ]
    rw [e3, e4, sliceLen_natCast _ _ _ (Nat.mul_le_mul_right _ (by omega)) hbound,
      Nat.add_mul]
    omega
  have h0 := heq i (by omega)
  have h1 := heq (i + 1) hik
  rw [hform i (by omega) hs0, hform (i + 1) hi hs1]
  simp only []
  push_cast at h1 ⊢
  rw [h0, h1]
  omega

/-- Instance of C28: ten accounts, three agents, 50%. -/
theorem distribute_counts_nonincreasing_witness :
    (0 : ℚ) < 1 / 2 ∧ (1 / 2 : ℚ) < 1 ∧ threeAgents ≠ [] ∧
    threeAgents.length ≤ tenAccounts.length ∧
    ∃ r : List Assignment,
      (distribute (1 / 2) 0 tenAccounts threeAgents).result = .ok r ∧
      r.length = threeAgents.length ∧
      ∀ (i : Nat) (hi : i + 1 < r.length),
        r[i + 1].rankingAccounts ≤ r[i].rankingAccounts ∧
        r[i + 1].totalAccounts ≤ r[i].totalAccounts :=
  ⟨by norm_num, by norm_num, by simp [threeAgents], by simp [threeAgents, tenAccounts],
    distribute_counts_nonincreasing (1 / 2) (by norm_num) (by norm_num) 0 tenAccounts
      threeAgents (by simp [threeAgents]) (by simp [threeAgents, tenAccounts])⟩

/-! ## The residual bound -/

theorem lt_mathRound (x : ℚ) : x - 1 / 2 < (mathRound x : ℚ) := by
  unfold mathRound
  have := Int.lt_floor_add_one (x + 1 / 2)
  linarith

/-- The phase-2 cursor runs at most half an account per agent behind the exact shares: after
`j` agents it is beyond `floor(n * p) + R * j * (2 * k - j + 1) / (k * (k + 1)) - j / 2`. -/
theorem specCursor_lower_bound (n k : Nat) (p : ℚ) (hk : 0 < k) (j : Nat) :
    (mathFloor ((n : ℚ) * p) : ℚ) +
        ((n : ℚ) - (mathFloor ((n : ℚ) * p) : ℚ)) * (j : ℚ) * (2 * (k : ℚ) - (j : ℚ) + 1) /
          ((k : ℚ) * ((k : ℚ) + 1)) - (j : ℚ) / 2 ≤
      (specCursor n k p j : ℚ) ∧
    (0 < j →
      (mathFloor ((n : ℚ) * p) : ℚ) +
        ((n : ℚ) - (mathFloor ((n : ℚ) * p) : ℚ)) * (j : ℚ) * (2 * (k : ℚ) - (j : ℚ) + 1) /
          ((k : ℚ) * ((k : ℚ) + 1)) - (j : ℚ) / 2 <
      (specCursor n k p j : ℚ)) := by
  have hkq : (0 : ℚ) < (k : ℚ) := by exact_mod_cast hk
  have hden : (k : ℚ) * ((k : ℚ) + 1) ≠ 0 := by positivity
  induction j with
  | zero =>
    refine ⟨?_, fun h => absurd h (lt_irrefl _)⟩
    simp [specCursor]
  | succ j ih =>
    have hstep := lt_mathRound (((n : ℚ) - (mathFloor ((n : ℚ) * p) : ℚ)) *
      ((k : ℚ) - (j : ℚ)) / ((k : ℚ) * ((k : ℚ) + 1) / 2))
    have hx : ((n : ℚ) - (mathFloor ((n : ℚ) * p) : ℚ)) * ((k : ℚ) - (j : ℚ)) /
        ((k : ℚ) * ((k : ℚ) + 1) / 2) =
        ((n : ℚ) - (mathFloor ((n : ℚ) * p) : ℚ)) * ((j : ℚ) + 1) *
            (2 * (k : ℚ) - ((j : ℚ) + 1) + 1) / ((k : ℚ) * ((k : ℚ) + 1)) -
          ((n : ℚ) - (mathFloor ((n : ℚ) * p) : ℚ)) * (j : ℚ) * (2 * (k : ℚ) - (j : ℚ) + 1) /
            ((k : ℚ) * ((k : ℚ) + 1)) := by
      field_simp
      ring
    have hcur : (specCursor n k p (j + 1) : ℚ) =
        (specCursor n k p j : ℚ) + (specAmount n k p j : ℚ) := by
      simp only [specCursor]
      push_cast
      rfl
    have hlt : (mathFloor ((n : ℚ) * p) : ℚ) +
        ((n : ℚ) - (mathFloor ((n : ℚ) * p) : ℚ)) * ((j + 1 : Nat) : ℚ) *
            (2 * (k : ℚ) - ((j + 1 : Nat) : ℚ) + 1) / ((k : ℚ) * ((k : ℚ) + 1)) -
          ((j + 1 : Nat) : ℚ) / 2 < (specCursor n k p (j + 1) : ℚ) := by
      rw [hcur]
      unfold specAmount
      push_cast
      linarith [ih.1]
    exact ⟨le_of_lt hlt, fun _ => hlt⟩

/-- The final phase-2 cursor of `k` agents is less than `k / 2` short of the end of the
accounts. -/
theorem specCursor_final (n k : Nat) (p : ℚ) (hk : 0 < k) :
    2 * (n : Int) - (k : Int) < 2 * specCursor n k p k := by
  have h := (specCursor_lower_bound n k p hk k).2 hk
  have hkq : (0 : ℚ) < (k : ℚ) := by exact_mod_cast hk
  have hden : (k : ℚ) * ((k : ℚ) + 1) ≠ 0 := by positivity
  have hx : ((n : ℚ) - (mathFloor ((n : ℚ) * p) : ℚ)) * (k : ℚ) * (2 * (k : ℚ) - (k : ℚ) + 1) /
      ((k : ℚ) * ((k : ℚ) + 1)) = (n : ℚ) - (mathFloor ((n : ℚ) * p) : ℚ) := by
    field_simp
    ring
  rw [hx] at h
  have h2 : ((2 * (n : Int) - (k : Int) : Int) : ℚ) < ((2 * specCursor n k p k : Int) : ℚ) := by
    push_cast
    linarith
  exact_mod_cast h2

/-- Fewer than `k / 2` accounts are left for the residual round-robin of a valid run. -/
theorem length_residualAccountIds (accounts : List Account) (k : Nat) (p : ℚ) (hp0 : 0 ≤ p)
    (hp1 : p ≤ 1) (hk : 0 < k) : 2 * (residualAccountIds accounts k p).length < k := by
  have h := specCursor_final accounts.length k p hk
  have hc := cursorAt_nonneg accounts.length k p hp0 hp1 k
  unfold residualAccountIds sliceFrom
  rw [List.length_drop, List.length_map, sliceIndex_of_nonneg _ _ hc,
    cursorAt_intendedAmounts _ _ _ _ (le_refl _)]
  rw [cursorAt_intendedAmounts _ _ _ _ (le_refl _)] at hc
  omega

/-- C29: on valid input with `k` agents, the accounts handed to `handleRemainingAccounts`
(those from the final phase-2 cursor on) are fewer than `k / 2`; the assignment at rank
position `i` gains at most one residual account, and gains one only if `i < k / 2`. -/
theorem distribute_residual_bound (p : ℚ) (hp0 : 0 ≤ p) (hp1 : p ≤ 1) (now : Timestamp)
    (accounts : List Account) (agents : List Agent) (hne : agents ≠ [])
    (hle : agents.length ≤ accounts.length) :
    ∃ r : List Assignment,
      (distribute p now accounts agents).result = .ok r ∧ r.length = agents.length ∧
      r = (handleRemainingAccounts (phaseTwo p now accounts agents).1
        (phaseTwo p now accounts agents).2.1 (phaseTwo p now accounts agents).2.2 now).1 ∧
      2 * (sliceFrom (phaseTwo p now accounts agents).2.1
        (phaseTwo p now accounts agents).2.2).length < agents.length ∧
      ∀ (i : Nat) (hi : i < r.length) (h2 : i < (phaseTwo p now accounts agents).1.length),
        ∃ residual : List AccountId,
          r[i].accountsList = (phaseTwo p now accounts agents).1[i].accountsList ++ residual ∧
          r[i].rankingAccounts =
            (phaseTwo p now accounts agents).1[i].rankingAccounts + residual.length ∧
          r[i].totalAccounts =
            (phaseTwo p now accounts agents).1[i].totalAccounts + residual.length ∧
          residual.length ≤ 1 ∧ (residual ≠ [] → 2 * i < agents.length) := by
  have hv := validateInputs_of_valid accounts agents hne hle
  have hk := (validateInputs_pos accounts agents hv).1
  have hlen2 := phaseTwo_length p now accounts agents
  have hbound := length_residualAccountIds accounts agents.length p hp0 hp1 hk
  have hrem : (sliceFrom (phaseTwo p now accounts agents).2.1
      (phaseTwo p now accounts agents).2.2).map (fun acc => acc.id) =
      residualAccountIds accounts agents.length p := by
    rw [sliceFrom_map, phaseTwo_ids, phaseTwo_cursor]
    rfl
  have hform : (handleRemainingAccounts (phaseTwo p now accounts agents).1
      (phaseTwo p now accounts agents).2.1 (phaseTwo p now accounts agents).2.2 now).1 =
      (phaseTwo p now accounts agents).1.mapIdx fun i a =>
        { a with
          rankingAccounts := a.rankingAccounts +
            (residualIds (residualAccountIds accounts agents.length p) agents.length 0 i).length
          totalAccounts := a.totalAccounts +
            (residualIds (residualAccountIds accounts agents.length p) agents.length 0 i).length
          accountsList := a.accountsList ++
            residualIds (residualAccountIds accounts agents.length p) agents.length 0 i } := by
    unfold handleRemainingAccounts
    simp only []
    rw [remainingLoop_closed_form _ _ _ _ _ _ (by rw [hlen2]; exact hk), hrem, hlen2]
  refine ⟨_, (distribute_of_valid p now accounts agents hv).1, ?_, rfl, ?_, ?_⟩
  · rw [hform, List.length_mapIdx, hlen2]
  · have := congrArg List.length hrem
    rw [List.length_map] at this
    rw [this]
    exact hbound
  · intro i hi h2
    have hik : i < agents.length := by rw [← hlen2]; exact h2
    have hcount := length_residualIds (residualAccountIds accounts agents.length p)
      agents.length i hk hik
    rw [Nat.div_eq_of_lt (by omega), Nat.mod_eq_of_lt (by omega), Nat.zero_add] at hcount
    refine ⟨residualIds (residualAccountIds accounts agents.length p) agents.length 0 i,
      ?_, ?_, ?_, ?_, ?_⟩
    · simp only [hform, List.getElem_mapIdx]
    · simp only [hform, List.getElem_mapIdx]
    · simp only [hform, List.getElem_mapIdx]
    · rw [hcount]
      split <;> omega
    · intro hnil
      have hpos : 0 < (residualIds (residualAccountIds accounts agents.length p)
          agents.length 0 i).length := List.length_pos.2 hnil
      rw [hcount] at hpos
      split at hpos <;> omega

/-! ## Performance-based rotation -/

theorem performanceRotation_selectsFromOwnAccounts (repos : Repositories) :
    SelectsFromOwnAccounts repos fun agent =>
      selectLowValueAccounts (repos.accountRepository.getByAgent agent.id)
        ((mathFloor (((repos.accountRepository.getByAgent agent.id).length : ℚ) *
            calculateRotationRate agent) : ℚ) /
          ((repos.accountRepository.getByAgent agent.id).length : ℚ)) := by
  intro agent
  exact ⟨_, List.perm_insertionSort _ _, selectLowValueAccounts_sublist_sorted _ _⟩

theorem calculateRotationRate_nonneg (agent : Agent) (hrank : 1 ≤ agent.currentRanking) :
    0 ≤ calculateRotationRate agent ∧ calculateRotationRate agent ≤ 1 := by
  unfold calculateRotationRate
  have h : (1 : ℚ) ≤ (agent.currentRanking : ℚ) := by exact_mod_cast hrank
  constructor
  · apply le_min
    · linarith
    · norm_num
  · exact le_trans (min_le_right _ _) (by norm_num)

/-- The percentage that `performanceBasedRotation` passes on selects the count it was computed
from: `floor(m * (c / m)) = c` for `m > 0`. -/
theorem mathFloor_mul_div (m : Nat) (c : Int) (hm : 0 < m) :
    mathFloor ((m : ℚ) * ((c : ℚ) / (m : ℚ))) = c := by
  have hm0 : (m : ℚ) ≠ 0 := by exact_mod_cast (Nat.pos_iff_ne_zero.1 hm)
  rw [mul_div_cancel₀ _ hm0]
  exact Int.floor_intCast c

theorem countP_and_add_countP_and_not {α : Type} (p q : α → Bool) (l : List α) :
    l.countP (fun a => p a && q a) + l.countP (fun a => p a && !q a) = l.countP p := by
  induction l with
  | nil => rfl
  | cons a l ih =>
    simp only [List.countP_cons]
    cases hp : p a <;> cases hq : q a <;> simp <;> omega

/-- After the cleared copies of a selection are saved, an agent holds the accounts it held
less those of the selection that were its own. -/
theorem length_getByAgent_cleared (repo : AccountRepository)
    (hnodup : (repo.accounts.map (fun a => a.id)).Nodup) (selected own : List Account)
    (hsel : ∀ s ∈ selected, s ∈ repo.accounts) (agentId : AgentId)
    (hown : ∀ s, s ∈ own ↔ s ∈ selected ∧ s.assignedAgent = some agentId)
    (hownnodup : own.Nodup) :
    ((repo.saveAll (selected.map clearAssignment)).getByAgent agentId).length + own.length =
      (repo.getByAgent agentId).length := by
  have hmem : ∀ a ∈ repo.accounts, (a.id ∈ selected.map (fun a => a.id) ↔ a ∈ selected) := by
    intro a ha
    constructor
    · intro h
      obtain ⟨s, hs, hid⟩ := List.mem_map.1 h
      have : s = a := List.inj_on_of_nodup_map hnodup (hsel s hs) ha hid
      exact this ▸ hs
    · intro h
      exact List.mem_map_of_mem _ h
  have h1 : ((repo.saveAll (selected.map clearAssignment)).getByAgent agentId).length =
      repo.accounts.countP
        (fun a => (a.assignedAgent == some agentId) && !decide (a ∈ selected)) := by
    unfold AccountRepository.getByAgent
    rw [saveAll_cleared repo hnodup selected hsel, ← List.countP_eq_length_filter,
      List.countP_map]
    apply List.countP_congr
    intro a ha
    simp only [Function.comp_apply, clearIds]
    by_cases hin : a ∈ selected
    · simp [(hmem a ha).2 hin, hin, clearAssignment]
    · have : a.id ∉ selected.map (fun a => a.id) := fun h => hin ((hmem a ha).1 h)
      simp [this, hin]
  have h2 : own.length = repo.accounts.countP
      (fun a => (a.assignedAgent == some agentId) && decide (a ∈ selected)) := by
    rw [List.countP_eq_length_filter]
    apply List.Perm.length_eq
    rw [List.perm_ext_iff_of_nodup hownnodup ((List.Nodup.of_map _ hnodup).filter _)]
    intro a
    simp only [List.mem_filter, Bool.and_eq_true, beq_iff_eq, decide_eq_true_eq, hown]
    exact ⟨fun h => ⟨hsel a h.1, h.2, h.1⟩, fun h => ⟨h.2.2, h.2.1⟩⟩
  have h3 : (repo.getByAgent agentId).length =
      repo.accounts.countP (fun a => a.assignedAgent == some agentId) := by
    unfold AccountRepository.getByAgent
    rw [List.countP_eq_length_filter]
  rw [h1, h2, h3, Nat.add_comm]
  exact countP_and_add_countP_and_not _ _ _

/-! ## An instance of the residual round-robin -/

/-- Instance of C24: ten accounts, three agents, 50%, and the residual handling of two fresh
assignments from position 7 on. -/
theorem handleRemainingAccounts_round_robin_witness :
    createInitialAssignments [sampleAgent 10 1, sampleAgent 11 2] ≠ [] ∧ threeAgents ≠ [] ∧
    threeAgents.length ≤ tenAccounts.length ∧
    ((handleRemainingAccounts (createInitialAssignments [sampleAgent 10 1, sampleAgent 11 2])
        tenAccounts 7 0).1 =
        (createInitialAssignments [sampleAgent 10 1, sampleAgent 11 2]).mapIdx (fun i a =>
          { a with
            rankingAccounts := a.rankingAccounts +
              (((sliceFrom tenAccounts 7).enum.filter fun je =>
                je.1 % (createInitialAssignments
                  [sampleAgent 10 1, sampleAgent 11 2]).length == i).map
                    fun je => je.2.id).length
            totalAccounts := a.totalAccounts +
              (((sliceFrom tenAccounts 7).enum.filter fun je =>
                je.1 % (createInitialAssignments
                  [sampleAgent 10 1, sampleAgent 11 2]).length == i).map
                    fun je => je.2.id).length
            accountsList := a.accountsList ++
              ((sliceFrom tenAccounts 7).enum.filter fun je =>
                je.1 % (createInitialAssignments
                  [sampleAgent 10 1, sampleAgent 11 2]).length == i).map
                    fun je => je.2.id }) ∧
      (distribute (1 / 2) 0 tenAccounts threeAgents).result =
        .ok (handleRemainingAccounts (phaseTwo (1 / 2) 0 tenAccounts threeAgents).1
          (phaseTwo (1 / 2) 0 tenAccounts threeAgents).2.1
          (specCursor tenAccounts.length threeAgents.length (1 / 2) threeAgents.length) 0).1) :=
  ⟨by simp [createInitialAssignments], by simp [threeAgents],
    by simp [threeAgents, tenAccounts],
    handleRemainingAccounts_round_robin (1 / 2) 0 tenAccounts threeAgents
      (createInitialAssignments [sampleAgent 10 1, sampleAgent 11 2]) 7
      (by simp [createInitialAssignments]) (by simp [threeAgents])
      (by simp [threeAgents, tenAccounts])⟩


/-! ## Rounding to binary64 -/

theorem floor_le_roundTiesEven (z : ℚ) : ⌊z⌋ ≤ roundTiesEven z := by
  unfold roundTiesEven
  split_ifs <;> omega

theorem roundTiesEven_le_floor_add_one (z : ℚ) : roundTiesEven z ≤ ⌊z⌋ + 1 := by
  unfold roundTiesEven
  split_ifs <;> omega

theorem roundTiesEven_le_of_le (z : ℚ) (N : Int) (h : z ≤ (N : ℚ)) : roundTiesEven z ≤ N := by
  have hfl : ⌊z⌋ ≤ N := by
    have := Int.floor_le z
    exact_mod_cast le_trans this h
  by_cases hlt : z - ⌊z⌋ < 1 / 2
  · unfold roundTiesEven
    rw [if_pos hlt]
    exact hfl
  · have h1 : (⌊z⌋ : ℚ) < (N : ℚ) := by
      have := Int.floor_le z
      linarith
    have h2 : ⌊z⌋ < N := by exact_mod_cast h1
    have := roundTiesEven_le_floor_add_one z
    omega

theorem le_roundTiesEven_of_le (z : ℚ) (N : Int) (h : (N : ℚ) ≤ z) : N ≤ roundTiesEven z :=
  le_trans (Int.le_floor.2 h) (floor_le_roundTiesEven z)

theorem roundTiesEven_intCast (N : Int) : roundTiesEven (N : ℚ) = N :=
  le_antisymm (roundTiesEven_le_of_le _ N le_rfl) (le_roundTiesEven_of_le _ N le_rfl)

theorem roundTiesEven_mono (z w : ℚ) (h : z ≤ w) : roundTiesEven z ≤ roundTiesEven w := by
  have hf : ⌊z⌋ ≤ ⌊w⌋ := Int.floor_le_floor h
  rcases lt_or_eq_of_le hf with hlt | heq
  · have := roundTiesEven_le_floor_add_one z
    have := floor_le_roundTiesEven w
    omega
  · unfold roundTiesEven
    rw [heq]
    split_ifs <;> first | omega | (exfalso; linarith)

theorem abs_roundTiesEven_sub_le (z : ℚ) : |(roundTiesEven z : ℚ) - z| ≤ 1 / 2 := by
  have h1 := Int.floor_le z
  have h2 := Int.lt_floor_add_one z
  rw [abs_le]
  unfold roundTiesEven
  split_ifs <;> push_cast <;> constructor <;> linarith

theorem ulp_pos (x : ℚ) : (0 : ℚ) < 2 ^ ulpExponent x := zpow_pos (by norm_num) _

theorem toDouble_le_of_le_grid (x : ℚ) (N : Int)
    (h : x ≤ (N : ℚ) * 2 ^ ulpExponent x) : toDouble x ≤ (N : ℚ) * 2 ^ ulpExponent x := by
  unfold toDouble
  apply mul_le_mul_of_nonneg_right _ (le_of_lt (ulp_pos x))
  have : roundTiesEven (x / 2 ^ ulpExponent x) ≤ N :=
    roundTiesEven_le_of_le _ N ((div_le_iff₀ (ulp_pos x)).2 h)
  exact_mod_cast this

theorem grid_le_toDouble_of_le (x : ℚ) (N : Int)
    (h : (N : ℚ) * 2 ^ ulpExponent x ≤ x) : (N : ℚ) * 2 ^ ulpExponent x ≤ toDouble x := by
  unfold toDouble
  apply mul_le_mul_of_nonneg_right _ (le_of_lt (ulp_pos x))
  have : N ≤ roundTiesEven (x / 2 ^ ulpExponent x) :=
    le_roundTiesEven_of_le _ N ((le_div_iff₀ (ulp_pos x)).2 h)
  exact_mod_cast this

/-- A multiple of `2 ^ j` is a multiple of the spacing at `x` when `j` is at least the
exponent of that spacing. -/
theorem exists_grid (x : ℚ) (m j : Int) (hj : ulpExponent x ≤ j) :
    ∃ N : Int, (m : ℚ) * 2 ^ j = (N : ℚ) * 2 ^ ulpExponent x := by
  refine ⟨m * 2 ^ (j - ulpExponent x).toNat, ?_⟩
  have h2 : (2 : ℚ) ^ j = 2 ^ ((j - ulpExponent x).toNat : Int) * 2 ^ ulpExponent x := by
    rw [← zpow_add₀ (by norm_num : (2 : ℚ) ≠ 0), Int.toNat_of_nonneg (by omega)]
    congr 1
    omega
  rw [h2, zpow_natCast]
  push_cast
  ring

theorem toDouble_le_of_le_mul_zpow (x : ℚ) (m j : Int) (hj : ulpExponent x ≤ j)
    (h : x ≤ (m : ℚ) * 2 ^ j) : toDouble x ≤ (m : ℚ) * 2 ^ j := by
  obtain ⟨N, hN⟩ := exists_grid x m j hj
  rw [hN] at h ⊢
  exact toDouble_le_of_le_grid x N h

theorem mul_zpow_le_toDouble_of_le (x : ℚ) (m j : Int) (hj : ulpExponent x ≤ j)
    (h : (m : ℚ) * 2 ^ j ≤ x) : (m : ℚ) * 2 ^ j ≤ toDouble x := by
  obtain ⟨N, hN⟩ := exists_grid x m j hj
  rw [hN] at h ⊢
  exact grid_le_toDouble_of_le x N h

theorem toDouble_nonneg (x : ℚ) (h : 0 ≤ x) : 0 ≤ toDouble x := by
  have := grid_le_toDouble_of_le x 0 (by simpa using h)
  simpa using this

theorem toDouble_nonpos (x : ℚ) (h : x ≤ 0) : toDouble x ≤ 0 := by
  have := toDouble_le_of_le_grid x 0 (by simpa using h)
  simpa using this

theorem toDouble_zero : toDouble 0 = 0 :=
  le_antisymm (toDouble_nonpos 0 le_rfl) (toDouble_nonneg 0 le_rfl)

theorem log_abs_lt_iff (x : ℚ) (hx : x ≠ 0) (e : Int) :
    Int.log 2 |x| < e ↔ |x| < 2 ^ e := by
  have h := Int.lt_zpow_iff_log_lt (R := ℚ) (b := 2) (by norm_num) (x := e) (abs_pos.2 hx)
  simpa using h.symm

theorem le_log_abs_iff (x : ℚ) (hx : x ≠ 0) (e : Int) :
    e ≤ Int.log 2 |x| ↔ 2 ^ e ≤ |x| := by
  have h := Int.zpow_le_iff_le_log (R := ℚ) (b := 2) (by norm_num) (x := e) (abs_pos.2 hx)
  simpa using h.symm

/-- Below `2 ^ 53` the spacing is at most 1: the integers are binary64 values there. -/
theorem ulpExponent_nonpos (x : ℚ) (h : |x| < 2 ^ 53) : ulpExponent x ≤ 0 := by
  unfold ulpExponent
  by_cases hx : x = 0
  · rw [if_pos hx]
    omega
  · have : Int.log 2 |x| < 53 := (log_abs_lt_iff x hx 53).2 (by exact_mod_cast h)
    rw [if_neg hx]
    omega

theorem toDouble_le_of_le_int (x : ℚ) (m : Int) (hx : |x| < 2 ^ 53) (h : x ≤ (m : ℚ)) :
    toDouble x ≤ (m : ℚ) := by
  have := toDouble_le_of_le_mul_zpow x m 0 (ulpExponent_nonpos x hx) (by simpa using h)
  simpa using this

theorem int_le_toDouble_of_le (x : ℚ) (m : Int) (hx : |x| < 2 ^ 53) (h : (m : ℚ) ≤ x) :
    (m : ℚ) ≤ toDouble x := by
  have := mul_zpow_le_toDouble_of_le x m 0 (ulpExponent_nonpos x hx) (by simpa using h)
  simpa using this

/-- The integers below `2 ^ 53` in absolute value are binary64 values. -/
theorem toDouble_intCast (m : Int) (hm : |(m : ℚ)| < 2 ^ 53) : toDouble (m : ℚ) = (m : ℚ) :=
  le_antisymm (toDouble_le_of_le_int _ m hm le_rfl) (int_le_toDouble_of_le _ m hm le_rfl)

theorem toDouble_natCast (n : Nat) (hn : n < 2 ^ 53) : toDouble (n : ℚ) = (n : ℚ) := by
  have h := toDouble_intCast (n : Int) (by
    rw [Int.cast_natCast, abs_of_nonneg (Nat.cast_nonneg n)]
    exact_mod_cast hn)
  simpa using h

theorem abs_toDouble_sub_le_ulp (x : ℚ) : |toDouble x - x| ≤ 2 ^ ulpExponent x / 2 := by
  have hu := ulp_pos x
  have h := abs_roundTiesEven_sub_le (x / 2 ^ ulpExponent x)
  have e : toDouble x - x =
      ((roundTiesEven (x / 2 ^ ulpExponent x) : ℚ) - x / 2 ^ ulpExponent x) *
        2 ^ ulpExponent x := by
    unfold toDouble
    field_simp
  rw [e, abs_mul, abs_of_pos hu]
  calc |(roundTiesEven (x / 2 ^ ulpExponent x) : ℚ) - x / 2 ^ ulpExponent x| * 2 ^ ulpExponent x
      ≤ 1 / 2 * 2 ^ ulpExponent x := mul_le_mul_of_nonneg_right h (le_of_lt hu)
    _ = 2 ^ ulpExponent x / 2 := by ring

theorem log_abs_eq (x : ℚ) (e : Int) (h1 : 2 ^ e ≤ |x|) (h2 : |x| < 2 ^ (e + 1)) :
    Int.log 2 |x| = e := by
  have hx : x ≠ 0 := by
    intro h
    rw [h, abs_zero] at h1
    exact absurd h1 (not_le.2 (zpow_pos (by norm_num) _))
  have a := (le_log_abs_iff x hx e).2 h1
  have b := (log_abs_lt_iff x hx (e + 1)).2 h2
  omega

theorem ulpExponent_eq (x : ℚ) (e : Int) (he : -1022 ≤ e) (h1 : 2 ^ e ≤ |x|)
    (h2 : |x| < 2 ^ (e + 1)) : ulpExponent x = e - 52 := by
  have hx : x ≠ 0 := by
    intro h
    rw [h, abs_zero] at h1
    exact absurd h1 (not_le.2 (zpow_pos (by norm_num) _))
  unfold ulpExponent
  rw [if_neg hx, log_abs_eq x e h1 h2, max_eq_left he]

/-- Evaluation of `toDouble` at a number whose binary exponent is known. -/
theorem toDouble_eval (x : ℚ) (e : Int) (he : -1022 ≤ e) (h1 : 2 ^ e ≤ |x|)
    (h2 : |x| < 2 ^ (e + 1)) :
    toDouble x = (roundTiesEven (x / 2 ^ (e - 52)) : ℚ) * 2 ^ (e - 52) := by
  unfold toDouble
  rw [ulpExponent_eq x e he h1 h2]

/-- Relative error of the rounding in the normal range: at most `2 ^ (-53)`. -/
theorem abs_toDouble_sub_le (x : ℚ) (hx : 2 ^ (-1022 : Int) ≤ |x|) :
    |toDouble x - x| ≤ |x| * 2 ^ (-53 : Int) := by
  have hne : x ≠ 0 := by
    intro h
    rw [h, abs_zero] at hx
    exact absurd hx (not_le.2 (zpow_pos (by norm_num) _))
  have hlog : -1022 ≤ Int.log 2 |x| := (le_log_abs_iff x hne _).2 hx
  have hue : ulpExponent x = Int.log 2 |x| - 52 := by
    unfold ulpExponent
    rw [if_neg hne, max_eq_left hlog]
  have hle : (2 : ℚ) ^ Int.log 2 |x| ≤ |x| := (le_log_abs_iff x hne _).1 le_rfl
  have h := abs_toDouble_sub_le_ulp x
  have e : (2 : ℚ) ^ ulpExponent x / 2 = 2 ^ Int.log 2 |x| * 2 ^ (-53 : Int) := by
    rw [hue, ← zpow_add₀ (by norm_num : (2 : ℚ) ≠ 0)]
    have : Int.log 2 |x| - 52 = (Int.log 2 |x| + -53) + 1 := by ring
    rw [this, zpow_add_one₀ (by norm_num : (2 : ℚ) ≠ 0)]
    ring
  rw [e] at h
  exact le_trans h (mul_le_mul_of_nonneg_right hle (le_of_lt (zpow_pos (by norm_num) _)))

theorem toDouble_mono_of_ulpExponent_eq (x y : ℚ) (h : x ≤ y)
    (he : ulpExponent x = ulpExponent y) : toDouble x ≤ toDouble y := by
  unfold toDouble
  rw [he]
  apply mul_le_mul_of_nonneg_right _ (le_of_lt (ulp_pos y))
  have : roundTiesEven (x / 2 ^ ulpExponent y) ≤ roundTiesEven (y / 2 ^ ulpExponent y) :=
    roundTiesEven_mono _ _ (div_le_div_of_nonneg_right h (le_of_lt (ulp_pos y)))
  exact_mod_cast this

theorem toDouble_mono_of_pos (x y : ℚ) (hx : 0 < x) (h : x ≤ y) : toDouble x ≤ toDouble y := by
  have hy : 0 < y := lt_of_lt_of_le hx h
  have hxne : x ≠ 0 := ne_of_gt hx
  have hyne : y ≠ 0 := ne_of_gt hy
  have hlog : Int.log 2 |x| ≤ Int.log 2 |y| :=
    Int.log_mono_right (abs_pos.2 hxne) (by rw [abs_of_pos hx, abs_of_pos hy]; exact h)
  by_cases he : ulpExponent x = ulpExponent y
  · exact toDouble_mono_of_ulpExponent_eq x y h he
  · have hlt : ulpExponent x < ulpExponent y := by
      unfold ulpExponent at he ⊢
      rw [if_neg hxne, if_neg hyne] at he ⊢
      omega
    have hly : ulpExponent y = Int.log 2 |y| - 52 := by
      unfold ulpExponent at hlt ⊢
      rw [if_neg hxne, if_neg hyne] at hlt
      rw [if_neg hyne]
      omega
    have hlx : Int.log 2 |x| < Int.log 2 |y| := by
      unfold ulpExponent at hlt
      rw [if_neg hxne, if_neg hyne] at hlt
      omega
    have h1 : x ≤ ((1 : Int) : ℚ) * 2 ^ Int.log 2 |y| := by
      have := (log_abs_lt_iff x hxne (Int.log 2 |y|)).1 hlx
      have habs := le_abs_self x
      push_cast
      linarith
    have h2 : ((1 : Int) : ℚ) * 2 ^ Int.log 2 |y| ≤ y := by
      have := (le_log_abs_iff y hyne (Int.log 2 |y|)).1 le_rfl
      have habs := abs_of_pos hy
      push_cast
      linarith
    exact le_trans (toDouble_le_of_le_mul_zpow x 1 _ (by omega) h1)
      (mul_zpow_le_toDouble_of_le y 1 _ (by omega) h2)

theorem toDouble_mono_of_neg (x y : ℚ) (hy : y < 0) (h : x ≤ y) : toDouble x ≤ toDouble y := by
  have hx : x < 0 := lt_of_le_of_lt h hy
  have hxne : x ≠ 0 := ne_of_lt hx
  have hyne : y ≠ 0 := ne_of_lt hy
  have hlog : Int.log 2 |y| ≤ Int.log 2 |x| :=
    Int.log_mono_right (abs_pos.2 hyne) (by rw [abs_of_neg hx, abs_of_neg hy]; linarith)
  by_cases he : ulpExponent x = ulpExponent y
  · exact toDouble_mono_of_ulpExponent_eq x y h he
  · have hlt : ulpExponent y < ulpExponent x := by
      unfold ulpExponent at he ⊢
      rw [if_neg hxne, if_neg hyne] at he ⊢
      omega
    have hlx : ulpExponent x = Int.log 2 |x| - 52 := by
      unfold ulpExponent at hlt ⊢
      rw [if_neg hxne, if_neg hyne] at hlt
      rw [if_neg hxne]
      omega
    have hly : Int.log 2 |y| < Int.log 2 |x| := by
      unfold ulpExponent at hlt
      rw [if_neg hxne, if_neg hyne] at hlt
      omega
    have h1 : x ≤ ((-1 : Int) : ℚ) * 2 ^ Int.log 2 |x| := by
      have := (le_log_abs_iff x hxne (Int.log 2 |x|)).1 le_rfl
      have habs := abs_of_neg hx
      push_cast
      linarith
    have h2 : ((-1 : Int) : ℚ) * 2 ^ Int.log 2 |x| ≤ y := by
      have := (log_abs_lt_iff y hyne (Int.log 2 |x|)).1 hly
      have habs := neg_le_abs y
      push_cast
      linarith
    exact le_trans (toDouble_le_of_le_mul_zpow x (-1) _ (by omega) h1)
      (mul_zpow_le_toDouble_of_le y (-1) _ (by omega) h2)

/-- Rounding to binary64 is monotone. -/
theorem toDouble_mono (x y : ℚ) (h : x ≤ y) : toDouble x ≤ toDouble y := by
  rcases lt_trichotomy 0 x with hx | hx | hx
  · exact toDouble_mono_of_pos x y hx h
  · subst hx
    rw [toDouble_zero]
    exact toDouble_nonneg y h
  · rcases lt_or_le y 0 with hy | hy
    · exact toDouble_mono_of_neg x y hy h
    · exact le_trans (toDouble_nonpos x (le_of_lt hx)) (toDouble_nonneg y hy)


theorem toDouble_of_grid (d : ℚ) (N : Int) (h : d = (N : ℚ) * 2 ^ ulpExponent d) :
    toDouble d = d :=
  le_antisymm (by
      have := toDouble_le_of_le_grid d N (le_of_eq h)
      rwa [← h] at this)
    (by
      have := grid_le_toDouble_of_le d N (le_of_eq h.symm)
      rwa [← h] at this)

theorem ulpExponent_le_of_abs_lt (d : ℚ) (e : Int) (he : -1022 ≤ e) (h : |d| < 2 ^ (e + 1)) :
    ulpExponent d ≤ e - 52 := by
  unfold ulpExponent
  by_cases hd : d = 0
  · rw [if_pos hd]
    omega
  · have := (log_abs_lt_iff d hd (e + 1)).2 h
    rw [if_neg hd]
    omega

theorem ulpExponent_add_ge (x : ℚ) : -1022 ≤ ulpExponent x + 52 ∨ x = 0 := by
  unfold ulpExponent
  by_cases hx : x = 0
  · exact Or.inr hx
  · left
    rw [if_neg hx]
    omega

theorem abs_lt_zpow_ulpExponent (x : ℚ) : |x| < 2 ^ (ulpExponent x + 53) := by
  unfold ulpExponent
  by_cases hx : x = 0
  · rw [if_pos hx, hx, abs_zero]
    exact zpow_pos (by norm_num) _
  · rw [if_neg hx]
    have h := (log_abs_lt_iff x hx (Int.log 2 |x| + 1)).1 (by omega)
    refine lt_of_lt_of_le h (zpow_le_zpow_right₀ (by norm_num) (by omega))

/-- Rounding to binary64 leaves a binary64 value as it is. -/
theorem toDouble_toDouble (x : ℚ) : toDouble (toDouble x) = toDouble x := by
  by_cases hx : x = 0
  · rw [hx, toDouble_zero, toDouble_zero]
  have hu := ulp_pos x
  have he : -1022 ≤ ulpExponent x + 52 := by
    rcases ulpExponent_add_ge x with h | h
    · exact h
    · exact absurd h hx
  have habs := abs_lt_zpow_ulpExponent x
  have hpow : (2 : ℚ) ^ (ulpExponent x + 53) = 2 ^ (53 : Int) * 2 ^ ulpExponent x := by
    rw [← zpow_add₀ (by norm_num : (2 : ℚ) ≠ 0)]
    congr 1
    ring
  have hup : toDouble x ≤ ((1 : Int) : ℚ) * 2 ^ (ulpExponent x + 53) :=
    toDouble_le_of_le_mul_zpow x 1 _ (by omega) (by
      have := le_abs_self x
      push_cast
      linarith)
  have hlo : ((-1 : Int) : ℚ) * 2 ^ (ulpExponent x + 53) ≤ toDouble x :=
    mul_zpow_le_toDouble_of_le x (-1) _ (by omega) (by
      have := neg_le_abs x
      push_cast
      linarith)
  push_cast at hup hlo
  rcases lt_or_eq_of_le hup with h1 | h1
  · rcases lt_or_eq_of_le hlo with h2 | h2
    · have hd : |toDouble x| < 2 ^ ((ulpExponent x + 52) + 1) := by
        have e : ulpExponent x + 52 + 1 = ulpExponent x + 53 := by ring
        rw [e, abs_lt]
        constructor <;> linarith
      have hue := ulpExponent_le_of_abs_lt (toDouble x) (ulpExponent x + 52) he hd
      obtain ⟨N, hN⟩ := exists_grid (toDouble x) (roundTiesEven (x / 2 ^ ulpExponent x))
        (ulpExponent x) (by omega)
      have hdef : toDouble x =
          (roundTiesEven (x / 2 ^ ulpExponent x) : ℚ) * 2 ^ ulpExponent x := by
        unfold toDouble
        rfl
      rw [← hdef] at hN
      exact toDouble_of_grid _ N hN
    · have hd : toDouble x = ((-1 : Int) : ℚ) * 2 ^ (ulpExponent x + 53) := by
        push_cast
        linarith
      have hue : ulpExponent (toDouble x) ≤ ulpExponent x + 53 := by
        have := ulpExponent_eq (toDouble x) (ulpExponent x + 53) (by omega)
          (by rw [hd]; simp [le_abs_self]) (by
            rw [hd]
            simp only [Int.reduceNeg, Int.cast_neg, Int.cast_one, neg_mul, one_mul, abs_neg]
            rw [abs_of_pos (zpow_pos (by norm_num) _)]
            exact zpow_lt_zpow_right₀ (by norm_num) (by omega))
        omega
      obtain ⟨N, hN⟩ := exists_grid (toDouble x) (-1) (ulpExponent x + 53) hue
      rw [← hd] at hN
      exact toDouble_of_grid _ N hN
  · have hd : toDouble x = ((1 : Int) : ℚ) * 2 ^ (ulpExponent x + 53) := by
      push_cast
      linarith
    have hue : ulpExponent (toDouble x) ≤ ulpExponent x + 53 := by
      have := ulpExponent_eq (toDouble x) (ulpExponent x + 53) (by omega)
        (by rw [hd]; simp [le_abs_self]) (by
          rw [hd]
          simp only [Int.cast_one, one_mul]
          rw [abs_of_pos (zpow_pos (by norm_num) _)]
          exact zpow_lt_zpow_right₀ (by norm_num) (by omega))
      omega
    obtain ⟨N, hN⟩ := exists_grid (toDouble x) 1 (ulpExponent x + 53) hue
    rw [← hd] at hN
    exact toDouble_of_grid _ N hN

theorem toDouble_twentyNine_fiftieths :
    toDouble (29 / 50) = 5224175567749775 / 9007199254740992 := by
  rw [toDouble_eval _ (-1) (by norm_num) (by norm_num [abs_of_pos, zpow_neg])
    (by norm_num [abs_of_pos])]
  norm_num [roundTiesEven, zpow_neg]



/-! ## Values of the rounding -/

/-- Evaluation of `toDouble` at `x`, given the binary exponent `e` of `x`. -/
theorem toDouble_eq_of (e : Int) (x d : ℚ) (he : -1022 ≤ e) (h1 : 2 ^ e ≤ |x|)
    (h2 : |x| < 2 ^ (e + 1))
    (hd : (roundTiesEven (x / 2 ^ (e - 52)) : ℚ) * 2 ^ (e - 52) = d) : toDouble x = d := by
  rw [toDouble_eval x e he h1 h2, hd]

theorem toDouble_ofNat (n : Nat) [n.AtLeastTwo] (hn : n < 2 ^ 53) :
    toDouble (OfNat.ofNat n : ℚ) = (OfNat.ofNat n : ℚ) := by
  have := toDouble_natCast n hn
  simpa using this

theorem toDouble_one : toDouble 1 = 1 := by
  have := toDouble_natCast 1 (by norm_num)
  simpa using this

/-- The Number `0.4`. -/
theorem toDouble_two_fifths : toDouble 0.4 = 3602879701896397 / 9007199254740992 :=
  toDouble_eq_of (-2) _ _ (by norm_num) (by norm_num [abs_of_pos, zpow_neg])
    (by norm_num [abs_of_pos, zpow_neg]) (by norm_num [roundTiesEven, zpow_neg])

/-- The Number `0.2`. -/
theorem toDouble_one_fifth : toDouble 0.2 = 3602879701896397 / 18014398509481984 :=
  toDouble_eq_of (-3) _ _ (by norm_num) (by norm_num [abs_of_pos, zpow_neg])
    (by norm_num [abs_of_pos, zpow_neg]) (by norm_num [roundTiesEven, zpow_neg])

/-- Metrics (0, 500, 25) score the Number 0.7: the last sum is a tie, which goes to the even
significand. -/
theorem calculateScore64_sales_500_closed_25 :
    Binary64.calculateScore { conversionRate := some 0, totalSales := some 500,
                              closedAccounts := some 25 } =
      3152519739159347 / 4503599627370496 := by
  have a0 : toDouble (2 / 5 : ℚ) = 3602879701896397 / 9007199254740992 :=
    toDouble_eq_of (-2) _ _ (by norm_num) (by norm_num [abs_of_pos, zpow_neg])
      (by norm_num [abs_of_pos, zpow_neg]) (by norm_num [roundTiesEven, zpow_neg])
  have a1 : toDouble (1 / 5 : ℚ) = 3602879701896397 / 18014398509481984 :=
    toDouble_eq_of (-3) _ _ (by norm_num) (by norm_num [abs_of_pos, zpow_neg])
      (by norm_num [abs_of_pos, zpow_neg]) (by norm_num [roundTiesEven, zpow_neg])
  have a3 : toDouble (500 : ℚ) = 500 :=
    toDouble_eq_of (8) _ _ (by norm_num) (by norm_num [abs_of_pos, zpow_neg])
      (by norm_num [abs_of_pos, zpow_neg]) (by norm_num [roundTiesEven, zpow_neg])
  have a4 : toDouble (1 / 2 : ℚ) = 1 / 2 :=
    toDouble_eq_of (-1) _ _ (by norm_num) (by norm_num [abs_of_pos, zpow_neg])
      (by norm_num [abs_of_pos, zpow_neg]) (by norm_num [roundTiesEven, zpow_neg])
  have a5 : toDouble (25 : ℚ) = 25 :=
    toDouble_eq_of (4) _ _ (by norm_num) (by norm_num [abs_of_pos, zpow_neg])
      (by norm_num [abs_of_pos, zpow_neg]) (by norm_num [roundTiesEven, zpow_neg])
  have a6 : toDouble (5 / 2 : ℚ) = 5 / 2 :=
    toDouble_eq_of (1) _ _ (by norm_num) (by norm_num [abs_of_pos, zpow_neg])
      (by norm_num [abs_of_pos, zpow_neg]) (by norm_num [roundTiesEven, zpow_neg])
  have a7 : toDouble (3602879701896397 / 18014398509481984 : ℚ) = 3602879701896397 / 18014398509481984 :=
    toDouble_eq_of (-3) _ _ (by norm_num) (by norm_num [abs_of_pos, zpow_neg])
      (by norm_num [abs_of_pos, zpow_neg]) (by norm_num [roundTiesEven, zpow_neg])
  have a8 : toDouble (18014398509481985 / 36028797018963968 : ℚ) = 1 / 2 :=
    toDouble_eq_of (-1) _ _ (by norm_num) (by norm_num [abs_of_pos, zpow_neg])
      (by norm_num [abs_of_pos, zpow_neg]) (by norm_num [roundTiesEven, zpow_neg])
  have a9 : toDouble (12610078956637389 / 18014398509481984 : ℚ) = 3152519739159347 / 4503599627370496 :=
    toDouble_eq_of (-1) _ _ (by norm_num) (by norm_num [abs_of_pos, zpow_neg])
      (by norm_num [abs_of_pos, zpow_neg]) (by norm_num [roundTiesEven, zpow_neg])
  simp only [Binary64.calculateScore, jsMul, jsDiv, jsAdd, Option.getD_some, toDouble_zero,
    toDouble_two_fifths, toDouble_one_fifth, a3, a5, zero_mul, zero_add]
  norm_num [a0, a1, a3, a4, a5, a6, a7, a8, a9, toDouble_zero]

/-- Metrics (0, 0, 35) score the Number 0.7000000000000001, the binary64 value next above
0.7. -/
theorem calculateScore64_closed_35 :
    Binary64.calculateScore { conversionRate := some 0, totalSales := some 0,
                              closedAccounts := some 35 } =
      6305039478318695 / 9007199254740992 := by
  have b0 : toDouble (2 / 5 : ℚ) = 3602879701896397 / 9007199254740992 :=
    toDouble_eq_of (-2) _ _ (by norm_num) (by norm_num [abs_of_pos, zpow_neg])
      (by norm_num [abs_of_pos, zpow_neg]) (by norm_num [roundTiesEven, zpow_neg])
  have b1 : toDouble (1 / 5 : ℚ) = 3602879701896397 / 18014398509481984 :=
    toDouble_eq_of (-3) _ _ (by norm_num) (by norm_num [abs_of_pos, zpow_neg])
      (by norm_num [abs_of_pos, zpow_neg]) (by norm_num [roundTiesEven, zpow_neg])
  have b3 : toDouble (35 : ℚ) = 35 :=
    toDouble_eq_of (5) _ _ (by norm_num) (by norm_num [abs_of_pos, zpow_neg])
      (by norm_num [abs_of_pos, zpow_neg]) (by norm_num [roundTiesEven, zpow_neg])
  have b4 : toDouble (7 / 2 : ℚ) = 7 / 2 :=
    toDouble_eq_of (1) _ _ (by norm_num) (by norm_num [abs_of_pos, zpow_neg])
      (by norm_num [abs_of_pos, zpow_neg]) (by norm_num [roundTiesEven, zpow_neg])
  have b5 : toDouble (25220157913274779 / 36028797018963968 : ℚ) = 6305039478318695 / 9007199254740992 :=
    toDouble_eq_of (-1) _ _ (by norm_num) (by norm_num [abs_of_pos, zpow_neg])
      (by norm_num [abs_of_pos, zpow_neg]) (by norm_num [roundTiesEven, zpow_neg])
  have b6 : toDouble (6305039478318695 / 9007199254740992 : ℚ) = 6305039478318695 / 9007199254740992 :=
    toDouble_eq_of (-1) _ _ (by norm_num) (by norm_num [abs_of_pos, zpow_neg])
      (by norm_num [abs_of_pos, zpow_neg]) (by norm_num [roundTiesEven, zpow_neg])
  simp only [Binary64.calculateScore, jsMul, jsDiv, jsAdd, Option.getD_some, toDouble_zero,
    toDouble_two_fifths, toDouble_one_fifth, b3, zero_mul, zero_add, zero_div]
  norm_num [b0, b1, b3, b4, b5, b6, toDouble_zero]

/-! ## Ranking on the scores as computed -/

/-- The scored and sorted items that `Binary64.calculateRankings` numbers. -/
theorem calculateRankings64_fst (repo : AgentRepository) (agents : List Agent) :
    (Binary64.calculateRankings repo (some agents)).1 =
      ((sortScoredAgents (agents.map fun agent => (agent, Binary64.calculateScore agent.metrics))).mapIdx
        fun index item => (item.1.updateRanking ((index : Int) + 1), item.2)).map
        (fun item => item.1) := rfl

theorem length_calculateRankings64 (repo : AgentRepository) (agents : List Agent) :
    (Binary64.calculateRankings repo (some agents)).1.length = agents.length := by
  simp [calculateRankings64_fst, length_sortScoredAgents]

theorem getElem_calculateRankings64 (repo : AgentRepository) (agents : List Agent) (i : Nat)
    (h1 : i < (Binary64.calculateRankings repo (some agents)).1.length)
    (h2 : i < (sortScoredAgents
      (agents.map fun agent => (agent, Binary64.calculateScore agent.metrics))).length) :
    (Binary64.calculateRankings repo (some agents)).1[i] =
      Agent.updateRanking
        ((sortScoredAgents (agents.map fun agent => (agent, Binary64.calculateScore agent.metrics)))[i]).1
        ((i : Int) + 1) := by
  simp [calculateRankings64_fst]

theorem calculateRankings64_ids_perm (repo : AgentRepository) (agents : List Agent) :
    ((Binary64.calculateRankings repo (some agents)).1.map (fun a => a.id)).Perm
      (agents.map (fun a => a.id)) := by
  have h1 : (Binary64.calculateRankings repo (some agents)).1.map (fun a => a.id) =
      (sortScoredAgents (agents.map fun agent => (agent, Binary64.calculateScore agent.metrics))).map
        (fun item => item.1.id) := by
    apply List.ext_getElem
    · simp [calculateRankings64_fst]
    · intro i h1 h2
      simp [calculateRankings64_fst, Agent.updateRanking]
  rw [h1]
  have h2 := (List.perm_insertionSort (fun a b : Agent × ℚ => a.2 ≥ b.2)
    (agents.map fun agent => (agent, Binary64.calculateScore agent.metrics))).map (fun item => item.1.id)
  simpa [sortScoredAgents, Function.comp_def] using h2

/-- With distinct agent ids, a ranked agent whose id is that of the item at position `p` of the
sorted items has ranking `p + 1`. -/
theorem ranking64_of_sorted_position (repo : AgentRepository) (agents : List Agent)
    (hnodup : (agents.map (fun a => a.id)).Nodup) (a : Agent)
    (ha : a ∈ (Binary64.calculateRankings repo (some agents)).1) (p : Nat)
    (hp : p < (sortScoredAgents
      (agents.map fun agent => (agent, Binary64.calculateScore agent.metrics))).length)
    (hid : a.id = ((sortScoredAgents
      (agents.map fun agent => (agent, Binary64.calculateScore agent.metrics)))[p]).1.id) :
    a.currentRanking = (p : Int) + 1 := by
  have hp2 : p < (Binary64.calculateRankings repo (some agents)).1.length := by
    rw [length_calculateRankings64]
    simpa [length_sortScoredAgents] using hp
  have hnd : ((Binary64.calculateRankings repo (some agents)).1.map (fun a => a.id)).Nodup :=
    (calculateRankings64_ids_perm repo agents).nodup_iff.2 hnodup
  have hget := getElem_calculateRankings64 repo agents p hp2 hp
  have heq : a = (Binary64.calculateRankings repo (some agents)).1[p] := by
    apply List.inj_on_of_nodup_map hnd ha (List.getElem_mem hp2)
    rw [hget, hid]
    rfl
  rw [heq, hget]
  rfl

theorem calculateRankings64_rankings (repo : AgentRepository) (agents : List Agent) :
    (Binary64.calculateRankings repo (some agents)).1.map (fun a => a.currentRanking) =
      (List.range agents.length).map (fun (i : Nat) => (i : Int) + 1) := by
  apply List.ext_getElem
  · simp [length_calculateRankings64]
  · intro i h1 h2
    have h3 : i < (Binary64.calculateRankings repo (some agents)).1.length := by simpa using h1
    have h4 : i < (sortScoredAgents
        (agents.map fun agent => (agent, Binary64.calculateScore agent.metrics))).length := by
      rw [length_sortScoredAgents]
      simpa [length_calculateRankings64] using h3
    rw [List.getElem_map, getElem_calculateRankings64 repo agents i h3 h4]
    simp [Agent.updateRanking]

theorem sortScoredAgents64_snd (agents : List Agent) :
    ∀ item ∈ sortScoredAgents (agents.map fun agent => (agent, Binary64.calculateScore agent.metrics)),
      item.2 = Binary64.calculateScore item.1.metrics := by
  intro item hitem
  rw [sortScoredAgents, List.mem_insertionSort] at hitem
  simp only [List.mem_map] at hitem
  obtain ⟨agent, _, rfl⟩ := hitem
  rfl

theorem calculateRankings64_sorted_by_score (repo : AgentRepository) (agents : List Agent) :
    (Binary64.calculateRankings repo (some agents)).1.Sorted
      (fun a b => Binary64.calculateScore a.metrics ≥ Binary64.calculateScore b.metrics) := by
  have hsorted : (sortScoredAgents
      (agents.map fun agent => (agent, Binary64.calculateScore agent.metrics))).Sorted
      (fun a b => a.2 ≥ b.2) := List.sorted_insertionSort _ _
  rw [List.Sorted, List.pairwise_iff_getElem]
  intro i j hi hj hij
  have hi2 : i < (sortScoredAgents
      (agents.map fun agent => (agent, Binary64.calculateScore agent.metrics))).length := by
    rw [length_sortScoredAgents]; simpa [length_calculateRankings64] using hi
  have hj2 : j < (sortScoredAgents
      (agents.map fun agent => (agent, Binary64.calculateScore agent.metrics))).length := by
    rw [length_sortScoredAgents]; simpa [length_calculateRankings64] using hj
  rw [getElem_calculateRankings64 repo agents i hi hi2,
    getElem_calculateRankings64 repo agents j hj hj2]
  have hrel := (List.pairwise_iff_getElem.1 hsorted) i j hi2 hj2 hij
  rw [sortScoredAgents64_snd agents _ (List.getElem_mem hi2),
    sortScoredAgents64_snd agents _ (List.getElem_mem hj2)] at hrel
  exact hrel

theorem calculateRankings64_of_sorted (repo : AgentRepository) (agents : List Agent)
    (hsorted : agents.Sorted (fun a b => Binary64.calculateScore a.metrics ≥ Binary64.calculateScore b.metrics)) :
    (Binary64.calculateRankings repo (some agents)).1 =
      agents.mapIdx (fun index agent => agent.updateRanking ((index : Int) + 1)) := by
  have h1 : sortScoredAgents (agents.map fun agent => (agent, Binary64.calculateScore agent.metrics)) =
      agents.map fun agent => (agent, Binary64.calculateScore agent.metrics) := by
    apply List.Sorted.insertionSort_eq
    rw [List.Sorted, List.pairwise_map]
    exact hsorted
  rw [calculateRankings64_fst, h1]
  apply List.ext_getElem
  · simp
  · intro i h2 h3
    simp

theorem calculateRankings64_fixed (repo : AgentRepository) (agents : List Agent)
    (hsorted : agents.Sorted (fun a b => Binary64.calculateScore a.metrics ≥ Binary64.calculateScore b.metrics))
    (hrank : agents.map (fun a => a.currentRanking) =
      (List.range agents.length).map (fun (i : Nat) => (i : Int) + 1)) :
    (Binary64.calculateRankings repo (some agents)).1 = agents := by
  rw [calculateRankings64_of_sorted repo agents hsorted]
  apply List.ext_getElem
  · simp
  · intro i h1 h2
    have h3 := congrArg (fun l => l[i]?) hrank
    simp only [List.getElem?_map, List.getElem?_eq_getElem h2, Option.map_some'] at h3
    rw [List.getElem?_eq_getElem (by simpa using h2)] at h3
    simp only [Option.map_some', List.getElem_range, Option.some.injEq] at h3
    rw [List.getElem_mapIdx]
    unfold Agent.updateRanking
    rw [← h3]

/-- C9: with distinct agent ids, an input agent with a strictly higher score gets a strictly
smaller `currentRanking`, and of two input agents with equal scores the one that came first in
the input gets the smaller `currentRanking`; the scores are the Numbers that `calculateScore`
computes. -/
theorem calculateRankings_order (repo : AgentRepository) (agents : List Agent)
    (hnodup : (agents.map (fun a => a.id)).Nodup) (i j : Nat) (hi : i < agents.length)
    (hj : j < agents.length) (a b : Agent)
    (ha : a ∈ (Binary64.calculateRankings repo (some agents)).1)
    (hb : b ∈ (Binary64.calculateRankings repo (some agents)).1)
    (haid : a.id = agents[i].id) (hbid : b.id = agents[j].id) :
    (Binary64.calculateScore agents[j].metrics < Binary64.calculateScore agents[i].metrics →
      a.currentRanking < b.currentRanking) ∧
    (Binary64.calculateScore agents[i].metrics = Binary64.calculateScore agents[j].metrics → i < j →
      a.currentRanking < b.currentRanking) := by
  have hsl : (agents.map fun agent => (agent, Binary64.calculateScore agent.metrics)).length =
      agents.length := by simp
  have hi2 : i < (agents.map fun agent => (agent, Binary64.calculateScore agent.metrics)).length := by
    rw [hsl]; exact hi
  have hj2 : j < (agents.map fun agent => (agent, Binary64.calculateScore agent.metrics)).length := by
    rw [hsl]; exact hj
  have hxi : (agents.map fun agent => (agent, Binary64.calculateScore agent.metrics))[i] =
      (agents[i], Binary64.calculateScore agents[i].metrics) := by simp
  have hyj : (agents.map fun agent => (agent, Binary64.calculateScore agent.metrics))[j] =
      (agents[j], Binary64.calculateScore agents[j].metrics) := by simp
  have hsorted : (sortScoredAgents
      (agents.map fun agent => (agent, Binary64.calculateScore agent.metrics))).Sorted
      (fun a b => a.2 ≥ b.2) := List.sorted_insertionSort _ _
  have finish : ∀ (p q : Nat)
      (hp : p < (sortScoredAgents
        (agents.map fun agent => (agent, Binary64.calculateScore agent.metrics))).length)
      (hq : q < (sortScoredAgents
        (agents.map fun agent => (agent, Binary64.calculateScore agent.metrics))).length),
      (sortScoredAgents (agents.map fun agent => (agent, Binary64.calculateScore agent.metrics)))[p] =
        (agents[i], Binary64.calculateScore agents[i].metrics) →
      (sortScoredAgents (agents.map fun agent => (agent, Binary64.calculateScore agent.metrics)))[q] =
        (agents[j], Binary64.calculateScore agents[j].metrics) →
      p < q → a.currentRanking < b.currentRanking := by
    intro p q hp hq hpx hqy hpq
    rw [ranking64_of_sorted_position repo agents hnodup a ha p hp (by rw [hpx]; exact haid),
      ranking64_of_sorted_position repo agents hnodup b hb q hq (by rw [hqy]; exact hbid)]
    omega
  constructor
  · intro hlt
    have hx : (agents[i], Binary64.calculateScore agents[i].metrics) ∈ sortScoredAgents
        (agents.map fun agent => (agent, Binary64.calculateScore agent.metrics)) := by
      rw [sortScoredAgents, List.mem_insertionSort, ← hxi]
      exact List.getElem_mem hi2
    have hy : (agents[j], Binary64.calculateScore agents[j].metrics) ∈ sortScoredAgents
        (agents.map fun agent => (agent, Binary64.calculateScore agent.metrics)) := by
      rw [sortScoredAgents, List.mem_insertionSort, ← hyj]
      exact List.getElem_mem hj2
    obtain ⟨p, hp, hpx⟩ := List.getElem_of_mem hx
    obtain ⟨q, hq, hqy⟩ := List.getElem_of_mem hy
    apply finish p q hp hq hpx hqy
    by_contra hnot
    rcases Nat.lt_or_eq_of_le (Nat.le_of_not_lt hnot) with hqp | hqp
    · have hrel := (List.pairwise_iff_getElem.1 hsorted) q p hq hp hqp
      rw [hpx, hqy] at hrel
      exact absurd hlt (not_lt.2 hrel)
    · subst hqp
      rw [hpx] at hqy
      have := congrArg Prod.snd hqy
      simp only at this
      rw [this] at hlt
      exact lt_irrefl _ hlt
  · intro heq hij
    have hsub := pair_sublist_of_lt
      (agents.map fun agent => (agent, Binary64.calculateScore agent.metrics)) i j hi2 hj2 hij
    rw [hxi, hyj] at hsub
    have hstable := List.pair_sublist_insertionSort (r := fun a b : Agent × ℚ => a.2 ≥ b.2)
      (show Binary64.calculateScore agents[i].metrics ≥ Binary64.calculateScore agents[j].metrics from
        le_of_eq heq.symm) hsub
    obtain ⟨p, q, hp, hq, hpq, hpx, hqy⟩ := exists_getElem_of_pair_sublist hstable
    exact finish p q hp hq hpx hqy hpq

/-- C13: ranking a list that is already in descending order of the scores that
`calculateScore` computes keeps the order; if its
`currentRanking` values are already the positions plus one, the list comes back unchanged; in
particular ranking the output of `Binary64.calculateRankings` again returns that output. -/
theorem calculateRankings_idempotent (repo repo0 : AgentRepository) (agents input : List Agent)
    (hsorted : agents.Sorted (fun a b => Binary64.calculateScore a.metrics ≥ Binary64.calculateScore b.metrics)) :
    (Binary64.calculateRankings repo (some agents)).1 =
        agents.mapIdx (fun index agent => agent.updateRanking ((index : Int) + 1)) ∧
      (agents.map (fun a => a.currentRanking) =
          (List.range agents.length).map (fun (i : Nat) => (i : Int) + 1) →
        (Binary64.calculateRankings repo (some agents)).1 = agents) ∧
      (Binary64.calculateRankings repo (some (Binary64.calculateRankings repo0 (some input)).1)).1 =
        (Binary64.calculateRankings repo0 (some input)).1 := by
  refine ⟨calculateRankings64_of_sorted repo agents hsorted,
    calculateRankings64_fixed repo agents hsorted, ?_⟩
  apply calculateRankings64_fixed repo _ (calculateRankings64_sorted_by_score repo0 input)
  rw [calculateRankings64_rankings, length_calculateRankings64]

/-- Two agents whose exact scores are both 0.7: the scores computed are 0.7 and
0.7000000000000001, and the second agent is ranked first. -/
theorem calculateRankings64_two_agents :
    (Binary64.calculateRankings { agents := [] }
      (some [scoredAgent 1 0 500 25, scoredAgent 2 0 0 35])).1 =
      [(scoredAgent 2 0 0 35).updateRanking 1, (scoredAgent 1 0 500 25).updateRanking 2] := by
  norm_num [Binary64.calculateRankings, sortScoredAgents, scoredAgent,
    calculateScore64_sales_500_closed_25, calculateScore64_closed_35,
    List.orderedInsert, Agent.updateRanking]

/-- Instance of C9 at two agents whose exact scores are equal and whose computed scores are
0.7 and 0.7000000000000001: the second is ranked first. -/
theorem calculateRankings_order_witness :
    ([scoredAgent 1 0 500 25, scoredAgent 2 0 0 35].map (fun a => a.id)).Nodup ∧
    (scoredAgent 2 0 0 35).updateRanking 1 ∈ (Binary64.calculateRankings { agents := [] }
      (some [scoredAgent 1 0 500 25, scoredAgent 2 0 0 35])).1 ∧
    (scoredAgent 1 0 500 25).updateRanking 2 ∈ (Binary64.calculateRankings { agents := [] }
      (some [scoredAgent 1 0 500 25, scoredAgent 2 0 0 35])).1 ∧
    Binary64.calculateScore (scoredAgent 1 0 500 25).metrics <
      Binary64.calculateScore (scoredAgent 2 0 0 35).metrics ∧
    ((scoredAgent 2 0 0 35).updateRanking 1).currentRanking <
      ((scoredAgent 1 0 500 25).updateRanking 2).currentRanking :=
  have hnodup : ([scoredAgent 1 0 500 25, scoredAgent 2 0 0 35].map (fun a => a.id)).Nodup := by
    decide
  have ha : (scoredAgent 2 0 0 35).updateRanking 1 ∈ (Binary64.calculateRankings
      { agents := [] } (some [scoredAgent 1 0 500 25, scoredAgent 2 0 0 35])).1 := by
    rw [calculateRankings64_two_agents]
    simp
  have hb : (scoredAgent 1 0 500 25).updateRanking 2 ∈ (Binary64.calculateRankings
      { agents := [] } (some [scoredAgent 1 0 500 25, scoredAgent 2 0 0 35])).1 := by
    rw [calculateRankings64_two_agents]
    simp
  have hlt : Binary64.calculateScore (scoredAgent 1 0 500 25).metrics <
      Binary64.calculateScore (scoredAgent 2 0 0 35).metrics := by
    norm_num [scoredAgent, calculateScore64_sales_500_closed_25, calculateScore64_closed_35]
  ⟨hnodup, ha, hb, hlt,
    (calculateRankings_order { agents := [] }
      [scoredAgent 1 0 500 25, scoredAgent 2 0 0 35] hnodup 1 0 (by decide) (by decide)
      _ _ ha hb rfl rfl).1 hlt⟩

/-- Instance of C13: the two agents of scores 0.7000000000000001 and 0.7, ranked, in the
order of their computed scores, and the ranking of two agents repeated. -/
theorem calculateRankings_idempotent_witness :
    [(scoredAgent 2 0 0 35).updateRanking 1, (scoredAgent 1 0 500 25).updateRanking 2].Sorted
        (fun a b => Binary64.calculateScore a.metrics ≥ Binary64.calculateScore b.metrics) ∧
      (Binary64.calculateRankings { agents := [] }
          (some [(scoredAgent 2 0 0 35).updateRanking 1,
            (scoredAgent 1 0 500 25).updateRanking 2])).1 =
        [(scoredAgent 2 0 0 35).updateRanking 1, (scoredAgent 1 0 500 25).updateRanking 2] ∧
      (Binary64.calculateRankings { agents := [] } (some (Binary64.calculateRankings
          { agents := [] } (some [scoredAgent 1 0 500 25, scoredAgent 2 0 0 35])).1)).1 =
        (Binary64.calculateRankings { agents := [] }
          (some [scoredAgent 1 0 500 25, scoredAgent 2 0 0 35])).1 :=
  have hsorted : [(scoredAgent 2 0 0 35).updateRanking 1,
      (scoredAgent 1 0 500 25).updateRanking 2].Sorted
      (fun a b => Binary64.calculateScore a.metrics ≥ Binary64.calculateScore b.metrics) := by
    norm_num [List.Sorted, scoredAgent, Agent.updateRanking,
      calculateScore64_sales_500_closed_25, calculateScore64_closed_35]
  have h := calculateRankings_idempotent { agents := [] } { agents := [] }
    [(scoredAgent 2 0 0 35).updateRanking 1, (scoredAgent 1 0 500 25).updateRanking 2]
    [scoredAgent 1 0 500 25, scoredAgent 2 0 0 35] hsorted
  ⟨hsorted, h.2.1 rfl, h.2.2⟩


/-! ## Monotonicity of the score -/

theorem jsMul_mono_left (a b w : ℚ) (hw : 0 ≤ w) (h : a ≤ b) : jsMul a w ≤ jsMul b w :=
  toDouble_mono _ _ (mul_le_mul_of_nonneg_right h hw)

theorem jsDiv_mono_left (a b d : ℚ) (hd : 0 ≤ d) (h : a ≤ b) : jsDiv a d ≤ jsDiv b d :=
  toDouble_mono _ _ (div_le_div_of_nonneg_right h hd)

theorem jsAdd_mono (a b c d : ℚ) (h1 : a ≤ b) (h2 : c ≤ d) : jsAdd a c ≤ jsAdd b d :=
  toDouble_mono _ _ (add_le_add h1 h2)

/-- The score at conversion rate 50, sales 250000 and 75 closed accounts is the Number
121.5. -/
theorem calculateScore64_at_fifty :
    Binary64.calculateScore { conversionRate := some 50, totalSales := some 250000,
                              closedAccounts := some 75 } = 243 / 2 := by
  have a0 : toDouble (2 / 5 : ℚ) = 3602879701896397 / 9007199254740992 :=
    toDouble_eq_of (-2) _ _ (by norm_num) (by norm_num [abs_of_pos, zpow_neg])
      (by norm_num [abs_of_pos, zpow_neg]) (by norm_num [roundTiesEven, zpow_neg])
  have a1 : toDouble (1 / 5 : ℚ) = 3602879701896397 / 18014398509481984 :=
    toDouble_eq_of (-3) _ _ (by norm_num) (by norm_num [abs_of_pos, zpow_neg])
      (by norm_num [abs_of_pos, zpow_neg]) (by norm_num [roundTiesEven, zpow_neg])
  have a2 : toDouble (50 : ℚ) = 50 :=
    toDouble_eq_of (5) _ _ (by norm_num) (by norm_num [abs_of_pos, zpow_neg])
      (by norm_num [abs_of_pos, zpow_neg]) (by norm_num [roundTiesEven, zpow_neg])
  have a3 : toDouble (250000 : ℚ) = 250000 :=
    toDouble_eq_of (17) _ _ (by norm_num) (by norm_num [abs_of_pos, zpow_neg])
      (by norm_num [abs_of_pos, zpow_neg]) (by norm_num [roundTiesEven, zpow_neg])
  have a4 : toDouble (250 : ℚ) = 250 :=
    toDouble_eq_of (7) _ _ (by norm_num) (by norm_num [abs_of_pos, zpow_neg])
      (by norm_num [abs_of_pos, zpow_neg]) (by norm_num [roundTiesEven, zpow_neg])
  have a5 : toDouble (75 : ℚ) = 75 :=
    toDouble_eq_of (6) _ _ (by norm_num) (by norm_num [abs_of_pos, zpow_neg])
      (by norm_num [abs_of_pos, zpow_neg]) (by norm_num [roundTiesEven, zpow_neg])
  have a6 : toDouble (15 / 2 : ℚ) = 15 / 2 :=
    toDouble_eq_of (2) _ _ (by norm_num) (by norm_num [abs_of_pos, zpow_neg])
      (by norm_num [abs_of_pos, zpow_neg]) (by norm_num [roundTiesEven, zpow_neg])
  have a7 : toDouble (90071992547409925 / 4503599627370496 : ℚ) = 20 :=
    toDouble_eq_of (4) _ _ (by norm_num) (by norm_num [abs_of_pos, zpow_neg])
      (by norm_num [abs_of_pos, zpow_neg]) (by norm_num [roundTiesEven, zpow_neg])
  have a8 : toDouble (450359962737049625 / 4503599627370496 : ℚ) = 100 :=
    toDouble_eq_of (6) _ _ (by norm_num) (by norm_num [abs_of_pos, zpow_neg])
      (by norm_num [abs_of_pos, zpow_neg]) (by norm_num [roundTiesEven, zpow_neg])
  have a9 : toDouble (120 : ℚ) = 120 :=
    toDouble_eq_of (6) _ _ (by norm_num) (by norm_num [abs_of_pos, zpow_neg])
      (by norm_num [abs_of_pos, zpow_neg]) (by norm_num [roundTiesEven, zpow_neg])
  have a10 : toDouble (54043195528445955 / 36028797018963968 : ℚ) = 3 / 2 :=
    toDouble_eq_of (0) _ _ (by norm_num) (by norm_num [abs_of_pos, zpow_neg])
      (by norm_num [abs_of_pos, zpow_neg]) (by norm_num [roundTiesEven, zpow_neg])
  have a11 : toDouble (243 / 2 : ℚ) = 243 / 2 :=
    toDouble_eq_of (6) _ _ (by norm_num) (by norm_num [abs_of_pos, zpow_neg])
      (by norm_num [abs_of_pos, zpow_neg]) (by norm_num [roundTiesEven, zpow_neg])
  simp only [Binary64.calculateScore, jsMul, jsDiv, jsAdd, Option.getD_some,
    toDouble_two_fifths, toDouble_one_fifth, a3, a5, a8]
  norm_num [a0, a1, a2, a3, a4, a5, a6, a7, a8, a9, a10, a11]

/-- The score at the Number next above 50, `50 + 2 ^ (-47)`, with the same sales and closed
accounts, is the Number 121.5 as well. -/
theorem calculateScore64_above_fifty :
    Binary64.calculateScore { conversionRate := some (7036874417766401 / 140737488355328),
                              totalSales := some 250000, closedAccounts := some 75 } =
      243 / 2 := by
  have b0 : toDouble (2 / 5 : ℚ) = 3602879701896397 / 9007199254740992 :=
    toDouble_eq_of (-2) _ _ (by norm_num) (by norm_num [abs_of_pos, zpow_neg])
      (by norm_num [abs_of_pos, zpow_neg]) (by norm_num [roundTiesEven, zpow_neg])
  have b1 : toDouble (1 / 5 : ℚ) = 3602879701896397 / 18014398509481984 :=
    toDouble_eq_of (-3) _ _ (by norm_num) (by norm_num [abs_of_pos, zpow_neg])
      (by norm_num [abs_of_pos, zpow_neg]) (by norm_num [roundTiesEven, zpow_neg])
  have b2 : toDouble (7036874417766401 / 140737488355328 : ℚ) = 7036874417766401 / 140737488355328 :=
    toDouble_eq_of (5) _ _ (by norm_num) (by norm_num [abs_of_pos, zpow_neg])
      (by norm_num [abs_of_pos, zpow_neg]) (by norm_num [roundTiesEven, zpow_neg])
  have b3 : toDouble (250000 : ℚ) = 250000 :=
    toDouble_eq_of (17) _ _ (by norm_num) (by norm_num [abs_of_pos, zpow_neg])
      (by norm_num [abs_of_pos, zpow_neg]) (by norm_num [roundTiesEven, zpow_neg])
  have b4 : toDouble (250 : ℚ) = 250 :=
    toDouble_eq_of (7) _ _ (by norm_num) (by norm_num [abs_of_pos, zpow_neg])
      (by norm_num [abs_of_pos, zpow_neg]) (by norm_num [roundTiesEven, zpow_neg])
  have b5 : toDouble (75 : ℚ) = 75 :=
    toDouble_eq_of (6) _ _ (by norm_num) (by norm_num [abs_of_pos, zpow_neg])
      (by norm_num [abs_of_pos, zpow_neg]) (by norm_num [roundTiesEven, zpow_neg])
  have b6 : toDouble (15 / 2 : ℚ) = 15 / 2 :=
    toDouble_eq_of (2) _ _ (by norm_num) (by norm_num [abs_of_pos, zpow_neg])
      (by norm_num [abs_of_pos, zpow_neg]) (by norm_num [roundTiesEven, zpow_neg])
  have b7 : toDouble (25353012004564593040188649557197 / 1267650600228229401496703205376 : ℚ) = 5629499534213121 / 281474976710656 :=
    toDouble_eq_of (4) _ _ (by norm_num) (by norm_num [abs_of_pos, zpow_neg])
      (by norm_num [abs_of_pos, zpow_neg]) (by norm_num [roundTiesEven, zpow_neg])
  have b8 : toDouble (450359962737049625 / 4503599627370496 : ℚ) = 100 :=
    toDouble_eq_of (6) _ _ (by norm_num) (by norm_num [abs_of_pos, zpow_neg])
      (by norm_num [abs_of_pos, zpow_neg]) (by norm_num [roundTiesEven, zpow_neg])
  have b9 : toDouble (33776997205278721 / 281474976710656 : ℚ) = 120 :=
    toDouble_eq_of (6) _ _ (by norm_num) (by norm_num [abs_of_pos, zpow_neg])
      (by norm_num [abs_of_pos, zpow_neg]) (by norm_num [roundTiesEven, zpow_neg])
  have b10 : toDouble (54043195528445955 / 36028797018963968 : ℚ) = 3 / 2 :=
    toDouble_eq_of (0) _ _ (by norm_num) (by norm_num [abs_of_pos, zpow_neg])
      (by norm_num [abs_of_pos, zpow_neg]) (by norm_num [roundTiesEven, zpow_neg])
  have b11 : toDouble (243 / 2 : ℚ) = 243 / 2 :=
    toDouble_eq_of (6) _ _ (by norm_num) (by norm_num [abs_of_pos, zpow_neg])
      (by norm_num [abs_of_pos, zpow_neg]) (by norm_num [roundTiesEven, zpow_neg])
  simp only [Binary64.calculateScore, jsMul, jsDiv, jsAdd, Option.getD_some,
    toDouble_two_fifths, toDouble_one_fifth, b3, b5, b8]
  norm_num [b0, b1, b2, b3, b4, b5, b6, b7, b8, b9, b10, b11]

/-- C12 (the code departs from it): with sales of 250000 and 75 closed accounts, the conversion
rates 50 and `50 + 2 ^ (-47)`, both Numbers, the second strictly larger, give the same score
121.5. -/
theorem calculateScore_not_strictly_increasing :
    toDouble (50 : ℚ) = 50 ∧
    toDouble (7036874417766401 / 140737488355328 : ℚ) = 7036874417766401 / 140737488355328 ∧
    (50 : ℚ) < 7036874417766401 / 140737488355328 ∧
    ¬ (Binary64.calculateScore { conversionRate := some 50, totalSales := some 250000,
                                 closedAccounts := some 75 } <
        Binary64.calculateScore { conversionRate := some (7036874417766401 / 140737488355328),
                                  totalSales := some 250000, closedAccounts := some 75 }) := by
  refine ⟨toDouble_ofNat 50 (by norm_num), ?_, by norm_num, ?_⟩
  · exact toDouble_eq_of 5 _ _ (by norm_num) (by norm_num [abs_of_pos, zpow_neg])
      (by norm_num [abs_of_pos, zpow_neg]) (by norm_num [roundTiesEven, zpow_neg])
  · rw [calculateScore64_at_fifty, calculateScore64_above_fifty]
    exact lt_irrefl _

/-- C12, amended: the score that `calculateScore` computes is weakly increasing in each
metric, the other two held fixed: a larger `conversionRate` (respectively `totalSales`,
`closedAccounts`) never gives a smaller score. -/
theorem calculateScore_weakly_increasing (metrics : Metrics) (x y : ℚ) (h : x ≤ y) :
    Binary64.calculateScore { metrics with conversionRate := some x } ≤
        Binary64.calculateScore { metrics with conversionRate := some y } ∧
      Binary64.calculateScore { metrics with totalSales := some x } ≤
        Binary64.calculateScore { metrics with totalSales := some y } ∧
      Binary64.calculateScore { metrics with closedAccounts := some x } ≤
        Binary64.calculateScore { metrics with closedAccounts := some y } := by
  have hxy := toDouble_mono x y h
  have hw4 : (0 : ℚ) ≤ toDouble 0.4 := toDouble_nonneg _ (by norm_num)
  have hw2 : (0 : ℚ) ≤ toDouble 0.2 := toDouble_nonneg _ (by norm_num)
  simp only [Binary64.calculateScore, Option.getD_some]
  refine ⟨?_, ?_, ?_⟩
  · exact jsAdd_mono _ _ _ _ (jsAdd_mono _ _ _ _ (jsMul_mono_left _ _ _ hw4 hxy) le_rfl) le_rfl
  · exact jsAdd_mono _ _ _ _ (jsAdd_mono _ _ _ _ le_rfl
      (jsMul_mono_left _ _ _ hw4 (jsDiv_mono_left _ _ _ (by norm_num) hxy))) le_rfl
  · exact jsAdd_mono _ _ _ _ le_rfl
      (jsMul_mono_left _ _ _ hw2 (jsDiv_mono_left _ _ _ (by norm_num) hxy))

/-- Instance of C12, amended: raising each metric from 10 to 20, the others absent. -/
theorem calculateScore_weakly_increasing_witness :
    (10 : ℚ) ≤ 20 ∧
    (Binary64.calculateScore
          { conversionRate := some 10, totalSales := none, closedAccounts := none } ≤
        Binary64.calculateScore
          { conversionRate := some 20, totalSales := none, closedAccounts := none } ∧
      Binary64.calculateScore
          { conversionRate := none, totalSales := some 10, closedAccounts := none } ≤
        Binary64.calculateScore
          { conversionRate := none, totalSales := some 20, closedAccounts := none } ∧
      Binary64.calculateScore
          { conversionRate := none, totalSales := none, closedAccounts := some 10 } ≤
        Binary64.calculateScore
          { conversionRate := none, totalSales := none, closedAccounts := some 20 }) :=
  ⟨by norm_num,
    calculateScore_weakly_increasing
      { conversionRate := none, totalSales := none, closedAccounts := none } 10 20 (by norm_num)⟩


/-! ## Counts that are floors of a product of Numbers -/

theorem mathFloor_jsMul_nonneg (n : Nat) (p : ℚ) (hp0 : 0 ≤ p) :
    0 ≤ mathFloor (jsMul (n : ℚ) (toDouble p)) := by
  unfold mathFloor jsMul
  exact Int.floor_nonneg.2
    (toDouble_nonneg _ (mul_nonneg (Nat.cast_nonneg n) (toDouble_nonneg p hp0)))

theorem toDouble_le_one (p : ℚ) (hp0 : 0 ≤ p) (hp1 : p ≤ 1) : toDouble p ≤ 1 := by
  have h := toDouble_le_of_le_int p 1 (by
    rw [abs_of_nonneg hp0]
    exact lt_of_le_of_lt hp1 (by norm_num)) (by simpa using hp1)
  simpa using h

theorem jsMul_le_natCast (n : Nat) (p : ℚ) (hp0 : 0 ≤ p) (hp1 : p ≤ 1) (hn : n < 2 ^ 53) :
    jsMul (n : ℚ) (toDouble p) ≤ (n : ℚ) := by
  have h0 := toDouble_nonneg p hp0
  have h1 := toDouble_le_one p hp0 hp1
  have hx0 : 0 ≤ (n : ℚ) * toDouble p := mul_nonneg (Nat.cast_nonneg n) h0
  have hx : (n : ℚ) * toDouble p ≤ (n : ℚ) := by
    have := mul_le_mul_of_nonneg_left h1 (Nat.cast_nonneg (α := ℚ) n)
    simpa using this
  have hn2 : (n : ℚ) < 2 ^ 53 := by exact_mod_cast hn
  have h := toDouble_le_of_le_int ((n : ℚ) * toDouble p) (n : Int) (by
    rw [abs_of_nonneg hx0]
    exact lt_of_le_of_lt hx hn2) (by simpa using hx)
  simpa [jsMul] using h

theorem mathFloor_jsMul_le (n : Nat) (p : ℚ) (hp0 : 0 ≤ p) (hp1 : p ≤ 1) (hn : n < 2 ^ 53) :
    mathFloor (jsMul (n : ℚ) (toDouble p)) ≤ (n : Int) := by
  unfold mathFloor
  have h2 : ⌊jsMul (n : ℚ) (toDouble p)⌋ ≤ ⌊(n : ℚ)⌋ :=
    Int.floor_le_floor (jsMul_le_natCast n p hp0 hp1 hn)
  simpa using h2

/-- The floor of the product of Numbers is the floor of the exact product or one more. -/
theorem mathFloor_jsMul_near (n : Nat) (p : ℚ) (hp0 : 0 ≤ p) (hp1 : p ≤ 1)
    (hn : n < 2 ^ 53) :
    mathFloor ((n : ℚ) * toDouble p) ≤ mathFloor (jsMul (n : ℚ) (toDouble p)) ∧
      mathFloor (jsMul (n : ℚ) (toDouble p)) ≤ mathFloor ((n : ℚ) * toDouble p) + 1 := by
  have h0 := toDouble_nonneg p hp0
  have h1 := toDouble_le_one p hp0 hp1
  have hx0 : 0 ≤ (n : ℚ) * toDouble p := mul_nonneg (Nat.cast_nonneg n) h0
  have hx : (n : ℚ) * toDouble p ≤ (n : ℚ) := by
    have := mul_le_mul_of_nonneg_left h1 (Nat.cast_nonneg (α := ℚ) n)
    simpa using this
  have hn2 : (n : ℚ) < 2 ^ 53 := by exact_mod_cast hn
  have habs : |(n : ℚ) * toDouble p| < 2 ^ 53 := by
    rw [abs_of_nonneg hx0]
    exact lt_of_le_of_lt hx hn2
  unfold mathFloor jsMul
  constructor
  · exact Int.le_floor.2 (int_le_toDouble_of_le _ _ habs (Int.floor_le _))
  · have hup : (n : ℚ) * toDouble p ≤ ((⌊(n : ℚ) * toDouble p⌋ + 1 : Int) : ℚ) := by
      push_cast
      exact le_of_lt (Int.lt_floor_add_one _)
    have := toDouble_le_of_le_int _ _ habs hup
    have h3 : ⌊toDouble ((n : ℚ) * toDouble p)⌋ ≤ ⌊((⌊(n : ℚ) * toDouble p⌋ + 1 : Int) : ℚ)⌋ :=
      Int.floor_le_floor this
    rwa [Int.floor_intCast] at h3

theorem sliceIndex_mathFloor_jsMul (n : Nat) (p : ℚ) (hp0 : 0 ≤ p) (hp1 : p ≤ 1)
    (hn : n < 2 ^ 53) :
    ((sliceIndex n (mathFloor (jsMul (n : ℚ) (toDouble p))) : Nat) : Int) =
      mathFloor (jsMul (n : ℚ) (toDouble p)) := by
  have h0 := mathFloor_jsMul_nonneg n p hp0
  have h1 := mathFloor_jsMul_le n p hp0 hp1 hn
  unfold sliceIndex
  split <;> omega

/-! ## Selection of low-value accounts, on Numbers -/

theorem selectLowValueAccounts64_eq_take (accounts : List Account) (percentage : ℚ) :
    Binary64.selectLowValueAccounts accounts percentage =
      (accounts.insertionSort fun a b => a.potentialValue ≤ b.potentialValue).take
        (sliceIndex accounts.length
          (mathFloor (jsMul (accounts.length : ℚ) (toDouble percentage)))) := by
  unfold Binary64.selectLowValueAccounts
  simp only [slice_zero_eq_take, List.length_insertionSort]

theorem length_selectLowValueAccounts64 (accounts : List Account) (percentage : ℚ) :
    (Binary64.selectLowValueAccounts accounts percentage).length =
      sliceIndex accounts.length
        (mathFloor (jsMul (accounts.length : ℚ) (toDouble percentage))) := by
  rw [selectLowValueAccounts64_eq_take, List.length_take, List.length_insertionSort]
  exact min_eq_left (sliceIndex_le _ _)

theorem selectLowValueAccounts64_sublist_sorted (accounts : List Account) (percentage : ℚ) :
    (Binary64.selectLowValueAccounts accounts percentage).Sublist
      (accounts.insertionSort fun a b => a.potentialValue ≤ b.potentialValue) := by
  rw [selectLowValueAccounts64_eq_take]
  exact List.take_sublist _ _

/-- C14: for a percentage in [0, 1] and fewer than `2 ^ 53` accounts, `selectLowValueAccounts`
returns `floor(length * percentage)` accounts of the list, the product being the Number that
the code computes (its floor is the floor of the exact product or one more), in ascending
`potentialValue` order, each with a `potentialValue` at most that of every account of the list
that is not returned. -/
theorem selectLowValueAccounts_lowest (accounts : List Account) (percentage : ℚ)
    (hp0 : 0 ≤ percentage) (hp1 : percentage ≤ 1) (hsize : accounts.length < 2 ^ 53) :
    ((Binary64.selectLowValueAccounts accounts percentage).length : Int) =
        mathFloor (jsMul (accounts.length : ℚ) (toDouble percentage)) ∧
      (mathFloor ((accounts.length : ℚ) * toDouble percentage) ≤
          mathFloor (jsMul (accounts.length : ℚ) (toDouble percentage)) ∧
        mathFloor (jsMul (accounts.length : ℚ) (toDouble percentage)) ≤
          mathFloor ((accounts.length : ℚ) * toDouble percentage) + 1) ∧
      (Binary64.selectLowValueAccounts accounts percentage).Sorted
        (fun a b => a.potentialValue ≤ b.potentialValue) ∧
      ∃ notReturned : List Account,
        (Binary64.selectLowValueAccounts accounts percentage ++ notReturned).Perm accounts ∧
        ∀ a ∈ Binary64.selectLowValueAccounts accounts percentage, ∀ b ∈ notReturned,
          a.potentialValue ≤ b.potentialValue := by
  have hsorted : (accounts.insertionSort fun a b => a.potentialValue ≤ b.potentialValue).Sorted
      (fun a b => a.potentialValue ≤ b.potentialValue) := List.sorted_insertionSort _ _
  refine ⟨?_, mathFloor_jsMul_near _ _ hp0 hp1 hsize, ?_, ?_⟩
  · rw [length_selectLowValueAccounts64]
    exact sliceIndex_mathFloor_jsMul _ _ hp0 hp1 hsize
  · rw [selectLowValueAccounts64_eq_take]
    exact List.Pairwise.sublist (List.take_sublist _ _) hsorted
  · refine ⟨(accounts.insertionSort fun a b => a.potentialValue ≤ b.potentialValue).drop
      (sliceIndex accounts.length
        (mathFloor (jsMul (accounts.length : ℚ) (toDouble percentage)))), ?_, ?_⟩
    · rw [selectLowValueAccounts64_eq_take, List.take_append_drop]
      exact List.perm_insertionSort _ _
    · intro a ha b hb
      rw [selectLowValueAccounts64_eq_take] at ha
      exact hsorted.rel_of_mem_take_of_mem_drop ha hb

/-- The product `50 * 0.58` of Numbers is 28.999999999999996, of floor 28. -/
theorem mathFloor_fifty_times :
    mathFloor (jsMul ((50 : Nat) : ℚ) (toDouble (29 / 50))) = 28 := by
  have a0 : toDouble (29 / 50 : ℚ) = 5224175567749775 / 9007199254740992 :=
    toDouble_eq_of (-1) _ _ (by norm_num) (by norm_num [abs_of_pos, zpow_neg])
      (by norm_num [abs_of_pos, zpow_neg]) (by norm_num [roundTiesEven, zpow_neg])
  have a1 : toDouble (130604389193744375 / 4503599627370496 : ℚ) = 8162774324609023 / 281474976710656 :=
    toDouble_eq_of (4) _ _ (by norm_num) (by norm_num [abs_of_pos, zpow_neg])
      (by norm_num [abs_of_pos, zpow_neg]) (by norm_num [roundTiesEven, zpow_neg])
  norm_num [mathFloor, jsMul, a0, a1]

/-- Instance of C14: 58% of fifty accounts are 28 accounts. -/
theorem selectLowValueAccounts_lowest_witness :
    (0 : ℚ) ≤ 29 / 50 ∧ (29 / 50 : ℚ) ≤ 1 ∧ (accountsOfSeven 50).length < 2 ^ 53 ∧
    ((Binary64.selectLowValueAccounts (accountsOfSeven 50) (29 / 50)).length : Int) = 28 :=
  have hlen : (accountsOfSeven 50).length = 50 := by simp [accountsOfSeven]
  ⟨by norm_num, by norm_num, by rw [hlen]; norm_num,
    (selectLowValueAccounts_lowest (accountsOfSeven 50) (29 / 50) (by norm_num) (by norm_num)
      (by rw [hlen]; norm_num)).1.trans (by rw [hlen]; exact mathFloor_fifty_times)⟩


/-! ## Partial rotation, on Numbers -/

theorem length_getByAgent_le (repo : AccountRepository) (agentId : AgentId) :
    (repo.getByAgent agentId).length ≤ repo.getAll.length :=
  List.length_filter_le _ _

theorem partialRotation64_selectsFromOwnAccounts (percentage : ℚ) (repos : Repositories) :
    SelectsFromOwnAccounts repos fun agent =>
      Binary64.selectLowValueAccounts (repos.accountRepository.getByAgent agent.id)
        percentage := by
  intro agent
  exact ⟨_, List.perm_insertionSort _ _, selectLowValueAccounts64_sublist_sorted _ _⟩

/-- C15, amended: with distinct agent ids (and the distinct account ids of the store, fewer
than `2 ^ 53`) and a percentage in (0, 1], `partialRotation` clears
`sum_i floor(c_i * percentage)` accounts, `c_i` being the number of accounts of agent `i` and
the product the Number that the code computes, so that before the distribution is run the
number of accounts without an agent is the number there was before the rotation plus that
sum. -/
theorem partialRotation_unassigned_count (percentage : ℚ) (hp : 0 < percentage)
    (hp1 : percentage ≤ 1) (repos : Repositories)
    (hagents : (repos.agentRepository.getAll.map (fun a => a.id)).Nodup)
    (haccounts : (repos.accountRepository.getAll.map (fun a => a.id)).Nodup)
    (hsize : repos.accountRepository.getAll.length < 2 ^ 53) :
    ((Binary64.partialRotationSelect percentage repos).length : Int) =
        (repos.agentRepository.getAll.map fun agent =>
          mathFloor (jsMul ((repos.accountRepository.getByAgent agent.id).length : ℚ)
            (toDouble percentage))).sum ∧
      ((unassignedCount
          (Binary64.partialRotationClear percentage repos).accountRepository.getAll : Nat)
          : Int) =
        (unassignedCount repos.accountRepository.getAll : Int) +
          (repos.agentRepository.getAll.map fun agent =>
            mathFloor (jsMul ((repos.accountRepository.getByAgent agent.id).length : ℚ)
              (toDouble percentage))).sum := by
  have hp0 : 0 ≤ percentage := le_of_lt hp
  have hsum : (((repos.agentRepository.getAll.map fun agent =>
      (Binary64.selectLowValueAccounts (repos.accountRepository.getByAgent agent.id)
        percentage).length).sum : Nat) : Int) =
      (repos.agentRepository.getAll.map fun agent =>
          mathFloor (jsMul ((repos.accountRepository.getByAgent agent.id).length : ℚ)
            (toDouble percentage))).sum := by
    induction repos.agentRepository.getAll with
    | nil => rfl
    | cons agent rest ih =>
      simp only [List.map_cons, List.sum_cons, Nat.cast_add]
      rw [ih, length_selectLowValueAccounts64, sliceIndex_mathFloor_jsMul _ _ hp0 hp1
        (lt_of_le_of_lt (length_getByAgent_le _ _) hsize)]
  constructor
  · rw [← hsum, Binary64.partialRotationSelect, List.length_flatMap]
    rfl
  · have h := unassignedCount_after_selection repos _
      (partialRotation64_selectsFromOwnAccounts percentage repos) hagents haccounts
    rw [← hsum]
    unfold Binary64.partialRotationClear Binary64.partialRotationSelect
    simp only [AccountRepository.getAll] at *
    rw [h]
    push_cast
    rfl

/-- The product `5 * 0.2` of Numbers is 1. -/
theorem jsMul_five_one_fifth : jsMul (5 : ℚ) (toDouble (1 / 5)) = 1 := by
  have b0 : toDouble (1 / 5 : ℚ) = 3602879701896397 / 18014398509481984 :=
    toDouble_eq_of (-3) _ _ (by norm_num) (by norm_num [abs_of_pos, zpow_neg])
      (by norm_num [abs_of_pos, zpow_neg]) (by norm_num [roundTiesEven, zpow_neg])
  have b1 : toDouble (18014398509481985 / 18014398509481984 : ℚ) = 1 :=
    toDouble_eq_of (0) _ _ (by norm_num) (by norm_num [abs_of_pos, zpow_neg])
      (by norm_num [abs_of_pos, zpow_neg]) (by norm_num [roundTiesEven, zpow_neg])
  norm_num [jsMul, b0, b1]

theorem partialRotationClear64_sampleRepositories :
    (Binary64.partialRotationClear (1 / 5) sampleRepositories).accountRepository.getAll =
      [valuedAccount 1 500 (some 7), clearAssignment (valuedAccount 2 100 (some 7)),
        valuedAccount 3 300 (some 7), valuedAccount 4 200 (some 7),
        valuedAccount 5 400 (some 7), valuedAccount 6 50 none] := by
  norm_num [Binary64.partialRotationClear, Binary64.partialRotationSelect, sampleRepositories,
    AccountRepository.getAll, AgentRepository.getAll, AccountRepository.getByAgent,
    AccountRepository.saveAll, AccountRepository.save, Binary64.selectLowValueAccounts,
    jsMul_five_one_fifth, mathFloor,
    slice, sliceIndex, valuedAccount, sampleAgent, clearAssignment, List.orderedInsert]

/-- C15 (the code departs from it): one agent with five accounts and a sixth account that
nobody holds; after the clearing of `partialRotation(0.2)` two accounts are without an agent,
while `floor(5 * 0.2) = 1`. -/
theorem partialRotation_unassigned_count_counterexample :
    (sampleRepositories.agentRepository.getAll.map (fun a => a.id)).Nodup ∧
    ((unassignedCount
        (Binary64.partialRotationClear (1 / 5) sampleRepositories).accountRepository.getAll
        : Nat) : Int) ≠
      (sampleRepositories.agentRepository.getAll.map fun agent =>
        mathFloor (jsMul ((sampleRepositories.accountRepository.getByAgent agent.id).length : ℚ)
          (toDouble (1 / 5)))).sum := by
  refine ⟨by decide, ?_⟩
  rw [partialRotationClear64_sampleRepositories]
  norm_num [unassignedCount, sampleRepositories, AgentRepository.getAll,
    AccountRepository.getByAgent, valuedAccount, sampleAgent, clearAssignment, mathFloor,
    jsMul_five_one_fifth]

/-- Instance of C15, amended, at the sample repositories and 20%. -/
theorem partialRotation_unassigned_count_witness :
    (0 : ℚ) < 1 / 5 ∧ (1 / 5 : ℚ) ≤ 1 ∧
    (sampleRepositories.agentRepository.getAll.map (fun a => a.id)).Nodup ∧
    (sampleRepositories.accountRepository.getAll.map (fun a => a.id)).Nodup ∧
    sampleRepositories.accountRepository.getAll.length < 2 ^ 53 ∧
    (((Binary64.partialRotationSelect (1 / 5) sampleRepositories).length : Int) =
        (sampleRepositories.agentRepository.getAll.map fun agent =>
          mathFloor (jsMul ((sampleRepositories.accountRepository.getByAgent agent.id).length : ℚ)
            (toDouble (1 / 5)))).sum ∧
      ((unassignedCount
          (Binary64.partialRotationClear (1 / 5) sampleRepositories).accountRepository.getAll
          : Nat) : Int) =
        (unassignedCount sampleRepositories.accountRepository.getAll : Int) +
          (sampleRepositories.agentRepository.getAll.map fun agent =>
            mathFloor
              (jsMul ((sampleRepositories.accountRepository.getByAgent agent.id).length : ℚ)
                (toDouble (1 / 5)))).sum) :=
  ⟨by norm_num, by norm_num, by decide, by decide, by decide,
    partialRotation_unassigned_count (1 / 5) (by norm_num) (by norm_num) sampleRepositories
      (by decide) (by decide) (by decide)⟩

/-! ## Arithmetic of a valid run on Numbers -/

theorem foldl_jsAdd_nonneg (ws : List Nat) :
    ∀ s : ℚ, 0 ≤ s → 0 ≤ ws.foldl (fun (sum : ℚ) (w : Nat) => jsAdd sum (w : ℚ)) s := by
  induction ws with
  | nil => intro s h; simpa using h
  | cons w ws ih =>
    intro s h
    rw [List.foldl_cons]
    exact ih _ (toDouble_nonneg _ (add_nonneg h (Nat.cast_nonneg w)))

theorem totalWeight64_nonneg (k : Nat) : 0 ≤ Binary64.totalWeight k :=
  foldl_jsAdd_nonneg _ 0 le_rfl

/-- Adding natural numbers as Numbers is exact while the sums stay below `2 ^ 53`. -/
theorem foldl_jsAdd_natCast (ws : List Nat) :
    ∀ s : Nat, s + ws.sum < 2 ^ 53 →
      ws.foldl (fun (sum : ℚ) (w : Nat) => jsAdd sum (w : ℚ)) (s : ℚ) = ((s + ws.sum : Nat) : ℚ) := by
  induction ws with
  | nil => intro s _; simp
  | cons w ws ih =>
    intro s h
    rw [List.sum_cons] at h
    have h1 : jsAdd (s : ℚ) (w : ℚ) = ((s + w : Nat) : ℚ) := by
      unfold jsAdd
      rw [← Nat.cast_add]
      exact toDouble_natCast _ (by omega)
    rw [List.foldl_cons, h1, ih (s + w) (by omega), List.sum_cons, Nat.add_assoc]

/-- With fewer than `2 ^ 26` agents the sum of the weights is the exact `k * (k + 1) / 2`. -/
theorem totalWeight64_eq (k : Nat) (hk : k < 2 ^ 26) :
    Binary64.totalWeight k = ((k * (k + 1) / 2 : Nat) : ℚ) := by
  have h2 := two_mul_sum_calculateWeights k
  have hsum : (calculateWeights k).sum = k * (k + 1) / 2 := by omega
  have hlt : k * (k + 1) < 2 ^ 26 * (2 ^ 26 + 1) :=
    Nat.mul_lt_mul'' hk (by omega)
  have h := foldl_jsAdd_natCast (calculateWeights k) 0 (by rw [hsum]; omega)
  unfold Binary64.totalWeight
  rw [Nat.cast_zero] at h
  rw [h, Nat.zero_add, hsum]

theorem totalEquitable64_nonneg (n : Nat) (p : ℚ) (hp0 : 0 ≤ p) :
    0 ≤ Binary64.totalEquitable n p :=
  mathFloor_jsMul_nonneg n p hp0

theorem totalEquitable64_le (n : Nat) (p : ℚ) (hp0 : 0 ≤ p) (hp1 : p ≤ 1) (hn : n < 2 ^ 53) :
    Binary64.totalEquitable n p ≤ (n : Int) :=
  mathFloor_jsMul_le n p hp0 hp1 hn

/-- The floor of the Number quotient of two integers below `2 ^ 53` is their integer
quotient. -/
theorem mathFloor_jsDiv (E : Int) (k : Nat) (hE0 : 0 ≤ E) (hE : E < 2 ^ 53) (hk : 0 < k)
    (hk53 : k < 2 ^ 53) : mathFloor (jsDiv (E : ℚ) (k : ℚ)) = E / (k : Int) := by
  have hkq : (0 : ℚ) < (k : ℚ) := by exact_mod_cast hk
  have hkz : (0 : Int) < (k : Int) := by exact_mod_cast hk
  have hm1 : (k : Int) * (E / (k : Int)) ≤ E := Int.mul_ediv_self_le (ne_of_gt hkz)
  have hm2 : E < (k : Int) * (E / (k : Int)) + (k : Int) := Int.lt_mul_ediv_self_add hkz
  have hx0 : (0 : ℚ) ≤ (E : ℚ) / (k : ℚ) :=
    div_nonneg (by exact_mod_cast hE0) (le_of_lt hkq)
  have hk1 : (1 : ℚ) ≤ (k : ℚ) := by exact_mod_cast hk
  have hxE : (E : ℚ) / (k : ℚ) ≤ (E : ℚ) := div_le_self (by exact_mod_cast hE0) hk1
  have hE53 : (E : ℚ) < 2 ^ 53 := by exact_mod_cast hE
  have habs : |(E : ℚ) / (k : ℚ)| < 2 ^ 53 := by
    rw [abs_of_nonneg hx0]
    linarith
  have hlow : ((E / (k : Int) : Int) : ℚ) ≤ (E : ℚ) / (k : ℚ) := by
    rw [le_div_iff₀ hkq]
    have h : (((E / (k : Int)) * (k : Int) : Int) : ℚ) ≤ (E : ℚ) := by
      exact_mod_cast (by linarith : (E / (k : Int)) * (k : Int) ≤ E)
    simpa using h
  have hup : (E : ℚ) / (k : ℚ) ≤ ((E / (k : Int) : Int) : ℚ) + 1 - 1 / (k : ℚ) := by
    rw [div_le_iff₀ hkq]
    have h : (E : ℚ) ≤ (((k : Int) * (E / (k : Int)) + (k : Int) - 1 : Int) : ℚ) := by
      exact_mod_cast (by omega : E ≤ (k : Int) * (E / (k : Int)) + (k : Int) - 1)
    have e : (((E / (k : Int) : Int) : ℚ) + 1 - 1 / (k : ℚ)) * (k : ℚ) =
        (((k : Int) * (E / (k : Int)) + (k : Int) - 1 : Int) : ℚ) := by
      push_cast
      field_simp
      ring
    rw [e]
    exact h
  unfold mathFloor jsDiv
  rw [Int.floor_eq_iff]
  refine ⟨int_le_toDouble_of_le _ _ habs hlow, ?_⟩
  rcases eq_or_lt_of_le hE0 with h0 | hpos
  · rw [← h0]
    simp [toDouble_zero]
  · have hE1 : (1 : ℚ) ≤ (E : ℚ) := by exact_mod_cast hpos
    have hk53q : (k : ℚ) < 2 ^ 53 := by exact_mod_cast hk53
    have hinv : (1 : ℚ) / (k : ℚ) ≤ (E : ℚ) / (k : ℚ) :=
      div_le_div_of_nonneg_right hE1 (le_of_lt hkq)
    have hinv2 : (1 : ℚ) / 2 ^ 53 < 1 / (k : ℚ) := one_div_lt_one_div_of_lt hkq hk53q
    have hsmall : (2 : ℚ) ^ (-1022 : Int) ≤ |(E : ℚ) / (k : ℚ)| := by
      rw [abs_of_nonneg hx0]
      have : (2 : ℚ) ^ (-1022 : Int) ≤ 1 / 2 ^ 53 := by
        rw [zpow_neg, one_div]
        norm_num
      linarith
    have herr := abs_toDouble_sub_le _ hsmall
    rw [abs_of_nonneg hx0] at herr
    have herr2 := (abs_le.1 herr).2
    have hmul : (E : ℚ) / (k : ℚ) * 2 ^ (-53 : Int) < 1 / (k : ℚ) := by
      rw [zpow_neg, div_mul_eq_mul_div, div_lt_div_iff_of_pos_right hkq]
      have : (E : ℚ) * ((2 : ℚ) ^ (53 : Int))⁻¹ < 2 ^ 53 * ((2 : ℚ) ^ (53 : Int))⁻¹ :=
        mul_lt_mul_of_pos_right hE53 (by positivity)
      norm_num at this ⊢
      linarith
    linarith

theorem perAgentEquitable64_eq_div (n k : Nat) (p : ℚ) (hp0 : 0 ≤ p) (hp1 : p ≤ 1)
    (hn : n < 2 ^ 53) (hk : 0 < k) (hkn : k ≤ n) :
    Binary64.perAgentEquitable n k p = Binary64.totalEquitable n p / (k : Int) := by
  unfold Binary64.perAgentEquitable
  have hE1 := totalEquitable64_le n p hp0 hp1 hn
  exact mathFloor_jsDiv _ k (totalEquitable64_nonneg n p hp0)
    (lt_of_le_of_lt hE1 (by exact_mod_cast hn)) hk (lt_of_le_of_lt hkn hn)

theorem perAgentEquitable64_nonneg (n k : Nat) (p : ℚ) (hp0 : 0 ≤ p) :
    0 ≤ Binary64.perAgentEquitable n k p := by
  unfold Binary64.perAgentEquitable mathFloor jsDiv
  exact Int.floor_nonneg.2 (toDouble_nonneg _
    (div_nonneg (by exact_mod_cast totalEquitable64_nonneg n p hp0) (Nat.cast_nonneg k)))

theorem mul_perAgentEquitable64 (n k : Nat) (p : ℚ) (hp0 : 0 ≤ p) (hp1 : p ≤ 1)
    (hn : n < 2 ^ 53) (hk : 0 < k) (hkn : k ≤ n) :
    (k : Int) * Binary64.perAgentEquitable n k p =
      Binary64.totalEquitable n p - Binary64.totalEquitable n p % (k : Int) := by
  rw [perAgentEquitable64_eq_div n k p hp0 hp1 hn hk hkn, Int.emod_def]
  ring

theorem mul_perAgentEquitable64_le (n k : Nat) (p : ℚ) (hp0 : 0 ≤ p) (hp1 : p ≤ 1)
    (hn : n < 2 ^ 53) (hk : 0 < k) (hkn : k ≤ n) :
    (k : Int) * Binary64.perAgentEquitable n k p ≤ Binary64.totalEquitable n p := by
  rw [mul_perAgentEquitable64 n k p hp0 hp1 hn hk hkn]
  have := Int.emod_nonneg (Binary64.totalEquitable n p) (by omega : (k : Int) ≠ 0)
  omega

theorem rankingAmounts64_nonneg (weights : List Nat) (totalWeight : ℚ) (remaining : Int)
    (hr : 0 ≤ remaining) (hT : 0 ≤ totalWeight) :
    ∀ (k index : Nat), ∀ a ∈ Binary64.rankingAmounts weights totalWeight remaining k index,
      0 ≤ a := by
  intro k
  induction k with
  | zero => intro index a ha; simp [Binary64.rankingAmounts] at ha
  | succ k ih =>
    intro index a ha
    simp only [Binary64.rankingAmounts, List.mem_cons] at ha
    rcases ha with ha | ha
    · rw [ha]
      apply mathRound_nonneg
      apply toDouble_nonneg
      apply mul_nonneg
      · exact_mod_cast hr
      · exact toDouble_nonneg _ (div_nonneg (Nat.cast_nonneg _) hT)
    · exact ih _ a ha

theorem rankingAmounts64_length (weights : List Nat) (totalWeight : ℚ) (remaining : Int) :
    ∀ (k index : Nat),
      (Binary64.rankingAmounts weights totalWeight remaining k index).length = k := by
  intro k
  induction k with
  | zero => intro index; rfl
  | succ k ih => intro index; simp [Binary64.rankingAmounts, ih]

theorem intendedAmounts64_length (n k : Nat) (p : ℚ) :
    (Binary64.intendedAmounts n k p).length = k :=
  rankingAmounts64_length _ _ _ _ _

theorem intendedAmounts64_nonneg (n k : Nat) (p : ℚ) (hp0 : 0 ≤ p) (hp1 : p ≤ 1)
    (hn : n < 2 ^ 53) : ∀ a ∈ Binary64.intendedAmounts n k p, 0 ≤ a :=
  rankingAmounts64_nonneg _ _ _ (by have := totalEquitable64_le n p hp0 hp1 hn; omega)
    (totalWeight64_nonneg k) _ _

/-- On a valid run the per-agent equitable amount `q` is a natural number and the phase-1
slices `[i * q, (i + 1) * q)` of the `k` agents end at or before `floor(n * p)`. -/
theorem equitable64_bounds (n k : Nat) (p : ℚ) (hp0 : 0 ≤ p) (hp1 : p ≤ 1) (hn : n < 2 ^ 53)
    (hk : 0 < k) (hkn : k ≤ n) :
    ((Binary64.perAgentEquitable n k p).toNat : Int) = Binary64.perAgentEquitable n k p ∧
      ((k * (Binary64.perAgentEquitable n k p).toNat : Nat) : Int) ≤
        Binary64.totalEquitable n p ∧
      k * (Binary64.perAgentEquitable n k p).toNat ≤ n ∧
      ∀ i, i < k → (i + 1) * (Binary64.perAgentEquitable n k p).toNat ≤ n := by
  have hq := perAgentEquitable64_nonneg n k p hp0
  have hQ : ((Binary64.perAgentEquitable n k p).toNat : Int) =
      Binary64.perAgentEquitable n k p := Int.toNat_of_nonneg hq
  have hkq := mul_perAgentEquitable64_le n k p hp0 hp1 hn hk hkn
  have hE := totalEquitable64_le n p hp0 hp1 hn
  have h2 : ((k * (Binary64.perAgentEquitable n k p).toNat : Nat) : Int) ≤
      Binary64.totalEquitable n p := by
    push_cast
    rw [hQ]
    exact hkq
  have h3 : k * (Binary64.perAgentEquitable n k p).toNat ≤ n := by
    have : ((k * (Binary64.perAgentEquitable n k p).toNat : Nat) : Int) ≤ (n : Int) :=
      le_trans h2 hE
    exact_mod_cast this
  refine ⟨hQ, h2, h3, ?_⟩
  intro i hi
  exact le_trans (Nat.mul_le_mul_right _ (by omega)) h3

/-- The cursors of a valid run on Numbers are non-negative. -/
theorem cursorAt64_nonneg (n k : Nat) (p : ℚ) (hp0 : 0 ≤ p) (hp1 : p ≤ 1) (hn : n < 2 ^ 53)
    (i : Nat) :
    0 ≤ cursorAt (Binary64.intendedAmounts n k p) (Binary64.totalEquitable n p) i :=
  le_trans (totalEquitable64_nonneg n p hp0)
    (start_le_cursorAt _ _ (intendedAmounts64_nonneg n k p hp0 hp1 hn) i)

theorem rankingLoop64_agentIds (weights : List Nat) (totalWeight : ℚ) (remaining : Int)
    (now : Timestamp) (assignments : List Assignment) :
    ∀ (index : Nat) (accounts : List Account) (idx : Int),
      (Binary64.distributeByRankingLoop weights totalWeight remaining now assignments index accounts
          idx).1.map (fun a => a.agentId) = assignments.map (fun a => a.agentId) := by
  induction assignments with
  | nil => intro index accounts idx; rfl
  | cons a rest ih =>
    intro index accounts idx
    simp only [Binary64.distributeByRankingLoop, List.map_cons]
    rw [ih]

theorem rankingLoop64_accounts_length (weights : List Nat) (totalWeight : ℚ) (remaining : Int)
    (now : Timestamp) (assignments : List Assignment) :
    ∀ (index : Nat) (accounts : List Account) (idx : Int),
      (Binary64.distributeByRankingLoop weights totalWeight remaining now assignments index accounts
          idx).2.1.length = accounts.length := by
  induction assignments with
  | nil => intro index accounts idx; rfl
  | cons a rest ih =>
    intro index accounts idx
    simp only [Binary64.distributeByRankingLoop]
    rw [ih, length_assignSlice]

theorem rankingLoop64_consistent (weights : List Nat) (totalWeight : ℚ) (remaining : Int)
    (now : Timestamp) (assignments : List Assignment) :
    ∀ (index : Nat) (accounts : List Account) (idx : Int),
      (∀ a ∈ assignments, a.AfterEquitable) →
      ∀ a ∈ (Binary64.distributeByRankingLoop weights totalWeight remaining now assignments index
          accounts idx).1, a.Consistent := by
  induction assignments with
  | nil => intro index accounts idx _ a ha; simp [Binary64.distributeByRankingLoop] at ha
  | cons b rest ih =>
    intro index accounts idx hprev a ha
    simp only [Binary64.distributeByRankingLoop, List.mem_cons] at ha
    rcases ha with ha | ha
    · obtain ⟨_, h2, h3⟩ := hprev b (List.mem_cons_self _ _)
      subst ha
      simp [Assignment.Consistent, h2, h3]
    · exact ih _ _ _ (fun c hc => hprev c (List.mem_cons_of_mem _ hc)) a ha

theorem rankingLoop64_cursor (weights : List Nat) (totalWeight : ℚ) (remaining : Int)
    (now : Timestamp) (assignments : List Assignment) :
    ∀ (index : Nat) (accounts : List Account) (idx : Int),
      (Binary64.distributeByRankingLoop weights totalWeight remaining now assignments index accounts
          idx).2.2 =
        idx + (Binary64.rankingAmounts weights totalWeight remaining assignments.length index).sum := by
  induction assignments with
  | nil => intro index accounts idx; simp [Binary64.distributeByRankingLoop, Binary64.rankingAmounts]
  | cons b rest ih =>
    intro index accounts idx
    simp only [Binary64.distributeByRankingLoop, List.length_cons, Binary64.rankingAmounts, List.sum_cons]
    rw [ih]
    ring

/-- The assignments of a run that passed validation, spelled out. -/
theorem distribute64_result_of_valid (p : ℚ) (now : Timestamp) (accounts : List Account)
    (agents : List Agent) (hv : validateInputs accounts agents = none) :
    (Binary64.distribute p now accounts agents).result = .ok
      (Binary64.distributeByRanking p
        (distributeEquitable (createInitialAssignments (getActiveAgentsSorted agents)) accounts
          (mathFloor (jsDiv (mathFloor (jsMul (accounts.length : ℚ) (toDouble p)) : ℚ)
          ((getActiveAgentsSorted agents).length : ℚ))) now).1
        (distributeEquitable (createInitialAssignments (getActiveAgentsSorted agents)) accounts
          (mathFloor (jsDiv (mathFloor (jsMul (accounts.length : ℚ) (toDouble p)) : ℚ)
          ((getActiveAgentsSorted agents).length : ℚ))) now).2.1
        ((accounts.length : Int) - mathFloor (jsMul (accounts.length : ℚ) (toDouble p)))
        (getActiveAgentsSorted agents).length now).1 := by
  simp [Binary64.distribute, hv]

theorem distributeByRanking64_agentIds (p : ℚ) (assignments : List Assignment)
    (accounts : List Account) (remaining : Int) (totalAgents : Nat) (now : Timestamp) :
    (Binary64.distributeByRanking p assignments accounts remaining totalAgents now).1.map
        (fun a => a.agentId) = assignments.map (fun a => a.agentId) := by
  simp only [Binary64.distributeByRanking, handleRemainingAccounts]
  rw [remainingLoop_agentIds, rankingLoop64_agentIds]

theorem distributeByRanking64_consistent (p : ℚ) (assignments : List Assignment)
    (accounts : List Account) (remaining : Int) (totalAgents : Nat) (now : Timestamp)
    (h : ∀ a ∈ assignments, a.AfterEquitable) :
    ∀ a ∈ (Binary64.distributeByRanking p assignments accounts remaining totalAgents now).1,
      a.Consistent := by
  simp only [Binary64.distributeByRanking, handleRemainingAccounts]
  exact remainingLoop_consistent _ _ _ _ _ _ (rankingLoop64_consistent _ _ _ _ _ _ _ _ h)

theorem rankingLoop64_ids (weights : List Nat) (totalWeight : ℚ) (remaining : Int)
    (now : Timestamp) (assignments : List Assignment) :
    ∀ (index : Nat) (accounts : List Account) (idx : Int),
      (Binary64.distributeByRankingLoop weights totalWeight remaining now assignments index accounts
          idx).2.1.map (fun a => a.id) = accounts.map (fun a => a.id) := by
  induction assignments with
  | nil => intro index accounts idx; rfl
  | cons a rest ih =>
    intro index accounts idx
    simp only [Binary64.distributeByRankingLoop]
    rw [ih, assignSlice_ids]

/-- Closed form of phase 2: the assignment at position `i` gets the slice of its intended
amount from the running cursor. -/
theorem rankingLoop64_closed_form (weights : List Nat) (totalWeight : ℚ) (remaining : Int)
    (now : Timestamp) (assignments : List Assignment) :
    ∀ (index : Nat) (accounts : List Account) (idx : Int),
      (Binary64.distributeByRankingLoop weights totalWeight remaining now assignments index accounts
          idx).1 =
        assignments.mapIdx fun i a =>
          { a with
            rankingAccounts :=
              sliceLen accounts.length
                (cursorAt (Binary64.rankingAmounts weights totalWeight remaining assignments.length index)
                  idx i)
                (cursorAt (Binary64.rankingAmounts weights totalWeight remaining assignments.length index)
                  idx (i + 1))
            accountsList := a.accountsList ++
              slice (accounts.map fun acc => acc.id)
                (cursorAt (Binary64.rankingAmounts weights totalWeight remaining assignments.length index)
                  idx i)
                (cursorAt (Binary64.rankingAmounts weights totalWeight remaining assignments.length index)
                  idx (i + 1))
            totalAccounts := a.totalAccounts +
              sliceLen accounts.length
                (cursorAt (Binary64.rankingAmounts weights totalWeight remaining assignments.length index)
                  idx i)
                (cursorAt (Binary64.rankingAmounts weights totalWeight remaining assignments.length index)
                  idx (i + 1)) } := by
  induction assignments with
  | nil => intro index accounts idx; rfl
  | cons a rest ih =>
    intro index accounts idx
    simp only [Binary64.distributeByRankingLoop, List.mapIdx_cons, List.length_cons, Binary64.rankingAmounts]
    rw [ih, length_assignSlice, assignSlice_ids, length_slice, slice_map]
    congr 1
    · simp [cursorAt]
    · apply List.ext_getElem
      · simp
      · intro i h1 h2
        simp only [List.getElem_mapIdx, cursorAt, List.take_succ_cons, List.sum_cons]
        simp only [add_assoc]

theorem phaseOne64_accounts_length (p : ℚ) (now : Timestamp) (accounts : List Account)
    (agents : List Agent) : (Binary64.phaseOne p now accounts agents).2.1.length = accounts.length :=
  equitableLoop_accounts_length _ now _ accounts 0

theorem phaseOne64_length (p : ℚ) (now : Timestamp) (accounts : List Account)
    (agents : List Agent) : (Binary64.phaseOne p now accounts agents).1.length = agents.length := by
  have h := congrArg List.length (equitableLoop_agentIds
    (Binary64.perAgentEquitable accounts.length agents.length p) now
    (createInitialAssignments (getActiveAgentsSorted agents)) accounts 0)
  simp only [List.length_map] at h
  rw [Binary64.phaseOne, h]
  simp [createInitialAssignments, length_getActiveAgentsSorted]

theorem phaseTwo64_length (p : ℚ) (now : Timestamp) (accounts : List Account)
    (agents : List Agent) : (Binary64.phaseTwo p now accounts agents).1.length = agents.length := by
  have h := congrArg List.length (rankingLoop64_agentIds (calculateWeights agents.length)
    (Binary64.totalWeight agents.length)
    ((accounts.length : Int) - Binary64.totalEquitable accounts.length p) now
    (Binary64.phaseOne p now accounts agents).1 0 (Binary64.phaseOne p now accounts agents).2.1
    (Binary64.totalEquitable accounts.length p))
  simp only [List.length_map] at h
  rw [Binary64.phaseTwo, h, phaseOne64_length]

theorem phaseTwo64_accounts_length (p : ℚ) (now : Timestamp) (accounts : List Account)
    (agents : List Agent) : (Binary64.phaseTwo p now accounts agents).2.1.length = accounts.length := by
  rw [Binary64.phaseTwo, rankingLoop64_accounts_length, phaseOne64_accounts_length]

theorem phaseTwo64_cursor (p : ℚ) (now : Timestamp) (accounts : List Account)
    (agents : List Agent) :
    (Binary64.phaseTwo p now accounts agents).2.2 =
      cursorAt (Binary64.intendedAmounts accounts.length agents.length p)
        (Binary64.totalEquitable accounts.length p) agents.length := by
  rw [Binary64.phaseTwo, rankingLoop64_cursor, phaseOne64_length, cursorAt, Binary64.intendedAmounts,
    List.take_of_length_le (by rw [rankingAmounts64_length])]

/-- A run that passed validation is phase 1, the loop of phase 2 and the residual handling. -/
theorem distribute64_of_valid (p : ℚ) (now : Timestamp) (accounts : List Account)
    (agents : List Agent) (hv : validateInputs accounts agents = none) :
    (Binary64.distribute p now accounts agents).result =
        .ok (handleRemainingAccounts (Binary64.phaseTwo p now accounts agents).1
          (Binary64.phaseTwo p now accounts agents).2.1 (Binary64.phaseTwo p now accounts agents).2.2 now).1 ∧
      (Binary64.distribute p now accounts agents).accounts =
        (handleRemainingAccounts (Binary64.phaseTwo p now accounts agents).1
          (Binary64.phaseTwo p now accounts agents).2.1 (Binary64.phaseTwo p now accounts agents).2.2 now).2 ∧
      (Binary64.distribute p now accounts agents).agents = getActiveAgentsSorted agents := by
  have h1 : (distributeEquitable (createInitialAssignments (getActiveAgentsSorted agents))
      accounts (mathFloor (jsDiv (mathFloor (jsMul (accounts.length : ℚ) (toDouble p)) : ℚ)
          ((getActiveAgentsSorted agents).length : ℚ))) now) = Binary64.phaseOne p now accounts agents := by
    rw [length_getActiveAgentsSorted]
    rfl
  have h2 : Binary64.distributeByRanking p (Binary64.phaseOne p now accounts agents).1
      (Binary64.phaseOne p now accounts agents).2.1
      ((accounts.length : Int) - mathFloor (jsMul (accounts.length : ℚ) (toDouble p)))
      (getActiveAgentsSorted agents).length now =
      handleRemainingAccounts (Binary64.phaseTwo p now accounts agents).1
          (Binary64.phaseTwo p now accounts agents).2.1 (Binary64.phaseTwo p now accounts agents).2.2 now := by
    rw [length_getActiveAgentsSorted]
    unfold Binary64.distributeByRanking
    simp only [phaseOne64_accounts_length]
    rfl
  unfold Binary64.distribute
  simp only [hv, h1, h2, and_self]

theorem phaseOne64_ids (p : ℚ) (now : Timestamp) (accounts : List Account)
    (agents : List Agent) :
    (Binary64.phaseOne p now accounts agents).2.1.map (fun a => a.id) = accounts.map (fun a => a.id) :=
  equitableLoop_ids _ now _ accounts 0

theorem phaseTwo64_ids (p : ℚ) (now : Timestamp) (accounts : List Account)
    (agents : List Agent) :
    (Binary64.phaseTwo p now accounts agents).2.1.map (fun a => a.id) = accounts.map (fun a => a.id) := by
  rw [Binary64.phaseTwo, rankingLoop64_ids, phaseOne64_ids]

theorem phaseOne64_getElem (p : ℚ) (now : Timestamp) (accounts : List Account)
    (agents : List Agent) (i : Nat) (hi : i < (Binary64.phaseOne p now accounts agents).1.length)
    (hs : i < (getActiveAgentsSorted agents).length) :
    (Binary64.phaseOne p now accounts agents).1[i] =
      { agentId := (getActiveAgentsSorted agents)[i].id
        equitableAccounts := sliceLen accounts.length
          ((i : Int) * Binary64.perAgentEquitable accounts.length agents.length p)
          (((i : Int) + 1) * Binary64.perAgentEquitable accounts.length agents.length p)
        rankingAccounts := 0
        totalAccounts := sliceLen accounts.length
          ((i : Int) * Binary64.perAgentEquitable accounts.length agents.length p)
          (((i : Int) + 1) * Binary64.perAgentEquitable accounts.length agents.length p)
        accountsList := slice (accounts.map fun acc => acc.id)
          ((i : Int) * Binary64.perAgentEquitable accounts.length agents.length p)
          (((i : Int) + 1) * Binary64.perAgentEquitable accounts.length agents.length p) } := by
  simp only [Binary64.phaseOne, equitableLoop_closed_form, List.getElem_mapIdx, createInitialAssignments,
    List.getElem_map, zero_add, List.nil_append]

theorem phaseTwo64_getElem (p : ℚ) (now : Timestamp) (accounts : List Account)
    (agents : List Agent) (i : Nat) (hi : i < (Binary64.phaseTwo p now accounts agents).1.length)
    (hs : i < (getActiveAgentsSorted agents).length) :
    (Binary64.phaseTwo p now accounts agents).1[i] =
      { agentId := (getActiveAgentsSorted agents)[i].id
        equitableAccounts := sliceLen accounts.length
          ((i : Int) * Binary64.perAgentEquitable accounts.length agents.length p)
          (((i : Int) + 1) * Binary64.perAgentEquitable accounts.length agents.length p)
        rankingAccounts := sliceLen accounts.length
          (cursorAt (Binary64.intendedAmounts accounts.length agents.length p)
            (Binary64.totalEquitable accounts.length p) i)
          (cursorAt (Binary64.intendedAmounts accounts.length agents.length p)
            (Binary64.totalEquitable accounts.length p) (i + 1))
        totalAccounts := sliceLen accounts.length
            ((i : Int) * Binary64.perAgentEquitable accounts.length agents.length p)
            (((i : Int) + 1) * Binary64.perAgentEquitable accounts.length agents.length p) +
          sliceLen accounts.length
            (cursorAt (Binary64.intendedAmounts accounts.length agents.length p)
              (Binary64.totalEquitable accounts.length p) i)
            (cursorAt (Binary64.intendedAmounts accounts.length agents.length p)
              (Binary64.totalEquitable accounts.length p) (i + 1))
        accountsList := slice (accounts.map fun acc => acc.id)
            ((i : Int) * Binary64.perAgentEquitable accounts.length agents.length p)
            (((i : Int) + 1) * Binary64.perAgentEquitable accounts.length agents.length p) ++
          slice (accounts.map fun acc => acc.id)
            (cursorAt (Binary64.intendedAmounts accounts.length agents.length p)
              (Binary64.totalEquitable accounts.length p) i)
            (cursorAt (Binary64.intendedAmounts accounts.length agents.length p)
              (Binary64.totalEquitable accounts.length p) (i + 1)) } := by
  have h1 : i < (Binary64.phaseOne p now accounts agents).1.length := by
    rw [phaseOne64_length]; rw [phaseTwo64_length] at hi; exact hi
  simp only [Binary64.phaseTwo, rankingLoop64_closed_form, List.getElem_mapIdx,
    phaseOne64_getElem p now accounts agents i h1 hs, phaseOne64_length, phaseOne64_accounts_length,
    phaseOne64_ids, Binary64.intendedAmounts]

/-- Closed form of the assignments of a run that passed validation. -/
theorem distribute64_closed_form (p : ℚ) (now : Timestamp) (accounts : List Account)
    (agents : List Agent) (hv : validateInputs accounts agents = none) :
    ∃ r : List Assignment,
      (Binary64.distribute p now accounts agents).result = .ok r ∧ r.length = agents.length ∧
      ∀ (i : Nat) (hi : i < r.length) (hs : i < (getActiveAgentsSorted agents).length),
        r[i] =
          { agentId := (getActiveAgentsSorted agents)[i].id
            equitableAccounts := sliceLen accounts.length
              ((i : Int) * Binary64.perAgentEquitable accounts.length agents.length p)
              (((i : Int) + 1) * Binary64.perAgentEquitable accounts.length agents.length p)
            rankingAccounts := sliceLen accounts.length
                (cursorAt (Binary64.intendedAmounts accounts.length agents.length p)
                  (Binary64.totalEquitable accounts.length p) i)
                (cursorAt (Binary64.intendedAmounts accounts.length agents.length p)
                  (Binary64.totalEquitable accounts.length p) (i + 1)) +
              (residualIds (Binary64.residualAccountIds accounts agents.length p) agents.length 0
                i).length
            totalAccounts := sliceLen accounts.length
                ((i : Int) * Binary64.perAgentEquitable accounts.length agents.length p)
                (((i : Int) + 1) * Binary64.perAgentEquitable accounts.length agents.length p) +
              sliceLen accounts.length
                (cursorAt (Binary64.intendedAmounts accounts.length agents.length p)
                  (Binary64.totalEquitable accounts.length p) i)
                (cursorAt (Binary64.intendedAmounts accounts.length agents.length p)
                  (Binary64.totalEquitable accounts.length p) (i + 1)) +
              (residualIds (Binary64.residualAccountIds accounts agents.length p) agents.length 0
                i).length
            accountsList := slice (accounts.map fun acc => acc.id)
                ((i : Int) * Binary64.perAgentEquitable accounts.length agents.length p)
                (((i : Int) + 1) * Binary64.perAgentEquitable accounts.length agents.length p) ++
              slice (accounts.map fun acc => acc.id)
                (cursorAt (Binary64.intendedAmounts accounts.length agents.length p)
                  (Binary64.totalEquitable accounts.length p) i)
                (cursorAt (Binary64.intendedAmounts accounts.length agents.length p)
                  (Binary64.totalEquitable accounts.length p) (i + 1)) ++
              residualIds (Binary64.residualAccountIds accounts agents.length p) agents.length 0 i } := by
  have hk := (validateInputs_pos accounts agents hv).1
  have hlen2 := phaseTwo64_length p now accounts agents
  have hform : (handleRemainingAccounts (Binary64.phaseTwo p now accounts agents).1
      (Binary64.phaseTwo p now accounts agents).2.1 (Binary64.phaseTwo p now accounts agents).2.2 now).1 =
      (Binary64.phaseTwo p now accounts agents).1.mapIdx fun i a =>
        { a with
          rankingAccounts := a.rankingAccounts +
            (residualIds (Binary64.residualAccountIds accounts agents.length p) agents.length 0 i).length
          totalAccounts := a.totalAccounts +
            (residualIds (Binary64.residualAccountIds accounts agents.length p) agents.length 0 i).length
          accountsList := a.accountsList ++
            residualIds (Binary64.residualAccountIds accounts agents.length p) agents.length 0 i } := by
    unfold handleRemainingAccounts
    simp only []
    rw [remainingLoop_closed_form _ _ _ _ _ _ (by rw [hlen2]; exact hk), sliceFrom_map,
      phaseTwo64_ids, phaseTwo64_cursor, hlen2]
    rfl
  refine ⟨_, (distribute64_of_valid p now accounts agents hv).1, ?_, ?_⟩
  · rw [hform, List.length_mapIdx, hlen2]
  · intro i hi hs
    have hi2 : i < (Binary64.phaseTwo p now accounts agents).1.length := by
      rw [hlen2, ← length_getActiveAgentsSorted]; exact hs
    simp only [hform, List.getElem_mapIdx, phaseTwo64_getElem p now accounts agents i hi2 hs,
      List.append_assoc, add_assoc]

theorem rankingAmounts64_getElem (weights : List Nat) (totalWeight : ℚ) (remaining : Int) :
    ∀ (k index i : Nat) (hi : i < (Binary64.rankingAmounts weights totalWeight remaining k index).length),
      (Binary64.rankingAmounts weights totalWeight remaining k index)[i] =
        mathRound (jsMul (remaining : ℚ)
          (jsDiv ((weights.getD (index + i) 0 : Nat) : ℚ) totalWeight)) := by
  intro k
  induction k with
  | zero => intro index i hi; simp [Binary64.rankingAmounts] at hi
  | succ k ih =>
    intro index i hi
    cases i with
    | zero => simp [Binary64.rankingAmounts]
    | succ i =>
      simp only [Binary64.rankingAmounts, List.getElem_cons_succ]
      rw [ih]
      congr 5
      omega

/-- The phase-1 slice of the agent at position `i < k` of a valid run, as a sublist of the
accounts. -/
theorem equitable64_slice (accounts : List Account) (k : Nat) (p : ℚ) (hp0 : 0 ≤ p)
    (hp1 : p ≤ 1) (hn : accounts.length < 2 ^ 53) (hk : 0 < k) (hkn : k ≤ accounts.length)
    (i : Nat) (hik : i < k) :
    slice (accounts.map fun acc => acc.id)
        ((i : Int) * Binary64.perAgentEquitable accounts.length k p)
        (((i : Int) + 1) * Binary64.perAgentEquitable accounts.length k p) =
      ((accounts.drop (i * (Binary64.perAgentEquitable accounts.length k p).toNat)).take
        (Binary64.perAgentEquitable accounts.length k p).toNat).map fun acc => acc.id := by
  obtain ⟨hQ, _, _, hslices⟩ := equitable64_bounds accounts.length k p hp0 hp1 hn hk hkn
  have hbound := hslices i hik
  have e1 : (i : Int) * Binary64.perAgentEquitable accounts.length k p =
      ((i * (Binary64.perAgentEquitable accounts.length k p).toNat : Nat) : Int) := by
    push_cast; rw [hQ]
  have e2 : ((i : Int) + 1) * Binary64.perAgentEquitable accounts.length k p =
      (((i + 1) * (Binary64.perAgentEquitable accounts.length k p).toNat : Nat) : Int) := by
    push_cast; rw [hQ]
  have hsub : (i + 1) * (Binary64.perAgentEquitable accounts.length k p).toNat -
      i * (Binary64.perAgentEquitable accounts.length k p).toNat =
      (Binary64.perAgentEquitable accounts.length k p).toNat := by
    rw [Nat.add_mul]; omega
  rw [e1, e2, slice_natCast _ _ _ (by simpa using hbound), hsub, List.map_take, List.map_drop]

theorem rankingLoop64_flatMap (weights : List Nat) (totalWeight : ℚ) (remaining : Int)
    (hr : 0 ≤ remaining) (hT : 0 ≤ totalWeight) (now : Timestamp) (assignments : List Assignment) :
    ∀ (index : Nat) (accounts : List Account) (idx : Int), 0 ≤ idx →
      ((Binary64.distributeByRankingLoop weights totalWeight remaining now assignments index accounts
          idx).1.flatMap fun a => a.accountsList).Perm
        ((assignments.flatMap fun a => a.accountsList) ++
          slice (accounts.map fun acc => acc.id) idx
            (idx + (Binary64.rankingAmounts weights totalWeight remaining assignments.length
              index).sum)) := by
  induction assignments with
  | nil =>
    intro index accounts idx _
    simp [Binary64.distributeByRankingLoop, Binary64.rankingAmounts, slice]
  | cons a rest ih =>
    intro index accounts idx hidx
    have hnonneg := rankingAmounts64_nonneg weights totalWeight remaining hr hT
    have ha : 0 ≤ mathRound (jsMul (remaining : ℚ)
          (jsDiv ((weights.getD index 0 : Nat) : ℚ) totalWeight)) :=
      hnonneg (rest.length + 1) index _ (by simp [Binary64.rankingAmounts])
    have hsum : 0 ≤ (Binary64.rankingAmounts weights totalWeight remaining rest.length
        (index + 1)).sum :=
      List.sum_nonneg (hnonneg rest.length (index + 1))
    have h := ih (index + 1) (assignSlice accounts idx
      (idx + mathRound (jsMul (remaining : ℚ)
          (jsDiv ((weights.getD index 0 : Nat) : ℚ) totalWeight))) a.agentId now)
      (idx + mathRound (jsMul (remaining : ℚ)
          (jsDiv ((weights.getD index 0 : Nat) : ℚ) totalWeight))) (by omega)
    rw [assignSlice_ids] at h
    have hsl := slice_append_slice (accounts.map fun acc => acc.id) idx
      (idx + mathRound (jsMul (remaining : ℚ)
          (jsDiv ((weights.getD index 0 : Nat) : ℚ) totalWeight)))
      (idx + mathRound (jsMul (remaining : ℚ)
          (jsDiv ((weights.getD index 0 : Nat) : ℚ) totalWeight)) +
        (Binary64.rankingAmounts weights totalWeight remaining rest.length (index + 1)).sum)
      hidx (by omega) (by omega)
    simp only [Binary64.distributeByRankingLoop, List.flatMap_cons, List.length_cons, Binary64.rankingAmounts,
      List.sum_cons]
    rw [← add_assoc, ← hsl, slice_map]
    rw [List.perm_iff_count]
    intro x
    have hc := h.count_eq x
    simp only [List.count_append] at hc ⊢
    omega

/-- The ids handed out by a valid run, up to order: the ids of the first `k * q` accounts and
of the accounts from position `floor(n * p)` on. -/
theorem distribute64_flatMap_perm (p : ℚ) (hp0 : 0 ≤ p) (hp1 : p ≤ 1) (now : Timestamp)
    (accounts : List Account) (agents : List Agent)
    (hv : validateInputs accounts agents = none) (hn : accounts.length < 2 ^ 53) :
    ((handleRemainingAccounts (Binary64.phaseTwo p now accounts agents).1
        (Binary64.phaseTwo p now accounts agents).2.1 (Binary64.phaseTwo p now accounts agents).2.2 now).1.flatMap
        fun a => a.accountsList).Perm
      ((accounts.take (agents.length * (Binary64.perAgentEquitable accounts.length agents.length p).toNat)
        ++ accounts.drop (Binary64.totalEquitable accounts.length p).toNat).map fun acc => acc.id) := by
  have hk := (validateInputs_pos accounts agents hv).1
  obtain ⟨hQ, hkQ, hkn, _⟩ := equitable64_bounds accounts.length agents.length p hp0 hp1 hn hk
    (validateInputs_pos accounts agents hv).2
  have hE0 := totalEquitable64_nonneg accounts.length p hp0
  have hE1 := totalEquitable64_le accounts.length p hp0 hp1 hn
  have hq := perAgentEquitable64_nonneg accounts.length agents.length p hp0
  have hlen1 := phaseOne64_length p now accounts agents
  have hlen2 := phaseTwo64_length p now accounts agents
  have h1 := equitableLoop_flatMap (Binary64.perAgentEquitable accounts.length agents.length p) hq now
    (createInitialAssignments (getActiveAgentsSorted agents)) accounts 0 (le_refl _)
  rw [flatMap_createInitialAssignments, List.nil_append] at h1
  have hcl : (createInitialAssignments (getActiveAgentsSorted agents)).length =
      agents.length := by
    simp [createInitialAssignments, length_getActiveAgentsSorted]
  rw [hcl, zero_add] at h1
  have h2 := rankingLoop64_flatMap (calculateWeights agents.length)
    (Binary64.totalWeight agents.length)
    ((accounts.length : Int) - Binary64.totalEquitable accounts.length p) (by omega)
    (totalWeight64_nonneg _) now (Binary64.phaseOne p now accounts agents).1 0 (Binary64.phaseOne p now accounts agents).2.1
    (Binary64.totalEquitable accounts.length p) hE0
  rw [phaseOne64_ids, hlen1] at h2
  have h3 := remainingLoop_flatMap now
    (sliceFrom (Binary64.phaseTwo p now accounts agents).2.1 (Binary64.phaseTwo p now accounts agents).2.2)
    (sliceIndex (Binary64.phaseTwo p now accounts agents).2.1.length (Binary64.phaseTwo p now accounts agents).2.2)
    0 (Binary64.phaseTwo p now accounts agents).1 (Binary64.phaseTwo p now accounts agents).2.1
    (by rw [hlen2]; exact hk)
  rw [sliceFrom_map, phaseTwo64_ids, phaseTwo64_cursor] at h3
  have hsum : Binary64.totalEquitable accounts.length p +
      (Binary64.rankingAmounts (calculateWeights agents.length)
        (Binary64.totalWeight agents.length)
        ((accounts.length : Int) - Binary64.totalEquitable accounts.length p) agents.length 0).sum =
      cursorAt (Binary64.intendedAmounts accounts.length agents.length p)
        (Binary64.totalEquitable accounts.length p) agents.length := by
    rw [cursorAt, Binary64.intendedAmounts, List.take_of_length_le (by rw [rankingAmounts64_length])]
  rw [hsum] at h2
  have hcur := start_le_cursorAt (Binary64.intendedAmounts accounts.length agents.length p)
    (Binary64.totalEquitable accounts.length p) (intendedAmounts64_nonneg _ _ p hp0 hp1 hn) agents.length
  have hjoin := slice_append_sliceFrom (accounts.map fun acc => acc.id)
    (Binary64.totalEquitable accounts.length p)
    (cursorAt (Binary64.intendedAmounts accounts.length agents.length p)
      (Binary64.totalEquitable accounts.length p) agents.length) hE0 hcur
  have hfirst : slice (accounts.map fun acc => acc.id) 0
      ((agents.length : Int) * Binary64.perAgentEquitable accounts.length agents.length p) =
      (accounts.take (agents.length *
        (Binary64.perAgentEquitable accounts.length agents.length p).toNat)).map fun acc => acc.id := by
    have e : (agents.length : Int) * Binary64.perAgentEquitable accounts.length agents.length p =
        ((agents.length * (Binary64.perAgentEquitable accounts.length agents.length p).toNat : Nat) :
          Int) := by
      push_cast; rw [hQ]
    rw [e]
    have := slice_natCast (accounts.map fun acc => acc.id) 0
      (agents.length * (Binary64.perAgentEquitable accounts.length agents.length p).toNat)
      (by simpa using hkn)
    simp only [Nat.cast_zero, List.drop_zero, Nat.sub_zero] at this
    rw [this, List.map_take]
  have hlast : sliceFrom (accounts.map fun acc => acc.id) (Binary64.totalEquitable accounts.length p) =
      (accounts.drop (Binary64.totalEquitable accounts.length p).toNat).map fun acc => acc.id := by
    unfold sliceFrom
    rw [sliceIndex_of_nonneg _ _ hE0, List.length_map, List.map_drop]
    congr 1
    omega
  rw [hfirst] at h1
  rw [← hjoin] at hlast
  unfold handleRemainingAccounts
  simp only []
  rw [phaseTwo64_cursor]
  rw [List.map_append, ← hlast]
  rw [List.perm_iff_count]
  intro x
  have c1 := h1.count_eq x
  have c2 := h2.count_eq x
  have c3 := h3.count_eq x
  simp only [Binary64.phaseOne, Binary64.phaseTwo] at c1 c2 c3 ⊢
  simp only [List.count_append] at c1 c2 c3 ⊢
  omega

theorem rankingLoop64_frame (weights : List Nat) (totalWeight : ℚ) (remaining : Int)
    (hr : 0 ≤ remaining) (hT : 0 ≤ totalWeight) (now : Timestamp) (assignments : List Assignment) :
    ∀ (index : Nat) (accounts : List Account) (idx : Int) (j : Nat), 0 ≤ idx →
      j < sliceIndex accounts.length idx →
      (Binary64.distributeByRankingLoop weights totalWeight remaining now assignments index accounts
        idx).2.1[j]? = accounts[j]? := by
  induction assignments with
  | nil => intro index accounts idx j _ _; rfl
  | cons a rest ih =>
    intro index accounts idx j hidx hj
    have ha : 0 ≤ mathRound (jsMul (remaining : ℚ)
          (jsDiv ((weights.getD index 0 : Nat) : ℚ) totalWeight)) :=
      rankingAmounts64_nonneg weights totalWeight remaining hr hT 1 index _ (by simp [Binary64.rankingAmounts])
    rw [sliceIndex_of_nonneg _ _ hidx] at hj
    simp only [Binary64.distributeByRankingLoop]
    rw [ih _ _ _ j (by omega) (by
      rw [length_assignSlice, sliceIndex_of_nonneg _ _ (by omega)]
      omega)]
    apply assignSlice_getElem?_of_outside
    rw [sliceIndex_of_nonneg _ _ hidx]
    omega

/-- The accounts between the end of phase 1 and the start of phase 2 come out of a valid run as
they went in. -/
theorem distribute64_skipped_unchanged (p : ℚ) (hp0 : 0 ≤ p) (hp1 : p ≤ 1) (now : Timestamp)
    (accounts : List Account) (agents : List Agent)
    (hv : validateInputs accounts agents = none) (hn : accounts.length < 2 ^ 53) (j : Nat)
    (h1 : agents.length * (Binary64.perAgentEquitable accounts.length agents.length p).toNat ≤ j)
    (h2 : j < (Binary64.totalEquitable accounts.length p).toNat) :
    (Binary64.distribute p now accounts agents).accounts[j]? = accounts[j]? := by
  have hk := (validateInputs_pos accounts agents hv).1
  obtain ⟨hQ, hkQ, hkn, _⟩ := equitable64_bounds accounts.length agents.length p hp0 hp1 hn hk
    (validateInputs_pos accounts agents hv).2
  have hE0 := totalEquitable64_nonneg accounts.length p hp0
  have hE1 := totalEquitable64_le accounts.length p hp0 hp1 hn
  have hq := perAgentEquitable64_nonneg accounts.length agents.length p hp0
  have hcur := start_le_cursorAt (Binary64.intendedAmounts accounts.length agents.length p)
    (Binary64.totalEquitable accounts.length p) (intendedAmounts64_nonneg _ _ p hp0 hp1 hn) agents.length
  have hcl : (createInitialAssignments (getActiveAgentsSorted agents)).length =
      agents.length := by
    simp [createInitialAssignments, length_getActiveAgentsSorted]
  rw [(distribute64_of_valid p now accounts agents hv).2.1]
  unfold handleRemainingAccounts
  simp only []
  rw [remainingLoop_frame _ _ _ _ _ _ j (by
    rw [phaseTwo64_accounts_length, phaseTwo64_cursor, sliceIndex_of_nonneg _ _ (by omega)]
    omega)]
  unfold Binary64.phaseTwo
  rw [rankingLoop64_frame _ _ _ (by omega) (totalWeight64_nonneg _) _ _ _ _ _ j hE0 (by
    rw [phaseOne64_accounts_length, sliceIndex_of_nonneg _ _ hE0]
    omega)]
  unfold Binary64.phaseOne
  apply equitableLoop_frame _ hq _ _ _ _ j (le_refl _)
  right
  rw [hcl, zero_add, sliceIndex_of_nonneg _ _ (mul_nonneg (Int.natCast_nonneg _) hq)]
  have e : ((agents.length : Int) * Binary64.perAgentEquitable accounts.length agents.length p).toNat =
      agents.length * (Binary64.perAgentEquitable accounts.length agents.length p).toNat := by
    rw [← hQ]
    exact_mod_cast Int.toNat_natCast _
  rw [e]
  omega

/-! ## The amounts and cursors of phase 2, on Numbers -/

theorem intendedAmounts64_getElem (n k : Nat) (p : ℚ) (hk : k < 2 ^ 26) (i : Nat)
    (hi : i < (Binary64.intendedAmounts n k p).length) :
    (Binary64.intendedAmounts n k p)[i] = Binary64.codeAmount n k p i := by
  have hik : i < k := by rw [intendedAmounts64_length] at hi; exact hi
  unfold Binary64.intendedAmounts Binary64.codeAmount
  rw [rankingAmounts64_getElem, Nat.zero_add, calculateWeights_getD k i hik,
    totalWeight64_eq k hk]
  rfl

theorem cursorAt64_intendedAmounts (n k : Nat) (p : ℚ) (hk : k < 2 ^ 26) (i : Nat)
    (hi : i ≤ k) :
    cursorAt (Binary64.intendedAmounts n k p) (Binary64.totalEquitable n p) i =
      Binary64.codeCursor n k p i := by
  induction i with
  | zero => rw [cursorAt_zero]; rfl
  | succ i ih =>
    have hlt : i < (Binary64.intendedAmounts n k p).length := by
      rw [intendedAmounts64_length]; omega
    rw [cursorAt_succ _ _ _ hlt, ih (by omega), intendedAmounts64_getElem _ _ _ hk _ hlt]
    rfl

/-- The residual accounts of a run are those from the final cursor on. -/
theorem residualAccountIds64_eq_drop (accounts : List Account) (k : Nat) (p : ℚ) (hp0 : 0 ≤ p)
    (hp1 : p ≤ 1) (hn : accounts.length < 2 ^ 53) (hk : k < 2 ^ 26) :
    Binary64.residualAccountIds accounts k p =
      (accounts.drop (Binary64.codeCursor accounts.length k p k).toNat).map
        fun acc => acc.id := by
  have hc := cursorAt64_nonneg accounts.length k p hp0 hp1 hn k
  unfold Binary64.residualAccountIds sliceFrom
  rw [cursorAt64_intendedAmounts _ _ _ hk _ (le_refl _)] at hc ⊢
  rw [sliceIndex_of_nonneg _ _ hc, List.length_map, List.map_drop]
  rcases le_total (Binary64.codeCursor accounts.length k p k).toNat accounts.length with h | h
  · rw [Nat.min_eq_left h]
  · rw [Nat.min_eq_right h, List.drop_of_length_le (by simp),
      List.drop_of_length_le (by simpa using h)]

/-- The assignments of a run that passed validation keep `totalAccounts` the sum of the two
counts and the length of `accountsList`. -/
theorem distribute64_consistent (p : ℚ) (now : Timestamp) (accounts : List Account)
    (agents : List Agent) (hv : validateInputs accounts agents = none) :
    ∃ r : List Assignment,
      (Binary64.distribute p now accounts agents).result = .ok r ∧ ∀ a ∈ r, a.Consistent := by
  refine ⟨_, distribute64_result_of_valid p now accounts agents hv, ?_⟩
  exact distributeByRanking64_consistent p _ _ _ _ now
    (equitableLoop_afterEquitable _ now _ accounts 0
      (createInitialAssignments_fresh (getActiveAgentsSorted agents)))

/-! ## Phase 1 and coverage, on Numbers -/

/-- C21: on valid input with a percentage in (0, 1), the run computing on Numbers as the code
does, with `E = floor(n * p)` and `q = floor(E / k)`, which is the integer quotient of `E` by
`k`: the assignment at rank position `i` has `equitableAccounts = q`, and the first `q`
entries of its `accountsList` are the ids of the accounts at positions `[i * q, (i + 1) * q)`,
in order. -/
theorem distribute_equitable_partition (p : ℚ) (hp0 : 0 < p) (hp1 : p < 1) (now : Timestamp)
    (accounts : List Account) (agents : List Agent) (hne : agents ≠ [])
    (hle : agents.length ≤ accounts.length) (hsize : accounts.length < 2 ^ 53) :
    Binary64.perAgentEquitable accounts.length agents.length p =
        Binary64.totalEquitable accounts.length p / (agents.length : Int) ∧
    ∃ r : List Assignment,
      (Binary64.distribute p now accounts agents).result = .ok r ∧ r.length = agents.length ∧
      ∀ (i : Nat) (hi : i < r.length),
        (r[i].equitableAccounts : Int) =
          Binary64.perAgentEquitable accounts.length agents.length p ∧
        r[i].accountsList.take
            (Binary64.perAgentEquitable accounts.length agents.length p).toNat =
          ((accounts.drop
              (i * (Binary64.perAgentEquitable accounts.length agents.length p).toNat)).take
            (Binary64.perAgentEquitable accounts.length agents.length p).toNat).map
              fun acc => acc.id := by
  have hv := validateInputs_of_valid accounts agents hne hle
  have hk := (validateInputs_pos accounts agents hv).1
  obtain ⟨r, hres, hlen, hform⟩ := distribute64_closed_form p now accounts agents hv
  obtain ⟨hQ, _, _, hslices⟩ :=
    equitable64_bounds accounts.length agents.length p (le_of_lt hp0) (le_of_lt hp1) hsize hk
      hle
  refine ⟨perAgentEquitable64_eq_div _ _ p (le_of_lt hp0) (le_of_lt hp1) hsize hk hle,
    r, hres, hlen, ?_⟩
  intro i hi
  have hik : i < agents.length := by rw [← hlen]; exact hi
  have hs : i < (getActiveAgentsSorted agents).length := by
    rw [length_getActiveAgentsSorted]; exact hik
  have hbound := hslices i hik
  have e1 : (i : Int) * Binary64.perAgentEquitable accounts.length agents.length p =
      ((i * (Binary64.perAgentEquitable accounts.length agents.length p).toNat : Nat) :
        Int) := by
    push_cast; rw [hQ]
  have e2 : ((i : Int) + 1) * Binary64.perAgentEquitable accounts.length agents.length p =
      (((i + 1) * (Binary64.perAgentEquitable accounts.length agents.length p).toNat : Nat) :
        Int) := by
    push_cast; rw [hQ]
  have hsub : (i + 1) * (Binary64.perAgentEquitable accounts.length agents.length p).toNat -
      i * (Binary64.perAgentEquitable accounts.length agents.length p).toNat =
      (Binary64.perAgentEquitable accounts.length agents.length p).toNat := by
    rw [Nat.add_mul]; omega
  rw [hform i hi hs]
  simp only [e1, e2]
  rw [sliceLen_natCast _ _ _ (Nat.mul_le_mul_right _ (by omega)) hbound, hsub,
    slice_natCast _ _ _ (by simpa using hbound), hsub]
  refine ⟨hQ, ?_⟩
  rw [List.append_assoc, List.take_left', List.map_take, List.map_drop]
  rw [List.length_take, List.length_drop, List.length_map]
  have : i * (Binary64.perAgentEquitable accounts.length agents.length p).toNat +
      (Binary64.perAgentEquitable accounts.length agents.length p).toNat ≤
        accounts.length := by
    rw [Nat.add_mul] at hbound; omega
  omega

/-- C26: on valid input with a percentage in (0, 1), the run computing on Numbers as the code
does, with `E = floor(n * p)` and `q = floor(E / k)`: the ids in the returned `accountsList`s
are, up to order, those of the accounts at the positions `j < k * q` and `j ≥ E`; with
pairwise distinct ids, the account at position `j` is in some `accountsList` if and only if
`j < k * q` or `j ≥ E`; the accounts at positions `k * q ≤ j < E` are left as they were; and
the `totalAccounts` sum to `n - (E mod k)`. -/
theorem distribute_exact_coverage (p : ℚ) (hp0 : 0 < p) (hp1 : p < 1) (now : Timestamp)
    (accounts : List Account) (agents : List Agent) (hne : agents ≠ [])
    (hle : agents.length ≤ accounts.length) (hsize : accounts.length < 2 ^ 53) :
    ∃ r : List Assignment,
      (Binary64.distribute p now accounts agents).result = .ok r ∧
      (r.flatMap fun a => a.accountsList).Perm
        ((accounts.take (agents.length *
            (Binary64.perAgentEquitable accounts.length agents.length p).toNat) ++
          accounts.drop (Binary64.totalEquitable accounts.length p).toNat).map
            fun acc => acc.id) ∧
      ((accounts.map fun acc => acc.id).Nodup →
        ∀ (j : Nat) (hj : j < accounts.length),
          (∃ a ∈ r, accounts[j].id ∈ a.accountsList) ↔
            (j : Int) < (agents.length : Int) *
                Binary64.perAgentEquitable accounts.length agents.length p ∨
              Binary64.totalEquitable accounts.length p ≤ (j : Int)) ∧
      (∀ (j : Nat),
        (agents.length : Int) * Binary64.perAgentEquitable accounts.length agents.length p ≤
          (j : Int) →
        (j : Int) < Binary64.totalEquitable accounts.length p →
        (Binary64.distribute p now accounts agents).accounts[j]? = accounts[j]?) ∧
      (((r.map fun a => a.totalAccounts).sum : Nat) : Int) =
        (accounts.length : Int) -
          Binary64.totalEquitable accounts.length p % (agents.length : Int) := by
  have hv := validateInputs_of_valid accounts agents hne hle
  have hk := (validateInputs_pos accounts agents hv).1
  obtain ⟨hQ, hkQ, hkn, _⟩ :=
    equitable64_bounds accounts.length agents.length p (le_of_lt hp0) (le_of_lt hp1) hsize hk
      hle
  have hE0 := totalEquitable64_nonneg accounts.length p (le_of_lt hp0)
  have hE1 := totalEquitable64_le accounts.length p (le_of_lt hp0) (le_of_lt hp1) hsize
  have hperm := distribute64_flatMap_perm p (le_of_lt hp0) (le_of_lt hp1) now accounts agents
    hv hsize
  have hmul := mul_perAgentEquitable64 accounts.length agents.length p (le_of_lt hp0)
    (le_of_lt hp1) hsize hk hle
  have hkq : (agents.length : Int) *
      Binary64.perAgentEquitable accounts.length agents.length p =
      ((agents.length * (Binary64.perAgentEquitable accounts.length agents.length p).toNat :
        Nat) : Int) := by
    push_cast; rw [hQ]
  refine ⟨_, (distribute64_of_valid p now accounts agents hv).1, hperm, ?_, ?_, ?_⟩
  · intro hnd j hj
    have hmem := getElem_mem_take_append_drop (accounts.map fun acc => acc.id) hnd
      (agents.length * (Binary64.perAgentEquitable accounts.length agents.length p).toNat)
      (Binary64.totalEquitable accounts.length p).toNat j (by simpa using hj)
    rw [List.getElem_map, ← List.map_take, ← List.map_drop, ← List.map_append,
      ← hperm.mem_iff, List.mem_flatMap] at hmem
    rw [hmem, hkq]
    omega
  · intro j h1 h2
    exact distribute64_skipped_unchanged p (le_of_lt hp0) (le_of_lt hp1) now accounts agents hv
      hsize j (by omega) (by omega)
  · obtain ⟨r, hres, hcons⟩ := distribute64_consistent p now accounts agents hv
    rw [(distribute64_of_valid p now accounts agents hv).1] at hres
    injection hres with hres
    rw [hres, sum_totalAccounts_eq_length_flatMap r hcons, ← hres, hperm.length_eq,
      List.length_map, List.length_append, List.length_take, List.length_drop]
    omega

/-! ## The slices of phase 2, on Numbers -/

/-- C22, amended: on valid input with a percentage in (0, 1) and fewer than `2 ^ 26` agents,
with `R = n - floor(n * p)`, the amounts `a_i = round(R * ((k - i) / (k * (k + 1) / 2)))`
computed on Numbers as the code does (the quotient is rounded to a Number before the product
is taken, and the product before `Math.round`), `c_0 = floor(n * p)` and `c_(i+1) = c_i + a_i`:
the `accountsList` of the assignment at rank position `i` is its phase-1 slice, then the ids
of the accounts at positions `[c_i, min(n, c_i + a_i))` in order, then the ids of the accounts
from `c_k` on that the residual round-robin hands to position `i`. -/
theorem distribute_ranking_cursor (p : ℚ) (hp0 : 0 < p) (hp1 : p < 1) (now : Timestamp)
    (accounts : List Account) (agents : List Agent) (hne : agents ≠ [])
    (hle : agents.length ≤ accounts.length) (hsize : accounts.length < 2 ^ 53)
    (hagents : agents.length < 2 ^ 26) :
    ∃ r : List Assignment,
      (Binary64.distribute p now accounts agents).result = .ok r ∧ r.length = agents.length ∧
      ∀ (i : Nat) (hi : i < r.length),
        r[i].accountsList =
          (((accounts.drop
              (i * (Binary64.perAgentEquitable accounts.length agents.length p).toNat)).take
            (Binary64.perAgentEquitable accounts.length agents.length p).toNat).map
              fun acc => acc.id) ++
          (((accounts.take (min (accounts.length : Int)
              (Binary64.codeCursor accounts.length agents.length p i +
                Binary64.codeAmount accounts.length agents.length p i)).toNat).drop
            (Binary64.codeCursor accounts.length agents.length p i).toNat).map
              fun acc => acc.id) ++
          residualIds
            ((accounts.drop
              (Binary64.codeCursor accounts.length agents.length p agents.length).toNat).map
                fun acc => acc.id)
            agents.length 0 i := by
  have hv := validateInputs_of_valid accounts agents hne hle
  have hk := (validateInputs_pos accounts agents hv).1
  obtain ⟨r, hres, hlen, hform⟩ := distribute64_closed_form p now accounts agents hv
  refine ⟨r, hres, hlen, ?_⟩
  intro i hi
  have hik : i < agents.length := by rw [← hlen]; exact hi
  have hs : i < (getActiveAgentsSorted agents).length := by
    rw [length_getActiveAgentsSorted]; exact hik
  have hc0 := cursorAt64_nonneg accounts.length agents.length p (le_of_lt hp0) (le_of_lt hp1)
    hsize i
  have hc1 := cursorAt64_nonneg accounts.length agents.length p (le_of_lt hp0) (le_of_lt hp1)
    hsize (i + 1)
  have e0 := cursorAt64_intendedAmounts accounts.length agents.length p hagents i
    (le_of_lt hik)
  have e1 := cursorAt64_intendedAmounts accounts.length agents.length p hagents (i + 1) hik
  rw [hform i hi hs]
  simp only []
  rw [equitable64_slice accounts agents.length p (le_of_lt hp0) (le_of_lt hp1) hsize hk hle i
      hik,
    slice_of_nonneg _ _ _ hc0 hc1, e0, e1,
    residualAccountIds64_eq_drop accounts agents.length p (le_of_lt hp0) (le_of_lt hp1) hsize
      hagents]
  rw [e0] at hc0
  rw [e1] at hc1
  have hmin : min (Binary64.codeCursor accounts.length agents.length p (i + 1)).toNat
      (accounts.map fun acc => acc.id).length =
      (min (accounts.length : Int) (Binary64.codeCursor accounts.length agents.length p i +
        Binary64.codeAmount accounts.length agents.length p i)).toNat := by
    rw [List.length_map]
    have : Binary64.codeCursor accounts.length agents.length p (i + 1) =
        Binary64.codeCursor accounts.length agents.length p i +
          Binary64.codeAmount accounts.length agents.length p i := rfl
    rw [← this]
    omega
  rw [hmin]
  simp only [List.map_drop, List.map_take]

/-- C23, amended: on valid input with a percentage in (0, 1) and fewer than `2 ^ 26` agents,
the amounts `a_i` and cursors `c_i` being those the code computes on Numbers, when the
ranking-phase slice of the agent at rank position `i` runs past the end of the accounts
(`a_i > 0` and `c_i + a_i > n`), the `rankingAccounts` recorded is the length of the slice
actually taken, `max(0, n - c_i)`, which is less than the intended `a_i`. -/
theorem distribute_truncated_slice_count (p : ℚ) (hp0 : 0 < p) (hp1 : p < 1) (now : Timestamp)
    (accounts : List Account) (agents : List Agent) (hne : agents ≠ [])
    (hle : agents.length ≤ accounts.length) (hsize : accounts.length < 2 ^ 53)
    (hagents : agents.length < 2 ^ 26) :
    ∃ r : List Assignment,
      (Binary64.distribute p now accounts agents).result = .ok r ∧ r.length = agents.length ∧
      ∀ (i : Nat) (hi : i < r.length),
        0 < Binary64.codeAmount accounts.length agents.length p i →
        (accounts.length : Int) < Binary64.codeCursor accounts.length agents.length p i +
          Binary64.codeAmount accounts.length agents.length p i →
        (r[i].rankingAccounts : Int) =
            max 0 ((accounts.length : Int) -
              Binary64.codeCursor accounts.length agents.length p i) ∧
          (r[i].rankingAccounts : Int) <
            Binary64.codeAmount accounts.length agents.length p i := by
  have hv := validateInputs_of_valid accounts agents hne hle
  obtain ⟨r, hres, hlen, hform⟩ := distribute64_closed_form p now accounts agents hv
  refine ⟨r, hres, hlen, ?_⟩
  intro i hi hpos hpast
  have hik : i < agents.length := by rw [← hlen]; exact hi
  have hs : i < (getActiveAgentsSorted agents).length := by
    rw [length_getActiveAgentsSorted]; exact hik
  have hc0 := cursorAt64_nonneg accounts.length agents.length p (le_of_lt hp0) (le_of_lt hp1)
    hsize i
  have e0 := cursorAt64_intendedAmounts accounts.length agents.length p hagents i
    (le_of_lt hik)
  have e1 := cursorAt64_intendedAmounts accounts.length agents.length p hagents (i + 1) hik
  have hnext : Binary64.codeCursor accounts.length agents.length p (i + 1) =
      Binary64.codeCursor accounts.length agents.length p i +
        Binary64.codeAmount accounts.length agents.length p i := rfl
  have hfinal : cursorAt (Binary64.intendedAmounts accounts.length agents.length p)
      (Binary64.totalEquitable accounts.length p) (i + 1) ≤
      cursorAt (Binary64.intendedAmounts accounts.length agents.length p)
        (Binary64.totalEquitable accounts.length p) agents.length :=
    cursorAt_mono _ _
      (intendedAmounts64_nonneg _ _ p (le_of_lt hp0) (le_of_lt hp1) hsize) _ _ hik
  have hrem : Binary64.residualAccountIds accounts agents.length p = [] := by
    unfold Binary64.residualAccountIds sliceFrom
    rw [List.drop_eq_nil_iff, List.length_map, sliceIndex_of_nonneg _ _ (by omega)]
    omega
  rw [hform i hi hs]
  simp only [hrem, residualIds_nil, List.length_nil, Nat.add_zero]
  rw [e0] at hc0
  unfold sliceLen
  rw [e0, e1, sliceIndex_of_nonneg _ _ hc0, sliceIndex_of_nonneg _ _ (by omega)]
  omega

/-! ## Runs on Numbers, evaluated -/

/-- Ten accounts for three agents at 50%, on Numbers: the equitable share is 5 and the intended
amounts of phase 2 are 3, 2 and 1. -/
theorem codeAmount_ten_three :
    Binary64.totalEquitable 10 (1 / 2) = 5 ∧ Binary64.codeAmount 10 3 (1 / 2) 0 = 3 ∧
      Binary64.codeAmount 10 3 (1 / 2) 1 = 2 ∧ Binary64.codeAmount 10 3 (1 / 2) 2 = 1 := by
  have b0 : toDouble (1 / 2 : ℚ) = 1 / 2 :=
    toDouble_eq_of (-1) _ _ (by norm_num) (by norm_num [abs_of_pos, zpow_neg])
      (by norm_num [abs_of_pos, zpow_neg]) (by norm_num [roundTiesEven, zpow_neg])
  have b1 : toDouble (5 : ℚ) = 5 :=
    toDouble_eq_of (2) _ _ (by norm_num) (by norm_num [abs_of_pos, zpow_neg])
      (by norm_num [abs_of_pos, zpow_neg]) (by norm_num [roundTiesEven, zpow_neg])
  have b2 : toDouble (5 / 2 : ℚ) = 5 / 2 :=
    toDouble_eq_of (1) _ _ (by norm_num) (by norm_num [abs_of_pos, zpow_neg])
      (by norm_num [abs_of_pos, zpow_neg]) (by norm_num [roundTiesEven, zpow_neg])
  have b3 : toDouble (1 / 3 : ℚ) = 6004799503160661 / 18014398509481984 :=
    toDouble_eq_of (-2) _ _ (by norm_num) (by norm_num [abs_of_pos, zpow_neg])
      (by norm_num [abs_of_pos, zpow_neg]) (by norm_num [roundTiesEven, zpow_neg])
  have b4 : toDouble (30023997515803305 / 18014398509481984 : ℚ) = 3752999689475413 / 2251799813685248 :=
    toDouble_eq_of (0) _ _ (by norm_num) (by norm_num [abs_of_pos, zpow_neg])
      (by norm_num [abs_of_pos, zpow_neg]) (by norm_num [roundTiesEven, zpow_neg])
  have b5 : toDouble (1 / 6 : ℚ) = 6004799503160661 / 36028797018963968 :=
    toDouble_eq_of (-3) _ _ (by norm_num) (by norm_num [abs_of_pos, zpow_neg])
      (by norm_num [abs_of_pos, zpow_neg]) (by norm_num [roundTiesEven, zpow_neg])
  have b6 : toDouble (30023997515803305 / 36028797018963968 : ℚ) = 3752999689475413 / 4503599627370496 :=
    toDouble_eq_of (-1) _ _ (by norm_num) (by norm_num [abs_of_pos, zpow_neg])
      (by norm_num [abs_of_pos, zpow_neg]) (by norm_num [roundTiesEven, zpow_neg])
  refine ⟨?_, ?_, ?_, ?_⟩ <;>
    norm_num [Binary64.totalEquitable, Binary64.codeAmount, mathRound, mathFloor, jsMul, jsDiv,
      b0, b1, b2, b3, b4, b5, b6]

theorem codeCursor_ten_three :
    Binary64.codeCursor 10 3 (1 / 2) 2 = 10 ∧ Binary64.codeCursor 10 3 (1 / 2) 3 = 11 := by
  obtain ⟨h, h0, h1, h2⟩ := codeAmount_ten_three
  have c0 : Binary64.codeCursor 10 3 (1 / 2) 0 = 5 := h
  have c1 : Binary64.codeCursor 10 3 (1 / 2) 1 = 8 := by
    show Binary64.codeCursor 10 3 (1 / 2) 0 + Binary64.codeAmount 10 3 (1 / 2) 0 = 8
    rw [c0, h0]; rfl
  have c2 : Binary64.codeCursor 10 3 (1 / 2) 2 = 10 := by
    show Binary64.codeCursor 10 3 (1 / 2) 1 + Binary64.codeAmount 10 3 (1 / 2) 1 = 10
    rw [c1, h1]; rfl
  refine ⟨c2, ?_⟩
  show Binary64.codeCursor 10 3 (1 / 2) 2 + Binary64.codeAmount 10 3 (1 / 2) 2 = 11
  rw [c2, h2]; rfl

/-- With 109 accounts, eleven agents and 50%, on Numbers: the equitable share is 54 and the
intended amounts of phase 2 are 9, 8, 7, 7, 6, 5, 4, 3, 3, 2, 1; the third is
`round(55 * (9 / 66))`, the round of the Number 7.499999999999999. -/
theorem codeAmount_eleven_agents :
    Binary64.totalEquitable 109 (1 / 2) = 54 ∧
      Binary64.codeAmount 109 11 (1 / 2) 0 = 9 ∧
      Binary64.codeAmount 109 11 (1 / 2) 1 = 8 ∧
      Binary64.codeAmount 109 11 (1 / 2) 2 = 7 ∧
      Binary64.codeAmount 109 11 (1 / 2) 3 = 7 ∧
      Binary64.codeAmount 109 11 (1 / 2) 4 = 6 ∧
      Binary64.codeAmount 109 11 (1 / 2) 5 = 5 ∧
      Binary64.codeAmount 109 11 (1 / 2) 6 = 4 ∧
      Binary64.codeAmount 109 11 (1 / 2) 7 = 3 ∧
      Binary64.codeAmount 109 11 (1 / 2) 8 = 3 ∧
      Binary64.codeAmount 109 11 (1 / 2) 9 = 2 ∧
      Binary64.codeAmount 109 11 (1 / 2) 10 = 1 := by
  have a0 : toDouble (1 / 2 : ℚ) = 1 / 2 :=
    toDouble_eq_of (-1) _ _ (by norm_num) (by norm_num [abs_of_pos, zpow_neg])
      (by norm_num [abs_of_pos, zpow_neg]) (by norm_num [roundTiesEven, zpow_neg])
  have a1 : toDouble (109 / 2 : ℚ) = 109 / 2 :=
    toDouble_eq_of (5) _ _ (by norm_num) (by norm_num [abs_of_pos, zpow_neg])
      (by norm_num [abs_of_pos, zpow_neg]) (by norm_num [roundTiesEven, zpow_neg])
  have a2 : toDouble (1 / 6 : ℚ) = 6004799503160661 / 36028797018963968 :=
    toDouble_eq_of (-3) _ _ (by norm_num) (by norm_num [abs_of_pos, zpow_neg])
      (by norm_num [abs_of_pos, zpow_neg]) (by norm_num [roundTiesEven, zpow_neg])
  have a3 : toDouble (330263972673836355 / 36028797018963968 : ℚ) = 5160374573028693 / 562949953421312 :=
    toDouble_eq_of (3) _ _ (by norm_num) (by norm_num [abs_of_pos, zpow_neg])
      (by norm_num [abs_of_pos, zpow_neg]) (by norm_num [roundTiesEven, zpow_neg])
  have a4 : toDouble (5 / 33 : ℚ) = 5458908639236965 / 36028797018963968 :=
    toDouble_eq_of (-3) _ _ (by norm_num) (by norm_num [abs_of_pos, zpow_neg])
      (by norm_num [abs_of_pos, zpow_neg]) (by norm_num [roundTiesEven, zpow_neg])
  have a5 : toDouble (300239975158033075 / 36028797018963968 : ℚ) = 4691249611844267 / 562949953421312 :=
    toDouble_eq_of (3) _ _ (by norm_num) (by norm_num [abs_of_pos, zpow_neg])
      (by norm_num [abs_of_pos, zpow_neg]) (by norm_num [roundTiesEven, zpow_neg])
  have a6 : toDouble (3 / 22 : ℚ) = 1228254443828317 / 9007199254740992 :=
    toDouble_eq_of (-3) _ _ (by norm_num) (by norm_num [abs_of_pos, zpow_neg])
      (by norm_num [abs_of_pos, zpow_neg]) (by norm_num [roundTiesEven, zpow_neg])
  have a7 : toDouble (67553994410557435 / 9007199254740992 : ℚ) = 8444249301319679 / 1125899906842624 :=
    toDouble_eq_of (2) _ _ (by norm_num) (by norm_num [abs_of_pos, zpow_neg])
      (by norm_num [abs_of_pos, zpow_neg]) (by norm_num [roundTiesEven, zpow_neg])
  have a8 : toDouble (4 / 33 : ℚ) = 1091781727847393 / 9007199254740992 :=
    toDouble_eq_of (-4) _ _ (by norm_num) (by norm_num [abs_of_pos, zpow_neg])
      (by norm_num [abs_of_pos, zpow_neg]) (by norm_num [roundTiesEven, zpow_neg])
  have a9 : toDouble (60047995031606615 / 9007199254740992 : ℚ) = 7505999378950827 / 1125899906842624 :=
    toDouble_eq_of (2) _ _ (by norm_num) (by norm_num [abs_of_pos, zpow_neg])
      (by norm_num [abs_of_pos, zpow_neg]) (by norm_num [roundTiesEven, zpow_neg])
  have a10 : toDouble (7 / 66 : ℚ) = 7642472094931751 / 72057594037927936 :=
    toDouble_eq_of (-4) _ _ (by norm_num) (by norm_num [abs_of_pos, zpow_neg])
      (by norm_num [abs_of_pos, zpow_neg]) (by norm_num [roundTiesEven, zpow_neg])
  have a11 : toDouble (420335965221246305 / 72057594037927936 : ℚ) = 3283874728290987 / 562949953421312 :=
    toDouble_eq_of (2) _ _ (by norm_num) (by norm_num [abs_of_pos, zpow_neg])
      (by norm_num [abs_of_pos, zpow_neg]) (by norm_num [roundTiesEven, zpow_neg])
  have a12 : toDouble (1 / 11 : ℚ) = 3275345183542179 / 36028797018963968 :=
    toDouble_eq_of (-4) _ _ (by norm_num) (by norm_num [abs_of_pos, zpow_neg])
      (by norm_num [abs_of_pos, zpow_neg]) (by norm_num [roundTiesEven, zpow_neg])
  have a13 : toDouble (180143985094819845 / 36028797018963968 : ℚ) = 5 :=
    toDouble_eq_of (2) _ _ (by norm_num) (by norm_num [abs_of_pos, zpow_neg])
      (by norm_num [abs_of_pos, zpow_neg]) (by norm_num [roundTiesEven, zpow_neg])
  have a14 : toDouble (5 / 66 : ℚ) = 5458908639236965 / 72057594037927936 :=
    toDouble_eq_of (-4) _ _ (by norm_num) (by norm_num [abs_of_pos, zpow_neg])
      (by norm_num [abs_of_pos, zpow_neg]) (by norm_num [roundTiesEven, zpow_neg])
  have a15 : toDouble (300239975158033075 / 72057594037927936 : ℚ) = 4691249611844267 / 1125899906842624 :=
    toDouble_eq_of (2) _ _ (by norm_num) (by norm_num [abs_of_pos, zpow_neg])
      (by norm_num [abs_of_pos, zpow_neg]) (by norm_num [roundTiesEven, zpow_neg])
  have a16 : toDouble (2 / 33 : ℚ) = 1091781727847393 / 18014398509481984 :=
    toDouble_eq_of (-5) _ _ (by norm_num) (by norm_num [abs_of_pos, zpow_neg])
      (by norm_num [abs_of_pos, zpow_neg]) (by norm_num [roundTiesEven, zpow_neg])
  have a17 : toDouble (60047995031606615 / 18014398509481984 : ℚ) = 7505999378950827 / 2251799813685248 :=
    toDouble_eq_of (1) _ _ (by norm_num) (by norm_num [abs_of_pos, zpow_neg])
      (by norm_num [abs_of_pos, zpow_neg]) (by norm_num [roundTiesEven, zpow_neg])
  have a18 : toDouble (1 / 22 : ℚ) = 3275345183542179 / 72057594037927936 :=
    toDouble_eq_of (-5) _ _ (by norm_num) (by norm_num [abs_of_pos, zpow_neg])
      (by norm_num [abs_of_pos, zpow_neg]) (by norm_num [roundTiesEven, zpow_neg])
  have a19 : toDouble (180143985094819845 / 72057594037927936 : ℚ) = 5 / 2 :=
    toDouble_eq_of (1) _ _ (by norm_num) (by norm_num [abs_of_pos, zpow_neg])
      (by norm_num [abs_of_pos, zpow_neg]) (by norm_num [roundTiesEven, zpow_neg])
  have a20 : toDouble (1 / 33 : ℚ) = 1091781727847393 / 36028797018963968 :=
    toDouble_eq_of (-6) _ _ (by norm_num) (by norm_num [abs_of_pos, zpow_neg])
      (by norm_num [abs_of_pos, zpow_neg]) (by norm_num [roundTiesEven, zpow_neg])
  have a21 : toDouble (60047995031606615 / 36028797018963968 : ℚ) = 7505999378950827 / 4503599627370496 :=
    toDouble_eq_of (0) _ _ (by norm_num) (by norm_num [abs_of_pos, zpow_neg])
      (by norm_num [abs_of_pos, zpow_neg]) (by norm_num [roundTiesEven, zpow_neg])
  have a22 : toDouble (1 / 66 : ℚ) = 1091781727847393 / 72057594037927936 :=
    toDouble_eq_of (-7) _ _ (by norm_num) (by norm_num [abs_of_pos, zpow_neg])
      (by norm_num [abs_of_pos, zpow_neg]) (by norm_num [roundTiesEven, zpow_neg])
  have a23 : toDouble (60047995031606615 / 72057594037927936 : ℚ) = 7505999378950827 / 9007199254740992 :=
    toDouble_eq_of (-1) _ _ (by norm_num) (by norm_num [abs_of_pos, zpow_neg])
      (by norm_num [abs_of_pos, zpow_neg]) (by norm_num [roundTiesEven, zpow_neg])
  refine ⟨?_, ?_, ?_, ?_, ?_, ?_, ?_, ?_, ?_, ?_, ?_, ?_⟩ <;>
    norm_num [Binary64.totalEquitable, Binary64.codeAmount, mathRound, mathFloor, jsMul, jsDiv,
      a0, a1, a2, a3, a4, a5, a6, a7, a8, a9, a10, a11, a12, a13, a14, a15, a16, a17, a18, a19, a20, a21, a22, a23]

theorem codeCursor_eleven_agents :
    Binary64.codeCursor 109 11 (1 / 2) 2 = 71 ∧ Binary64.codeCursor 109 11 (1 / 2) 3 = 78 ∧
      Binary64.codeCursor 109 11 (1 / 2) 11 = 109 := by
  obtain ⟨h, h0, h1, h2, h3, h4, h5, h6, h7, h8, h9, h10⟩ := codeAmount_eleven_agents
  have c0 : Binary64.codeCursor 109 11 (1 / 2) 0 = 54 := h
  have c1 : Binary64.codeCursor 109 11 (1 / 2) 1 = 63 := by
    show Binary64.codeCursor 109 11 (1 / 2) 0 + Binary64.codeAmount 109 11 (1 / 2) 0 = 63
    rw [c0, h0]; rfl
  have c2 : Binary64.codeCursor 109 11 (1 / 2) 2 = 71 := by
    show Binary64.codeCursor 109 11 (1 / 2) 1 + Binary64.codeAmount 109 11 (1 / 2) 1 = 71
    rw [c1, h1]; rfl
  have c3 : Binary64.codeCursor 109 11 (1 / 2) 3 = 78 := by
    show Binary64.codeCursor 109 11 (1 / 2) 2 + Binary64.codeAmount 109 11 (1 / 2) 2 = 78
    rw [c2, h2]; rfl
  have c4 : Binary64.codeCursor 109 11 (1 / 2) 4 = 85 := by
    show Binary64.codeCursor 109 11 (1 / 2) 3 + Binary64.codeAmount 109 11 (1 / 2) 3 = 85
    rw [c3, h3]; rfl
  have c5 : Binary64.codeCursor 109 11 (1 / 2) 5 = 91 := by
    show Binary64.codeCursor 109 11 (1 / 2) 4 + Binary64.codeAmount 109 11 (1 / 2) 4 = 91
    rw [c4, h4]; rfl
  have c6 : Binary64.codeCursor 109 11 (1 / 2) 6 = 96 := by
    show Binary64.codeCursor 109 11 (1 / 2) 5 + Binary64.codeAmount 109 11 (1 / 2) 5 = 96
    rw [c5, h5]; rfl
  have c7 : Binary64.codeCursor 109 11 (1 / 2) 7 = 100 := by
    show Binary64.codeCursor 109 11 (1 / 2) 6 + Binary64.codeAmount 109 11 (1 / 2) 6 = 100
    rw [c6, h6]; rfl
  have c8 : Binary64.codeCursor 109 11 (1 / 2) 8 = 103 := by
    show Binary64.codeCursor 109 11 (1 / 2) 7 + Binary64.codeAmount 109 11 (1 / 2) 7 = 103
    rw [c7, h7]; rfl
  have c9 : Binary64.codeCursor 109 11 (1 / 2) 9 = 106 := by
    show Binary64.codeCursor 109 11 (1 / 2) 8 + Binary64.codeAmount 109 11 (1 / 2) 8 = 106
    rw [c8, h8]; rfl
  have c10 : Binary64.codeCursor 109 11 (1 / 2) 10 = 108 := by
    show Binary64.codeCursor 109 11 (1 / 2) 9 + Binary64.codeAmount 109 11 (1 / 2) 9 = 108
    rw [c9, h9]; rfl
  have c11 : Binary64.codeCursor 109 11 (1 / 2) 11 = 109 := by
    show Binary64.codeCursor 109 11 (1 / 2) 10 + Binary64.codeAmount 109 11 (1 / 2) 10 = 109
    rw [c10, h10]; rfl
  exact ⟨c2, c3, c11⟩

/-- C23 (the code departs from it): ten accounts, three agents, 50%, on Numbers.  The slice of
the agent at rank position 2 starts at cursor 10 with intended amount 1, past the end of the
ten accounts; the `rankingAccounts` recorded is 0, not 1. -/
theorem distribute_records_actual_slice :
    Binary64.codeCursor 10 3 (1 / 2) 2 = 10 ∧ Binary64.codeAmount 10 3 (1 / 2) 2 = 1 ∧
    ∃ (r : List Assignment) (h : 2 < r.length),
      (Binary64.distribute (1 / 2) 0 tenAccounts threeAgents).result = .ok r ∧
      r[2].rankingAccounts = 0 := by
  have hv : validateInputs tenAccounts threeAgents = none := by
    simp [validateInputs, tenAccounts, threeAgents]
  obtain ⟨r, hres, hlen, hform⟩ := distribute64_closed_form (1 / 2) 0 tenAccounts threeAgents hv
  have h2 : 2 < r.length := by rw [hlen]; decide
  have hn : tenAccounts.length = 10 := rfl
  have hk : threeAgents.length = 3 := rfl
  have e2 := cursorAt64_intendedAmounts 10 3 (1 / 2) (by norm_num) 2 (by norm_num)
  have e3 := cursorAt64_intendedAmounts 10 3 (1 / 2) (by norm_num) 3 (by norm_num)
  have hrem := residualAccountIds64_eq_drop tenAccounts 3 (1 / 2) (by norm_num) (by norm_num)
    (by rw [hn]; norm_num) (by norm_num)
  rw [hn, codeCursor_ten_three.2] at hrem
  rw [codeCursor_ten_three.1] at e2
  rw [codeCursor_ten_three.2] at e3
  refine ⟨codeCursor_ten_three.1, codeAmount_ten_three.2.2.2, r, h2, hres, ?_⟩
  rw [hform 2 h2 (by rw [length_getActiveAgentsSorted]; decide)]
  simp only [hn, hk, e2, e3, hrem]
  decide

/-- C22 (the code departs from it): 109 accounts, eleven agents, 50%.  At rank position 2 the
claim has the cursor 71 and the amount `round(55 * 9 / 66) = round(7.5) = 8`, the slice of
the positions 71 to 78.  The code computes `55 * (9 / 66)` on Numbers, 7.499999999999999,
of round 7: the assignment lists the four accounts of phase 1 and the accounts at the
positions 71 to 77 only. -/
theorem distribute_ranking_cursor_counterexample :
    specCursor 109 11 (1 / 2) 2 = 71 ∧ specAmount 109 11 (1 / 2) 2 = 8 ∧
    ∃ (r : List Assignment) (h : 2 < r.length),
      (Binary64.distribute (1 / 2) 0 (sampleAccounts 109) elevenAgents).result = .ok r ∧
      r[2].rankingAccounts = 7 ∧
      r[2].accountsList = [8, 9, 10, 11, 71, 72, 73, 74, 75, 76, 77] := by
  have hn : (sampleAccounts 109).length = 109 := by simp [sampleAccounts]
  have hk : elevenAgents.length = 11 := by simp [elevenAgents]
  have hv : validateInputs (sampleAccounts 109) elevenAgents = none :=
    validateInputs_of_valid _ _ (by simp [elevenAgents]) (by rw [hn, hk]; norm_num)
  obtain ⟨r, hres, hlen, hform⟩ :=
    distribute64_closed_form (1 / 2) 0 (sampleAccounts 109) elevenAgents hv
  have h2 : 2 < r.length := by rw [hlen, hk]; norm_num
  have e2 := cursorAt64_intendedAmounts 109 11 (1 / 2) (by norm_num) 2 (by norm_num)
  have e3 := cursorAt64_intendedAmounts 109 11 (1 / 2) (by norm_num) 3 (by norm_num)
  have hrem := residualAccountIds64_eq_drop (sampleAccounts 109) 11 (1 / 2) (by norm_num)
    (by norm_num) (by rw [hn]; norm_num) (by norm_num)
  have hq : Binary64.perAgentEquitable 109 11 (1 / 2) = 4 := by
    rw [perAgentEquitable64_eq_div 109 11 (1 / 2) (by norm_num) (by norm_num) (by norm_num)
      (by norm_num) (by norm_num), codeAmount_eleven_agents.1]
    rfl
  rw [hn, codeCursor_eleven_agents.2.2] at hrem
  rw [codeCursor_eleven_agents.1] at e2
  rw [codeCursor_eleven_agents.2.1] at e3
  refine ⟨by norm_num [specCursor, specAmount, mathFloor, mathRound],
    by norm_num [specAmount, mathFloor, mathRound], r, h2, hres, ?_⟩
  rw [hform 2 h2 (by rw [length_getActiveAgentsSorted, hk]; norm_num)]
  simp only [hn, hk, e2, e3, hrem, hq]
  decide

/-- Instance of C21: fifty accounts, one agent, 58%; the product `50 * 0.58` of Numbers is
28.999999999999996, and the agent gets 28 equitable accounts. -/
theorem distribute_equitable_partition_witness :
    (0 : ℚ) < 29 / 50 ∧ (29 / 50 : ℚ) < 1 ∧ [sampleAgent 10 1] ≠ [] ∧
    [sampleAgent 10 1].length ≤ (sampleAccounts 50).length ∧
    (sampleAccounts 50).length < 2 ^ 53 ∧
    Binary64.perAgentEquitable 50 1 (29 / 50) = 28 ∧
    Binary64.perAgentEquitable (sampleAccounts 50).length [sampleAgent 10 1].length (29 / 50) =
        Binary64.totalEquitable (sampleAccounts 50).length (29 / 50) /
          ([sampleAgent 10 1].length : Int) ∧
    ∃ r : List Assignment,
      (Binary64.distribute (29 / 50) 0 (sampleAccounts 50) [sampleAgent 10 1]).result = .ok r ∧
      r.length = [sampleAgent 10 1].length ∧
      ∀ (i : Nat) (hi : i < r.length),
        (r[i].equitableAccounts : Int) =
          Binary64.perAgentEquitable (sampleAccounts 50).length [sampleAgent 10 1].length
            (29 / 50) ∧
        r[i].accountsList.take
            (Binary64.perAgentEquitable (sampleAccounts 50).length [sampleAgent 10 1].length
              (29 / 50)).toNat =
          (((sampleAccounts 50).drop
              (i * (Binary64.perAgentEquitable (sampleAccounts 50).length
                [sampleAgent 10 1].length (29 / 50)).toNat)).take
            (Binary64.perAgentEquitable (sampleAccounts 50).length [sampleAgent 10 1].length
              (29 / 50)).toNat).map fun acc => acc.id :=
  have hn : (sampleAccounts 50).length = 50 := by simp [sampleAccounts]
  ⟨by norm_num, by norm_num, by simp, by rw [hn]; simp, by rw [hn]; norm_num,
    by
      rw [perAgentEquitable64_eq_div 50 1 (29 / 50) (by norm_num) (by norm_num) (by norm_num)
        (by norm_num) (by norm_num)]
      show mathFloor (jsMul ((50 : Nat) : ℚ) (toDouble (29 / 50))) / ((1 : Nat) : Int) = 28
      rw [mathFloor_fifty_times]
      rfl,
    distribute_equitable_partition (29 / 50) (by norm_num) (by norm_num) 0 (sampleAccounts 50)
      [sampleAgent 10 1] (by simp) (by rw [hn]; simp) (by rw [hn]; norm_num)⟩

/-- Instance of C26: fifty accounts, two agents, 58%; the equitable share is 28, each agent
gets 14 of it, and all fifty accounts are assigned. -/
theorem distribute_exact_coverage_witness :
    (0 : ℚ) < 29 / 50 ∧ (29 / 50 : ℚ) < 1 ∧ [sampleAgent 10 1, sampleAgent 11 2] ≠ [] ∧
    [sampleAgent 10 1, sampleAgent 11 2].length ≤ (sampleAccounts 50).length ∧
    (sampleAccounts 50).length < 2 ^ 53 ∧
    Binary64.totalEquitable 50 (29 / 50) = 28 ∧
    ∃ r : List Assignment,
      (Binary64.distribute (29 / 50) 0 (sampleAccounts 50)
        [sampleAgent 10 1, sampleAgent 11 2]).result = .ok r ∧
      (r.flatMap fun a => a.accountsList).Perm
        (((sampleAccounts 50).take ([sampleAgent 10 1, sampleAgent 11 2].length *
            (Binary64.perAgentEquitable (sampleAccounts 50).length
              [sampleAgent 10 1, sampleAgent 11 2].length (29 / 50)).toNat) ++
          (sampleAccounts 50).drop
            (Binary64.totalEquitable (sampleAccounts 50).length (29 / 50)).toNat).map
            fun acc => acc.id) ∧
      (((sampleAccounts 50).map fun acc => acc.id).Nodup →
        ∀ (j : Nat) (hj : j < (sampleAccounts 50).length),
          (∃ a ∈ r, (sampleAccounts 50)[j].id ∈ a.accountsList) ↔
            (j : Int) < ([sampleAgent 10 1, sampleAgent 11 2].length : Int) *
                Binary64.perAgentEquitable (sampleAccounts 50).length
                  [sampleAgent 10 1, sampleAgent 11 2].length (29 / 50) ∨
              Binary64.totalEquitable (sampleAccounts 50).length (29 / 50) ≤ (j : Int)) ∧
      (∀ (j : Nat),
        ([sampleAgent 10 1, sampleAgent 11 2].length : Int) *
            Binary64.perAgentEquitable (sampleAccounts 50).length
              [sampleAgent 10 1, sampleAgent 11 2].length (29 / 50) ≤ (j : Int) →
        (j : Int) < Binary64.totalEquitable (sampleAccounts 50).length (29 / 50) →
        (Binary64.distribute (29 / 50) 0 (sampleAccounts 50)
          [sampleAgent 10 1, sampleAgent 11 2]).accounts[j]? = (sampleAccounts 50)[j]?) ∧
      (((r.map fun a => a.totalAccounts).sum : Nat) : Int) =
        ((sampleAccounts 50).length : Int) -
          Binary64.totalEquitable (sampleAccounts 50).length (29 / 50) %
            ([sampleAgent 10 1, sampleAgent 11 2].length : Int) :=
  have hn : (sampleAccounts 50).length = 50 := by simp [sampleAccounts]
  ⟨by norm_num, by norm_num, by simp, by rw [hn]; simp, by rw [hn]; norm_num,
    mathFloor_fifty_times,
    distribute_exact_coverage (29 / 50) (by norm_num) (by norm_num) 0 (sampleAccounts 50)
      [sampleAgent 10 1, sampleAgent 11 2] (by simp) (by rw [hn]; simp)
      (by rw [hn]; norm_num)⟩

/-- Instance of C22, amended: 109 accounts, eleven agents, 50%. -/
theorem distribute_ranking_cursor_witness :
    (0 : ℚ) < 1 / 2 ∧ (1 / 2 : ℚ) < 1 ∧ elevenAgents ≠ [] ∧
    elevenAgents.length ≤ (sampleAccounts 109).length ∧
    (sampleAccounts 109).length < 2 ^ 53 ∧ elevenAgents.length < 2 ^ 26 ∧
    Binary64.codeAmount 109 11 (1 / 2) 2 = 7 ∧
    ∃ r : List Assignment,
      (Binary64.distribute (1 / 2) 0 (sampleAccounts 109) elevenAgents).result = .ok r ∧
      r.length = elevenAgents.length ∧
      ∀ (i : Nat) (hi : i < r.length),
        r[i].accountsList =
          ((((sampleAccounts 109).drop
              (i * (Binary64.perAgentEquitable (sampleAccounts 109).length elevenAgents.length
                (1 / 2)).toNat)).take
            (Binary64.perAgentEquitable (sampleAccounts 109).length elevenAgents.length
              (1 / 2)).toNat).map fun acc => acc.id) ++
          ((((sampleAccounts 109).take (min ((sampleAccounts 109).length : Int)
              (Binary64.codeCursor (sampleAccounts 109).length elevenAgents.length (1 / 2) i +
                Binary64.codeAmount (sampleAccounts 109).length elevenAgents.length (1 / 2)
                  i)).toNat).drop
            (Binary64.codeCursor (sampleAccounts 109).length elevenAgents.length (1 / 2)
              i).toNat).map fun acc => acc.id) ++
          residualIds
            (((sampleAccounts 109).drop
              (Binary64.codeCursor (sampleAccounts 109).length elevenAgents.length (1 / 2)
                elevenAgents.length).toNat).map fun acc => acc.id)
            elevenAgents.length 0 i :=
  have hn : (sampleAccounts 109).length = 109 := by simp [sampleAccounts]
  have hk : elevenAgents.length = 11 := by simp [elevenAgents]
  ⟨by norm_num, by norm_num, by simp [elevenAgents], by rw [hn, hk]; norm_num,
    by rw [hn]; norm_num, by rw [hk]; norm_num, codeAmount_eleven_agents.2.2.2.1,
    distribute_ranking_cursor (1 / 2) (by norm_num) (by norm_num) 0 (sampleAccounts 109)
      elevenAgents (by simp [elevenAgents]) (by rw [hn, hk]; norm_num) (by rw [hn]; norm_num)
      (by rw [hk]; norm_num)⟩

/-- Instance of C23, amended: ten accounts, three agents, 50%; the slice of the agent at rank
position 2 runs past the end. -/
theorem distribute_truncated_slice_count_witness :
    (0 : ℚ) < 1 / 2 ∧ (1 / 2 : ℚ) < 1 ∧ threeAgents ≠ [] ∧
    threeAgents.length ≤ tenAccounts.length ∧ tenAccounts.length < 2 ^ 53 ∧
    threeAgents.length < 2 ^ 26 ∧
    (0 < Binary64.codeAmount 10 3 (1 / 2) 2 ∧
      (10 : Int) < Binary64.codeCursor 10 3 (1 / 2) 2 + Binary64.codeAmount 10 3 (1 / 2) 2) ∧
    ∃ r : List Assignment,
      (Binary64.distribute (1 / 2) 0 tenAccounts threeAgents).result = .ok r ∧
      r.length = threeAgents.length ∧
      ∀ (i : Nat) (hi : i < r.length),
        0 < Binary64.codeAmount tenAccounts.length threeAgents.length (1 / 2) i →
        (tenAccounts.length : Int) <
          Binary64.codeCursor tenAccounts.length threeAgents.length (1 / 2) i +
            Binary64.codeAmount tenAccounts.length threeAgents.length (1 / 2) i →
        (r[i].rankingAccounts : Int) =
            max 0 ((tenAccounts.length : Int) -
              Binary64.codeCursor tenAccounts.length threeAgents.length (1 / 2) i) ∧
          (r[i].rankingAccounts : Int) <
            Binary64.codeAmount tenAccounts.length threeAgents.length (1 / 2) i :=
  ⟨by norm_num, by norm_num, by simp [threeAgents], by simp [threeAgents, tenAccounts],
    by simp [tenAccounts], by simp [threeAgents],
    by rw [codeAmount_ten_three.2.2.2, codeCursor_ten_three.1]; decide,
    distribute_truncated_slice_count (1 / 2) (by norm_num) (by norm_num) 0 tenAccounts
      threeAgents (by simp [threeAgents]) (by simp [threeAgents, tenAccounts])
      (by simp [tenAccounts]) (by simp [threeAgents])⟩

/-! ## Performance-based rotation, on Numbers -/

/-- The rate of an agent ranked 1 or worse is a Number between 0 and 1. -/
theorem calculateRotationRate64_bounds (agent : Agent) (hrank : 1 ≤ agent.currentRanking) :
    0 ≤ Binary64.calculateRotationRate agent ∧ Binary64.calculateRotationRate agent ≤ 1 := by
  unfold Binary64.calculateRotationRate
  have h : (0 : ℚ) ≤ (agent.currentRanking : ℚ) := by
    have : (1 : ℚ) ≤ (agent.currentRanking : ℚ) := by exact_mod_cast hrank
    linarith
  constructor
  · apply le_min
    · unfold jsAdd jsMul jsDiv
      apply toDouble_nonneg
      apply add_nonneg (toDouble_nonneg _ (by norm_num))
      apply toDouble_nonneg
      apply mul_nonneg _ (toDouble_nonneg _ (by norm_num))
      exact toDouble_nonneg _ (div_nonneg (toDouble_nonneg _ h) (by norm_num))
    · exact toDouble_nonneg _ (by norm_num)
  · exact le_trans (min_le_right _ _) (toDouble_le_one _ (by norm_num) (by norm_num))

/-- The count `floor(m * rate)` of `performanceBasedRotation` is between 0 and `m`. -/
theorem mathFloor_jsMul_rate (m : Nat) (rate : ℚ) (h0 : 0 ≤ rate) (h1 : rate ≤ 1)
    (hm : m < 2 ^ 53) :
    0 ≤ mathFloor (jsMul (m : ℚ) rate) ∧ mathFloor (jsMul (m : ℚ) rate) ≤ (m : Int) := by
  have hx0 : 0 ≤ (m : ℚ) * rate := mul_nonneg (Nat.cast_nonneg m) h0
  have hx1 : (m : ℚ) * rate ≤ (m : ℚ) := by
    have := mul_le_mul_of_nonneg_left h1 (Nat.cast_nonneg (α := ℚ) m)
    simpa using this
  have hm53 : (m : ℚ) < 2 ^ 53 := by exact_mod_cast hm
  unfold mathFloor jsMul
  constructor
  · exact Int.floor_nonneg.2 (toDouble_nonneg _ hx0)
  · have h := toDouble_le_of_le_int ((m : ℚ) * rate) (m : Int)
      (by rw [abs_of_nonneg hx0]; linarith) (by simpa using hx1)
    have h2 : ⌊toDouble ((m : ℚ) * rate)⌋ ≤ ⌊((m : Int) : ℚ)⌋ := Int.floor_le_floor h
    simpa using h2

/-- The percentage `c / m` that `performanceBasedRotation` passes on selects `c` accounts or
one fewer: `c - 1 ≤ floor(m * (c / m)) ≤ c` on Numbers, for `0 ≤ c ≤ m < 2 ^ 32`. -/
theorem mathFloor_jsMul_jsDiv (m : Nat) (c : Int) (hm : 0 < m) (hm32 : m < 2 ^ 32)
    (hc0 : 0 ≤ c) (hc : c ≤ (m : Int)) :
    c - 1 ≤ mathFloor (jsMul (m : ℚ) (jsDiv (c : ℚ) (m : ℚ))) ∧
      mathFloor (jsMul (m : ℚ) (jsDiv (c : ℚ) (m : ℚ))) ≤ c := by
  have hmq : (0 : ℚ) < (m : ℚ) := by exact_mod_cast hm
  have hm1 : (1 : ℚ) ≤ (m : ℚ) := by exact_mod_cast hm
  have hm32q : (m : ℚ) < 2 ^ 32 := by exact_mod_cast hm32
  have hcm : (c : ℚ) ≤ (m : ℚ) := by exact_mod_cast hc
  rcases eq_or_lt_of_le hc0 with h0 | hpos
  · rw [← h0]
    simp [mathFloor, jsMul, jsDiv, toDouble_zero]
  have hc1 : (1 : ℚ) ≤ (c : ℚ) := by exact_mod_cast hpos
  have hu : (2 : ℚ) ^ (-53 : Int) = 1 / 2 ^ 53 := by
    rw [zpow_neg, one_div]
    norm_num
  have hsmall : (2 : ℚ) ^ (-1022 : Int) ≤ 1 / 2 ^ 33 := by
    rw [zpow_neg, one_div]
    norm_num
  -- the quotient
  have hX0 : (0 : ℚ) < (c : ℚ) / (m : ℚ) := div_pos (by linarith) hmq
  have hXlow : (1 : ℚ) / 2 ^ 33 ≤ (c : ℚ) / (m : ℚ) := by
    rw [div_le_div_iff₀ (by norm_num) hmq]
    nlinarith
  have e1 := abs_toDouble_sub_le ((c : ℚ) / (m : ℚ)) (by
    rw [abs_of_pos hX0]
    linarith)
  rw [abs_of_pos hX0, hu] at e1
  obtain ⟨e1l, e1u⟩ := abs_le.1 e1
  have hmX : (m : ℚ) * ((c : ℚ) / (m : ℚ)) = (c : ℚ) := by
    field_simp
  -- the product
  have hZl : (c : ℚ) - (c : ℚ) * (1 / 2 ^ 53) ≤ (m : ℚ) * toDouble ((c : ℚ) / (m : ℚ)) := by
    have := mul_le_mul_of_nonneg_left (by linarith :
      (c : ℚ) / (m : ℚ) - (c : ℚ) / (m : ℚ) * (1 / 2 ^ 53) ≤ toDouble ((c : ℚ) / (m : ℚ)))
      (le_of_lt hmq)
    rw [mul_sub, ← mul_assoc, hmX] at this
    exact this
  have hZu : (m : ℚ) * toDouble ((c : ℚ) / (m : ℚ)) ≤ (c : ℚ) + (c : ℚ) * (1 / 2 ^ 53) := by
    have := mul_le_mul_of_nonneg_left (by linarith :
      toDouble ((c : ℚ) / (m : ℚ)) ≤ (c : ℚ) / (m : ℚ) + (c : ℚ) / (m : ℚ) * (1 / 2 ^ 53))
      (le_of_lt hmq)
    rw [mul_add, ← mul_assoc, hmX] at this
    exact this
  have hcu : (c : ℚ) * (1 / 2 ^ 53) ≤ 1 / 2 ^ 21 := by
    have : (c : ℚ) * (1 / 2 ^ 53) ≤ 2 ^ 32 * (1 / 2 ^ 53) :=
      mul_le_mul_of_nonneg_right (by linarith) (by norm_num)
    norm_num at this ⊢
    linarith
  have hcu0 : 0 ≤ (c : ℚ) * (1 / 2 ^ 53) := mul_nonneg (by linarith) (by norm_num)
  have hZ0 : (0 : ℚ) < (m : ℚ) * toDouble ((c : ℚ) / (m : ℚ)) := by
    have : (1 : ℚ) / 2 ^ 21 < 1 := by norm_num
    linarith
  have e2 := abs_toDouble_sub_le ((m : ℚ) * toDouble ((c : ℚ) / (m : ℚ))) (by
    rw [abs_of_pos hZ0]
    have : (1 : ℚ) / 2 ^ 21 + 1 / 2 ^ 33 ≤ 1 := by norm_num
    linarith)
  rw [abs_of_pos hZ0, hu] at e2
  obtain ⟨e2l, e2u⟩ := abs_le.1 e2
  have hZle : (m : ℚ) * toDouble ((c : ℚ) / (m : ℚ)) * (1 / 2 ^ 53) ≤ 1 / 2 ^ 20 := by
    have h1 : (m : ℚ) * toDouble ((c : ℚ) / (m : ℚ)) ≤ 2 ^ 33 := by
      have : (1 : ℚ) / 2 ^ 21 ≤ 1 := by norm_num
      have : (2 : ℚ) ^ 32 + 1 ≤ 2 ^ 33 := by norm_num
      linarith
    have := mul_le_mul_of_nonneg_right h1 (by norm_num : (0 : ℚ) ≤ 1 / 2 ^ 53)
    norm_num at this ⊢
    linarith
  unfold mathFloor jsMul jsDiv
  constructor
  · apply Int.le_floor.2
    push_cast
    have : (1 : ℚ) / 2 ^ 21 + 1 / 2 ^ 20 ≤ 1 := by norm_num
    linarith
  · have hlt : toDouble ((m : ℚ) * toDouble ((c : ℚ) / (m : ℚ))) < ((c + 1 : Int) : ℚ) := by
      push_cast
      have : (1 : ℚ) / 2 ^ 21 + 1 / 2 ^ 20 < 1 := by norm_num
      linarith
    have := Int.floor_lt.2 hlt
    omega

theorem performanceRotation64_selectsFromOwnAccounts (repos : Repositories) :
    SelectsFromOwnAccounts repos (Binary64.performanceRotationSelectOf repos) := by
  intro agent
  exact ⟨_, List.perm_insertionSort _ _, selectLowValueAccounts64_sublist_sorted _ _⟩

/-- After the cleared copies of a selection are saved, the accounts of an agent are those it
held that are not in its selection, in the order they had. -/
theorem getByAgent_cleared_eq_filter (repos : Repositories) (select : Agent → List Account)
    (hselect : SelectsFromOwnAccounts repos select) (agent : Agent)
    (hagent : agent ∈ repos.agentRepository.getAll)
    (hagents : (repos.agentRepository.getAll.map (fun a => a.id)).Nodup)
    (haccounts : (repos.accountRepository.accounts.map (fun a => a.id)).Nodup) :
    (repos.accountRepository.saveAll
        ((repos.agentRepository.getAll.flatMap select).map clearAssignment)).getByAgent
        agent.id =
      (repos.accountRepository.getByAgent agent.id).filter fun a =>
        decide (a.id ∉ (select agent).map fun s => s.id) := by
  have hall : ∀ s ∈ repos.agentRepository.getAll.flatMap select,
      s ∈ repos.accountRepository.accounts := by
    intro s hs
    obtain ⟨agent1, _, hsa⟩ := List.mem_flatMap.1 hs
    exact (selection_mem repos select hselect agent1 s hsa).1
  have hkey : ∀ a ∈ repos.accountRepository.accounts, a.assignedAgent = some agent.id →
      (a.id ∈ (repos.agentRepository.getAll.flatMap select).map (fun s => s.id) ↔
        a.id ∈ (select agent).map fun s => s.id) := by
    intro a ha hassigned
    constructor
    · intro h
      obtain ⟨s, hs, hid⟩ := List.mem_map.1 h
      have hsa : s = a := List.inj_on_of_nodup_map haccounts (hall s hs) ha hid
      obtain ⟨agent1, hagent1, hs1⟩ := List.mem_flatMap.1 hs
      have h1 := (selection_mem repos select hselect agent1 s hs1).2
      rw [hsa, hassigned] at h1
      have : agent1 = agent :=
        List.inj_on_of_nodup_map hagents hagent1 hagent (Option.some.inj h1).symm
      rw [this, hsa] at hs1
      exact List.mem_map_of_mem _ hs1
    · intro h
      obtain ⟨s, hs, hid⟩ := List.mem_map.1 h
      exact List.mem_map.2 ⟨s, List.mem_flatMap.2 ⟨agent, hagent, hs⟩, hid⟩
  unfold AccountRepository.getByAgent
  rw [saveAll_cleared repos.accountRepository haccounts _ hall, List.filter_map,
    List.filter_filter]
  have hfilter : List.filter
      ((fun account : Account => account.assignedAgent == some agent.id) ∘
        clearIds ((repos.agentRepository.getAll.flatMap select).map fun a => a.id))
      repos.accountRepository.accounts =
      List.filter (fun a => decide (a.id ∉ (select agent).map fun s => s.id) &&
        (a.assignedAgent == some agent.id)) repos.accountRepository.accounts := by
    apply List.filter_congr
    intro a ha
    simp only [Function.comp_apply, clearIds]
    by_cases hassigned : a.assignedAgent = some agent.id
    · by_cases hin : a.id ∈ (repos.agentRepository.getAll.flatMap select).map fun s => s.id
      · have := (hkey a ha hassigned).1 hin
        simp [hin, this, clearAssignment]
      · have : a.id ∉ (select agent).map fun s => s.id :=
          fun h => hin ((hkey a ha hassigned).2 h)
        rw [if_neg hin]
        simp only [hassigned, beq_self_eq_true, Bool.and_true]
        exact (decide_eq_true this).symm
    · by_cases hin : a.id ∈ (repos.agentRepository.getAll.flatMap select).map fun s => s.id
      · simp [hin, hassigned, clearAssignment]
      · simp [hin, hassigned]
  rw [hfilter]
  have hid : ∀ a ∈ List.filter (fun a => decide (a.id ∉ (select agent).map fun s => s.id) &&
        (a.assignedAgent == some agent.id)) repos.accountRepository.accounts,
      clearIds ((repos.agentRepository.getAll.flatMap select).map fun a => a.id) a = a := by
    intro a ha
    rw [List.mem_filter, Bool.and_eq_true, decide_eq_true_eq, beq_iff_eq] at ha
    obtain ⟨hmem, hnot, hassigned⟩ := ha
    unfold clearIds
    rw [if_neg (fun h => hnot ((hkey a hmem hassigned).1 h))]
  rw [List.map_congr_left hid, List.map_id']

/-- What the clearing of `performanceBasedRotation` leaves to an agent: its accounts that are
not in its selection; they are as many as it held less the selected ones. -/
theorem performanceRotationClear64_getByAgent (repos : Repositories) (agent : Agent)
    (hagent : agent ∈ repos.agentRepository.getAll)
    (hagents : (repos.agentRepository.getAll.map (fun a => a.id)).Nodup)
    (haccounts : (repos.accountRepository.getAll.map (fun a => a.id)).Nodup) :
    (Binary64.performanceRotationClear repos).accountRepository.getByAgent agent.id =
        (repos.accountRepository.getByAgent agent.id).filter (fun a =>
          decide (a.id ∉ (Binary64.performanceRotationSelectOf repos agent).map fun s => s.id)) ∧
      ((Binary64.performanceRotationClear repos).accountRepository.getByAgent agent.id).length +
          (Binary64.performanceRotationSelectOf repos agent).length =
        (repos.accountRepository.getByAgent agent.id).length := by
  have hselect := performanceRotation64_selectsFromOwnAccounts repos
  have hall : ∀ s ∈ Binary64.performanceRotationSelect repos,
      s ∈ repos.accountRepository.accounts := by
    intro s hs
    obtain ⟨agent1, _, hsa⟩ := List.mem_flatMap.1 hs
    exact (selection_mem repos _ hselect agent1 s hsa).1
  have hown : ∀ s, s ∈ Binary64.performanceRotationSelectOf repos agent ↔
      s ∈ Binary64.performanceRotationSelect repos ∧ s.assignedAgent = some agent.id := by
    intro s
    constructor
    · intro hs
      exact ⟨List.mem_flatMap.2 ⟨agent, hagent, hs⟩,
        (selection_mem repos _ hselect agent s hs).2⟩
    · rintro ⟨hs, hassigned⟩
      obtain ⟨agent1, hagent1, hsa⟩ := List.mem_flatMap.1 hs
      have h1 := (selection_mem repos _ hselect agent1 s hsa).2
      rw [hassigned] at h1
      have : agent1 = agent :=
        List.inj_on_of_nodup_map hagents hagent1 hagent (Option.some.inj h1).symm
      rw [this] at hsa
      exact hsa
  have hownnodup : (Binary64.performanceRotationSelectOf repos agent).Nodup := by
    apply List.Nodup.sublist (selectLowValueAccounts64_sublist_sorted _ _)
    rw [(List.perm_insertionSort _ _).nodup_iff]
    exact (List.Nodup.of_map _ haccounts).filter _
  exact ⟨getByAgent_cleared_eq_filter repos _ hselect agent hagent hagents haccounts,
    length_getByAgent_cleared repos.accountRepository haccounts
      (Binary64.performanceRotationSelect repos) _ hall agent.id hown hownnodup⟩

/-- The number of accounts that `performanceBasedRotation` selects from an agent is the count
`c = floor(m * rate)` or one fewer. -/
theorem length_performanceRotationSelectOf (repos : Repositories) (agent : Agent)
    (hrank : 1 ≤ agent.currentRanking)
    (hm : 0 < (repos.accountRepository.getByAgent agent.id).length)
    (hsize : repos.accountRepository.getAll.length < 2 ^ 32) :
    ((Binary64.performanceRotationSelectOf repos agent).length : Int) =
        mathFloor (jsMul ((repos.accountRepository.getByAgent agent.id).length : ℚ)
          (jsDiv (Binary64.accountsCount repos agent : ℚ)
            ((repos.accountRepository.getByAgent agent.id).length : ℚ))) ∧
      Binary64.accountsCount repos agent - 1 ≤
        ((Binary64.performanceRotationSelectOf repos agent).length : Int) ∧
      ((Binary64.performanceRotationSelectOf repos agent).length : Int) ≤
        Binary64.accountsCount repos agent := by
  have hm32 : (repos.accountRepository.getByAgent agent.id).length < 2 ^ 32 :=
    lt_of_le_of_lt (length_getByAgent_le _ _) hsize
  obtain ⟨hr0, hr1⟩ := calculateRotationRate64_bounds agent hrank
  obtain ⟨hc0, hc1⟩ := mathFloor_jsMul_rate (repos.accountRepository.getByAgent agent.id).length
    (Binary64.calculateRotationRate agent) hr0 hr1 (lt_trans hm32 (by norm_num))
  obtain ⟨hs0, hs1⟩ :=
    mathFloor_jsMul_jsDiv (repos.accountRepository.getByAgent agent.id).length _ hm hm32 hc0 hc1
  have hq0 : 0 ≤ jsDiv (Binary64.accountsCount repos agent : ℚ)
      ((repos.accountRepository.getByAgent agent.id).length : ℚ) :=
    toDouble_nonneg _ (div_nonneg (by exact_mod_cast hc0) (Nat.cast_nonneg _))
  obtain ⟨he0, _⟩ := mathFloor_jsMul_rate (repos.accountRepository.getByAgent agent.id).length
    _ hq0 (toDouble_le_one _ (div_nonneg (by exact_mod_cast hc0) (Nat.cast_nonneg _))
      (div_le_one_of_le₀ (by exact_mod_cast hc1) (Nat.cast_nonneg _)))
    (lt_trans hm32 (by norm_num))
  have hlen : ((Binary64.performanceRotationSelectOf repos agent).length : Int) =
      mathFloor (jsMul ((repos.accountRepository.getByAgent agent.id).length : ℚ)
        (jsDiv (Binary64.accountsCount repos agent : ℚ)
          ((repos.accountRepository.getByAgent agent.id).length : ℚ))) := by
    unfold Binary64.performanceRotationSelectOf
    simp only []
    rw [length_selectLowValueAccounts64]
    have hd : toDouble (jsDiv (Binary64.accountsCount repos agent : ℚ)
        ((repos.accountRepository.getByAgent agent.id).length : ℚ)) =
        jsDiv (Binary64.accountsCount repos agent : ℚ)
          ((repos.accountRepository.getByAgent agent.id).length : ℚ) := by
      unfold jsDiv
      exact toDouble_toDouble _
    change ((sliceIndex _ (mathFloor (jsMul _ (toDouble (jsDiv
      (Binary64.accountsCount repos agent : ℚ) _)))) : Nat) : Int) = _
    rw [hd]
    unfold sliceIndex
    split <;> omega
  exact ⟨hlen, by rw [hlen]; exact hs0, by rw [hlen]; exact hs1⟩

/-- C25, amended: for an agent of the repository with `currentRanking ≥ 1` that holds `m > 0`
accounts (the store holding fewer than `2 ^ 32`), with `c = floor(m * rate)` computed on
Numbers as the code does: `selectLowValueAccounts(accounts, c / m)` returns
`floor(m * (c / m))` accounts, the quotient and the product being Numbers, which is `c` or
`c - 1`; they are in ascending `potentialValue` order and each of a `potentialValue` at most
that of every account of the agent that is not returned; and, agent ids and account ids being
distinct, after the clearing of `performanceBasedRotation` the accounts of the agent are those
it held that were not returned, as many as `m` less the number returned. -/
theorem performanceRotation_count (repos : Repositories) (agent : Agent)
    (hagent : agent ∈ repos.agentRepository.getAll) (hrank : 1 ≤ agent.currentRanking)
    (hm : 0 < (repos.accountRepository.getByAgent agent.id).length)
    (hagents : (repos.agentRepository.getAll.map (fun a => a.id)).Nodup)
    (haccounts : (repos.accountRepository.getAll.map (fun a => a.id)).Nodup)
    (hsize : repos.accountRepository.getAll.length < 2 ^ 32) :
    ((Binary64.performanceRotationSelectOf repos agent).length : Int) =
        mathFloor (jsMul ((repos.accountRepository.getByAgent agent.id).length : ℚ)
          (jsDiv (Binary64.accountsCount repos agent : ℚ)
            ((repos.accountRepository.getByAgent agent.id).length : ℚ))) ∧
      (Binary64.accountsCount repos agent - 1 ≤
          ((Binary64.performanceRotationSelectOf repos agent).length : Int) ∧
        ((Binary64.performanceRotationSelectOf repos agent).length : Int) ≤
          Binary64.accountsCount repos agent) ∧
      (Binary64.performanceRotationSelectOf repos agent).Sorted
        (fun a b => a.potentialValue ≤ b.potentialValue) ∧
      (∃ notReturned : List Account,
        (Binary64.performanceRotationSelectOf repos agent ++ notReturned).Perm
          (repos.accountRepository.getByAgent agent.id) ∧
        ∀ a ∈ Binary64.performanceRotationSelectOf repos agent, ∀ b ∈ notReturned,
          a.potentialValue ≤ b.potentialValue) ∧
      (Binary64.performanceRotationClear repos).accountRepository.getByAgent agent.id =
        (repos.accountRepository.getByAgent agent.id).filter (fun a =>
          decide (a.id ∉ (Binary64.performanceRotationSelectOf repos agent).map fun s => s.id)) ∧
      (((Binary64.performanceRotationClear repos).accountRepository.getByAgent agent.id).length :
          Int) =
        ((repos.accountRepository.getByAgent agent.id).length : Int) -
          ((Binary64.performanceRotationSelectOf repos agent).length : Int) := by
  obtain ⟨hlen, hlow, hup⟩ := length_performanceRotationSelectOf repos agent hrank hm hsize
  obtain ⟨hfilter, hcount⟩ :=
    performanceRotationClear64_getByAgent repos agent hagent hagents haccounts
  have hsorted : ((repos.accountRepository.getByAgent agent.id).insertionSort
      fun a b => a.potentialValue ≤ b.potentialValue).Sorted
      (fun a b => a.potentialValue ≤ b.potentialValue) := List.sorted_insertionSort _ _
  have htake : Binary64.performanceRotationSelectOf repos agent =
      ((repos.accountRepository.getByAgent agent.id).insertionSort
        fun a b => a.potentialValue ≤ b.potentialValue).take
        (Binary64.performanceRotationSelectOf repos agent).length := by
    unfold Binary64.performanceRotationSelectOf
    simp only []
    rw [length_selectLowValueAccounts64, ← selectLowValueAccounts64_eq_take]
  refine ⟨hlen, ⟨hlow, hup⟩, ?_, ?_, hfilter, by omega⟩
  · rw [htake]
    exact List.Pairwise.sublist (List.take_sublist _ _) hsorted
  · refine ⟨((repos.accountRepository.getByAgent agent.id).insertionSort
        fun a b => a.potentialValue ≤ b.potentialValue).drop
        (Binary64.performanceRotationSelectOf repos agent).length, ?_, ?_⟩
    · nth_rewrite 1 [htake]
      rw [List.take_append_drop]
      exact List.perm_insertionSort _ _
    · intro a ha b hb
      rw [htake] at ha
      exact hsorted.rel_of_mem_take_of_mem_drop ha hb

theorem getByAgent_seventyOne :
    seventyOneRepositories.accountRepository.getByAgent (sampleAgent 7 1).id =
      accountsOfSeven 71 := by
  unfold AccountRepository.getByAgent seventyOneRepositories
  apply List.filter_eq_self.2
  intro a ha
  simp only [accountsOfSeven, List.mem_map] at ha
  obtain ⟨i, _, rfl⟩ := ha
  rfl

/-- For an agent ranked 1 the rate is the Number 0.21000000000000002; of 71 accounts the count
is `floor(14.910000000000002) = 14`, the percentage passed on the Number 0.19718309859154928,
and `71 * 0.19718309859154928` is the Number 13.999999999999998, of floor 13. -/
theorem performanceRotationSelectOf_seventyOne :
    Binary64.accountsCount seventyOneRepositories (sampleAgent 7 1) = 14 ∧
      (Binary64.performanceRotationSelectOf seventyOneRepositories (sampleAgent 7 1)).length =
        13 := by
  have r0 : toDouble (1 / 5 : ℚ) = 3602879701896397 / 18014398509481984 :=
    toDouble_eq_of (-3) _ _ (by norm_num) (by norm_num [abs_of_pos, zpow_neg])
      (by norm_num [abs_of_pos, zpow_neg]) (by norm_num [roundTiesEven, zpow_neg])
  have r1 : toDouble (1 : ℚ) = 1 :=
    toDouble_eq_of (0) _ _ (by norm_num) (by norm_num [abs_of_pos, zpow_neg])
      (by norm_num [abs_of_pos, zpow_neg]) (by norm_num [roundTiesEven, zpow_neg])
  have r2 : toDouble (1 / 10 : ℚ) = 3602879701896397 / 36028797018963968 :=
    toDouble_eq_of (-4) _ _ (by norm_num) (by norm_num [abs_of_pos, zpow_neg])
      (by norm_num [abs_of_pos, zpow_neg]) (by norm_num [roundTiesEven, zpow_neg])
  have r3 : toDouble (12980742146337070512478121581609 / 1298074214633706907132624082305024 : ℚ) = 1441151880758559 / 144115188075855872 :=
    toDouble_eq_of (-7) _ _ (by norm_num) (by norm_num [abs_of_pos, zpow_neg])
      (by norm_num [abs_of_pos, zpow_neg]) (by norm_num [roundTiesEven, zpow_neg])
  have r4 : toDouble (30264189495929735 / 144115188075855872 : ℚ) = 3783023686991217 / 18014398509481984 :=
    toDouble_eq_of (-3) _ _ (by norm_num) (by norm_num [abs_of_pos, zpow_neg])
      (by norm_num [abs_of_pos, zpow_neg]) (by norm_num [roundTiesEven, zpow_neg])
  have r5 : toDouble (2 / 5 : ℚ) = 3602879701896397 / 9007199254740992 :=
    toDouble_eq_of (-2) _ _ (by norm_num) (by norm_num [abs_of_pos, zpow_neg])
      (by norm_num [abs_of_pos, zpow_neg]) (by norm_num [roundTiesEven, zpow_neg])
  have r6 : toDouble (268594681776376407 / 18014398509481984 : ℚ) = 8393583805511763 / 562949953421312 :=
    toDouble_eq_of (3) _ _ (by norm_num) (by norm_num [abs_of_pos, zpow_neg])
      (by norm_num [abs_of_pos, zpow_neg]) (by norm_num [roundTiesEven, zpow_neg])
  have r7 : toDouble (14 / 71 : ℚ) = 7104269834725289 / 36028797018963968 :=
    toDouble_eq_of (-3) _ _ (by norm_num) (by norm_num [abs_of_pos, zpow_neg])
      (by norm_num [abs_of_pos, zpow_neg]) (by norm_num [roundTiesEven, zpow_neg])
  have r8 : toDouble (7104269834725289 / 36028797018963968 : ℚ) = 7104269834725289 / 36028797018963968 :=
    toDouble_eq_of (-3) _ _ (by norm_num) (by norm_num [abs_of_pos, zpow_neg])
      (by norm_num [abs_of_pos, zpow_neg]) (by norm_num [roundTiesEven, zpow_neg])
  have r9 : toDouble (504403158265495519 / 36028797018963968 : ℚ) = 7881299347898367 / 562949953421312 :=
    toDouble_eq_of (3) _ _ (by norm_num) (by norm_num [abs_of_pos, zpow_neg])
      (by norm_num [abs_of_pos, zpow_neg]) (by norm_num [roundTiesEven, zpow_neg])
  have hlen : (accountsOfSeven 71).length = 71 := by simp [accountsOfSeven]
  have hrate : Binary64.calculateRotationRate (sampleAgent 7 1) =
      3783023686991217 / 18014398509481984 := by
    norm_num [Binary64.calculateRotationRate, sampleAgent, jsAdd, jsMul, jsDiv, r0, r1, r2, r3, r4, r5, r6, r7, r8, r9]
  have hc : Binary64.accountsCount seventyOneRepositories (sampleAgent 7 1) = 14 := by
    unfold Binary64.accountsCount
    rw [getByAgent_seventyOne, hlen, hrate]
    norm_num [mathFloor, jsMul, r0, r1, r2, r3, r4, r5, r6, r7, r8, r9]
  refine ⟨hc, ?_⟩
  have hsel : Binary64.performanceRotationSelectOf seventyOneRepositories (sampleAgent 7 1) =
      Binary64.selectLowValueAccounts
        (seventyOneRepositories.accountRepository.getByAgent (sampleAgent 7 1).id)
        (jsDiv (Binary64.accountsCount seventyOneRepositories (sampleAgent 7 1) : ℚ)
          ((seventyOneRepositories.accountRepository.getByAgent
            (sampleAgent 7 1).id).length : ℚ)) := rfl
  rw [hsel, hc, length_selectLowValueAccounts64, getByAgent_seventyOne, hlen]
  norm_num [mathFloor, jsMul, jsDiv, sliceIndex, r0, r1, r2, r3, r4, r5, r6, r7, r8, r9]
  rfl

/-- C25 (the code departs from it): agent 7, ranked 1, holds 71 accounts.  The count
`floor(71 * rate)` is 14, and `selectLowValueAccounts(accounts, 14 / 71)` returns 13 accounts;
the rotation clears 13 accounts, and 58 stay with the agent. -/
theorem performanceRotation_count_counterexample :
    (seventyOneRepositories.accountRepository.getByAgent (sampleAgent 7 1).id).length = 71 ∧
    Binary64.accountsCount seventyOneRepositories (sampleAgent 7 1) = 14 ∧
    (Binary64.performanceRotationSelect seventyOneRepositories).length = 13 ∧
    ((Binary64.performanceRotationClear seventyOneRepositories).accountRepository.getByAgent
      (sampleAgent 7 1).id).length = 58 := by
  have hlen : (accountsOfSeven 71).length = 71 := by simp [accountsOfSeven]
  have hids : (accountsOfSeven 71).map (fun a => a.id) = List.range 71 := by
    simp [accountsOfSeven, valuedAccount, Function.comp_def]
  have h := performanceRotationClear64_getByAgent seventyOneRepositories (sampleAgent 7 1)
    (by simp [seventyOneRepositories, AgentRepository.getAll])
    (by simp [seventyOneRepositories, AgentRepository.getAll])
    (by
      show ((accountsOfSeven 71).map (fun a => a.id)).Nodup
      rw [hids]
      exact List.nodup_range 71)
  rw [getByAgent_seventyOne, hlen, performanceRotationSelectOf_seventyOne.2] at h
  refine ⟨by rw [getByAgent_seventyOne, hlen], performanceRotationSelectOf_seventyOne.1, ?_,
    by omega⟩
  show ([sampleAgent 7 1].flatMap fun agent =>
    Binary64.performanceRotationSelectOf seventyOneRepositories agent).length = 13
  rw [List.flatMap_singleton]
  exact performanceRotationSelectOf_seventyOne.2

/-- Instance of C25, amended: agent 7, ranked 1, holding 71 accounts; the count is 14 and 13
accounts are returned. -/
theorem performanceRotation_count_witness :
    sampleAgent 7 1 ∈ seventyOneRepositories.agentRepository.getAll ∧
    1 ≤ (sampleAgent 7 1).currentRanking ∧
    0 < (seventyOneRepositories.accountRepository.getByAgent (sampleAgent 7 1).id).length ∧
    (seventyOneRepositories.agentRepository.getAll.map (fun a => a.id)).Nodup ∧
    (seventyOneRepositories.accountRepository.getAll.map (fun a => a.id)).Nodup ∧
    seventyOneRepositories.accountRepository.getAll.length < 2 ^ 32 ∧
    (((Binary64.performanceRotationSelectOf seventyOneRepositories (sampleAgent 7 1)).length : Int) =
        mathFloor (jsMul ((seventyOneRepositories.accountRepository.getByAgent (sampleAgent 7 1).id).length : ℚ)
          (jsDiv (Binary64.accountsCount seventyOneRepositories (sampleAgent 7 1) : ℚ)
            ((seventyOneRepositories.accountRepository.getByAgent (sampleAgent 7 1).id).length : ℚ))) ∧
      (Binary64.accountsCount seventyOneRepositories (sampleAgent 7 1) - 1 ≤
          ((Binary64.performanceRotationSelectOf seventyOneRepositories (sampleAgent 7 1)).length : Int) ∧
        ((Binary64.performanceRotationSelectOf seventyOneRepositories (sampleAgent 7 1)).length : Int) ≤
          Binary64.accountsCount seventyOneRepositories (sampleAgent 7 1)) ∧
      (Binary64.performanceRotationSelectOf seventyOneRepositories (sampleAgent 7 1)).Sorted
        (fun a b => a.potentialValue ≤ b.potentialValue) ∧
      (∃ notReturned : List Account,
        (Binary64.performanceRotationSelectOf seventyOneRepositories (sampleAgent 7 1) ++ notReturned).Perm
          (seventyOneRepositories.accountRepository.getByAgent (sampleAgent 7 1).id) ∧
        ∀ a ∈ Binary64.performanceRotationSelectOf seventyOneRepositories (sampleAgent 7 1), ∀ b ∈ notReturned,
          a.potentialValue ≤ b.potentialValue) ∧
      (Binary64.performanceRotationClear seventyOneRepositories).accountRepository.getByAgent (sampleAgent 7 1).id =
        (seventyOneRepositories.accountRepository.getByAgent (sampleAgent 7 1).id).filter (fun a =>
          decide (a.id ∉ (Binary64.performanceRotationSelectOf seventyOneRepositories (sampleAgent 7 1)).map fun s => s.id)) ∧
      (((Binary64.performanceRotationClear seventyOneRepositories).accountRepository.getByAgent (sampleAgent 7 1).id).length :
          Int) =
        ((seventyOneRepositories.accountRepository.getByAgent (sampleAgent 7 1).id).length : Int) -
          ((Binary64.performanceRotationSelectOf seventyOneRepositories (sampleAgent 7 1)).length : Int)) :=
  have hlen : (accountsOfSeven 71).length = 71 := by simp [accountsOfSeven]
  have hids : (accountsOfSeven 71).map (fun a => a.id) = List.range 71 := by
    simp [accountsOfSeven, valuedAccount, Function.comp_def]
  have hnodup : (seventyOneRepositories.accountRepository.getAll.map (fun a => a.id)).Nodup := by
    show ((accountsOfSeven 71).map (fun a => a.id)).Nodup
    rw [hids]
    exact List.nodup_range 71
  have hsize : seventyOneRepositories.accountRepository.getAll.length < 2 ^ 32 := by
    show (accountsOfSeven 71).length < 2 ^ 32
    rw [hlen]
    norm_num
  have hm : 0 < (seventyOneRepositories.accountRepository.getByAgent
      (sampleAgent 7 1).id).length := by
    rw [getByAgent_seventyOne, hlen]
    norm_num
  ⟨by simp [seventyOneRepositories, AgentRepository.getAll], by decide, hm,
    by simp [seventyOneRepositories, AgentRepository.getAll], hnodup, hsize,
    performanceRotation_count seventyOneRepositories (sampleAgent 7 1)
      (by simp [seventyOneRepositories, AgentRepository.getAll]) (by decide) hm
      (by simp [seventyOneRepositories, AgentRepository.getAll]) hnodup hsize⟩

/-! ## Instances with a residual account -/

/-- Instance of C29: four accounts, four agents, 75%.  The equitable share is 3, no agent gets
an equitable account, the four intended amounts round to 0, and the account at position 3 is
the one residual account; it goes to the agent at rank position 0. -/
theorem distribute_residual_bound_witness :
    (0 : ℚ) ≤ 3 / 4 ∧ (3 / 4 : ℚ) ≤ 1 ∧ fourAgents ≠ [] ∧
    fourAgents.length ≤ fourAccounts.length ∧
    (sliceFrom (phaseTwo (3 / 4) 0 fourAccounts fourAgents).2.1
      (phaseTwo (3 / 4) 0 fourAccounts fourAgents).2.2).length = 1 ∧
    ∃ r : List Assignment,
      (distribute (3 / 4) 0 fourAccounts fourAgents).result = .ok r ∧
      r.length = fourAgents.length ∧
      r = (handleRemainingAccounts (phaseTwo (3 / 4) 0 fourAccounts fourAgents).1
        (phaseTwo (3 / 4) 0 fourAccounts fourAgents).2.1
        (phaseTwo (3 / 4) 0 fourAccounts fourAgents).2.2 0).1 ∧
      2 * (sliceFrom (phaseTwo (3 / 4) 0 fourAccounts fourAgents).2.1
        (phaseTwo (3 / 4) 0 fourAccounts fourAgents).2.2).length < fourAgents.length ∧
      ∀ (i : Nat) (hi : i < r.length)
        (h2 : i < (phaseTwo (3 / 4) 0 fourAccounts fourAgents).1.length),
        ∃ residual : List AccountId,
          r[i].accountsList =
            (phaseTwo (3 / 4) 0 fourAccounts fourAgents).1[i].accountsList ++ residual ∧
          r[i].rankingAccounts =
            (phaseTwo (3 / 4) 0 fourAccounts fourAgents).1[i].rankingAccounts +
              residual.length ∧
          r[i].totalAccounts =
            (phaseTwo (3 / 4) 0 fourAccounts fourAgents).1[i].totalAccounts +
              residual.length ∧
          residual.length ≤ 1 ∧ (residual ≠ [] → 2 * i < fourAgents.length) :=
  ⟨by norm_num, by norm_num, by simp [fourAgents], by simp [fourAgents, fourAccounts],
    by
      rw [length_sliceFrom, phaseTwo_accounts_length, phaseTwo_cursor,
        cursorAt_intendedAmounts _ _ _ _ (le_refl _)]
      norm_num [fourAccounts, fourAgents, specCursor, specAmount, mathFloor, mathRound,
        sliceIndex]
      rfl,
    distribute_residual_bound (3 / 4) (by norm_num) (by norm_num) 0 fourAccounts
      fourAgents (by simp [fourAgents]) (by simp [fourAgents, fourAccounts])⟩

/-! ## The documented score formula -/

/-- C11 (the code departs from its docstring): with `totalSales = 1000` and the other metrics
0 the score is not the `0 * 0.4 + 1000 * 0.4 + 0 * 0.2 = 400` of the formula that the
docstring of `calculateScore` states; the sales are divided by 1000 first, and on Numbers the
score is the Number `0.4`. -/
theorem calculateScore_not_unnormalised :
    calculateScore { conversionRate := some 0, totalSales := some 1000,
                     closedAccounts := some 0 } ≠ 0 * 0.4 + 1000 * 0.4 + 0 * 0.2 ∧
      Binary64.calculateScore { conversionRate := some 0, totalSales := some 1000,
                                closedAccounts := some 0 } = toDouble 0.4 ∧
      toDouble 0.4 < 1 := by
  have h0 : toDouble (2 / 5 : ℚ) = 3602879701896397 / 9007199254740992 :=
    toDouble_eq_of (-2) _ _ (by norm_num) (by norm_num [abs_of_pos, zpow_neg])
      (by norm_num [abs_of_pos, zpow_neg]) (by norm_num [roundTiesEven, zpow_neg])
  have h1 : toDouble (3602879701896397 / 9007199254740992 : ℚ) =
      3602879701896397 / 9007199254740992 :=
    toDouble_eq_of (-2) _ _ (by norm_num) (by norm_num [abs_of_pos, zpow_neg])
      (by norm_num [abs_of_pos, zpow_neg]) (by norm_num [roundTiesEven, zpow_neg])
  have h2 : toDouble (1000 : ℚ) = 1000 := toDouble_ofNat 1000 (by norm_num)
  refine ⟨?_, ?_, ?_⟩
  · norm_num [calculateScore]
  · norm_num [Binary64.calculateScore, jsAdd, jsMul, jsDiv, toDouble_zero, toDouble_one, h0,
      h1, h2]
  · norm_num [h0]

end Grecia
